import Mathlib

/-!
# Vita::format: a shallow embedding of the formatting engine

The definitions below follow `vita/detail/output.hpp`, `vita/detail/int_to_str.hpp`,
`vita/detail/parse.hpp` and `vita/format.hpp` function by function.

Modelling conventions.

* A `char` is a `Char`; a byte string (template, content, C string) is a `List Char`.
  The bytes proper are the characters with code below 256.
* A pointer into a buffer is a `Nat` offset into the list that holds the buffer;
  `*p` is `buf.getD p NUL`, and every read in the source is guarded by `p < end`.
* A `while` loop that advances a pointer towards `end` is a function recursive on a
  fuel argument which the caller sets to `end - p`; this is exactly the number of
  iterations the loop can make.
* `int` accumulators (`idx`, `w`, `prec`, `auto_idx_`) are `Int` without wrap-around:
  signed overflow is undefined in the source.  Unsigned casts of signed values are
  written with an explicit `% 2 ^ w`.
* `throw std::runtime_error` is `Except.error FormatError.invalid_format_string`.
* The conversions of `float_to_str.hpp` compute in IEEE double arithmetic; the text they
  produce for finite values is a parameter (`FloatCore`) of `format_arg`.
-/

namespace Vita
namespace detail

/-- The NUL byte. -/
abbrev NUL : Char := Char.ofNat 0

/-! ## output.hpp -/

/-- The constant `VITA_FORMAT_SBO_SIZE` (default build). -/
def VITA_FORMAT_SBO_SIZE : Nat := 256

/-- The class `FormatOutput`: `data_` holds the bytes stored in the active storage from
offset 0 on; only the first `size_` of them belong to the buffer. -/
structure FormatOutput where
  size_ : Nat
  capacity_ : Nat
  data_ : List Char
  heap_ : Bool
deriving DecidableEq

namespace FormatOutput

/-- The default constructor `FormatOutput()`. -/
def init : FormatOutput :=
  { size_ := 0, capacity_ := VITA_FORMAT_SBO_SIZE, data_ := [], heap_ := false }

/-- The private member `ensure(extra)`. -/
def ensure (o : FormatOutput) (extra : Nat) : FormatOutput :=
  let need := o.size_ + extra
  if need ≤ o.capacity_ then o
  else
    let cap := o.capacity_ + o.capacity_ / 2
    let cap := if cap < need then need else cap
    { o with data_ := o.data_.take o.size_, capacity_ := cap, heap_ := true }

/-- The member `append(char c)`. -/
def append_char (o : FormatOutput) (c : Char) : FormatOutput :=
  let o := o.ensure 1
  { o with data_ := o.data_.take o.size_ ++ [c], size_ := o.size_ + 1 }

/-- The member `append(const char* s, std::size_t len)`; `s` is the `len` bytes. -/
def append (o : FormatOutput) (s : List Char) : FormatOutput :=
  if s.length = 0 then o
  else
    let o := o.ensure s.length
    { o with data_ := o.data_.take o.size_ ++ s, size_ := o.size_ + s.length }

/-- The member `append_fill(char c, std::size_t n)`. -/
def append_fill (o : FormatOutput) (c : Char) (n : Nat) : FormatOutput :=
  if n = 0 then o
  else
    let o := o.ensure n
    { o with data_ := o.data_.take o.size_ ++ List.replicate n c, size_ := o.size_ + n }

/-- The member `reserve(n)`. -/
def reserve (o : FormatOutput) (n : Nat) : FormatOutput := o.ensure n

/-- The member `finish()`: the returned string and the buffer afterwards. -/
def finish (o : FormatOutput) : List Char × FormatOutput :=
  (o.data_.take o.size_, { o with size_ := 0 })

end FormatOutput

/-! ## int_to_str.hpp -/

/-- The table `digit_pairs()`. -/
def digit_pairs : List Char :=
  ("0001020304050607080910111213141516171819" ++
   "2021222324252627282930313233343536373839" ++
   "4041424344454647484950515253545556575859" ++
   "6061626364656667686970717273747576777879" ++
   "8081828384858687888990919293949596979899").toList

/-- The table `hex_digits_lower()`. -/
def hex_digits_lower : List Char := "0123456789abcdef".toList

/-- The table `hex_digits_upper()`. -/
def hex_digits_upper : List Char := "0123456789ABCDEF".toList

/-- The loop `while (value >= 100)` of `uint_to_str_backward`; `acc` is the text from
`ptr` to `end`. -/
def uint_to_str_backward_loop : Nat → Nat → List Char → Nat × List Char
  | 0, value, acc => (value, acc)
  | fuel + 1, value, acc =>
    if value ≥ 100 then
      let idx := (value % 100) * 2
      uint_to_str_backward_loop fuel (value / 100)
        (digit_pairs.getD idx NUL :: digit_pairs.getD (idx + 1) NUL :: acc)
    else (value, acc)

/-- The function `uint_to_str_backward`: the text written before `end`. -/
def uint_to_str_backward (value : Nat) : List Char :=
  let (value, acc) := uint_to_str_backward_loop value value []
  if value ≥ 10 then
    let idx := value * 2
    digit_pairs.getD idx NUL :: digit_pairs.getD (idx + 1) NUL :: acc
  else
    Char.ofNat (('0').toNat + value) :: acc

/-- The function `uint_to_str`: the bytes written to `buffer`. -/
def uint_to_str (value : Nat) : List Char := uint_to_str_backward value

/-- The function `int_to_str<T>` for a signed type `T` of `bits` bits. -/
def int_to_str (bits : Nat) (value : Int) : List Char :=
  if value < 0 then
    '-' :: uint_to_str ((-value) % (2 : Int) ^ bits).toNat
  else
    uint_to_str (value % (2 : Int) ^ bits).toNat

/-- The loop `while (value > 0)` shared by `uint_to_hex`, `uint_to_oct` and `uint_to_bin`:
`shift` is 4, 3 or 1 and `digit` maps `value & mask` to the byte written. -/
def radix_loop (shift : Nat) (digit : Nat → Char) : Nat → Nat → List Char → List Char
  | 0, _, acc => acc
  | fuel + 1, value, acc =>
    if value > 0 then
      radix_loop shift digit fuel (value >>> shift) (digit (value &&& (2 ^ shift - 1)) :: acc)
    else acc

/-- The function `uint_to_hex`. -/
def uint_to_hex (value : Nat) (uppercase : Bool) : List Char :=
  let hex := if uppercase then hex_digits_upper else hex_digits_lower
  if value = 0 then ['0']
  else radix_loop 4 (fun d => hex.getD d NUL) value value []

/-- The function `uint_to_oct`. -/
def uint_to_oct (value : Nat) : List Char :=
  if value = 0 then ['0']
  else radix_loop 3 (fun d => Char.ofNat (('0').toNat + d)) value value []

/-- The function `uint_to_bin`. -/
def uint_to_bin (value : Nat) : List Char :=
  if value = 0 then ['0']
  else radix_loop 1 (fun d => Char.ofNat (('0').toNat + d)) value value []

/-- The function `ptr_to_str`; `ptr` is the address. -/
def ptr_to_str (ptr : Nat) : List Char :=
  if ptr = 0 then "(nil)".toList
  else '0' :: 'x' :: uint_to_hex ptr false

/-! ## parse.hpp -/

/-- The struct `FormatSpec` with the values of its default constructor. -/
structure FormatSpec where
  fill : Char := ' '
  align : Char := NUL
  sign : Char := '-'
  alt_form : Bool := false
  zero_pad : Bool := false
  width : Int := 0
  precision : Int := -1
  type : Char := NUL
deriving DecidableEq

/-- The test `c == '<' || c == '>' || c == '^' || c == '='`. -/
def is_align_char (c : Char) : Bool := c == '<' || c == '>' || c == '^' || c == '='

/-- The test `c >= '0' && c <= '9'`. -/
def is_digit_char (c : Char) : Bool := decide ('0' ≤ c) && decide (c ≤ '9')

/-- The test of the presentation type in `parse_format_spec`. -/
def is_type_char (c : Char) : Bool :=
  c == 'd' || c == 'x' || c == 'X' || c == 'o' || c == 'b' ||
  c == 'f' || c == 'F' || c == 'e' || c == 'E' || c == 'g' || c == 'G' ||
  c == 's' || c == 'c' || c == 'p' || c == 'a' || c == 'A'

/-- The loop `while (p < end && *p >= '0' && *p <= '9') w = w * 10 + (*p++ - '0')`. -/
def digits_loop (buf : List Char) (e : Nat) : Nat → Nat → Int → Nat × Int
  | 0, p, w => (p, w)
  | fuel + 1, p, w =>
    if p < e ∧ is_digit_char (buf.getD p NUL) = true then
      digits_loop buf e fuel (p + 1) (w * 10 + (((buf.getD p NUL).toNat : Int) - (('0').toNat : Int)))
    else (p, w)

/-- The loop `while (p < end && cond(*p)) p++`. -/
def skip_while (buf : List Char) (e : Nat) (cond : Char → Bool) : Nat → Nat → Nat
  | 0, p => p
  | fuel + 1, p =>
    if p < e ∧ cond (buf.getD p NUL) = true then skip_while buf e cond fuel (p + 1) else p

/-- The block `// fill + align?` of `parse_format_spec`: the pointer `p` (an offset from
`begin`) and the spec afterwards.  `s` is the bytes from `begin` to `end`. -/
def spec_fill_align (s : List Char) (st : Nat × FormatSpec) : Nat × FormatSpec :=
  if st.1 + 1 < s.length ∧ is_align_char (s.getD (st.1 + 1) NUL) = true then
    (st.1 + 2, { st.2 with fill := s.getD st.1 NUL, align := s.getD (st.1 + 1) NUL })
  else st

/-- The block `// standalone align` of `parse_format_spec`. -/
def spec_align (s : List Char) (st : Nat × FormatSpec) : Nat × FormatSpec :=
  if st.2.align = NUL ∧ st.1 < s.length ∧ is_align_char (s.getD st.1 NUL) = true then
    (st.1 + 1, { st.2 with align := s.getD st.1 NUL })
  else st

/-- The block `// sign` of `parse_format_spec`. -/
def spec_sign (s : List Char) (st : Nat × FormatSpec) : Nat × FormatSpec :=
  if st.1 < s.length ∧ (s.getD st.1 NUL = '+' ∨ s.getD st.1 NUL = '-' ∨ s.getD st.1 NUL = ' ') then
    (st.1 + 1, { st.2 with sign := s.getD st.1 NUL })
  else st

/-- The block `// alt form` of `parse_format_spec`. -/
def spec_alt_form (s : List Char) (st : Nat × FormatSpec) : Nat × FormatSpec :=
  if st.1 < s.length ∧ s.getD st.1 NUL = '#' then (st.1 + 1, { st.2 with alt_form := true })
  else st

/-- The block `// zero pad` of `parse_format_spec`. -/
def spec_zero_pad (s : List Char) (st : Nat × FormatSpec) : Nat × FormatSpec :=
  if st.1 < s.length ∧ s.getD st.1 NUL = '0' then (st.1 + 1, { st.2 with zero_pad := true })
  else st

/-- The block `// width` of `parse_format_spec`. -/
def spec_width (s : List Char) (st : Nat × FormatSpec) : Nat × FormatSpec :=
  if st.1 < s.length ∧ '1' ≤ s.getD st.1 NUL ∧ s.getD st.1 NUL ≤ '9' then
    ((digits_loop s s.length (s.length - st.1) st.1 0).1,
      { st.2 with width := (digits_loop s s.length (s.length - st.1) st.1 0).2 })
  else st

/-- The block `// precision` of `parse_format_spec`. -/
def spec_precision (s : List Char) (st : Nat × FormatSpec) : Nat × FormatSpec :=
  if st.1 < s.length ∧ s.getD st.1 NUL = '.' then
    ((digits_loop s s.length (s.length - (st.1 + 1)) (st.1 + 1) 0).1,
      { st.2 with precision := (digits_loop s s.length (s.length - (st.1 + 1)) (st.1 + 1) 0).2 })
  else st

/-- The block `// type` of `parse_format_spec`. -/
def spec_type (s : List Char) (st : Nat × FormatSpec) : Nat × FormatSpec :=
  if st.1 < s.length ∧ is_type_char (s.getD st.1 NUL) = true then
    (st.1 + 1, { st.2 with type := s.getD st.1 NUL })
  else st

/-- The function `parse_format_spec(begin, end, spec)`: `s` is the bytes from `begin` to
`end`, and the result is the returned pointer as an offset from `begin`, with the spec. -/
def parse_format_spec (s : List Char) (spec : FormatSpec) : Nat × FormatSpec :=
  if 0 ≥ s.length then (0, spec)
  else
    spec_type s (spec_precision s (spec_width s (spec_zero_pad s (spec_alt_form s
      (spec_sign s (spec_align s (spec_fill_align s (0, spec))))))))

/-- The struct `Placeholder`; a null `spec_begin` or `spec_end` is `none`. -/
structure Placeholder where
  arg_index : Int := 0
  spec : FormatSpec := {}
  spec_begin : Option Nat := none
  spec_end : Option Nat := none
deriving DecidableEq

/-- The enum `ParseSegment::Type`. -/
inductive SegmentType where
  | LITERAL | PLACEHOLDER | ESCAPE_OPEN | ESCAPE_CLOSE | END | ERROR
deriving DecidableEq

/-- The struct `ParseSegment`; `begin_` and `end_` are offsets into the template.  The
`placeholder` of a segment that is no field, which the source leaves unset, is the default
value. -/
structure ParseSegment where
  type : SegmentType
  begin_ : Nat
  end_ : Nat
  placeholder : Placeholder := {}
deriving DecidableEq

/-- The class `FormatParser`: the template `fmt` and the private members. -/
structure FormatParser where
  fmt : List Char
  ptr_ : Nat
  end_ : Nat
  auto_idx_ : Int
  has_explicit_ : Bool
  has_auto_ : Bool
deriving DecidableEq

namespace FormatParser

/-- The constructor `FormatParser(fmt, len)`; `fmt` is the `len` bytes. -/
def init (fmt : List Char) : FormatParser :=
  { fmt := fmt, ptr_ := 0, end_ := fmt.length, auto_idx_ := 0,
    has_explicit_ := false, has_auto_ := false }

/-- The read `*q` of the template byte at offset `q`. -/
def peek (p : FormatParser) (q : Nat) : Char := p.fmt.getD q NUL

/-- The block `// arg index` of `parse_placeholder()`: the `arg_index` of the segment and
the parser afterwards. -/
def parse_arg_index (p : FormatParser) : Int × FormatParser :=
  if p.ptr_ < p.end_ ∧ is_digit_char (p.peek p.ptr_) = true then
    ((digits_loop p.fmt p.end_ (p.end_ - p.ptr_) p.ptr_ 0).2,
      { p with ptr_ := (digits_loop p.fmt p.end_ (p.end_ - p.ptr_) p.ptr_ 0).1,
               has_explicit_ := true })
  else
    (p.auto_idx_, { p with auto_idx_ := p.auto_idx_ + 1, has_auto_ := true })

/-- The block `// format spec` of `parse_placeholder()`, with the two assignments before
it: the `spec`, `spec_begin` and `spec_end` of the segment and the parser afterwards. -/
def parse_spec_field (p : FormatParser) : (FormatSpec × Option Nat × Option Nat) × FormatParser :=
  if p.ptr_ < p.end_ ∧ p.peek p.ptr_ = ':' then
    let spec_begin := p.ptr_ + 1
    let spec_end := skip_while p.fmt p.end_ (fun c => c != '}') (p.end_ - spec_begin) spec_begin
    (((parse_format_spec ((p.fmt.drop spec_begin).take (spec_end - spec_begin)) {}).2,
        some spec_begin, some spec_end),
      { p with ptr_ := spec_end })
  else
    (({}, none, none), p)

/-- The private member `parse_placeholder()`. -/
def parse_placeholder (p : FormatParser) : ParseSegment × FormatParser :=
  let begin_ := p.ptr_
  let idx := parse_arg_index { p with ptr_ := p.ptr_ + 1 }
  let fld := parse_spec_field idx.2
  let placeholder : Placeholder :=
    { arg_index := idx.1, spec := fld.1.1, spec_begin := fld.1.2.1, spec_end := fld.1.2.2 }
  if fld.2.ptr_ < fld.2.end_ ∧ fld.2.peek fld.2.ptr_ = '}' then
    ({ type := .PLACEHOLDER, begin_ := begin_, end_ := fld.2.ptr_ + 1, placeholder := placeholder },
      { fld.2 with ptr_ := fld.2.ptr_ + 1 })
  else
    ({ type := .ERROR, begin_ := begin_, end_ := fld.2.ptr_, placeholder := placeholder }, fld.2)

/-- The scan of a literal in `next()`: the loop over the bytes that are no brace and the
`// lone }` check; the pointer afterwards. -/
def literal_end (p : FormatParser) : Nat :=
  let ptr := skip_while p.fmt p.end_ (fun c => c != '{' && c != '}') (p.end_ - p.ptr_) p.ptr_
  if ptr < p.end_ ∧ p.peek ptr = '}' ∧ (ptr + 1 ≥ p.end_ ∨ p.peek (ptr + 1) ≠ '}') then ptr + 1
  else ptr

/-- The member `next()`: the segment returned and the parser afterwards. -/
def next (p : FormatParser) : ParseSegment × FormatParser :=
  if p.ptr_ ≥ p.end_ then
    ({ type := .END, begin_ := p.ptr_, end_ := p.ptr_ }, p)
  else if p.peek p.ptr_ = '{' ∧ p.ptr_ + 1 < p.end_ ∧ p.peek (p.ptr_ + 1) = '{' then
    ({ type := .ESCAPE_OPEN, begin_ := p.ptr_, end_ := p.ptr_ + 2 },
      { p with ptr_ := p.ptr_ + 2 })
  else if p.peek p.ptr_ = '}' ∧ p.ptr_ + 1 < p.end_ ∧ p.peek (p.ptr_ + 1) = '}' then
    ({ type := .ESCAPE_CLOSE, begin_ := p.ptr_, end_ := p.ptr_ + 2 },
      { p with ptr_ := p.ptr_ + 2 })
  else if p.peek p.ptr_ = '{' then
    p.parse_placeholder
  else
    ({ type := .LITERAL, begin_ := p.ptr_, end_ := p.literal_end },
      { p with ptr_ := p.literal_end })

/-- The member `has_mixing_error()`. -/
def has_mixing_error (p : FormatParser) : Bool := p.has_explicit_ && p.has_auto_

end FormatParser

/-! ## float_to_str.hpp -/

/-- The struct `DoubleComponents`. -/
structure DoubleComponents where
  mantissa : Nat
  exponent : Int
  negative : Bool
  is_zero : Bool
  is_inf : Bool
  is_nan : Bool
deriving DecidableEq

/-- The function `decompose_double`; `bits` is the 64-bit pattern of the value. -/
def decompose_double (bits : Nat) : DoubleComponents :=
  let negative := decide ((bits >>> 63) ≠ 0)
  let exp_bits := (bits >>> 52) &&& 0x7FF
  let mantissa := bits &&& 0xFFFFFFFFFFFFF
  if exp_bits = 0 then
    let is_zero := decide (mantissa = 0)
    { mantissa := mantissa, exponent := if is_zero then 0 else 1 - 1023 - 52,
      negative := negative, is_zero := is_zero, is_inf := false, is_nan := false }
  else if exp_bits = 0x7FF then
    let is_inf := decide (mantissa = 0)
    { mantissa := mantissa, exponent := 0,
      negative := negative, is_zero := false, is_inf := is_inf, is_nan := !is_inf }
  else
    { mantissa := mantissa ||| (1 <<< 52), exponent := (exp_bits : Int) - 1023 - 52,
      negative := negative, is_zero := false, is_inf := false, is_nan := false }

/-- The parts of `float_to_str.hpp` that compute in double arithmetic, as functions of the
bit pattern of the value: the text each conversion writes after the sign for a finite
value (`fixed_finite` is `none` where `double_to_str_fixed` hands over to
`double_to_str_shortest`), and the cast from `long double` to `double`. -/
structure FloatCore where
  shortest_finite : Nat → Int → List Char
  fixed_finite : Nat → Int → Option (List Char)
  scientific_finite : Nat → Int → Bool → List Char
  ldouble_to_double : Nat → Nat

/-- The function `double_to_str_shortest`. -/
def double_to_str_shortest (core : FloatCore) (value : Nat) (precision : Int) : List Char :=
  let c := decompose_double value
  if c.is_nan then "nan".toList
  else
    let sign := if c.negative then ['-'] else []
    if c.is_inf then sign ++ "inf".toList
    else if c.is_zero then sign ++ ['0']
    else sign ++ core.shortest_finite value precision

/-- The function `double_to_str_fixed`. -/
def double_to_str_fixed (core : FloatCore) (value : Nat) (prec : Int) : List Char :=
  let c := decompose_double value
  if c.is_nan then "nan".toList
  else
    let sign := if c.negative then ['-'] else []
    if c.is_inf then sign ++ "inf".toList
    else
      match core.fixed_finite value prec with
      | some text => sign ++ text
      | none => double_to_str_shortest core value prec

/-- The function `double_to_str_scientific`. -/
def double_to_str_scientific (core : FloatCore) (value : Nat) (prec : Int) (upper : Bool) :
    List Char :=
  let c := decompose_double value
  if c.is_nan then (if upper then "NAN" else "nan").toList
  else
    let sign := if c.negative then ['-'] else []
    if c.is_inf then sign ++ (if upper then "INF" else "inf").toList
    else if c.is_zero then
      sign ++ ['0'] ++ (if prec > 0 then '.' :: List.replicate prec.toNat '0' else []) ++
        [if upper then 'E' else 'e', '+', '0', '0']
    else sign ++ core.scientific_finite value prec upper

/-- The function `ldouble_to_str_shortest`. -/
def ldouble_to_str_shortest (core : FloatCore) (v : Nat) (prec : Int) : List Char :=
  double_to_str_shortest core (core.ldouble_to_double v) prec

/-- The function `ldouble_to_str_fixed`. -/
def ldouble_to_str_fixed (core : FloatCore) (v : Nat) (prec : Int) : List Char :=
  double_to_str_fixed core (core.ldouble_to_double v) prec

/-- The function `ldouble_to_str_scientific`. -/
def ldouble_to_str_scientific (core : FloatCore) (v : Nat) (prec : Int) (up : Bool) :
    List Char :=
  double_to_str_scientific core (core.ldouble_to_double v) prec up

/-! ## format.hpp -/

/-- The class `FormatArg`: the tag with the value it stores.  `INT` and `LLONG` hold a
32-bit and a 64-bit signed value, `UINT` and `ULLONG` the unsigned ones, `DOUBLE` the bit
pattern of a double, `LDOUBLE` the representation of a long double, `CSTRING` the bytes
before the terminator or `none` for a null pointer, `POINTER` the address. -/
inductive FormatArg where
  | NONE
  | BOOL (v : Bool)
  | CHAR (v : Char)
  | INT (v : Int)
  | UINT (v : Nat)
  | LLONG (v : Int)
  | ULLONG (v : Nat)
  | DOUBLE (v : Nat)
  | LDOUBLE (v : Nat)
  | CSTRING (v : Option (List Char))
  | STRING (v : List Char)
  | POINTER (v : Nat)
  | CUSTOM
deriving DecidableEq

/-- The function `apply_format_spec(out, content, len, spec)`; `content` is the `len`
bytes. -/
def apply_format_spec (out : FormatOutput) (content : List Char) (spec : FormatSpec) :
    FormatOutput :=
  let len := content.length
  if spec.width ≤ 0 ∨ len ≥ spec.width.toNat then out.append content
  else
    let padding := spec.width.toNat - len
    let fill := spec.fill
    let align := if spec.align ≠ NUL then spec.align else '<'
    if align = '<' then
      (out.append content).append_fill fill padding
    else if align = '>' then
      (out.append_fill fill padding).append content
    else if align = '^' then
      let left_pad := padding / 2
      ((out.append_fill fill left_pad).append content).append_fill fill (padding - left_pad)
    else if align = '=' then
      -- sign-aware padding
      if len > 0 ∧ (content.getD 0 NUL = '-' ∨ content.getD 0 NUL = '+' ∨
          content.getD 0 NUL = ' ') then
        ((out.append_char (content.getD 0 NUL)).append_fill fill padding).append (content.drop 1)
      else
        (out.append_fill fill padding).append content
    else out.append content

/-- The cases `INT` (`bits = 32`) and `LLONG` (`bits = 64`) of the switch in `format_arg`:
the text left in `buffer`. -/
def signed_buffer (bits : Nat) (val : Int) (spec : FormatSpec) : List Char :=
  if spec.type = 'x' then
    if val < 0 then '-' :: uint_to_hex ((-val) % (2 : Int) ^ bits).toNat false
    else uint_to_hex (val % (2 : Int) ^ bits).toNat false
  else if spec.type = 'X' then
    if val < 0 then '-' :: uint_to_hex ((-val) % (2 : Int) ^ bits).toNat true
    else uint_to_hex (val % (2 : Int) ^ bits).toNat true
  else if spec.type = 'o' then
    uint_to_oct ((if val < 0 then -val else val) % (2 : Int) ^ bits).toNat
  else if spec.type = 'b' then
    uint_to_bin ((if val < 0 then -val else val) % (2 : Int) ^ bits).toNat
  else
    let buffer := int_to_str bits val
    if spec.sign = '+' ∧ val ≥ 0 then '+' :: buffer
    else if spec.sign = ' ' ∧ val ≥ 0 then ' ' :: buffer
    else buffer

/-- The cases `UINT` and `ULLONG` of the switch in `format_arg`: the text left in
`buffer`. -/
def unsigned_buffer (val : Nat) (spec : FormatSpec) : List Char :=
  if spec.type = 'x' then uint_to_hex val false
  else if spec.type = 'X' then uint_to_hex val true
  else if spec.type = 'o' then uint_to_oct val
  else if spec.type = 'b' then uint_to_bin val
  else
    let buffer := uint_to_str val
    if spec.sign = '+' then '+' :: buffer
    else if spec.sign = ' ' then ' ' :: buffer
    else buffer

/-- The switch of `format_arg`: `Sum.inl` is the output of a case that returns inside the
switch, `Sum.inr` the text left in `buffer` by a case that ends in `break`.  The array
`buffer` has 128 bytes and the text here is a list, which has any length: a case that
writes more bytes runs over the array in the source and shows here as a longer text, which
`buffer_overrun` tells.  The floating-point cases do so for a large precision, and their
texts of finite values are those of `core`, which has a text for every value; the other
cases stay below 65 bytes. -/
def format_arg_switch (core : FloatCore) (out : FormatOutput) (arg : FormatArg)
    (spec : FormatSpec) : FormatOutput ⊕ List Char :=
  match arg with
  | .NONE => .inl (out.append "\x7b?\x7d".toList)
  | .BOOL v =>
    if spec.type = 'd' then .inr [if v then '1' else '0']
    else .inl (apply_format_spec out (if v then "true" else "false").toList spec)
  | .CHAR v =>
    if spec.type = 'd' ∨ spec.type = 'x' ∨ spec.type = 'X' ∨ spec.type = 'o' ∨
        spec.type = 'b' then
      let val := v.toNat % 256
      if spec.type = 'x' then .inr (uint_to_hex val false)
      else if spec.type = 'X' then .inr (uint_to_hex val true)
      else if spec.type = 'o' then .inr (uint_to_oct val)
      else if spec.type = 'b' then .inr (uint_to_bin val)
      else .inr (int_to_str 32 (val : Int))
    else .inr [v]
  | .INT v => .inr (signed_buffer 32 v spec)
  | .UINT v => .inr (unsigned_buffer v spec)
  | .LLONG v => .inr (signed_buffer 64 v spec)
  | .ULLONG v => .inr (unsigned_buffer v spec)
  | .DOUBLE v =>
    let prec := if spec.precision ≥ 0 then spec.precision else 6
    if spec.type = 'f' ∨ spec.type = 'F' then .inr (double_to_str_fixed core v prec)
    else if spec.type = 'e' then .inr (double_to_str_scientific core v prec false)
    else if spec.type = 'E' then .inr (double_to_str_scientific core v prec true)
    else .inr (double_to_str_shortest core v spec.precision)
  | .LDOUBLE v =>
    let prec := if spec.precision ≥ 0 then spec.precision else 6
    if spec.type = 'f' ∨ spec.type = 'F' then .inr (ldouble_to_str_fixed core v prec)
    else if spec.type = 'e' then .inr (ldouble_to_str_scientific core v prec false)
    else if spec.type = 'E' then .inr (ldouble_to_str_scientific core v prec true)
    else .inr (ldouble_to_str_shortest core v spec.precision)
  | .CSTRING none => .inl (apply_format_spec out "(null)".toList spec)
  | .CSTRING (some str) =>
    let str_len := str.length
    let str_len :=
      if spec.precision ≥ 0 ∧ spec.precision.toNat < str_len then spec.precision.toNat
      else str_len
    .inl (apply_format_spec out (str.take str_len) spec)
  | .STRING str =>
    let str_len := str.length
    let str_len :=
      if spec.precision ≥ 0 ∧ spec.precision.toNat < str_len then spec.precision.toNat
      else str_len
    .inl (apply_format_spec out (str.take str_len) spec)
  | .POINTER v => .inr (ptr_to_str v)
  | .CUSTOM => .inl (out.append "\x7bcustom\x7d".toList)

/-- The function `format_arg`. -/
def format_arg (core : FloatCore) (out : FormatOutput) (arg : FormatArg) (spec : FormatSpec) :
    FormatOutput :=
  match format_arg_switch core out arg spec with
  | .inl out => out
  | .inr buffer =>
    -- zero padding for numbers
    let adjusted_spec : FormatSpec :=
      if spec.zero_pad = true ∧ spec.width > 0 ∧ spec.align = NUL then
        { spec with fill := '0', align := '=' }
      else spec
    apply_format_spec out buffer adjusted_spec

/-- The failures of a call of `format_impl`: the exception thrown on an `ERROR` segment,
and the exhaustion of the fuel of `format_loop`. -/
inductive FormatError where
  | invalid_format_string
  | fuel_exhausted
deriving DecidableEq

/-- Equality of results is decidable. -/
instance instDecidableEqResult : DecidableEq (Except FormatError (List Char))
  | .ok a, .ok b => if h : a = b then isTrue (by rw [h]) else isFalse (fun h2 => h (Except.ok.inj h2))
  | .error a, .error b =>
    if h : a = b then isTrue (by rw [h]) else isFalse (fun h2 => h (Except.error.inj h2))
  | .ok _, .error _ => isFalse (fun h => by cases h)
  | .error _, .ok _ => isFalse (fun h => by cases h)

/-- What one pass through the body of the loop `for (;;)` of `format_impl` does: go on
with the output, return a string, or throw. -/
inductive StepResult where
  | next (out : FormatOutput)
  | finished (result : List Char)
  | thrown
deriving DecidableEq

/-- The `switch (seg.type)` in the loop of `format_impl`.  `no_exceptions` tells whether
`VITA_FORMAT_NO_EXCEPTIONS` is defined; `fmt` is the template `seg` points into. -/
def format_step (core : FloatCore) (no_exceptions : Bool) (args : List FormatArg)
    (fmt : List Char) (seg : ParseSegment) (out : FormatOutput) : StepResult :=
  match seg.type with
  | .LITERAL => .next (out.append ((fmt.drop seg.begin_).take (seg.end_ - seg.begin_)))
  | .PLACEHOLDER =>
    let idx := seg.placeholder.arg_index
    if idx ≥ 0 ∧ idx.toNat < args.length then
      .next (format_arg core out (args.getD idx.toNat .NONE) seg.placeholder.spec)
    else
      .next (out.append "\x7b?\x7d".toList)
  | .ESCAPE_OPEN => .next (out.append_char '{')
  | .ESCAPE_CLOSE => .next (out.append_char '}')
  | .END => .finished out.finish.1
  | .ERROR =>
    if no_exceptions then .next (out.append "\x7berror\x7d".toList)
    else .thrown

/-- The loop `for (;;)` of `format_impl`, at most `fuel` iterations. -/
def format_loop (core : FloatCore) (no_exceptions : Bool) (args : List FormatArg) :
    Nat → FormatParser → FormatOutput → Except FormatError (List Char)
  | 0, _, _ => .error .fuel_exhausted
  | fuel + 1, parser, out =>
    match format_step core no_exceptions args parser.fmt parser.next.1 out with
    | .next out => format_loop core no_exceptions args fuel parser.next.2 out
    | .finished result => .ok result
    | .thrown => .error .invalid_format_string

/-- The function `format_impl(fmt, fmt_len, args, num_args)`; `fmt` is the `fmt_len` bytes
and `args` the `num_args` arguments.  Every segment but `END` moves the parser forward, so
`fmt_len + 1` iterations are all the loop can make. -/
def format_impl (core : FloatCore) (no_exceptions : Bool) (fmt : List Char)
    (args : List FormatArg) : Except FormatError (List Char) :=
  let out := FormatOutput.init.reserve (fmt.length + args.length * 16)
  format_loop core no_exceptions args (fmt.length + 1) (FormatParser.init fmt) out

/-- The public function `format(fmt, args...)`; `args` is the array `pack_args` fills. -/
def format (core : FloatCore) (no_exceptions : Bool) (fmt : List Char)
    (args : List FormatArg) : Except FormatError (List Char) :=
  format_impl core no_exceptions fmt args

/-! ## Notions the statements are written in -/

/-- The text in the buffer: what `finish()` would return. -/
def FormatOutput.bytes (o : FormatOutput) : List Char := o.finish.1

/-- The bytes `apply_format_spec` appends to an empty buffer. -/
def spec_text (content : List Char) (spec : FormatSpec) : List Char :=
  (apply_format_spec FormatOutput.init content spec).bytes

/-- The rendering of an argument under a spec: the bytes `format_arg` appends to an empty
buffer. -/
def rendered (core : FloatCore) (arg : FormatArg) (spec : FormatSpec) : List Char :=
  (format_arg core FormatOutput.init arg spec).bytes

/-- A `FloatCore` for examples without floating-point arguments: it yields no text. -/
def FloatCore.blank : FloatCore :=
  { shortest_finite := fun _ _ => [], fixed_finite := fun _ _ => none,
    scientific_finite := fun _ _ _ => [], ldouble_to_double := fun v => v }

/-- The invariant of the parser: `end_` is the end of the template and `ptr_` is not past
it. -/
def FormatParser.Inv (p : FormatParser) : Prop := p.end_ = p.fmt.length ∧ p.ptr_ ≤ p.end_

/-- The invariant can be checked. -/
instance FormatParser.decidableInv (p : FormatParser) : Decidable p.Inv :=
  inferInstanceAs (Decidable (p.end_ = p.fmt.length ∧ p.ptr_ ≤ p.end_))

/-- The test of the loop that scans a literal: the byte is no brace. -/
def no_brace (c : Char) : Bool := c != '{' && c != '}'

/-- The bytes the body of the loop of `format_impl` appends for a segment: what
`format_step` adds to an empty buffer. -/
def segment_text (core : FloatCore) (no_exceptions : Bool) (args : List FormatArg)
    (fmt : List Char) (seg : ParseSegment) : List Char :=
  match format_step core no_exceptions args fmt seg FormatOutput.init with
  | .next out => out.bytes
  | _ => []

/-- The loop of `format_impl` entered with the parser `p`, with the fuel that suffices for
the bytes ahead. -/
def run (core : FloatCore) (no_exceptions : Bool) (args : List FormatArg) (p : FormatParser)
    (out : FormatOutput) : Except FormatError (List Char) :=
  format_loop core no_exceptions args (p.end_ - p.ptr_ + 1) p out

/-- The result of the loop with `pre` put before the text returned. -/
def prepend (pre : List Char) (r : Except FormatError (List Char)) :
    Except FormatError (List Char) :=
  match r with
  | .ok s => .ok (pre ++ s)
  | .error e => .error e

/-- The decimal value of a run of digits, as the loops of the parser accumulate it. -/
def decimal_value (ds : List Char) : Int :=
  ds.foldl (fun (n : Int) c => n * 10 + ((c.toNat : Int) - (('0').toNat : Int))) 0

/-- The test of the loop that looks for the end of a spec: the byte is no `}`. -/
def no_close (c : Char) : Bool := c != '}'

/-- The bytes the loop of `format_impl` appends for a valid field with the argument index
`idx` and the spec `spec`: the rendering of the argument, or the token for a missing one. -/
def field_text (core : FloatCore) (args : List FormatArg) (idx : Int) (spec : FormatSpec) :
    List Char :=
  if idx ≥ 0 ∧ idx.toNat < args.length then rendered core (args.getD idx.toNat .NONE) spec
  else "\x7b?\x7d".toList

/-- A field is closed: after the `{` and the digit run (`rest` is the bytes after the `{`)
comes a `}`, or a `:` with a `}` somewhere behind it. -/
def field_closed (rest : List Char) : Bool :=
  (rest.dropWhile is_digit_char).head? == some '}' ||
    ((rest.dropWhile is_digit_char).head? == some ':' &&
      decide ('}' ∈ (rest.dropWhile is_digit_char).tail))

/-- A piece of an escape-only template: a byte string without braces, the pair `{{` or the
pair `}}`. -/
def is_piece (l : List Char) : Bool :=
  l.all no_brace || l == ['{', '{'] || l == ['}', '}']

/-- A piece with its escape undone: `{{` gives `{`, `}}` gives `}`, other pieces stay. -/
def unescape_piece (l : List Char) : List Char :=
  if l = ['{', '{'] then ['{'] else if l = ['}', '}'] then ['}'] else l

/-- The parser after `k` further calls of `next()`. -/
def FormatParser.advance (p : FormatParser) : Nat → FormatParser
  | 0 => p
  | k + 1 => (p.next.2).advance k

/-- The parser on the template `fmt` after `k` calls of `next()`: the segment boundary
number `k`. -/
def parser_after (fmt : List Char) (k : Nat) : FormatParser := (FormatParser.init fmt).advance k

/-- The segment that call number `k` (from 0) of `next()` returns on the template `fmt`. -/
def segment_at (fmt : List Char) (k : Nat) : ParseSegment := (parser_after fmt k).next.1

/-- The byte of the digit `d` in a decimal, octal or binary numeral. -/
def dec_digit (d : Nat) : Char := Char.ofNat (('0').toNat + d)

/-- The byte of the digit `d` in a hexadecimal numeral: `0` to `9`, then `a` to `f`, or `A`
to `F` when `upper` is set. -/
def hex_digit (upper : Bool) (d : Nat) : Char :=
  if d < 10 then Char.ofNat (('0').toNat + d)
  else Char.ofNat ((if upper then ('A').toNat else ('a').toNat) + (d - 10))

/-- The digits of `v` in base `b`, most significant first, as bytes; none for 0. -/
def digit_run (b : Nat) (digit : Nat → Char) (v : Nat) : List Char :=
  (Nat.digits b v).reverse.map digit

/-- The numeral of `v` in base `b`: its digits, most significant first and without a
leading zero, and the single digit 0 for 0. -/
def numeral (b : Nat) (digit : Nat → Char) (v : Nat) : List Char :=
  if v = 0 then [digit 0] else digit_run b digit v

/-- The value of a digit byte: `0` to `9`, `a` to `f` and `A` to `F`. -/
def digit_value (c : Char) : Nat :=
  if '0' ≤ c ∧ c ≤ '9' then c.toNat - ('0').toNat
  else if 'a' ≤ c ∧ c ≤ 'f' then c.toNat - ('a').toNat + 10
  else if 'A' ≤ c ∧ c ≤ 'F' then c.toNat - ('A').toNat + 10
  else 0

/-- The number a text denotes when it is read as a numeral in base `b`. -/
def numeral_value (b : Nat) (text : List Char) : Nat :=
  text.foldl (fun n c => n * b + digit_value c) 0

/-! ## Notions for the integer, pointer and string fields -/

/-- The spec `adjusted_spec` that `format_arg` passes to `apply_format_spec` after the
switch: fill `0` and align `=` when zero padding is set, the width is positive and no
alignment was given. -/
def adjusted_spec (spec : FormatSpec) : FormatSpec :=
  if spec.zero_pad = true ∧ spec.width > 0 ∧ spec.align = NUL then
    { spec with fill := '0', align := '=' }
  else spec

/-- The text the switch of `format_arg` leaves in `buffer`; empty for the cases that return
inside the switch. -/
def switch_buffer (core : FloatCore) (arg : FormatArg) (spec : FormatSpec) : List Char :=
  match format_arg_switch core FormatOutput.init arg spec with
  | .inr buffer => buffer
  | .inl _ => []

/-- The argument is of one of the four integer kinds. -/
def FormatArg.is_integer : FormatArg → Bool
  | .INT _ => true
  | .UINT _ => true
  | .LLONG _ => true
  | .ULLONG _ => true
  | _ => false

/-- The value of an integer argument, 0 for the other kinds. -/
def FormatArg.int_value : FormatArg → Int
  | .INT v => v
  | .UINT v => (v : Int)
  | .LLONG v => v
  | .ULLONG v => (v : Int)
  | _ => 0

/-- The value of an integer argument is one of its C++ type: `int` and `unsigned` have 32
bits, `long long` and `unsigned long long` 64. -/
def FormatArg.in_range : FormatArg → Bool
  | .INT v => decide (-2147483648 ≤ v ∧ v ≤ 2147483647)
  | .UINT v => decide (v ≤ 4294967295)
  | .LLONG v => decide (-9223372036854775808 ≤ v ∧ v ≤ 9223372036854775807)
  | .ULLONG v => decide (v ≤ 18446744073709551615)
  | _ => true

/-- The byte is one of the three that sign-aware padding keeps in front. -/
def is_sign_byte (c : Char) : Bool := c = '-' || c = '+' || c = ' '

/-- The presentation type selects hexadecimal, octal or binary digits. -/
def is_radix_type (c : Char) : Bool := c = 'x' || c = 'X' || c = 'o' || c = 'b'

/-- The sign bytes that the decimal presentation writes in front of a non-negative value. -/
def sign_bytes (sign : Char) : List Char :=
  if sign = '+' then ['+'] else if sign = ' ' then [' '] else []

/-- The byte with `a` to `f` replaced by `A` to `F`. -/
def upper_hex (c : Char) : Char :=
  if 'a' ≤ c ∧ c ≤ 'f' then Char.ofNat (c.toNat - 32) else c

/-- The bytes a string argument keeps under a precision: all of them when the precision is
unset, the first `precision` ones otherwise. -/
def truncated (s : List Char) (precision : Int) : List Char :=
  if precision ≥ 0 then s.take precision.toNat else s

/-- The integer a text denotes when it is read as a decimal numeral with an optional
leading `-`. -/
def signed_decimal_value (text : List Char) : Int :=
  match text with
  | '-' :: ds => -decimal_value ds
  | ds => decimal_value ds

/-- The text `t` is a numeral of `v` in base `b` over the digit bytes `set`: it is not
empty, its bytes are in `set`, it does not start with `0` unless it is `0` alone, and read
in base `b` it gives `v`. -/
def is_numeral_of (b : Nat) (set : List Char) (v : Nat) (t : List Char) : Prop :=
  t ≠ [] ∧ (∀ c ∈ t, c ∈ set) ∧ (t.head? = some '0' → t = ['0']) ∧ numeral_value b t = v

/-- Being a numeral of a value is decidable. -/
instance decidableIsNumeralOf (b : Nat) (set : List Char) (v : Nat) (t : List Char) :
    Decidable (is_numeral_of b set v t) := by
  unfold is_numeral_of
  infer_instance

/-! ## Notions for the boolean, character and floating-point fields -/

/-- The 11 bits of the exponent field of a 64-bit pattern. -/
def exponent_field (bits : Nat) : Nat := bits / 2 ^ 52 % 2 ^ 11

/-- The 52 bits of the fraction field of a 64-bit pattern. -/
def fraction_field (bits : Nat) : Nat := bits % 2 ^ 52

/-- The sign bit of a 64-bit pattern. -/
def sign_bit (bits : Nat) : Nat := bits / 2 ^ 63

/-- The pattern is a NaN: the exponent field is all ones and the fraction is not 0. -/
def is_nan_bits (bits : Nat) : Bool := exponent_field bits == 2047 && fraction_field bits != 0

/-- The pattern of `+infinity`. -/
def pos_inf_bits : Nat := 0x7FF0000000000000

/-- The pattern of `-infinity`. -/
def neg_inf_bits : Nat := 0xFFF0000000000000

/-- The pattern of `+0.0`. -/
def pos_zero_bits : Nat := 0

/-- The pattern of `-0.0`. -/
def neg_zero_bits : Nat := 0x8000000000000000

/-- The value of a character argument as an unsigned byte. -/
def byte_value (c : Char) : Nat := c.toNat % 256

/-! ## Notions for the scanner -/

/-- The bytes of the template in the range of a segment. -/
def segment_bytes (fmt : List Char) (seg : ParseSegment) : List Char :=
  (fmt.drop seg.begin_).take (seg.end_ - seg.begin_)

/-! ## Notions for the round trip of a spec -/

/-- The spec is one that the grammar of a field expresses: no alignment with the default
fill, or any fill with one of the four alignments; a sign `+`, `-` or space; a width that
is not negative; a precision that is unset or not negative; no type or one of the type
letters. -/
def FormatSpec.well_formed (spec : FormatSpec) : Prop :=
  ((spec.align = NUL ∧ spec.fill = ' ') ∨ is_align_char spec.align = true) ∧
  (spec.sign = '+' ∨ spec.sign = '-' ∨ spec.sign = ' ') ∧
  0 ≤ spec.width ∧ -1 ≤ spec.precision ∧
  (spec.type = NUL ∨ is_type_char spec.type = true)

/-- Being well formed is decidable. -/
instance FormatSpec.decidableWellFormed (spec : FormatSpec) : Decidable spec.well_formed := by
  unfold FormatSpec.well_formed
  infer_instance

/-- The fill and the alignment of a spec as the grammar writes them. -/
def print_fill_align (spec : FormatSpec) : List Char :=
  if spec.align = NUL then [] else [spec.fill, spec.align]

/-- The sign of a spec as the grammar writes it; the default `-` is written only when
`explicit` is set. -/
def print_sign (explicit : Bool) (spec : FormatSpec) : List Char :=
  if spec.sign = '-' ∧ explicit = false then [] else [spec.sign]

/-- The marker `#` of a spec with the alternate form. -/
def print_alt_form (spec : FormatSpec) : List Char := if spec.alt_form = true then ['#'] else []

/-- The marker `0` of a spec with zero padding. -/
def print_zero_pad (spec : FormatSpec) : List Char := if spec.zero_pad = true then ['0'] else []

/-- The width of a spec in decimal; nothing for the width 0. -/
def print_width (spec : FormatSpec) : List Char :=
  if spec.width = 0 then [] else uint_to_str spec.width.toNat

/-- The precision of a spec: `.` and the decimal numeral; nothing when it is unset. -/
def print_precision (spec : FormatSpec) : List Char :=
  if spec.precision < 0 then [] else '.' :: uint_to_str spec.precision.toNat

/-- The type letter of a spec; nothing when it is unset. -/
def print_type (spec : FormatSpec) : List Char := if spec.type = NUL then [] else [spec.type]

/-- The text of a spec in the order of the grammar: fill, align, sign, `#`, `0`, width,
`.` and precision, type. -/
def print_spec (explicit : Bool) (spec : FormatSpec) : List Char :=
  print_fill_align spec ++ (print_sign explicit spec ++ (print_alt_form spec ++
    (print_zero_pad spec ++ (print_width spec ++ (print_precision spec ++ print_type spec)))))

/-- The 16 type letters that `parse_format_spec` accepts. -/
def type_chars : List Char := "dxXobfFeEgGscpaA".toList

/-- The ten decimal digits. -/
def digit_chars : List Char := "0123456789".toList

/-- The bytes that the grammar writes behind the sign: digits, `.` and type letters. -/
def spec_tail_chars : List Char := digit_chars ++ '.' :: type_chars

/-! ## ensure_fstring.hpp -/

namespace strsyn

/-- The function `is_align`. -/
def is_align (c : Char) : Bool := c == '<' || c == '>' || c == '^' || c == '='

/-- The function `is_sign`. -/
def is_sign (c : Char) : Bool := c == '+' || c == '-' || c == ' '

/-- The function `is_digit`. -/
def is_digit (c : Char) : Bool := decide (c ≥ '0') && decide (c ≤ '9')

/-- The function `is_type`. -/
def is_type (c : Char) : Bool :=
  c == 'd' || c == 'x' || c == 'X' || c == 'o' || c == 'b' ||
  c == 'f' || c == 'F' || c == 'e' || c == 'E' ||
  c == 's' || c == 'c' || c == 'p' ||
  c == 'g' || c == 'G' || c == 'a' || c == 'A'

/-- The statement `if (i < n && cond(s[i])) ++i;`: the index afterwards. -/
def step_if (s : List Char) (n : Nat) (cond : Char → Bool) (i : Nat) : Nat :=
  if i < n ∧ cond (s.getD i NUL) = true then i + 1 else i

/-- The statement `if (i + 1 < n && is_align(s[i + 1])) i += 2; else if (is_align(s[i]))
i += 1;` of `parse_format_spec`: the index afterwards. -/
def align_block (s : List Char) (n : Nat) (i : Nat) : Nat :=
  if i + 1 < n ∧ is_align (s.getD (i + 1) NUL) = true then i + 2
  else if is_align (s.getD i NUL) = true then i + 1
  else i

/-- The loop `while (i < n && is_digit(s[i])) ++i;`: the index afterwards. -/
def digits_block (s : List Char) (n : Nat) (i : Nat) : Nat := skip_while s n is_digit (n - i) i

/-- The statement `if (i < n && s[i] == '.') { ++i; while (i < n && is_digit(s[i])) ++i; }`:
the index afterwards. -/
def precision_block (s : List Char) (n : Nat) (i : Nat) : Nat :=
  if i < n ∧ s.getD i NUL = '.' then digits_block s n (i + 1) else i

/-- The function `strsyn::parse_format_spec(s, n, i)`: the returned code and the index `i`
afterwards. -/
def parse_format_spec (s : List Char) (n : Nat) (i : Nat) : Nat × Nat :=
  if i ≥ n ∨ s.getD i NUL = '}' then (0, i)
  else
    (0, step_if s n is_type (precision_block s n (digits_block s n
      (step_if s n (fun c => c == '0') (step_if s n (fun c => c == '#')
        (step_if s n is_sign (align_block s n i)))))))

/-- One turn of the loop of `validate` at the index `i < n`: the code returned, or the index
at which the loop continues. -/
def validate_step (s : List Char) (n : Nat) (i : Nat) : Nat ⊕ Nat :=
  if s.getD i NUL = '{' then
    if i + 1 < n ∧ s.getD (i + 1) NUL = '{' then .inr (i + 2)
    else
      if digits_block s n (i + 1) ≥ n then .inl 1
      else if s.getD (digits_block s n (i + 1)) NUL = '}' then
        .inr (digits_block s n (i + 1) + 1)
      else if s.getD (digits_block s n (i + 1)) NUL ≠ ':' then .inl 2
      else if (parse_format_spec s n (digits_block s n (i + 1) + 1)).1 ≠ 0 then
        .inl (parse_format_spec s n (digits_block s n (i + 1) + 1)).1
      else if (parse_format_spec s n (digits_block s n (i + 1) + 1)).2 ≥ n ∨
          s.getD (parse_format_spec s n (digits_block s n (i + 1) + 1)).2 NUL ≠ '}' then
        .inl 3
      else .inr ((parse_format_spec s n (digits_block s n (i + 1) + 1)).2 + 1)
  else if s.getD i NUL = '}' then
    if i + 1 < n ∧ s.getD (i + 1) NUL = '}' then .inr (i + 2) else .inr (i + 1)
  else .inr (i + 1)

/-- The loop `while (i < n)` of `validate`, with fuel: the code returned, `none` when the
fuel runs out. -/
def validate_loop (s : List Char) (n : Nat) : Nat → Nat → Option Nat
  | 0, _ => none
  | fuel + 1, i =>
    if i < n then
      match validate_step s n i with
      | .inl code => some code
      | .inr j => validate_loop s n fuel j
    else some 0

/-- The function `strsyn::validate(s, n)` on the `n` bytes `s`: the code returned.  Every
turn of the loop moves the index forward, so `n + 1` turns are enough. -/
def validate (s : List Char) : Option Nat := validate_loop s s.length (s.length + 1) 0

end strsyn

/-! ## Notions for the validator -/

/-- The loop of `validate` started at the index `i`, with the fuel that the rest of the
template needs. -/
def validate_from (s : List Char) (i : Nat) : Option Nat :=
  strsyn.validate_loop s s.length (s.length - i + 1) i

/-- The template of one field with the spec text `s`. -/
def field_template (s : List Char) : List Char := '{' :: ':' :: (s ++ ['}'])

/-! ## compile_parse.hpp -/

namespace ct

/-- One pass through the body of the loop `while (i < len)` of `count_placeholders_rt`: the
index `i` and the counter afterwards. -/
def count_step (fmt : List Char) (len : Nat) (i : Nat) (count : Int) : Nat × Int :=
  if fmt.getD i NUL = '{' then
    if i + 1 < len ∧ fmt.getD (i + 1) NUL = '{' then (i + 2, count)
    else
      let j := skip_while fmt len (fun c => c != '}') (len - i) i
      (if j < len then j + 1 else j, count + 1)
  else if fmt.getD i NUL = '}' ∧ i + 1 < len ∧ fmt.getD (i + 1) NUL = '}' then (i + 2, count)
  else (i + 1, count)

/-- The loop `while (i < len)` of `count_placeholders_rt`, at most `fuel` passes; `none`
when the fuel runs out. -/
def count_loop (fmt : List Char) (len : Nat) : Nat → Nat → Int → Option Int
  | 0, _, _ => none
  | fuel + 1, i, count =>
    if i < len then
      count_loop fmt len fuel (count_step fmt len i count).1 (count_step fmt len i count).2
    else some count

/-- The function `count_placeholders_rt(fmt, len)`.  Every pass moves `i` forward, so
`len + 1` passes are all the loop can make. -/
def count_placeholders_rt (fmt : List Char) (len : Nat) : Option Int :=
  count_loop fmt len (len + 1) 0 0

/-- The enum `SegmentDesc::Type`. -/
inductive SegmentKind where
  | LITERAL | PLACEHOLDER | ESCAPE_OPEN | ESCAPE_CLOSE
deriving DecidableEq

/-- The struct `SegmentDesc`: `start` and `length` are `unsigned short`, `arg_index` is
`unsigned char`; the `arg_index` of a segment that is no field, which the source leaves
unset, is 0. -/
structure SegmentDesc where
  type : SegmentKind
  start : Nat
  length : Nat
  arg_index : Nat := 0
deriving DecidableEq

/-- The struct `ParsedFormat<MaxSeg>`.  `segments` lists the descriptors written: the
source writes `segments[num_segments]` and then increments `num_segments`, so entry `j` of
the list is what was written to `segments[j]`, and an entry at an index of `MaxSeg` or more
was written behind the array. -/
structure ParsedFormat where
  segments : List SegmentDesc := []
  num_segments : Nat := 0
  num_placeholders : Int := 0
  fmt : List Char := []
  fmt_len : Nat := 0
deriving DecidableEq

/-- The locals of `parse_format_string` with the result under construction. -/
structure ParseState where
  i : Nat
  auto_idx : Int
  lit_start : Nat
  in_lit : Bool
  out : ParsedFormat
deriving DecidableEq

/-- The assignments to `out.segments[out.num_segments]` followed by `out.num_segments++`. -/
def push_segment (out : ParsedFormat) (d : SegmentDesc) : ParsedFormat :=
  { out with segments := out.segments ++ [d], num_segments := out.num_segments + 1 }

/-- The block `if (in_lit && i > lit_start)` that records the literal before a brace. -/
def flush_literal (st : ParseState) : ParsedFormat :=
  if st.in_lit = true ∧ st.i > st.lit_start then
    push_segment st.out
      { type := .LITERAL, start := st.lit_start % 65536,
        length := (st.i - st.lit_start) % 65536 }
  else st.out

/-- The index of a field in `parse_format_string`, read at offset `i` behind the `{`: the
value of `idx`, the offset and `auto_idx` afterwards. -/
def field_index (fmt : List Char) (len : Nat) (i : Nat) (auto_idx : Int) : Int × Nat × Int :=
  if i < len ∧ is_digit_char (fmt.getD i NUL) = true then
    ((digits_loop fmt len (len - i) i 0).2, (digits_loop fmt len (len - i) i 0).1, auto_idx)
  else (auto_idx, i, auto_idx + 1)

/-- The branch of `parse_format_string` for a `{` that opens a field. -/
def field_step (fmt : List Char) (len : Nat) (st : ParseState) : ParseState :=
  let out := flush_literal st
  let ph_start := st.i
  let idx := field_index fmt len (st.i + 1) st.auto_idx
  let j := skip_while fmt len (fun c => c != '}') (len - idx.2.1) idx.2.1
  let i := if j < len then j + 1 else j
  let out := push_segment out
    { type := .PLACEHOLDER, start := ph_start % 65536, length := (i - ph_start) % 65536,
      arg_index := (idx.1 % 256).toNat }
  { i := i, auto_idx := idx.2.2, lit_start := i, in_lit := false,
    out := { out with num_placeholders := out.num_placeholders + 1 } }

/-- The branches of `parse_format_string` for the escapes `{{` and `}}`. -/
def escape_step (kind : SegmentKind) (st : ParseState) : ParseState :=
  let out := flush_literal st
  let out := push_segment out { type := kind, start := st.i % 65536, length := 2 }
  { st with i := st.i + 2, lit_start := st.i + 2, in_lit := false, out := out }

/-- One pass through the body of the loop of `parse_format_string`. -/
def parse_step (fmt : List Char) (len : Nat) (st : ParseState) : ParseState :=
  if fmt.getD st.i NUL = '{' then
    if st.i + 1 < len ∧ fmt.getD (st.i + 1) NUL = '{' then escape_step .ESCAPE_OPEN st
    else field_step fmt len st
  else if fmt.getD st.i NUL = '}' ∧ st.i + 1 < len ∧ fmt.getD (st.i + 1) NUL = '}' then
    escape_step .ESCAPE_CLOSE st
  else
    { st with lit_start := if st.in_lit = false then st.i else st.lit_start,
              in_lit := true, i := st.i + 1 }

/-- The loop `while (i < len && out.num_segments < MaxSeg)` of `parse_format_string`, at
most `fuel` passes; `none` when the fuel runs out. -/
def parse_loop (MaxSeg : Nat) (fmt : List Char) (len : Nat) : Nat → ParseState → Option ParseState
  | 0, _ => none
  | fuel + 1, st =>
    if st.i < len ∧ st.out.num_segments < MaxSeg then
      parse_loop MaxSeg fmt len fuel (parse_step fmt len st)
    else some st

/-- The block behind the loop of `parse_format_string` that records the last literal. -/
def final_literal (MaxSeg : Nat) (st : ParseState) : ParsedFormat :=
  if st.in_lit = true ∧ st.i > st.lit_start ∧ st.out.num_segments < MaxSeg then
    push_segment st.out
      { type := .LITERAL, start := st.lit_start % 65536,
        length := (st.i - st.lit_start) % 65536 }
  else st.out

/-- The function `parse_format_string<MaxSeg>(fmt, len, out)`: the value of `out` on
return.  Every pass moves `i` forward, so `len + 1` passes are all the loop can make. -/
def parse_format_string (MaxSeg : Nat) (fmt : List Char) (len : Nat) : Option ParsedFormat :=
  (parse_loop MaxSeg fmt len (len + 1)
    { i := 0, auto_idx := 0, lit_start := 0, in_lit := false,
      out := { fmt := fmt, fmt_len := len } }).map (final_literal MaxSeg)

end ct

/-! ## output.hpp with the arithmetic of std::size_t -/

/-- The number of values of `std::size_t`, a 64-bit type. -/
def SIZE_RANGE : Nat := 18446744073709551616

/-- The members `size_`, `capacity_` and `heap_` of a `FormatOutput` as the values the
machine computes, every sum and difference taken modulo `SIZE_RANGE`; the bytes are left
out.  An allocation is taken to succeed. -/
structure OutputSizes where
  size_ : Nat
  capacity_ : Nat
  heap_ : Bool
deriving DecidableEq

namespace OutputSizes

/-- The default constructor `FormatOutput()`. -/
def init : OutputSizes := { size_ := 0, capacity_ := VITA_FORMAT_SBO_SIZE, heap_ := false }

/-- The private member `ensure(extra)`. -/
def ensure (o : OutputSizes) (extra : Nat) : OutputSizes :=
  let need := (o.size_ + extra) % SIZE_RANGE
  if need ≤ o.capacity_ then o
  else
    let cap := (o.capacity_ + o.capacity_ / 2) % SIZE_RANGE
    let cap := if cap < need then need else cap
    { o with capacity_ := cap, heap_ := true }

/-- The member `append(char c)`. -/
def append_char (o : OutputSizes) : OutputSizes :=
  let o := o.ensure 1
  { o with size_ := (o.size_ + 1) % SIZE_RANGE }

/-- The member `append(const char* s, std::size_t len)`. -/
def append (o : OutputSizes) (len : Nat) : OutputSizes :=
  if len = 0 then o
  else
    let o := o.ensure len
    { o with size_ := (o.size_ + len) % SIZE_RANGE }

/-- The member `append_fill(char c, std::size_t n)`. -/
def append_fill (o : OutputSizes) (n : Nat) : OutputSizes :=
  if n = 0 then o
  else
    let o := o.ensure n
    { o with size_ := (o.size_ + n) % SIZE_RANGE }

/-- The member `reserve(n)`. -/
def reserve (o : OutputSizes) (n : Nat) : OutputSizes := o.ensure n

/-- The member `finish()`: the buffer afterwards. -/
def finish (o : OutputSizes) : OutputSizes := { o with size_ := 0 }

/-- The member `grow(n)`: the buffer afterwards. -/
def grow (o : OutputSizes) (n : Nat) : OutputSizes :=
  let o := o.ensure n
  { o with size_ := (o.size_ + n) % SIZE_RANGE }

/-- The member `shrink(n)`: the statement `size_ -= n` on `std::size_t`. -/
def shrink (o : OutputSizes) (n : Nat) : OutputSizes :=
  { o with size_ := (o.size_ + SIZE_RANGE - n % SIZE_RANGE) % SIZE_RANGE }

/-- The move constructor `FormatOutput(FormatOutput&& other)`: the new object and `other`
afterwards. -/
def move (other : OutputSizes) : OutputSizes × OutputSizes :=
  ({ size_ := other.size_, capacity_ := other.capacity_, heap_ := other.heap_ },
    { size_ := 0, capacity_ := VITA_FORMAT_SBO_SIZE, heap_ := false })

end OutputSizes

/-- The sizes of a buffer of the byte model. -/
def FormatOutput.sizes (o : FormatOutput) : OutputSizes :=
  { size_ := o.size_, capacity_ := o.capacity_, heap_ := o.heap_ }

/-! ## Notions for the scanner, the buffer and the scratch space -/

/-- A public operation of `FormatOutput` that adds bytes: `append(char)`,
`append(bytes, len)` and `append_fill(c, n)`. -/
inductive OutputOp where
  | append_char (c : Char)
  | append (s : List Char)
  | append_fill (c : Char) (n : Nat)
deriving DecidableEq

/-- The buffer after an operation. -/
def OutputOp.apply (o : FormatOutput) : OutputOp → FormatOutput
  | .append_char c => o.append_char c
  | .append s => o.append s
  | .append_fill c n => o.append_fill c n

/-- The bytes an operation appends. -/
def OutputOp.bytes : OutputOp → List Char
  | .append_char c => [c]
  | .append s => s
  | .append_fill c n => List.replicate n c

/-- The buffer after a sequence of operations on a fresh `FormatOutput`. -/
def output_after (ops : List OutputOp) : FormatOutput := ops.foldl OutputOp.apply FormatOutput.init

/-- The buffer `r` is `o` after it took `n` more bytes, as far as the size, the capacity
and the heap flag go: the size grew by `n`, it stays within the capacity, the capacity and
the storage are kept when the bytes fit and the buffer is on the heap when they do not. -/
def FormatOutput.took (o r : FormatOutput) (n : Nat) : Prop :=
  r.size_ = o.size_ + n ∧
  (o.size_ ≤ o.capacity_ → r.size_ ≤ r.capacity_) ∧
  (o.size_ + n ≤ o.capacity_ → r.capacity_ = o.capacity_ ∧ r.heap_ = o.heap_) ∧
  (o.size_ ≤ o.capacity_ → o.capacity_ < o.size_ + n → r.heap_ = true) ∧
  (o.heap_ = true → r.heap_ = true)

/-- A public operation on the sizes of a `FormatOutput`, with its argument. -/
inductive SizeOp where
  | append_char
  | append (len : Nat)
  | append_fill (n : Nat)
  | reserve (n : Nat)
  | grow (n : Nat)
  | finish
  | move_to
  | move_from
  | shrink (n : Nat)
deriving DecidableEq

/-- The sizes after an operation; `move_to` is the object a move constructs from the
buffer, `move_from` the buffer after it was moved from. -/
def SizeOp.apply (o : OutputSizes) : SizeOp → OutputSizes
  | .append_char => o.append_char
  | .append len => o.append len
  | .append_fill n => o.append_fill n
  | .reserve n => o.reserve n
  | .grow n => o.grow n
  | .finish => o.finish
  | .move_to => o.move.1
  | .move_from => o.move.2
  | .shrink n => o.shrink n

/-- The operation is no `shrink(n)` that takes more than the `size` bytes there are. -/
def SizeOp.within (size : Nat) : SizeOp → Bool
  | .shrink n => decide (n ≤ size)
  | _ => true

/-- The parser `q` differs from `p` at most in the flags `has_explicit_` and `has_auto_`. -/
def FormatParser.same_scan (p q : FormatParser) : Prop :=
  q.fmt = p.fmt ∧ q.ptr_ = p.ptr_ ∧ q.end_ = p.end_ ∧ q.auto_idx_ = p.auto_idx_

/-- The segment is a field: `parse_placeholder()` returned it. -/
def ParseSegment.is_field (seg : ParseSegment) : Bool :=
  seg.type = .PLACEHOLDER || seg.type = .ERROR

/-- The segment is a field with an explicit index: a digit follows its `{`. -/
def explicit_field (fmt : List Char) (seg : ParseSegment) : Bool :=
  seg.is_field && decide (seg.begin_ + 1 < fmt.length) &&
    is_digit_char (fmt.getD (seg.begin_ + 1) NUL)

/-- The segment is a field without an index. -/
def auto_field (fmt : List Char) (seg : ParseSegment) : Bool :=
  seg.is_field && !(decide (seg.begin_ + 1 < fmt.length) &&
    is_digit_char (fmt.getD (seg.begin_ + 1) NUL))

/-- The number of `PLACEHOLDER` segments that `next()` returns on a template; the scan
ends within `length + 1` calls. -/
def placeholder_count (fmt : List Char) : Nat :=
  ((List.range (fmt.length + 1)).filter
    (fun k => decide ((segment_at fmt k).type = .PLACEHOLDER))).length

/-- The loop of `count_placeholders_rt` entered at the index `i` with the counter `c`, with
the fuel that suffices for the bytes ahead. -/
def count_from (fmt : List Char) (i : Nat) (c : Int) : Option Int :=
  ct.count_loop fmt fmt.length (fmt.length - i + 1) i c

/-- The argument is a `double` or a `long double`. -/
def FormatArg.is_float : FormatArg → Bool
  | .DOUBLE _ => true
  | .LDOUBLE _ => true
  | _ => false

/-- The argument is a string, or a boolean that the spec renders as `true` or `false`. -/
def zero_pad_free (arg : FormatArg) (spec : FormatSpec) : Bool :=
  match arg with
  | .CSTRING _ => true
  | .STRING _ => true
  | .BOOL _ => decide (spec.type ≠ 'd')
  | _ => false

/-- The argument is a bool, a char, one of the four integer kinds or a pointer. -/
def FormatArg.is_integer_like : FormatArg → Bool
  | .BOOL _ => true
  | .CHAR _ => true
  | .POINTER _ => true
  | a => a.is_integer

/-- The value of the argument is one of its C++ type; an address has 64 bits. -/
def FormatArg.is_machine_value : FormatArg → Bool
  | .POINTER v => decide (v < 18446744073709551616)
  | a => a.in_range

/-! ## The array `buffer` of `format_arg` -/

/-- The size of the array `char buffer[128]` of `format_arg`. -/
def format_arg_buffer_size : Nat := 128

/-- The case of the switch of `format_arg` writes more bytes than the array `buffer` has.
The source then writes behind the array and the call has no defined result;
`format_arg_switch` keeps the text as a list, which has any length, so the overrun shows
here and not in the value of `format_arg`. -/
def buffer_overrun (core : FloatCore) (arg : FormatArg) (spec : FormatSpec) : Bool :=
  decide (format_arg_buffer_size < (switch_buffer core arg spec).length)

/-- Some field of the call `format(fmt, args...)` overruns `buffer`: one of the first
`length + 1` segments is a `PLACEHOLDER` whose argument exists and whose text under the
spec of the field does not fit the array. -/
def format_overruns (core : FloatCore) (fmt : List Char) (args : List FormatArg) : Bool :=
  (List.range (fmt.length + 1)).any (fun k =>
    decide ((segment_at fmt k).type = .PLACEHOLDER ∧
      (segment_at fmt k).placeholder.arg_index ≥ 0 ∧
      (segment_at fmt k).placeholder.arg_index.toNat < args.length) &&
    buffer_overrun core (args.getD (segment_at fmt k).placeholder.arg_index.toNat .NONE)
      (segment_at fmt k).placeholder.spec)

/-! ## float_to_str.hpp in double arithmetic

`double_to_str_shortest`, `double_to_str_fixed` and `double_to_str_scientific` once more,
with the arithmetic on doubles computed instead of left to a `FloatCore`.  A double is an
IEEE 754 binary64 value, and every multiplication, division and addition gives the double
nearest to the exact result, ties to the even mantissa, each operation on its own (no
fused multiply-add, no wider intermediate format); a decimal literal is the double nearest
to it; `std::floor`, `std::modf` and `std::frexp` are exact.  The conversions compute on
`abs_val`, so the doubles here carry no sign.  A conversion gives `none` where the source
has no result: a cast to `uint64` of a value out of range, or a loop that does not end. -/

namespace ieee

/-- A double that is not negative: the finite value `m * 2^e`, infinity, or a NaN. -/
inductive Dbl where
  | fin (m : Nat) (e : Int)
  | inf
  | nan
deriving DecidableEq

/-- The number of bits of `n`, at most `fuel` of them. -/
def bit_length_loop : Nat → Nat → Nat
  | 0, _ => 0
  | fuel + 1, n => if n = 0 then 0 else bit_length_loop fuel (n / 2) + 1

/-- The number of bits of `n`: the least `k` with `n < 2^k`. -/
def bit_length (n : Nat) : Nat := bit_length_loop n n

/-- The floor of the binary logarithm of `n / d`, for positive `n` and `d`. -/
def ilog2 (n d : Nat) : Int :=
  let c : Int := (bit_length n : Int) - (bit_length d : Int)
  if d * 2 ^ c.toNat ≤ n * 2 ^ (-c).toNat then c else c - 1

/-- The integer nearest to `n / d`, the even one of two that are equally near. -/
def nearest_even (n d : Nat) : Nat :=
  if 2 * (n % d) < d then n / d
  else if d < 2 * (n % d) then n / d + 1
  else if n / d % 2 = 0 then n / d
  else n / d + 1

/-- The exponent of the last bit of the mantissa of the double nearest to `(n / d) * 2^e`:
the mantissa has 53 bits, and the exponent is at least -1074, where the subnormal values
lie. -/
def last_bit (n d : Nat) (e : Int) : Int := max (ilog2 n d + e - 52) (-1074)

/-- The double nearest to `(n / d) * 2^e`, for positive `d`, ties to the even mantissa:
the rounding of an arithmetic operation.  From `2^1024` on the result is infinity. -/
def nearest_double (n d : Nat) (e : Int) : Dbl :=
  if n = 0 then .fin 0 0
  else
    let t := last_bit n d e
    let q := nearest_even (n * 2 ^ (e - t).toNat) (d * 2 ^ (t - e).toNat)
    if 2 ^ 2098 ≤ q * 2 ^ (t + 1074).toNat then .inf else .fin q t

namespace Dbl

/-- The product `a * b`. -/
def mul : Dbl → Dbl → Dbl
  | .fin m1 e1, .fin m2 e2 => nearest_double (m1 * m2) 1 (e1 + e2)
  | .fin m _, .inf => if m = 0 then .nan else .inf
  | .inf, .fin m _ => if m = 0 then .nan else .inf
  | .inf, .inf => .inf
  | _, _ => .nan

/-- The quotient `a / b`. -/
def div : Dbl → Dbl → Dbl
  | .fin m1 e1, .fin m2 e2 =>
    if m2 = 0 then (if m1 = 0 then .nan else .inf) else nearest_double m1 m2 (e1 - e2)
  | .fin _ _, .inf => .fin 0 0
  | .inf, .fin _ _ => .inf
  | _, _ => .nan

/-- The sum `a + b`. -/
def add : Dbl → Dbl → Dbl
  | .fin m1 e1, .fin m2 e2 =>
    nearest_double (m1 * 2 ^ (e1 - min e1 e2).toNat + m2 * 2 ^ (e2 - min e1 e2).toNat) 1
      (min e1 e2)
  | .nan, _ => .nan
  | _, .nan => .nan
  | _, _ => .inf

/-- The comparison `a < b`. -/
def lt : Dbl → Dbl → Bool
  | .fin m1 e1, .fin m2 e2 =>
    decide (m1 * 2 ^ (e1 - min e1 e2).toNat < m2 * 2 ^ (e2 - min e1 e2).toNat)
  | .fin _ _, .inf => true
  | _, _ => false

/-- The comparison `a >= b`. -/
def ge : Dbl → Dbl → Bool
  | .fin m1 e1, .fin m2 e2 =>
    decide (m2 * 2 ^ (e2 - min e1 e2).toNat ≤ m1 * 2 ^ (e1 - min e1 e2).toNat)
  | .inf, .fin _ _ => true
  | .inf, .inf => true
  | _, _ => false

/-- The comparison `a == 0.0`. -/
def is_zero : Dbl → Bool
  | .fin m _ => decide (m = 0)
  | _ => false

/-- The integer part of a finite value: the cast to an integer type before the range of
the type is looked at. -/
def trunc (m : Nat) (e : Int) : Nat := m * 2 ^ e.toNat / 2 ^ (-e).toNat

/-- The function `std::floor`. -/
def floor : Dbl → Dbl
  | .fin m e => if e ≥ 0 then .fin m e else .fin (trunc m e) 0
  | d => d

/-- The function `std::modf`: the fractional part and the integer part. -/
def modf : Dbl → Dbl × Dbl
  | .fin m e =>
    if e ≥ 0 then (.fin 0 0, .fin m e) else (.fin (m % 2 ^ (-e).toNat) e, .fin (trunc m e) 0)
  | .inf => (.fin 0 0, .inf)
  | .nan => (.nan, .nan)

/-- The cast `static_cast<std::uint64_t>(d)`; it has no result for a value that is not
below `2^64`. -/
def to_uint64 : Dbl → Option Nat
  | .fin m e => if trunc m e < 18446744073709551616 then some (trunc m e) else none
  | _ => none

end Dbl

/-- The literal `0.5`. -/
def HALF : Dbl := .fin 1 (-1)

/-- The literal `1.0`. -/
def ONE : Dbl := .fin 1 0

/-- The literal `10.0`. -/
def TEN : Dbl := .fin 10 0

/-- The literal `1e15`. -/
def E15 : Dbl := .fin 1000000000000000 0

/-- The literal `0.30102999566398119`: the double nearest to it. -/
def LOG10_2 : Dbl := nearest_double 30102999566398119 100000000000000000 0

/-- The function `pow10_fast`.  The entries `1e0` to `1e22` of `pow10_pos` are powers of
ten that a double holds exactly, those of `pow10_neg` are the doubles nearest to the
negative powers; `pow n` is `std::pow(10.0, n)`. -/
def pow10_fast (pow : Int → Dbl) (n : Int) : Dbl :=
  if n ≥ 0 ∧ n ≤ 22 then .fin (10 ^ n.toNat) 0
  else if n < 0 ∧ n ≥ -22 then nearest_double 1 (10 ^ (-n).toNat) 0
  else pow n

/-- The function `estimate_exp10` on the finite value `m * 2^e`.  `std::frexp` gives the
exponent `e2` with `v = f * 2^e2` and `0.5 <= f < 1`; the product with the literal is a
double and the cast to `int` drops its fraction. -/
def estimate_exp10 (m : Nat) (e : Int) : Int :=
  if m = 0 then 0
  else
    let e2 : Int := e + (bit_length m : Int)
    match Dbl.mul (.fin (e2 - 1).natAbs 0) LOG10_2 with
    | .fin pm pe => if e2 - 1 < 0 then -(Dbl.trunc pm pe : Int) else (Dbl.trunc pm pe : Int)
    | _ => 0

/-- The loop `while (norm >= 10.0) { norm /= 10.0; exp10++; }`; `none` when it has not
ended after `fuel` rounds. -/
def shrink_loop : Nat → Dbl → Int → Option (Dbl × Int)
  | 0, _, _ => none
  | fuel + 1, norm, exp10 =>
    if Dbl.ge norm TEN then shrink_loop fuel (Dbl.div norm TEN) (exp10 + 1)
    else some (norm, exp10)

/-- The loop `while (norm < 1.0 && norm > 0.0) { norm *= 10.0; exp10--; }`; `none` when it
has not ended after `fuel` rounds. -/
def grow_loop : Nat → Dbl → Int → Option (Dbl × Int)
  | 0, _, _ => none
  | fuel + 1, norm, exp10 =>
    if Dbl.lt norm ONE ∧ Dbl.lt (.fin 0 0) norm then
      grow_loop fuel (Dbl.mul norm TEN) (exp10 - 1)
    else some (norm, exp10)

/-- The rounds the two loops of `double_to_str_shortest` get.  A finite double is below
`10^309` and a positive one at least `10^-324`, so a loop that has not ended by then runs
on infinity and does not end. -/
def NORM_FUEL : Nat := 400

/-- The loop `while (int_part > 0 && ndig < sig)` of `double_to_str_shortest`: `left` is
`sig - ndig` and `acc` the digits from `dp` on. -/
def sig_digits_loop : Nat → Nat → List Char → List Char
  | 0, _, acc => acc
  | left + 1, int_part, acc =>
    if int_part > 0 then
      sig_digits_loop left (int_part / 10) (Char.ofNat (('0').toNat + int_part % 10) :: acc)
    else acc

/-- The two loops that fill `digits`: the text of `sig` bytes from `dp` on. -/
def sig_digits (sig : Nat) (int_part : Nat) : List Char :=
  List.replicate (sig - (sig_digits_loop sig int_part []).length) '0' ++
    sig_digits_loop sig int_part []

/-- The loop `for (int i = ndig - 1; i > 0 && dp[i] == '0'; i--) trail++;` entered with
`i`: the value of `trail` after it. -/
def trail_loop (dp : List Char) : Nat → Nat
  | 0 => 0
  | i + 1 => if dp.getD (i + 1) NUL = '0' then trail_loop dp i + 1 else 0

/-- The exponent that `double_to_str_shortest` and `double_to_str_scientific` write: the
letter, the sign, the digit of the hundreds when there is one, and two digits. -/
def exponent_text (letter : Char) (exp10 : Int) : List Char :=
  let sign := if exp10 ≥ 0 then '+' else '-'
  let exp10 := (if exp10 ≥ 0 then exp10 else -exp10).toNat
  let hundreds := if exp10 ≥ 100 then [Char.ofNat (('0').toNat + exp10 / 100)] else []
  let exp10 := if exp10 ≥ 100 then exp10 % 100 else exp10
  letter :: sign :: (hundreds ++
    [Char.ofNat (('0').toNat + exp10 / 10), Char.ofNat (('0').toNat + exp10 % 10)])

/-- The part `// pick notation` of `double_to_str_shortest`: the bytes written after the
sign for the `ndig` digits at `dp`. -/
def shortest_text (dp : List Char) (ndig : Nat) (exp10 : Int) (sig : Int) : List Char :=
  if exp10 ≥ -4 ∧ exp10 < sig + 6 then
    if exp10 ≥ 0 then
      let idig := (exp10 + 1).toNat
      if idig ≥ ndig then dp.take ndig ++ List.replicate (idig - ndig) '0'
      else dp.take idig ++ '.' :: (dp.drop idig).take (ndig - idig)
    else
      '0' :: '.' :: (List.replicate (-exp10 - 1).toNat '0' ++ dp.take ndig)
  else
    -- scientific
    dp.getD 0 NUL :: (if ndig > 1 then '.' :: (dp.drop 1).take (ndig - 1) else []) ++
      exponent_text 'e' exp10

/-- The function `double_to_str_shortest` behind the cases of zero, infinity and NaN: the
bytes written after the sign for the finite value `m * 2^e`. -/
def shortest_finite (pow : Int → Dbl) (m : Nat) (e : Int) (precision : Int) :
    Option (List Char) :=
  let abs_val := Dbl.fin m e
  let exp10 := estimate_exp10 m e
  let norm :=
    if exp10 > 0 then Dbl.div abs_val (pow10_fast pow exp10)
    else if exp10 < 0 then Dbl.mul abs_val (pow10_fast pow (-exp10))
    else abs_val
  match shrink_loop NORM_FUEL norm exp10 with
  | none => none
  | some (norm, exp10) =>
    match grow_loop NORM_FUEL norm exp10 with
    | none => none
    | some (norm, exp10) =>
      let sig := if precision ≥ 0 then precision else 15
      let sig := if sig > 17 then 17 else sig
      let sig := if sig < 1 then 1 else sig
      match Dbl.to_uint64 (Dbl.add (Dbl.mul norm (pow10_fast pow (sig - 1))) HALF) with
      | none => none
      | some int_part =>
        let dp := sig_digits sig.toNat int_part
        let ndig := sig.toNat
        -- trim trailing zeros
        let ndig := ndig - trail_loop dp (ndig - 1)
        some (shortest_text dp ndig exp10 sig)

/-- The function `double_to_str_shortest`; `value` is the bit pattern. -/
def double_to_str_shortest (pow : Int → Dbl) (value : Nat) (precision : Int) :
    Option (List Char) :=
  let c := decompose_double value
  if c.is_nan then some "nan".toList
  else
    let sign := if c.negative then ['-'] else []
    if c.is_inf then some (sign ++ "inf".toList)
    else if c.is_zero then some (sign ++ ['0'])
    else (shortest_finite pow c.mantissa c.exponent precision).map (fun text => sign ++ text)

/-- The value `std::floor(abs_val * mult + 0.5)` of `double_to_str_fixed` for the finite
`abs_val = m * 2^e`, with `mult = pow10_fast(prec)`: the scaled magnitude, rounded half
up. -/
def fixed_scaled (pow : Int → Dbl) (m : Nat) (e : Int) (prec : Int) : Dbl :=
  Dbl.floor (Dbl.add (Dbl.mul (.fin m e) (pow10_fast pow prec)) HALF)

/-- The value `rounded` of `double_to_str_fixed`:
`std::floor(abs_val * mult + 0.5) / mult`. -/
def fixed_rounded (pow : Int → Dbl) (m : Nat) (e : Int) (prec : Int) : Dbl :=
  Dbl.div (fixed_scaled pow m e prec) (pow10_fast pow prec)

/-- The value `int_d` of `double_to_str_fixed`: the integer part that `std::modf` gives
for `rounded`. -/
def fixed_int_d (pow : Int → Dbl) (m : Nat) (e : Int) (prec : Int) : Dbl :=
  (Dbl.modf (fixed_rounded pow m e prec)).2

/-- The value `frac_int` of `double_to_str_fixed`: the cast of `frac * mult + 0.5`. -/
def fixed_frac_int (pow : Int → Dbl) (m : Nat) (e : Int) (prec : Int) : Option Nat :=
  Dbl.to_uint64 (Dbl.add (Dbl.mul (Dbl.modf (fixed_rounded pow m e prec)).1
    (pow10_fast pow prec)) HALF)

/-- The part `if (prec > 0)` of `double_to_str_fixed`: the point, the zeros before the
digits of `frac_int`, and the digits. -/
def fixed_fraction (prec : Int) (frac_int : Nat) : List Char :=
  '.' :: (List.replicate (prec.toNat - (uint_to_str frac_int).length) '0' ++
    uint_to_str frac_int)

/-- What `double_to_str_fixed` does behind the cases of infinity and NaN. -/
inductive FixedText where
  | text (bytes : List Char)
  | shortest
  | undefined
deriving DecidableEq

/-- The part of `double_to_str_fixed` behind the integer part, whose bytes are
`int_text`. -/
def fixed_tail (pow : Int → Dbl) (m : Nat) (e : Int) (prec : Int) (int_text : List Char) :
    FixedText :=
  if prec > 0 then
    match fixed_frac_int pow m e prec with
    | some frac_int => .text (int_text ++ fixed_fraction prec frac_int)
    | none => .undefined
  else .text int_text

/-- The function `double_to_str_fixed` behind the cases of infinity and NaN, for the
finite value `m * 2^e`: the bytes written after the sign, or the `return` of
`double_to_str_shortest(value, buffer, prec)`, or no result where a cast has none. -/
def fixed_finite (pow : Int → Dbl) (m : Nat) (e : Int) (prec : Int) : FixedText :=
  let int_d := fixed_int_d pow m e prec
  if Dbl.is_zero int_d then fixed_tail pow m e prec ['0']
  else if Dbl.lt int_d E15 then
    match Dbl.to_uint64 int_d with
    | some n => fixed_tail pow m e prec (uint_to_str n)
    | none => .undefined
  else .shortest

/-- The function `double_to_str_fixed`; `value` is the bit pattern. -/
def double_to_str_fixed (pow : Int → Dbl) (value : Nat) (prec : Int) : Option (List Char) :=
  let c := decompose_double value
  if c.is_nan then some "nan".toList
  else
    let sign := if c.negative then ['-'] else []
    if c.is_inf then some (sign ++ "inf".toList)
    else
      match fixed_finite pow c.mantissa c.exponent prec with
      | .text bytes => some (sign ++ bytes)
      | .shortest => double_to_str_shortest pow value prec
      | .undefined => none

/-- The loop `while (norm < 1.0) { norm *= 10.0; exp10--; }` of
`double_to_str_scientific`; `none` when it has not ended after `fuel` rounds. -/
def grow_loop_scientific : Nat → Dbl → Int → Option (Dbl × Int)
  | 0, _, _ => none
  | fuel + 1, norm, exp10 =>
    if Dbl.lt norm ONE then grow_loop_scientific fuel (Dbl.mul norm TEN) (exp10 - 1)
    else some (norm, exp10)

/-- The part `if (prec > 0)` of `double_to_str_scientific`: the point, the zeros written
while `need` is positive, the digits of `mbuf` behind the first, and the zeros that fill
the precision. -/
def scientific_fraction (prec : Int) (mbuf : List Char) : List Char :=
  let need := (prec + 1 - mbuf.length).toNat
  let prec := prec - need
  let clen := if (mbuf.length : Int) - 1 < prec then mbuf.length - 1 else prec.toNat
  '.' :: (List.replicate need '0' ++ (mbuf.drop 1).take clen ++
    List.replicate (prec.toNat - clen) '0')

/-- The function `double_to_str_scientific` behind the cases of zero, infinity and NaN:
the bytes written after the sign for the finite value `m * 2^e`.  `thresh` is a `uint64`
that the loop multiplies by ten `prec + 1` times. -/
def scientific_finite (pow : Int → Dbl) (m : Nat) (e : Int) (prec : Int) (upper : Bool) :
    Option (List Char) :=
  let abs_val := Dbl.fin m e
  let exp10 := estimate_exp10 m e
  let norm := Dbl.div abs_val (pow10_fast pow exp10)
  match shrink_loop NORM_FUEL norm exp10 with
  | none => none
  | some (norm, exp10) =>
    match grow_loop_scientific NORM_FUEL norm exp10 with
    | none => none
    | some (norm, exp10) =>
      match Dbl.to_uint64 (Dbl.add (Dbl.mul norm (pow10_fast pow prec)) HALF) with
      | none => none
      | some mant =>
        let thresh := 10 ^ (prec + 1).toNat % 18446744073709551616
        let exp10 := if mant ≥ thresh then exp10 + 1 else exp10
        let mant := if mant ≥ thresh then mant / 10 else mant
        let mbuf := uint_to_str mant
        some (mbuf.getD 0 NUL :: (if prec > 0 then scientific_fraction prec mbuf else []) ++
          exponent_text (if upper then 'E' else 'e') exp10)

/-- A `std::pow` for the examples that do not call it. -/
def no_pow : Int → Dbl := fun _ => .nan

end ieee

/-- The `FloatCore` of the double arithmetic: the texts of `ieee.shortest_finite`,
`ieee.fixed_finite` and `ieee.scientific_finite` for the mantissa and the exponent of the
bit pattern.  `pow n` is `std::pow(10.0, n)` and `cast` the conversion from `long double`.
A `FloatCore` has a text for every value: where a conversion has no result the text here
is empty. -/
def FloatCore.ieee (pow : Int → ieee.Dbl) (cast : Nat → Nat) : FloatCore :=
  { shortest_finite := fun value precision =>
      (ieee.shortest_finite pow (decompose_double value).mantissa
        (decompose_double value).exponent precision).getD []
    fixed_finite := fun value prec =>
      match ieee.fixed_finite pow (decompose_double value).mantissa
        (decompose_double value).exponent prec with
      | .text bytes => some bytes
      | .shortest => none
      | .undefined => some []
    scientific_finite := fun value prec upper =>
      (ieee.scientific_finite pow (decompose_double value).mantissa
        (decompose_double value).exponent prec upper).getD []
    ldouble_to_double := cast }

/-! ## The fixed-point text -/

theorem take_take_append (n : Nat) (d s : List Char) :
    (d.take n ++ s).take (n + s.length) = d.take n ++ s := by
  apply List.take_of_length_le
  simp only [List.length_append, List.length_take]
  omega

theorem FormatOutput.bytes_init : FormatOutput.init.bytes = [] := rfl

theorem FormatOutput.bytes_ensure (o : FormatOutput) (n : Nat) :
    (o.ensure n).bytes = o.bytes := by
  by_cases h : o.size_ + n ≤ o.capacity_ <;>
    simp [FormatOutput.ensure, FormatOutput.bytes, FormatOutput.finish, h, List.take_take]

theorem FormatOutput.size_ensure (o : FormatOutput) (n : Nat) :
    (o.ensure n).size_ = o.size_ := by
  by_cases h : o.size_ + n ≤ o.capacity_ <;> simp [FormatOutput.ensure, h]

theorem FormatOutput.bytes_ensure_append (o : FormatOutput) (n : Nat) (s : List Char) :
    List.take ((o.ensure n).size_ + s.length) (List.take (o.ensure n).size_ (o.ensure n).data_ ++ s)
      = o.bytes ++ s := by
  rw [take_take_append]
  have h1 := FormatOutput.bytes_ensure o n
  simp only [FormatOutput.bytes, FormatOutput.finish] at h1 ⊢
  rw [h1]

theorem FormatOutput.bytes_append (o : FormatOutput) (s : List Char) :
    (o.append s).bytes = o.bytes ++ s := by
  unfold FormatOutput.append
  split
  · rename_i h
    rw [List.length_eq_zero] at h
    simp [h]
  · exact FormatOutput.bytes_ensure_append o s.length s

theorem FormatOutput.bytes_append_char (o : FormatOutput) (c : Char) :
    (o.append_char c).bytes = o.bytes ++ [c] :=
  FormatOutput.bytes_ensure_append o 1 [c]

theorem FormatOutput.bytes_append_fill (o : FormatOutput) (c : Char) (n : Nat) :
    (o.append_fill c n).bytes = o.bytes ++ List.replicate n c := by
  unfold FormatOutput.append_fill
  split
  · rename_i h
    simp [h]
  · have := FormatOutput.bytes_ensure_append o n (List.replicate n c)
    simp only [List.length_replicate] at this
    exact this

theorem apply_format_spec_bytes (out : FormatOutput) (content : List Char) (spec : FormatSpec) :
    (apply_format_spec out content spec).bytes = out.bytes ++ spec_text content spec := by
  unfold spec_text apply_format_spec
  simp only []
  split_ifs <;>
    simp only [FormatOutput.bytes_append, FormatOutput.bytes_append_fill,
      FormatOutput.bytes_append_char, FormatOutput.bytes_init, List.nil_append, List.append_assoc]

/-- Every case of the switch either leaves a text in `buffer` that does not depend on the
output, or appends to the output a text that does not depend on it. -/
theorem format_arg_switch_cases (core : FloatCore) (arg : FormatArg) (spec : FormatSpec) :
    (∃ b, ∀ out, format_arg_switch core out arg spec = .inr b) ∨
    (∃ t, ∀ out, ∃ o, format_arg_switch core out arg spec = .inl o ∧ o.bytes = out.bytes ++ t) := by
  cases arg with
  | NONE => exact .inr ⟨_, fun out => ⟨_, rfl, FormatOutput.bytes_append _ _⟩⟩
  | BOOL v =>
    by_cases h : spec.type = 'd'
    · exact .inl ⟨[if v then '1' else '0'], fun out => by
        simp only [format_arg_switch, h, if_true]⟩
    · exact .inr ⟨spec_text (if v then "true" else "false").toList spec, fun out =>
        ⟨apply_format_spec out (if v then "true" else "false").toList spec,
          by simp only [format_arg_switch, h, if_false], apply_format_spec_bytes _ _ _⟩⟩
  | CHAR v =>
    refine .inl ⟨(match format_arg_switch core FormatOutput.init (.CHAR v) spec with
      | .inr b => b | .inl _ => []), fun out => ?_⟩
    simp only [format_arg_switch]
    split_ifs <;> rfl
  | INT v => exact .inl ⟨_, fun out => rfl⟩
  | UINT v => exact .inl ⟨_, fun out => rfl⟩
  | LLONG v => exact .inl ⟨_, fun out => rfl⟩
  | ULLONG v => exact .inl ⟨_, fun out => rfl⟩
  | DOUBLE v =>
    refine .inl ⟨(match format_arg_switch core FormatOutput.init (.DOUBLE v) spec with
      | .inr b => b | .inl _ => []), fun out => ?_⟩
    simp only [format_arg_switch]
    split_ifs <;> rfl
  | LDOUBLE v =>
    refine .inl ⟨(match format_arg_switch core FormatOutput.init (.LDOUBLE v) spec with
      | .inr b => b | .inl _ => []), fun out => ?_⟩
    simp only [format_arg_switch]
    split_ifs <;> rfl
  | CSTRING v =>
    cases v with
    | none => exact .inr ⟨_, fun out => ⟨_, rfl, apply_format_spec_bytes _ _ _⟩⟩
    | some str => exact .inr ⟨_, fun out => ⟨_, rfl, apply_format_spec_bytes _ _ _⟩⟩
  | STRING str => exact .inr ⟨_, fun out => ⟨_, rfl, apply_format_spec_bytes _ _ _⟩⟩
  | POINTER v => exact .inl ⟨_, fun out => rfl⟩
  | CUSTOM => exact .inr ⟨_, fun out => ⟨_, rfl, FormatOutput.bytes_append _ _⟩⟩

theorem format_arg_bytes (core : FloatCore) (out : FormatOutput) (arg : FormatArg)
    (spec : FormatSpec) :
    (format_arg core out arg spec).bytes = out.bytes ++ rendered core arg spec := by
  unfold rendered format_arg
  rcases format_arg_switch_cases core arg spec with ⟨b, hb⟩ | ⟨t, ht⟩
  · rw [hb out, hb FormatOutput.init]
    simp only [apply_format_spec_bytes, FormatOutput.bytes_init, List.nil_append]
  · obtain ⟨o1, h1, h1b⟩ := ht out
    obtain ⟨o2, h2, h2b⟩ := ht FormatOutput.init
    rw [h1, h2]
    simp only [h1b, h2b, FormatOutput.bytes_init, List.nil_append]

/-- The padding branch of `apply_format_spec`, with the effective alignment named. -/
theorem apply_format_spec_padded (out : FormatOutput) (content : List Char) (spec : FormatSpec)
    (hlen : (content.length : Int) < spec.width) (a : Char)
    (ha : (if spec.align ≠ NUL then spec.align else '<') = a) :
    apply_format_spec out content spec =
      if a = '<' then
        (out.append content).append_fill spec.fill (spec.width.toNat - content.length)
      else if a = '>' then
        (out.append_fill spec.fill (spec.width.toNat - content.length)).append content
      else if a = '^' then
        ((out.append_fill spec.fill ((spec.width.toNat - content.length) / 2)).append
          content).append_fill spec.fill
            ((spec.width.toNat - content.length) - (spec.width.toNat - content.length) / 2)
      else if a = '=' then
        if content.length > 0 ∧ (content.getD 0 NUL = '-' ∨ content.getD 0 NUL = '+' ∨
            content.getD 0 NUL = ' ') then
          ((out.append_char (content.getD 0 NUL)).append_fill spec.fill
            (spec.width.toNat - content.length)).append (content.drop 1)
        else
          (out.append_fill spec.fill (spec.width.toNat - content.length)).append content
      else out.append content := by
  have h1 : ¬ (spec.width ≤ 0 ∨ content.length ≥ spec.width.toNat) := by omega
  unfold apply_format_spec
  dsimp only
  rw [if_neg h1, ha]

/-- The branch of `apply_format_spec` without padding. -/
theorem apply_format_spec_unpadded (out : FormatOutput) (content : List Char) (spec : FormatSpec)
    (hlen : spec.width ≤ 0 ∨ spec.width ≤ (content.length : Int)) :
    apply_format_spec out content spec = out.append content := by
  have h1 : spec.width ≤ 0 ∨ content.length ≥ spec.width.toNat := by omega
  unfold apply_format_spec
  dsimp only
  rw [if_pos h1]

/-! ## The pointer loops in terms of the bytes ahead -/

theorem getD_of_drop_eq_cons {buf : List Char} {q : Nat} {c : Char} {rest : List Char}
    (h : buf.drop q = c :: rest) :
    q < buf.length ∧ buf.getD q NUL = c ∧ buf.drop (q + 1) = rest := by
  have hq : q < buf.length := by
    by_contra hn
    rw [List.drop_eq_nil_of_le (by omega)] at h
    cases h
  rw [List.drop_eq_getElem_cons hq] at h
  injection h with h1 h2
  refine ⟨hq, ?_, h2⟩
  rw [List.getD_eq_getElem _ _ hq, h1]

theorem drop_eq_getD_cons {buf : List Char} {q : Nat} (hq : q < buf.length) :
    buf.drop q = buf.getD q NUL :: buf.drop (q + 1) := by
  rw [List.getD_eq_getElem _ _ hq]
  exact List.drop_eq_getElem_cons hq

/-- The loop `while (p < end && cond(*p)) p++` stops after the longest run of bytes that
satisfy `cond`. -/
theorem skip_while_eq (buf : List Char) (cond : Char → Bool) :
    ∀ fuel p, buf.length - p ≤ fuel →
      skip_while buf buf.length cond fuel p = p + ((buf.drop p).takeWhile cond).length := by
  intro fuel
  induction fuel with
  | zero =>
    intro p hp
    rw [List.drop_eq_nil_of_le (by omega)]
    rfl
  | succ n ih =>
    intro p hp
    unfold skip_while
    by_cases hlt : p < buf.length
    · rw [drop_eq_getD_cons hlt]
      by_cases hc : cond (buf.getD p NUL) = true
      · rw [if_pos ⟨hlt, hc⟩, ih (p + 1) (by omega), List.takeWhile_cons_of_pos hc,
          List.length_cons]
        omega
      · rw [if_neg (fun h => hc h.2), List.takeWhile_cons_of_neg hc]
        rfl
    · rw [if_neg (fun h => hlt h.1), List.drop_eq_nil_of_le (by omega)]
      rfl

/-- The decimal value a digit run adds to the accumulator `w`. -/
theorem digits_loop_eq (buf : List Char) :
    ∀ fuel p w, buf.length - p ≤ fuel →
      digits_loop buf buf.length fuel p w =
        (p + ((buf.drop p).takeWhile is_digit_char).length,
          ((buf.drop p).takeWhile is_digit_char).foldl
            (fun (n : Int) c => n * 10 + ((c.toNat : Int) - (('0').toNat : Int))) w) := by
  intro fuel
  induction fuel with
  | zero =>
    intro p w hp
    rw [List.drop_eq_nil_of_le (by omega)]
    rfl
  | succ n ih =>
    intro p w hp
    unfold digits_loop
    by_cases hlt : p < buf.length
    · rw [drop_eq_getD_cons hlt]
      by_cases hc : is_digit_char (buf.getD p NUL) = true
      · rw [if_pos ⟨hlt, hc⟩, ih (p + 1) _ (by omega), List.takeWhile_cons_of_pos hc,
          List.length_cons, List.foldl_cons]
        congr 1
        omega
      · rw [if_neg (fun h => hc h.2), List.takeWhile_cons_of_neg hc]
        rfl
    · rw [if_neg (fun h => hlt h.1), List.drop_eq_nil_of_le (by omega)]
      rfl

theorem takeWhile_length_le_drop (buf : List Char) (cond : Char → Bool) (p : Nat) :
    p + ((buf.drop p).takeWhile cond).length ≤ max p buf.length := by
  have h1 : ((buf.drop p).takeWhile cond).length ≤ (buf.drop p).length :=
    (List.takeWhile_sublist cond).length_le
  rw [List.length_drop] at h1
  omega

/-! ## One call of `next()` -/

theorem FormatParser.inv_init (fmt : List Char) : (FormatParser.init fmt).Inv :=
  ⟨rfl, Nat.zero_le _⟩

theorem parse_arg_index_bounds (p : FormatParser) (hend : p.end_ = p.fmt.length)
    (hle : p.ptr_ ≤ p.end_) :
    p.parse_arg_index.2.fmt = p.fmt ∧ p.parse_arg_index.2.end_ = p.end_ ∧
    p.ptr_ ≤ p.parse_arg_index.2.ptr_ ∧ p.parse_arg_index.2.ptr_ ≤ p.end_ := by
  unfold FormatParser.parse_arg_index
  split
  · refine ⟨rfl, rfl, ?_, ?_⟩
    · show p.ptr_ ≤ (digits_loop p.fmt p.end_ (p.end_ - p.ptr_) p.ptr_ 0).1
      rw [hend, digits_loop_eq p.fmt _ _ _ (le_refl _)]
      exact Nat.le_add_right _ _
    · show (digits_loop p.fmt p.end_ (p.end_ - p.ptr_) p.ptr_ 0).1 ≤ p.end_
      rw [hend, digits_loop_eq p.fmt _ _ _ (le_refl _)]
      have := takeWhile_length_le_drop p.fmt is_digit_char p.ptr_
      simp only
      omega
  · exact ⟨rfl, rfl, le_refl _, hle⟩

theorem parse_spec_field_bounds (p : FormatParser) (hend : p.end_ = p.fmt.length)
    (hle : p.ptr_ ≤ p.end_) :
    p.parse_spec_field.2.fmt = p.fmt ∧ p.parse_spec_field.2.end_ = p.end_ ∧
    p.ptr_ ≤ p.parse_spec_field.2.ptr_ ∧ p.parse_spec_field.2.ptr_ ≤ p.end_ := by
  unfold FormatParser.parse_spec_field
  split
  · rename_i h
    refine ⟨rfl, rfl, ?_, ?_⟩
    · show p.ptr_ ≤ skip_while p.fmt p.end_ _ (p.end_ - (p.ptr_ + 1)) (p.ptr_ + 1)
      rw [hend, skip_while_eq p.fmt _ _ _ (le_refl _)]
      omega
    · show skip_while p.fmt p.end_ _ (p.end_ - (p.ptr_ + 1)) (p.ptr_ + 1) ≤ p.end_
      rw [hend, skip_while_eq p.fmt _ _ _ (le_refl _)]
      have := takeWhile_length_le_drop p.fmt (fun c => c != '}') (p.ptr_ + 1)
      omega
  · exact ⟨rfl, rfl, le_refl _, hle⟩

theorem parse_placeholder_bounds (p : FormatParser) (hend : p.end_ = p.fmt.length)
    (hlt : p.ptr_ < p.end_) :
    p.parse_placeholder.2.fmt = p.fmt ∧ p.parse_placeholder.2.end_ = p.end_ ∧
    p.ptr_ < p.parse_placeholder.2.ptr_ ∧ p.parse_placeholder.2.ptr_ ≤ p.end_ ∧
    p.parse_placeholder.1.begin_ = p.ptr_ ∧
    p.parse_placeholder.1.end_ = p.parse_placeholder.2.ptr_ ∧
    (p.parse_placeholder.1.type = .PLACEHOLDER ∨ p.parse_placeholder.1.type = .ERROR) := by
  have h1 := parse_arg_index_bounds { p with ptr_ := p.ptr_ + 1 } hend hlt
  have h2 := parse_spec_field_bounds (FormatParser.parse_arg_index { p with ptr_ := p.ptr_ + 1 }).2
    (by rw [h1.1, h1.2.1]; exact hend) (by rw [h1.2.1]; exact h1.2.2.2)
  simp only at h1 h2
  unfold FormatParser.parse_placeholder
  dsimp only
  split
  · rename_i h
    refine ⟨h2.1.trans h1.1, h2.2.1.trans h1.2.1, ?_, ?_, rfl, rfl, Or.inl rfl⟩
    · show p.ptr_ < _ + 1
      omega
    · show _ + 1 ≤ p.end_
      rw [h2.2.1, h1.2.1] at h
      omega
  · refine ⟨h2.1.trans h1.1, h2.2.1.trans h1.2.1, ?_, ?_, rfl, rfl, Or.inr rfl⟩
    · show p.ptr_ < (FormatParser.parse_spec_field _).2.ptr_
      omega
    · rw [h1.2.1] at h2
      exact h2.2.2.2

theorem literal_end_eq (p : FormatParser) (hend : p.end_ = p.fmt.length) :
    p.literal_end =
      if p.ptr_ + ((p.fmt.drop p.ptr_).takeWhile no_brace).length < p.fmt.length ∧
          p.peek (p.ptr_ + ((p.fmt.drop p.ptr_).takeWhile no_brace).length) = '}' ∧
          (p.ptr_ + ((p.fmt.drop p.ptr_).takeWhile no_brace).length + 1 ≥ p.fmt.length ∨
            p.peek (p.ptr_ + ((p.fmt.drop p.ptr_).takeWhile no_brace).length + 1) ≠ '}')
      then p.ptr_ + ((p.fmt.drop p.ptr_).takeWhile no_brace).length + 1
      else p.ptr_ + ((p.fmt.drop p.ptr_).takeWhile no_brace).length := by
  unfold FormatParser.literal_end
  dsimp only
  rw [hend, skip_while_eq p.fmt _ _ _ (le_refl _)]
  rfl

theorem literal_end_bounds (p : FormatParser) (hend : p.end_ = p.fmt.length)
    (hlt : p.ptr_ < p.end_) (h1 : p.peek p.ptr_ ≠ '{')
    (h2 : ¬ (p.peek p.ptr_ = '}' ∧ p.ptr_ + 1 < p.end_ ∧ p.peek (p.ptr_ + 1) = '}')) :
    p.ptr_ < p.literal_end ∧ p.literal_end ≤ p.end_ := by
  rw [literal_end_eq p hend]
  have hb := takeWhile_length_le_drop p.fmt no_brace p.ptr_
  rw [hend] at hlt h2 ⊢
  have hd := drop_eq_getD_cons hlt
  by_cases hc : no_brace (p.fmt.getD p.ptr_ NUL) = true
  · rw [hd, List.takeWhile_cons_of_pos hc] at hb ⊢
    simp only [List.length_cons] at hb ⊢
    split <;> omega
  · have hclose : p.peek p.ptr_ = '}' := by
      unfold FormatParser.peek at h1 ⊢
      simp only [no_brace, Bool.and_eq_true, bne_iff_ne, ne_eq, not_and, not_not] at hc
      exact hc h1
    rw [hd, List.takeWhile_cons_of_neg hc]
    simp only [List.length_nil, Nat.add_zero]
    rw [if_pos ⟨hlt, hclose, by
      by_cases h3 : p.ptr_ + 1 < p.fmt.length
      · exact Or.inr (fun h4 => h2 ⟨hclose, h3, h4⟩)
      · exact Or.inl (by omega)⟩]
    omega

/-- What every call of `next()` does to the parser: the template and its end stay, the
segment runs from the old pointer to the new one, `END` leaves the parser as it is and any
other segment moves the pointer forward, never past the end. -/
theorem next_bounds (p : FormatParser) (h : p.Inv) :
    p.next.2.fmt = p.fmt ∧ p.next.2.end_ = p.end_ ∧ p.next.1.begin_ = p.ptr_ ∧
    p.next.1.end_ = p.next.2.ptr_ ∧ p.next.2.ptr_ ≤ p.end_ ∧
    (p.next.1.type = .END → p.next.2 = p ∧ p.end_ ≤ p.ptr_) ∧
    (p.next.1.type ≠ .END → p.ptr_ < p.next.2.ptr_) := by
  obtain ⟨hend, hle⟩ := h
  unfold FormatParser.next
  split
  · rename_i h0
    exact ⟨rfl, rfl, rfl, rfl, hle, fun _ => ⟨rfl, h0⟩, fun hne => absurd rfl hne⟩
  · rename_i h0
    have hlt : p.ptr_ < p.end_ := by omega
    split
    · rename_i h1
      refine ⟨rfl, rfl, rfl, rfl, ?_, fun hc => (by cases hc), fun _ => ?_⟩
      · show p.ptr_ + 2 ≤ p.end_
        omega
      · show p.ptr_ < p.ptr_ + 2
        omega
    · split
      · rename_i h1 h2
        refine ⟨rfl, rfl, rfl, rfl, ?_, fun hc => (by cases hc), fun _ => ?_⟩
        · show p.ptr_ + 2 ≤ p.end_
          omega
        · show p.ptr_ < p.ptr_ + 2
          omega
      · split
        · have hb := parse_placeholder_bounds p hend hlt
          refine ⟨hb.1, hb.2.1, hb.2.2.2.2.1, hb.2.2.2.2.2.1, hb.2.2.2.1, fun hc => ?_,
            fun _ => hb.2.2.1⟩
          rcases hb.2.2.2.2.2.2 with h5 | h5 <;> rw [h5] at hc <;> cases hc
        · rename_i h1 h2 h3
          have hb := literal_end_bounds p hend hlt h3 h2
          exact ⟨rfl, rfl, rfl, rfl, hb.2, fun hc => (by cases hc), fun _ => hb.1⟩

theorem next_inv (p : FormatParser) (h : p.Inv) : p.next.2.Inv := by
  have hb := next_bounds p h
  refine ⟨?_, ?_⟩
  · rw [hb.2.1, hb.1]; exact h.1
  · rw [hb.2.1]; exact hb.2.2.2.2.1

/-! ## The loop of `format_impl` -/

/-- The three ways the loop body can go, each uniform in the output buffer. -/
theorem format_step_cases (core : FloatCore) (no_exceptions : Bool) (args : List FormatArg)
    (fmt : List Char) (seg : ParseSegment) :
    (seg.type = .END ∧ ∀ out, format_step core no_exceptions args fmt seg out =
        .finished out.bytes) ∨
    (seg.type = .ERROR ∧ no_exceptions = false ∧
      ∀ out, format_step core no_exceptions args fmt seg out = .thrown) ∨
    (seg.type ≠ .END ∧ (seg.type = .ERROR → no_exceptions = true) ∧
      ∀ out, ∃ o, format_step core no_exceptions args fmt seg out = .next o ∧
        o.bytes = out.bytes ++ segment_text core no_exceptions args fmt seg) := by
  unfold segment_text format_step
  cases hty : seg.type with
  | LITERAL =>
    refine .inr (.inr ⟨by simp, by simp, fun out => ⟨_, rfl, ?_⟩⟩)
    simp only [FormatOutput.bytes_append, FormatOutput.bytes_init, List.nil_append]
  | PLACEHOLDER =>
    refine .inr (.inr ⟨by simp, by simp, fun out => ?_⟩)
    dsimp only
    split
    · refine ⟨_, rfl, ?_⟩
      simp only [format_arg_bytes, FormatOutput.bytes_init, List.nil_append]
    · refine ⟨_, rfl, ?_⟩
      simp only [FormatOutput.bytes_append, FormatOutput.bytes_init, List.nil_append]
  | ESCAPE_OPEN =>
    refine .inr (.inr ⟨by simp, by simp, fun out => ⟨_, rfl, ?_⟩⟩)
    simp only [FormatOutput.bytes_append_char, FormatOutput.bytes_init, List.nil_append]
  | ESCAPE_CLOSE =>
    refine .inr (.inr ⟨by simp, by simp, fun out => ⟨_, rfl, ?_⟩⟩)
    simp only [FormatOutput.bytes_append_char, FormatOutput.bytes_init, List.nil_append]
  | END => exact .inl ⟨rfl, fun out => rfl⟩
  | ERROR =>
    cases no_exceptions with
    | false => exact .inr (.inl ⟨rfl, rfl, fun out => rfl⟩)
    | true =>
      refine .inr (.inr ⟨by simp, by simp, fun out => ⟨_, rfl, ?_⟩⟩)
      simp only [FormatOutput.bytes_append, FormatOutput.bytes_init, List.nil_append, if_true]

theorem format_loop_succ (core : FloatCore) (no_exceptions : Bool) (args : List FormatArg)
    (n : Nat) (p : FormatParser) (out : FormatOutput) :
    format_loop core no_exceptions args (n + 1) p out =
      match format_step core no_exceptions args p.fmt p.next.1 out with
      | .next out => format_loop core no_exceptions args n p.next.2 out
      | .finished result => .ok result
      | .thrown => .error .invalid_format_string := rfl

/-- More fuel than the bytes ahead is all the loop needs. -/
theorem format_loop_fuel (core : FloatCore) (no_exceptions : Bool) (args : List FormatArg) :
    ∀ n m p out, FormatParser.Inv p → p.end_ - p.ptr_ < n → p.end_ - p.ptr_ < m →
      format_loop core no_exceptions args n p out =
        format_loop core no_exceptions args m p out := by
  intro n
  induction n with
  | zero => intro m p out _ h; omega
  | succ n ih =>
    intro m p out hinv hn hm
    obtain ⟨m, rfl⟩ : ∃ k, m = k + 1 := ⟨m - 1, by omega⟩
    rw [format_loop_succ, format_loop_succ]
    have hb := next_bounds p hinv
    rcases format_step_cases core no_exceptions args p.fmt p.next.1 with
      ⟨_, h⟩ | ⟨_, _, h⟩ | ⟨hne, _, h⟩
    · rw [h out]
    · rw [h out]
    · obtain ⟨o, ho, _⟩ := h out
      rw [ho]
      have hlt := hb.2.2.2.2.2.2 hne
      have hle := hb.2.2.2.2.1
      exact ih m p.next.2 o (next_inv p hinv) (by rw [hb.2.1]; omega) (by rw [hb.2.1]; omega)

/-- The loop only appends: the text already in the buffer comes out in front. -/
theorem format_loop_bytes (core : FloatCore) (no_exceptions : Bool) (args : List FormatArg) :
    ∀ n p out, format_loop core no_exceptions args n p out =
      prepend out.bytes (format_loop core no_exceptions args n p FormatOutput.init) := by
  intro n
  induction n with
  | zero => intro p out; rfl
  | succ n ih =>
    intro p out
    rw [format_loop_succ, format_loop_succ]
    rcases format_step_cases core no_exceptions args p.fmt p.next.1 with
      ⟨_, h⟩ | ⟨_, _, h⟩ | ⟨hne, _, h⟩
    · rw [h out, h FormatOutput.init]
      simp only [prepend, FormatOutput.bytes_init, List.append_nil]
    · rw [h out, h FormatOutput.init]
      rfl
    · obtain ⟨o, ho, hob⟩ := h out
      obtain ⟨o0, ho0, hob0⟩ := h FormatOutput.init
      rw [ho, ho0]
      dsimp only
      rw [ih p.next.2 o, ih p.next.2 o0, hob, hob0, FormatOutput.bytes_init, List.nil_append]
      cases format_loop core no_exceptions args n p.next.2 FormatOutput.init with
      | ok s => simp only [prepend, List.append_assoc]
      | error e => rfl

theorem prepend_nil (r : Except FormatError (List Char)) : prepend [] r = r := by
  cases r <;> rfl

theorem prepend_prepend (a b : List Char) (r : Except FormatError (List Char)) :
    prepend a (prepend b r) = prepend (a ++ b) r := by
  cases r <;> simp [prepend]

theorem run_bytes (core : FloatCore) (no_exceptions : Bool) (args : List FormatArg)
    (p : FormatParser) (out : FormatOutput) :
    run core no_exceptions args p out =
      prepend out.bytes (run core no_exceptions args p FormatOutput.init) :=
  format_loop_bytes core no_exceptions args _ p out

/-- One pass of the loop, in terms of `run`. -/
theorem run_step (core : FloatCore) (no_exceptions : Bool) (args : List FormatArg)
    (p : FormatParser) (out : FormatOutput) (hinv : p.Inv) :
    run core no_exceptions args p out =
      match format_step core no_exceptions args p.fmt p.next.1 out with
      | .next out => run core no_exceptions args p.next.2 out
      | .finished result => .ok result
      | .thrown => .error .invalid_format_string := by
  unfold run
  rw [format_loop_succ]
  have hb := next_bounds p hinv
  rcases format_step_cases core no_exceptions args p.fmt p.next.1 with
    ⟨_, h⟩ | ⟨_, _, h⟩ | ⟨hne, _, h⟩
  · rw [h out]
  · rw [h out]
  · obtain ⟨o, ho, _⟩ := h out
    rw [ho]
    have hlt := hb.2.2.2.2.2.2 hne
    have hle := hb.2.2.2.2.1
    exact format_loop_fuel core no_exceptions args _ _ p.next.2 o (next_inv p hinv)
      (by rw [hb.2.1]; omega) (by rw [hb.2.1]; omega)

theorem format_impl_eq_run (core : FloatCore) (no_exceptions : Bool) (fmt : List Char)
    (args : List FormatArg) :
    format_impl core no_exceptions fmt args =
      run core no_exceptions args (FormatParser.init fmt) FormatOutput.init := by
  unfold format_impl
  dsimp only
  rw [format_loop_bytes, FormatOutput.reserve, FormatOutput.bytes_ensure,
    FormatOutput.bytes_init, prepend_nil]
  rfl

/-! ## `next()` and the loop, read off the bytes ahead -/

theorem peek_of_drop {p : FormatParser} {q : Nat} {c : Char} {rest : List Char}
    (h : p.fmt.drop q = c :: rest) :
    q < p.fmt.length ∧ p.peek q = c ∧ p.fmt.drop (q + 1) = rest :=
  getD_of_drop_eq_cons h

theorem next_of_nil (p : FormatParser) (hinv : p.Inv) (h : p.fmt.drop p.ptr_ = []) :
    p.next = ({ type := .END, begin_ := p.ptr_, end_ := p.ptr_ }, p) := by
  have hle : p.end_ ≤ p.ptr_ := by rw [hinv.1]; exact List.drop_eq_nil_iff.mp h
  unfold FormatParser.next
  rw [if_pos hle]

theorem next_of_escape_open (p : FormatParser) (hinv : p.Inv) (rest : List Char)
    (h : p.fmt.drop p.ptr_ = '{' :: '{' :: rest) :
    p.next = ({ type := .ESCAPE_OPEN, begin_ := p.ptr_, end_ := p.ptr_ + 2 },
      { p with ptr_ := p.ptr_ + 2 }) := by
  obtain ⟨h1, h2, h3⟩ := peek_of_drop h
  obtain ⟨h4, h5, _⟩ := peek_of_drop h3
  unfold FormatParser.next
  rw [if_neg (by rw [hinv.1]; omega), if_pos ⟨h2, by rw [hinv.1]; exact h4, h5⟩]

theorem next_of_escape_close (p : FormatParser) (hinv : p.Inv) (rest : List Char)
    (h : p.fmt.drop p.ptr_ = '}' :: '}' :: rest) :
    p.next = ({ type := .ESCAPE_CLOSE, begin_ := p.ptr_, end_ := p.ptr_ + 2 },
      { p with ptr_ := p.ptr_ + 2 }) := by
  obtain ⟨h1, h2, h3⟩ := peek_of_drop h
  obtain ⟨h4, h5, _⟩ := peek_of_drop h3
  unfold FormatParser.next
  rw [if_neg (by rw [hinv.1]; omega),
    if_neg (fun hx => by rw [h2] at hx; exact absurd hx.1 (by decide)),
    if_pos ⟨h2, by rw [hinv.1]; exact h4, h5⟩]

/-- The byte after the pointer is no `x`, read off the bytes ahead. -/
theorem not_next_byte (p : FormatParser) (hinv : p.Inv) (q : Nat) (rest : List Char) (x : Char)
    (h : p.fmt.drop (q + 1) = rest) (hx : rest.head? ≠ some x) :
    ¬ (q + 1 < p.end_ ∧ p.peek (q + 1) = x) := by
  rintro ⟨h1, h2⟩
  rw [hinv.1] at h1
  rw [drop_eq_getD_cons h1] at h
  subst h
  exact hx (by rw [List.head?_cons]; exact congrArg some h2)

theorem next_of_field (p : FormatParser) (hinv : p.Inv) (rest : List Char)
    (h : p.fmt.drop p.ptr_ = '{' :: rest) (hr : rest.head? ≠ some '{') :
    p.next = p.parse_placeholder := by
  obtain ⟨h1, h2, h3⟩ := peek_of_drop h
  have hn := not_next_byte p hinv p.ptr_ rest '{' h3 hr
  unfold FormatParser.next
  rw [if_neg (by rw [hinv.1]; omega), if_neg (fun hc => hn hc.2),
    if_neg (fun hx => by rw [h2] at hx; exact absurd hx.1 (by decide)), if_pos h2]

theorem next_of_literal (p : FormatParser) (hinv : p.Inv) (c : Char) (rest : List Char)
    (h : p.fmt.drop p.ptr_ = c :: rest) (hc : c ≠ '{')
    (hr : c = '}' → rest.head? ≠ some '}') :
    p.next = ({ type := .LITERAL, begin_ := p.ptr_, end_ := p.literal_end },
      { p with ptr_ := p.literal_end }) := by
  obtain ⟨h1, h2, h3⟩ := peek_of_drop h
  unfold FormatParser.next
  rw [if_neg (by rw [hinv.1]; omega), if_neg (by rw [h2]; exact fun hx => hc hx.1),
    if_neg (fun hx => not_next_byte p hinv p.ptr_ rest '}' h3 (hr (h2.symm.trans hx.1)) hx.2),
    if_neg (by rw [h2]; exact hc)]

/-- A lone `}` ahead is a literal of one byte. -/
theorem literal_end_of_lone_close (p : FormatParser) (hinv : p.Inv) (rest : List Char)
    (h : p.fmt.drop p.ptr_ = '}' :: rest) (hr : rest.head? ≠ some '}') :
    p.literal_end = p.ptr_ + 1 := by
  obtain ⟨h1, h2, h3⟩ := peek_of_drop h
  have hn := not_next_byte p hinv p.ptr_ rest '}' h3 hr
  rw [literal_end_eq p hinv.1, h, List.takeWhile_cons_of_neg (by decide)]
  simp only [List.length_nil, Nat.add_zero]
  rw [if_pos ⟨h1, h2, by
    by_cases h4 : p.ptr_ + 1 < p.fmt.length
    · exact Or.inr (fun h5 => hn ⟨by rw [hinv.1]; exact h4, h5⟩)
    · exact Or.inl (by omega)⟩]

/-- The scan of a literal does not depend on where in its run of plain bytes it starts. -/
theorem literal_end_of_plain (p : FormatParser) (hinv : p.Inv) (c : Char) (rest : List Char)
    (h : p.fmt.drop p.ptr_ = c :: rest) (hc : no_brace c = true) :
    p.literal_end = FormatParser.literal_end { p with ptr_ := p.ptr_ + 1 } := by
  obtain ⟨h1, h2, h3⟩ := peek_of_drop h
  have e2 := literal_end_eq { p with ptr_ := p.ptr_ + 1 } hinv.1
  rw [literal_end_eq p hinv.1, e2]
  show _ = if p.ptr_ + 1 + ((p.fmt.drop (p.ptr_ + 1)).takeWhile no_brace).length < p.fmt.length ∧
          p.peek (p.ptr_ + 1 + ((p.fmt.drop (p.ptr_ + 1)).takeWhile no_brace).length) = '}' ∧
          (p.ptr_ + 1 + ((p.fmt.drop (p.ptr_ + 1)).takeWhile no_brace).length + 1 ≥ p.fmt.length ∨
            p.peek (p.ptr_ + 1 + ((p.fmt.drop (p.ptr_ + 1)).takeWhile no_brace).length + 1) ≠ '}')
      then p.ptr_ + 1 + ((p.fmt.drop (p.ptr_ + 1)).takeWhile no_brace).length + 1
      else p.ptr_ + 1 + ((p.fmt.drop (p.ptr_ + 1)).takeWhile no_brace).length
  rw [h, h3, List.takeWhile_cons_of_pos hc, List.length_cons]
  have e : p.ptr_ + ((List.takeWhile no_brace rest).length + 1) =
      p.ptr_ + 1 + (List.takeWhile no_brace rest).length := by omega
  rw [e]

/-- A plain byte before the end, a `{` or the escape `}}` is a literal of one byte. -/
theorem literal_end_of_last_plain (p : FormatParser) (hinv : p.Inv) (c : Char)
    (rest : List Char) (h : p.fmt.drop p.ptr_ = c :: rest) (hc : no_brace c = true)
    (hr : rest = [] ∨ (∃ r, rest = '{' :: r) ∨ (∃ r, rest = '}' :: '}' :: r)) :
    p.literal_end = p.ptr_ + 1 := by
  obtain ⟨h1, h2, h3⟩ := peek_of_drop h
  rw [literal_end_eq p hinv.1, h, List.takeWhile_cons_of_pos hc]
  rcases hr with hr | ⟨r, hr⟩ | ⟨r, hr⟩
  · subst hr
    have hlen : p.fmt.length ≤ p.ptr_ + 1 := List.drop_eq_nil_iff.mp h3
    simp only [List.takeWhile_nil, List.length_cons, List.length_nil]
    rw [if_neg (fun hx => by omega)]
  · subst hr
    obtain ⟨_, h5, _⟩ := peek_of_drop h3
    rw [List.takeWhile_cons_of_neg (by decide)]
    simp only [List.length_cons, List.length_nil]
    rw [if_neg (fun hx => by rw [h5] at hx; exact absurd hx.2.1 (by decide))]
  · subst hr
    obtain ⟨h4, h5, h6⟩ := peek_of_drop h3
    obtain ⟨h7, h8, _⟩ := peek_of_drop h6
    rw [List.takeWhile_cons_of_neg (by decide)]
    simp only [List.length_cons, List.length_nil]
    rw [if_neg (fun hx => by
      rcases hx.2.2 with h9 | h9
      · omega
      · exact h9 h8)]

/-! ## `parse_placeholder()`, read off the bytes ahead -/

theorem take_length_takeWhile (P : Char → Bool) (l : List Char) :
    l.take (l.takeWhile P).length = l.takeWhile P := by
  have h := List.take_left (l.takeWhile P) (l.dropWhile P)
  rwa [List.takeWhile_append_dropWhile] at h

theorem drop_length_takeWhile (P : Char → Bool) (l : List Char) :
    l.drop (l.takeWhile P).length = l.dropWhile P := by
  have h := List.drop_left (l.takeWhile P) (l.dropWhile P)
  rwa [List.takeWhile_append_dropWhile] at h

theorem drop_add_takeWhile (buf : List Char) (q : Nat) (P : Char → Bool) :
    buf.drop (q + ((buf.drop q).takeWhile P).length) = (buf.drop q).dropWhile P := by
  rw [← List.drop_drop, drop_length_takeWhile]

/-- The block `// arg index`: a digit run ahead is an explicit index, anything else takes
the automatic one. -/
theorem parse_arg_index_eq (p : FormatParser) (hend : p.end_ = p.fmt.length) :
    p.parse_arg_index =
      if (p.fmt.drop p.ptr_).takeWhile is_digit_char = [] then
        (p.auto_idx_, { p with auto_idx_ := p.auto_idx_ + 1, has_auto_ := true })
      else
        (decimal_value ((p.fmt.drop p.ptr_).takeWhile is_digit_char),
          { p with ptr_ := p.ptr_ + ((p.fmt.drop p.ptr_).takeWhile is_digit_char).length,
                   has_explicit_ := true }) := by
  unfold FormatParser.parse_arg_index
  by_cases hlt : p.ptr_ < p.fmt.length
  · have hd := drop_eq_getD_cons hlt
    by_cases hc : is_digit_char (p.fmt.getD p.ptr_ NUL) = true
    · rw [if_pos ⟨by rw [hend]; exact hlt, hc⟩, if_neg (by
        rw [hd, List.takeWhile_cons_of_pos hc]; exact List.cons_ne_nil _ _)]
      rw [hend, digits_loop_eq p.fmt _ _ _ (le_refl _)]
      rfl
    · rw [if_neg (fun hx => hc hx.2), if_pos (by rw [hd, List.takeWhile_cons_of_neg hc])]
  · rw [if_neg (fun hx => hlt (by rw [← hend]; exact hx.1)),
      if_pos (by rw [List.drop_eq_nil_of_le (by omega)]; rfl)]

/-- The block `// format spec`: after a `:` the spec runs up to the next `}` or the end. -/
theorem parse_spec_field_of_colon (p : FormatParser) (hend : p.end_ = p.fmt.length)
    (rest : List Char) (h : p.fmt.drop p.ptr_ = ':' :: rest) :
    p.parse_spec_field =
      (((parse_format_spec (rest.takeWhile no_close) {}).2, some (p.ptr_ + 1),
          some (p.ptr_ + 1 + (rest.takeWhile no_close).length)),
        { p with ptr_ := p.ptr_ + 1 + (rest.takeWhile no_close).length }) := by
  obtain ⟨h1, h2, h3⟩ := peek_of_drop h
  unfold FormatParser.parse_spec_field
  rw [if_pos ⟨by rw [hend]; exact h1, h2⟩]
  dsimp only
  rw [hend, skip_while_eq p.fmt _ _ _ (le_refl _), h3]
  have e : p.ptr_ + 1 + (List.takeWhile (fun c => c != '}') rest).length - (p.ptr_ + 1) =
      (List.takeWhile (fun c => c != '}') rest).length := by omega
  rw [e, take_length_takeWhile]
  rfl

theorem parse_spec_field_of_other (p : FormatParser) (hend : p.end_ = p.fmt.length)
    (h : (p.fmt.drop p.ptr_).head? ≠ some ':') :
    p.parse_spec_field = (({}, none, none), p) := by
  unfold FormatParser.parse_spec_field
  rw [if_neg]
  rintro ⟨h1, h2⟩
  rw [hend] at h1
  rw [drop_eq_getD_cons h1, List.head?_cons] at h
  exact h (congrArg some h2)

/-- The last step of `parse_placeholder()`: a `}` ahead makes the field valid. -/
theorem parse_placeholder_eq (p : FormatParser) :
    p.parse_placeholder =
      if (FormatParser.parse_spec_field (FormatParser.parse_arg_index
            { p with ptr_ := p.ptr_ + 1 }).2).2.ptr_ <
          (FormatParser.parse_spec_field (FormatParser.parse_arg_index
            { p with ptr_ := p.ptr_ + 1 }).2).2.end_ ∧
          (FormatParser.parse_spec_field (FormatParser.parse_arg_index
            { p with ptr_ := p.ptr_ + 1 }).2).2.peek
            (FormatParser.parse_spec_field (FormatParser.parse_arg_index
              { p with ptr_ := p.ptr_ + 1 }).2).2.ptr_ = '}' then
        ({ type := .PLACEHOLDER, begin_ := p.ptr_,
           end_ := (FormatParser.parse_spec_field (FormatParser.parse_arg_index
              { p with ptr_ := p.ptr_ + 1 }).2).2.ptr_ + 1,
           placeholder :=
            { arg_index := (FormatParser.parse_arg_index { p with ptr_ := p.ptr_ + 1 }).1,
              spec := (FormatParser.parse_spec_field (FormatParser.parse_arg_index
                { p with ptr_ := p.ptr_ + 1 }).2).1.1,
              spec_begin := (FormatParser.parse_spec_field (FormatParser.parse_arg_index
                { p with ptr_ := p.ptr_ + 1 }).2).1.2.1,
              spec_end := (FormatParser.parse_spec_field (FormatParser.parse_arg_index
                { p with ptr_ := p.ptr_ + 1 }).2).1.2.2 } },
          { (FormatParser.parse_spec_field (FormatParser.parse_arg_index
              { p with ptr_ := p.ptr_ + 1 }).2).2 with
            ptr_ := (FormatParser.parse_spec_field (FormatParser.parse_arg_index
              { p with ptr_ := p.ptr_ + 1 }).2).2.ptr_ + 1 })
      else
        ({ type := .ERROR, begin_ := p.ptr_,
           end_ := (FormatParser.parse_spec_field (FormatParser.parse_arg_index
              { p with ptr_ := p.ptr_ + 1 }).2).2.ptr_,
           placeholder :=
            { arg_index := (FormatParser.parse_arg_index { p with ptr_ := p.ptr_ + 1 }).1,
              spec := (FormatParser.parse_spec_field (FormatParser.parse_arg_index
                { p with ptr_ := p.ptr_ + 1 }).2).1.1,
              spec_begin := (FormatParser.parse_spec_field (FormatParser.parse_arg_index
                { p with ptr_ := p.ptr_ + 1 }).2).1.2.1,
              spec_end := (FormatParser.parse_spec_field (FormatParser.parse_arg_index
                { p with ptr_ := p.ptr_ + 1 }).2).1.2.2 } },
          (FormatParser.parse_spec_field (FormatParser.parse_arg_index
              { p with ptr_ := p.ptr_ + 1 }).2).2) := rfl

theorem peek_iff_head (q : FormatParser) (hend : q.end_ = q.fmt.length) (x : Char) :
    (q.ptr_ < q.end_ ∧ q.peek q.ptr_ = x) ↔ (q.fmt.drop q.ptr_).head? = some x := by
  constructor
  · rintro ⟨h1, h2⟩
    rw [hend] at h1
    rw [drop_eq_getD_cons h1, List.head?_cons]
    exact congrArg some h2
  · intro h
    cases hd : q.fmt.drop q.ptr_ with
    | nil => rw [hd] at h; cases h
    | cons c rest =>
      rw [hd, List.head?_cons] at h
      obtain ⟨h1, h2, _⟩ := peek_of_drop hd
      exact ⟨by rw [hend]; exact h1, h2.trans (Option.some.inj h)⟩

theorem head_dropWhile_no_close (l : List Char) :
    (l.dropWhile no_close).head? = some '}' ↔ '}' ∈ l := by
  induction l with
  | nil => simp
  | cons c l ih =>
    by_cases hc : c = '}'
    · subst hc
      rw [List.dropWhile_cons_of_neg (by decide)]
      simp
    · have hn : no_close c = true := by simpa [no_close] using hc
      rw [List.dropWhile_cons_of_pos hn, ih]
      simp [Ne.symm hc]

/-- Where the block `// arg index` leaves the pointer. -/
theorem parse_arg_index_ptr (p : FormatParser) (hend : p.end_ = p.fmt.length) :
    p.parse_arg_index.2.fmt = p.fmt ∧ p.parse_arg_index.2.end_ = p.end_ ∧
    p.parse_arg_index.2.ptr_ = p.ptr_ + ((p.fmt.drop p.ptr_).takeWhile is_digit_char).length ∧
    p.fmt.drop p.parse_arg_index.2.ptr_ = (p.fmt.drop p.ptr_).dropWhile is_digit_char := by
  have key : p.parse_arg_index.2.fmt = p.fmt ∧ p.parse_arg_index.2.end_ = p.end_ ∧
      p.parse_arg_index.2.ptr_ =
        p.ptr_ + ((p.fmt.drop p.ptr_).takeWhile is_digit_char).length := by
    rw [parse_arg_index_eq p hend]
    split
    · rename_i h
      rw [h]
      exact ⟨rfl, rfl, rfl⟩
    · exact ⟨rfl, rfl, rfl⟩
  refine ⟨key.1, key.2.1, key.2.2, ?_⟩
  rw [key.2.2, drop_add_takeWhile]

/-- Whether `parse_placeholder()` returns a valid field or an error. -/
theorem parse_placeholder_type (p : FormatParser) (hinv : p.Inv) (rest : List Char)
    (h : p.fmt.drop p.ptr_ = '{' :: rest) :
    p.parse_placeholder.1.type = (if field_closed rest = true then .PLACEHOLDER else .ERROR) := by
  obtain ⟨h1, _, h3⟩ := peek_of_drop h
  have hA := parse_arg_index_ptr { p with ptr_ := p.ptr_ + 1 } hinv.1
  simp only [h3] at hA
  obtain ⟨hA1, hA2, hA3, hA4⟩ := hA
  have hendA : (FormatParser.parse_arg_index { p with ptr_ := p.ptr_ + 1 }).2.end_ =
      (FormatParser.parse_arg_index { p with ptr_ := p.ptr_ + 1 }).2.fmt.length := by
    rw [hA1, hA2]; exact hinv.1
  have hcond : ((FormatParser.parse_spec_field (FormatParser.parse_arg_index
            { p with ptr_ := p.ptr_ + 1 }).2).2.ptr_ <
          (FormatParser.parse_spec_field (FormatParser.parse_arg_index
            { p with ptr_ := p.ptr_ + 1 }).2).2.end_ ∧
          (FormatParser.parse_spec_field (FormatParser.parse_arg_index
            { p with ptr_ := p.ptr_ + 1 }).2).2.peek
            (FormatParser.parse_spec_field (FormatParser.parse_arg_index
              { p with ptr_ := p.ptr_ + 1 }).2).2.ptr_ = '}') ↔ field_closed rest = true := by
    unfold field_closed
    cases hr : rest.dropWhile is_digit_char with
    | nil =>
      rw [parse_spec_field_of_other _ hendA (by rw [hA1, hA4, hr]; simp),
        peek_iff_head _ hendA, hA1, hA4, hr]
      simp
    | cons c r2 =>
      by_cases hc : c = ':'
      · subst hc
        rw [parse_spec_field_of_colon _ hendA r2 (by rw [hA1, hA4, hr])]
        rw [peek_iff_head _ (by exact hendA)]
        show (List.drop (_ + 1 + (r2.takeWhile no_close).length) _).head? = some '}' ↔ _
        rw [hA1, Nat.add_assoc, ← List.drop_drop, hA4, hr, Nat.add_comm 1, ← List.drop_drop]
        rw [List.drop_drop, List.drop_succ_cons, drop_length_takeWhile, head_dropWhile_no_close]
        simp
      · rw [parse_spec_field_of_other _ hendA (by rw [hA1, hA4, hr]; simpa using hc),
          peek_iff_head _ hendA, hA1, hA4, hr]
        simp [hc]
  rw [parse_placeholder_eq]
  by_cases hf : field_closed rest = true
  · rw [if_pos (hcond.mpr hf), if_pos hf]
  · rw [if_neg (fun hx => hf (hcond.mp hx)), if_neg hf]

/-- A field without a spec: `{`, an optional digit run and `}`. -/
theorem parse_placeholder_of_plain_field (p : FormatParser) (hinv : p.Inv) (rest tail : List Char)
    (h : p.fmt.drop p.ptr_ = '{' :: rest)
    (hr : rest.dropWhile is_digit_char = '}' :: tail) :
    p.parse_placeholder =
      ({ type := .PLACEHOLDER, begin_ := p.ptr_,
         end_ := p.ptr_ + 1 + (rest.takeWhile is_digit_char).length + 1,
         placeholder :=
          { arg_index := (FormatParser.parse_arg_index { p with ptr_ := p.ptr_ + 1 }).1 } },
        { (FormatParser.parse_arg_index { p with ptr_ := p.ptr_ + 1 }).2 with
          ptr_ := p.ptr_ + 1 + (rest.takeWhile is_digit_char).length + 1 }) := by
  obtain ⟨h1, _, h3⟩ := peek_of_drop h
  have hA := parse_arg_index_ptr { p with ptr_ := p.ptr_ + 1 } hinv.1
  simp only [h3] at hA
  obtain ⟨hA1, hA2, hA3, hA4⟩ := hA
  have hendA : (FormatParser.parse_arg_index { p with ptr_ := p.ptr_ + 1 }).2.end_ =
      (FormatParser.parse_arg_index { p with ptr_ := p.ptr_ + 1 }).2.fmt.length := by
    rw [hA1, hA2]; exact hinv.1
  have hB := parse_spec_field_of_other _ hendA
    (show ((FormatParser.parse_arg_index { p with ptr_ := p.ptr_ + 1 }).2.fmt.drop
      (FormatParser.parse_arg_index { p with ptr_ := p.ptr_ + 1 }).2.ptr_).head? ≠ some ':' by
      rw [hA1, hA4, hr]; simp)
  rw [parse_placeholder_eq, hB]
  dsimp only
  rw [if_pos ((peek_iff_head _ hendA '}').mpr (by rw [hA1, hA4, hr]; rfl)), hA3]

/-! ## The loop, one segment at a time -/

theorem run_of_nil (core : FloatCore) (no_exceptions : Bool) (args : List FormatArg)
    (p : FormatParser) (hinv : p.Inv) (h : p.fmt.drop p.ptr_ = [])
    (out : FormatOutput) :
    run core no_exceptions args p out = .ok out.bytes := by
  rw [run_step core no_exceptions args p out hinv, next_of_nil p hinv h]
  rfl

theorem run_of_escape_open (core : FloatCore) (no_exceptions : Bool) (args : List FormatArg)
    (p : FormatParser) (hinv : p.Inv) (rest : List Char)
    (h : p.fmt.drop p.ptr_ = '{' :: '{' :: rest) :
    run core no_exceptions args p FormatOutput.init =
      prepend ['{'] (run core no_exceptions args { p with ptr_ := p.ptr_ + 2 }
        FormatOutput.init) := by
  rw [run_step core no_exceptions args p _ hinv, next_of_escape_open p hinv rest h]
  show run core no_exceptions args _ (FormatOutput.init.append_char '{') = _
  rw [run_bytes, FormatOutput.bytes_append_char, FormatOutput.bytes_init]
  rfl

theorem run_of_escape_close (core : FloatCore) (no_exceptions : Bool) (args : List FormatArg)
    (p : FormatParser) (hinv : p.Inv) (rest : List Char)
    (h : p.fmt.drop p.ptr_ = '}' :: '}' :: rest) :
    run core no_exceptions args p FormatOutput.init =
      prepend ['}'] (run core no_exceptions args { p with ptr_ := p.ptr_ + 2 }
        FormatOutput.init) := by
  rw [run_step core no_exceptions args p _ hinv, next_of_escape_close p hinv rest h]
  show run core no_exceptions args _ (FormatOutput.init.append_char '}') = _
  rw [run_bytes, FormatOutput.bytes_append_char, FormatOutput.bytes_init]
  rfl

/-- The loop at a literal: the bytes up to `literal_end` are copied. -/
theorem run_of_literal (core : FloatCore) (no_exceptions : Bool) (args : List FormatArg)
    (p : FormatParser) (hinv : p.Inv) (c : Char) (rest : List Char)
    (h : p.fmt.drop p.ptr_ = c :: rest) (hc : c ≠ '{')
    (hr : c = '}' → rest.head? ≠ some '}') :
    run core no_exceptions args p FormatOutput.init =
      prepend ((c :: rest).take (p.literal_end - p.ptr_))
        (run core no_exceptions args { p with ptr_ := p.literal_end } FormatOutput.init) := by
  rw [run_step core no_exceptions args p _ hinv, next_of_literal p hinv c rest h hc hr]
  show run core no_exceptions args _
    (FormatOutput.init.append ((p.fmt.drop p.ptr_).take (p.literal_end - p.ptr_))) = _
  rw [run_bytes, FormatOutput.bytes_append, FormatOutput.bytes_init, h]
  rfl

theorem run_of_lone_close (core : FloatCore) (no_exceptions : Bool) (args : List FormatArg)
    (p : FormatParser) (hinv : p.Inv) (rest : List Char)
    (h : p.fmt.drop p.ptr_ = '}' :: rest) (hr : rest.head? ≠ some '}') :
    run core no_exceptions args p FormatOutput.init =
      prepend ['}'] (run core no_exceptions args { p with ptr_ := p.ptr_ + 1 }
        FormatOutput.init) := by
  rw [run_of_literal core no_exceptions args p hinv '}' rest h (by decide) (fun _ => hr),
    literal_end_of_lone_close p hinv rest h hr]
  have e : p.ptr_ + 1 - p.ptr_ = 1 := by omega
  rw [e]
  rfl

theorem inv_step (p : FormatParser) (hinv : p.Inv) (q : Nat) (hq : q ≤ p.fmt.length) :
    FormatParser.Inv { p with ptr_ := q } :=
  ⟨hinv.1, by show q ≤ p.end_; rw [hinv.1]; exact hq⟩

/-- A plain byte is copied: the loop gives that byte and then what it gives from the next
byte on. -/
theorem run_of_plain (core : FloatCore) (no_exceptions : Bool) (args : List FormatArg)
    (p : FormatParser) (hinv : p.Inv) (c : Char) (rest : List Char)
    (h : p.fmt.drop p.ptr_ = c :: rest) (hc : no_brace c = true) :
    run core no_exceptions args p FormatOutput.init =
      prepend [c] (run core no_exceptions args { p with ptr_ := p.ptr_ + 1 }
        FormatOutput.init) := by
  obtain ⟨h1, h2, h3⟩ := peek_of_drop h
  have hc1 : c ≠ '{' := by intro hx; rw [hx] at hc; exact absurd hc (by decide)
  have hc2 : c ≠ '}' := by intro hx; rw [hx] at hc; exact absurd hc (by decide)
  rw [run_of_literal core no_exceptions args p hinv c rest h hc1 (fun hx => absurd hx hc2)]
  have hinv1 : FormatParser.Inv { p with ptr_ := p.ptr_ + 1 } := inv_step p hinv _ h1
  have one : ∀ (hr : rest = [] ∨ (∃ r, rest = '{' :: r) ∨ (∃ r, rest = '}' :: '}' :: r)),
      prepend ((c :: rest).take (p.literal_end - p.ptr_))
        (run core no_exceptions args { p with ptr_ := p.literal_end } FormatOutput.init) =
      prepend [c] (run core no_exceptions args { p with ptr_ := p.ptr_ + 1 }
        FormatOutput.init) := by
    intro hr
    rw [literal_end_of_last_plain p hinv c rest h hc hr]
    have e : p.ptr_ + 1 - p.ptr_ = 1 := by omega
    rw [e]
    rfl
  have more : ∀ (d : Char) (r : List Char), rest = d :: r → d ≠ '{' →
      (d = '}' → r.head? ≠ some '}') →
      prepend ((c :: rest).take (p.literal_end - p.ptr_))
        (run core no_exceptions args { p with ptr_ := p.literal_end } FormatOutput.init) =
      prepend [c] (run core no_exceptions args { p with ptr_ := p.ptr_ + 1 }
        FormatOutput.init) := by
    intro d r hd hd1 hd2
    have hlit := literal_end_of_plain p hinv c rest h hc
    have hnext := run_of_literal core no_exceptions args { p with ptr_ := p.ptr_ + 1 } hinv1 d r
      (by rw [← hd]; exact h3) hd1 hd2
    have hp := @peek_of_drop { p with ptr_ := p.ptr_ + 1 } (p.ptr_ + 1) d r
      (by show p.fmt.drop (p.ptr_ + 1) = _; rw [h3, hd])
    have hb := literal_end_bounds { p with ptr_ := p.ptr_ + 1 } hinv.1
      (by show p.ptr_ + 1 < p.end_; rw [hinv.1]; exact hp.1)
      (by show FormatParser.peek { p with ptr_ := p.ptr_ + 1 } (p.ptr_ + 1) ≠ '{'
          rw [hp.2.1]; exact hd1)
      (fun hx => not_next_byte { p with ptr_ := p.ptr_ + 1 } hinv1 (p.ptr_ + 1) r '}' hp.2.2
        (hd2 (hp.2.1.symm.trans hx.1)) hx.2)
    rw [hnext, prepend_prepend, ← hlit, ← hd]
    have e : p.literal_end - p.ptr_ = (p.literal_end - (p.ptr_ + 1)) + 1 := by
      have := hb.1
      rw [← hlit] at this
      show p.literal_end - p.ptr_ = (p.literal_end - (p.ptr_ + 1)) + 1
      have h5 : p.ptr_ + 1 < p.literal_end := this
      omega
    rw [e, List.take_succ_cons]
    rfl
  cases rest with
  | nil => exact one (.inl rfl)
  | cons d r =>
    by_cases hd1 : d = '{'
    · exact one (.inr (.inl ⟨r, by rw [hd1]⟩))
    · by_cases hd2 : d = '}'
      · cases r with
        | nil => exact more d [] rfl hd1 (fun _ => by simp)
        | cons e r2 =>
          by_cases he : e = '}'
          · exact one (.inr (.inr ⟨r2, by rw [hd2, he]⟩))
          · exact more d (e :: r2) rfl hd1 (fun _ => by simpa using he)
      · exact more d r rfl hd1 (fun hx => absurd hx hd2)

theorem drop_add_of_drop_eq_append {buf l rest : List Char} {q : Nat}
    (hq : q ≤ buf.length) (h : buf.drop q = l ++ rest) :
    buf.drop (q + l.length) = rest ∧ q + l.length ≤ buf.length := by
  refine ⟨?_, ?_⟩
  · rw [← List.drop_drop, h, List.drop_left]
  · have := congrArg List.length h
    rw [List.length_drop, List.length_append] at this
    omega

/-- A run of plain bytes is copied. -/
theorem run_of_plain_run (core : FloatCore) (no_exceptions : Bool) (args : List FormatArg) :
    ∀ (l rest : List Char) (p : FormatParser), p.Inv → p.fmt.drop p.ptr_ = l ++ rest →
      (∀ c ∈ l, no_brace c = true) →
      run core no_exceptions args p FormatOutput.init =
        prepend l (run core no_exceptions args { p with ptr_ := p.ptr_ + l.length }
          FormatOutput.init) := by
  intro l
  induction l with
  | nil =>
    intro rest p _ _ _
    rw [prepend_nil]
    rfl
  | cons c l ih =>
    intro rest p hinv h hall
    have hc : no_brace c = true := hall c (List.mem_cons_self _ _)
    obtain ⟨h1, _, h3⟩ := @peek_of_drop p p.ptr_ c (l ++ rest) h
    rw [run_of_plain core no_exceptions args p hinv c (l ++ rest) h hc,
      ih rest { p with ptr_ := p.ptr_ + 1 } (inv_step p hinv _ h1) h3
        (fun x hx => hall x (List.mem_cons_of_mem _ hx)),
      prepend_prepend]
    have e : p.ptr_ + 1 + l.length = p.ptr_ + (c :: l).length := by
      rw [List.length_cons]; omega
    show prepend ([c] ++ l) (run core no_exceptions args
      { p with ptr_ := p.ptr_ + 1 + l.length } FormatOutput.init) = _
    rw [e]
    rfl

theorem run_plain_template (core : FloatCore) (no_exceptions : Bool) (args : List FormatArg) :
    ∀ (s : List Char) (p : FormatParser), p.Inv → p.fmt.drop p.ptr_ = s → '{' ∉ s →
      ¬ (['}', '}'] <:+: s) →
      run core no_exceptions args p FormatOutput.init = .ok s := by
  intro s
  induction s with
  | nil =>
    intro p hinv h _ _
    exact run_of_nil core no_exceptions args p hinv h _
  | cons c rest ih =>
    intro p hinv h hopen hclose
    obtain ⟨h1, _, h3⟩ := peek_of_drop h
    have hrest := ih { p with ptr_ := p.ptr_ + 1 } (inv_step p hinv _ h1) h3
      (fun hx => hopen (List.mem_cons_of_mem _ hx))
      (fun hx => hclose (hx.trans (List.infix_cons (List.infix_refl rest))))
    have hc1 : c ≠ '{' := fun hx => hopen (by rw [hx]; exact List.mem_cons_self _ _)
    by_cases hc2 : c = '}'
    · subst hc2
      have hr : rest.head? ≠ some '}' := by
        intro hx
        cases rest with
        | nil => cases hx
        | cons d r =>
          rw [List.head?_cons] at hx
          have hd : d = '}' := Option.some.inj hx
          subst hd
          exact hclose ⟨[], r, rfl⟩
      rw [run_of_lone_close core no_exceptions args p hinv rest h hr, hrest]
      rfl
    · have hc : no_brace c = true := by simp [no_brace, hc1, hc2]
      rw [run_of_plain core no_exceptions args p hinv c rest h hc, hrest]
      rfl

/-- C1: a template without `{` and without two adjacent `}` is returned unchanged, whatever
the arguments; so a template without braces comes back verbatim and a lone `}` is copied
as literal text. -/
theorem format_plain_template (core : FloatCore) (no_exceptions : Bool) (fmt : List Char)
    (args : List FormatArg) (hopen : '{' ∉ fmt) (hclose : ¬ (['}', '}'] <:+: fmt)) :
    format core no_exceptions fmt args = .ok fmt := by
  unfold format
  rw [format_impl_eq_run]
  exact run_plain_template core no_exceptions args fmt (FormatParser.init fmt)
    (FormatParser.inv_init fmt) rfl hopen hclose

/-- Witness of C1 -/
theorem format_plain_template_witness :
    format FloatCore.blank false "test\x7d".toList [.INT 1] = .ok "test\x7d".toList :=
  format_plain_template FloatCore.blank false "test\x7d".toList [.INT 1] (by decide) (by decide)

theorem is_piece_cases (l : List Char) (h : is_piece l = true) :
    (∀ c ∈ l, no_brace c = true) ∨ l = ['{', '{'] ∨ l = ['}', '}'] := by
  unfold is_piece at h
  rw [Bool.or_eq_true, Bool.or_eq_true, List.all_eq_true, beq_iff_eq, beq_iff_eq] at h
  rcases h with (h | h) | h
  · exact .inl h
  · exact .inr (.inl h)
  · exact .inr (.inr h)

theorem run_escape_pieces (core : FloatCore) (no_exceptions : Bool) (args : List FormatArg) :
    ∀ (pieces : List (List Char)) (p : FormatParser), p.Inv →
      p.fmt.drop p.ptr_ = pieces.flatten → (∀ l ∈ pieces, is_piece l = true) →
      run core no_exceptions args p FormatOutput.init =
        .ok (pieces.map unescape_piece).flatten := by
  intro pieces
  induction pieces with
  | nil =>
    intro p hinv h _
    exact run_of_nil core no_exceptions args p hinv h _
  | cons l ps ih =>
    intro p hinv h hall
    rw [List.flatten_cons] at h
    obtain ⟨hd, hle⟩ := drop_add_of_drop_eq_append (by rw [← hinv.1]; exact hinv.2) h
    have hps : ∀ x ∈ ps, is_piece x = true := fun x hx => hall x (List.mem_cons_of_mem _ hx)
    rw [List.map_cons, List.flatten_cons]
    rcases is_piece_cases l (hall l (List.mem_cons_self _ _)) with hl | hl | hl
    · have hu : unescape_piece l = l := by
        unfold unescape_piece
        rw [if_neg, if_neg]
        · intro hx; rw [hx] at hl; exact absurd (hl '}' (by simp)) (by decide)
        · intro hx; rw [hx] at hl; exact absurd (hl '{' (by simp)) (by decide)
      rw [run_of_plain_run core no_exceptions args l ps.flatten p hinv h hl,
        ih { p with ptr_ := p.ptr_ + l.length } (inv_step p hinv _ hle) hd hps, hu]
      rfl
    · subst hl
      rw [run_of_escape_open core no_exceptions args p hinv ps.flatten h,
        ih { p with ptr_ := p.ptr_ + 2 } (inv_step p hinv _ hle) hd hps]
      rfl
    · subst hl
      rw [run_of_escape_close core no_exceptions args p hinv ps.flatten h,
        ih { p with ptr_ := p.ptr_ + 2 } (inv_step p hinv _ hle) hd hps]
      rfl

theorem format_of_pieces (core : FloatCore) (no_exceptions : Bool)
    (pieces : List (List Char)) (args : List FormatArg) (h : ∀ l ∈ pieces, is_piece l = true) :
    format core no_exceptions pieces.flatten args = .ok (pieces.map unescape_piece).flatten := by
  unfold format
  rw [format_impl_eq_run]
  exact run_escape_pieces core no_exceptions args pieces (FormatParser.init pieces.flatten)
    (FormatParser.inv_init _) rfl h

/-- C2: for a template that is a concatenation of pieces, each a byte string without braces,
the pair `{{` or the pair `}}`, `format` returns the pieces with every `{{` replaced by `{`
and every `}}` by `}`, whatever the arguments: `{{` gives `{`, `}}` gives `}`, `{{}}` gives
`{}` and `{{value}}` gives `{value}`. -/
theorem format_escape_pieces (core : FloatCore) (no_exceptions : Bool)
    (pieces : List (List Char)) (args : List FormatArg) (h : ∀ l ∈ pieces, is_piece l = true) :
    format core no_exceptions pieces.flatten args = .ok (pieces.map unescape_piece).flatten ∧
    format core no_exceptions ['{', '{'] args = .ok ['{'] ∧
    format core no_exceptions ['}', '}'] args = .ok ['}'] ∧
    format core no_exceptions ['{', '{', '}', '}'] args = .ok ['{', '}'] ∧
    format core no_exceptions ("\x7b\x7b" ++ "value" ++ "\x7d\x7d").toList args =
      .ok ("\x7b" ++ "value" ++ "\x7d").toList :=
  ⟨format_of_pieces core no_exceptions pieces args h,
    format_of_pieces core no_exceptions [['{', '{']] args (by decide),
    format_of_pieces core no_exceptions [['}', '}']] args (by decide),
    format_of_pieces core no_exceptions [['{', '{'], ['}', '}']] args (by decide),
    format_of_pieces core no_exceptions [['{', '{'], "value".toList, ['}', '}']] args
      (by decide)⟩

/-- Witness of C2 -/
theorem format_escape_pieces_witness :
    format FloatCore.blank false "Use \x7b\x7b\x7d\x7d for braces".toList [.INT 7] =
      .ok "Use \x7b\x7d for braces".toList :=
  (format_escape_pieces FloatCore.blank false
    ["Use ".toList, ['{', '{'], ['}', '}'], " for braces".toList] [.INT 7] (by decide)).1

/-! ## Fields that are not closed -/

theorem advance_succ (p : FormatParser) (k : Nat) :
    p.advance (k + 1) = (p.advance k).next.2 := by
  induction k generalizing p with
  | zero => rfl
  | succ k ih =>
    show (p.next.2).advance (k + 1) = _
    rw [ih p.next.2]
    rfl

theorem advance_inv (p : FormatParser) (hinv : p.Inv) (k : Nat) : (p.advance k).Inv := by
  induction k generalizing p with
  | zero => exact hinv
  | succ k ih => exact ih p.next.2 (next_inv p hinv)

theorem advance_fmt (p : FormatParser) (hinv : p.Inv) (k : Nat) :
    (p.advance k).fmt = p.fmt := by
  induction k generalizing p with
  | zero => rfl
  | succ k ih =>
    show ((p.next.2).advance k).fmt = _
    rw [ih p.next.2 (next_inv p hinv), (next_bounds p hinv).1]

/-- At the end of the template the parser stays where it is. -/
theorem advance_of_end (p : FormatParser) (h : p.end_ ≤ p.ptr_) (k : Nat) :
    p.advance k = p := by
  have hn : p.next.2 = p := by
    unfold FormatParser.next
    rw [if_pos h]
  induction k with
  | zero => rfl
  | succ k ih =>
    show (p.next.2).advance k = p
    rw [hn, ih]

theorem parser_after_inv (fmt : List Char) (k : Nat) : (parser_after fmt k).Inv :=
  advance_inv _ (FormatParser.inv_init fmt) k

theorem parser_after_fmt (fmt : List Char) (k : Nat) : (parser_after fmt k).fmt = fmt :=
  advance_fmt _ (FormatParser.inv_init fmt) k

theorem flatMap_range_succ (n : Nat) (f : Nat → List Char) :
    (List.range (n + 1)).flatMap f = f 0 ++ (List.range n).flatMap (fun k => f (k + 1)) := by
  rw [List.range_succ_eq_map, List.flatMap_cons]
  congr 1
  induction List.range n with
  | nil => rfl
  | cons a l ih => rw [List.map_cons, List.flatMap_cons, List.flatMap_cons, ih]

theorem flatMap_range_nil (n : Nat) (f : Nat → List Char) (h : ∀ k, f k = []) :
    (List.range n).flatMap f = [] := by
  induction List.range n with
  | nil => rfl
  | cons a l ih => rw [List.flatMap_cons, ih, h a]; rfl

theorem segment_text_of_end (core : FloatCore) (no_exceptions : Bool) (args : List FormatArg)
    (fmt : List Char) (seg : ParseSegment) (h : seg.type = .END) :
    segment_text core no_exceptions args fmt seg = [] := by
  unfold segment_text format_step
  rw [h]

/-- When no segment is an `ERROR` that throws, the loop returns the texts of the segments
one after the other. -/
theorem run_ok (core : FloatCore) (no_exceptions : Bool) (args : List FormatArg) :
    ∀ (n : Nat) (p : FormatParser) (out : FormatOutput), p.Inv → p.end_ - p.ptr_ < n →
      (∀ k, (p.advance k).next.1.type = .ERROR → no_exceptions = true) →
      run core no_exceptions args p out =
        .ok (out.bytes ++ (List.range n).flatMap
          (fun k => segment_text core no_exceptions args p.fmt (p.advance k).next.1)) := by
  intro n
  induction n with
  | zero => intro p out _ h; omega
  | succ n ih =>
    intro p out hinv hn herr
    have hb := next_bounds p hinv
    rw [run_step core no_exceptions args p out hinv]
    rcases format_step_cases core no_exceptions args p.fmt p.next.1 with
      ⟨h1, h⟩ | ⟨h1, h2, _⟩ | ⟨hne, _, h⟩
    · rw [h out, flatMap_range_nil, List.append_nil]
      intro k
      rw [advance_of_end p (hb.2.2.2.2.2.1 h1).2]
      exact segment_text_of_end core no_exceptions args p.fmt _ h1
    · rw [herr 0 h1] at h2
      cases h2
    · obtain ⟨o, ho, hob⟩ := h out
      rw [ho]
      have hlt := hb.2.2.2.2.2.2 hne
      have hle := hb.2.2.2.2.1
      show run core no_exceptions args p.next.2 o = _
      rw [ih p.next.2 o (next_inv p hinv) (by rw [hb.2.1]; omega) (fun k hk => herr (k + 1) hk),
        hob, flatMap_range_succ, hb.1, List.append_assoc]
      rfl

theorem format_ok (core : FloatCore) (no_exceptions : Bool) (fmt : List Char)
    (args : List FormatArg)
    (herr : ∀ k, (segment_at fmt k).type = .ERROR → no_exceptions = true) :
    format core no_exceptions fmt args =
      .ok ((List.range (fmt.length + 1)).flatMap
        (fun k => segment_text core no_exceptions args fmt (segment_at fmt k))) := by
  unfold format
  rw [format_impl_eq_run, run_ok core no_exceptions args (fmt.length + 1)
    (FormatParser.init fmt) _ (FormatParser.inv_init fmt)
    (by show fmt.length - 0 < fmt.length + 1; omega) herr]
  rfl

theorem advance_add (p : FormatParser) (n j : Nat) :
    p.advance (n + j) = (p.advance n).advance j := by
  induction n generalizing p with
  | zero => rw [Nat.zero_add]; rfl
  | succ n ih =>
    rw [Nat.add_right_comm]
    exact ih p.next.2

/-- A property of the parser that holds at the segment boundaries up to one at the end of
the template holds at all of them. -/
theorem forall_boundary (fmt : List Char) (n : Nat) (P : FormatParser → Prop)
    (hend : (parser_after fmt n).end_ ≤ (parser_after fmt n).ptr_)
    (h : ∀ k, k ≤ n → P (parser_after fmt k)) : ∀ k, P (parser_after fmt k) := by
  intro k
  by_cases hk : k ≤ n
  · exact h k hk
  · obtain ⟨j, rfl⟩ : ∃ j, k = n + j := ⟨k - n, by omega⟩
    unfold parser_after at hend ⊢
    rw [advance_add, advance_of_end _ hend]
    exact h n (le_refl n)

/-! ## The argument index of a field -/

theorem parser_after_succ (fmt : List Char) (k : Nat) :
    parser_after fmt (k + 1) = (parser_after fmt k).next.2 :=
  advance_succ _ k

theorem not_digit_close : is_digit_char '}' = false := by decide

theorem decimal_value_append (ds : List Char) (c : Char) :
    decimal_value (ds ++ [c]) = decimal_value ds * 10 + ((c.toNat : Int) - 48) := by
  unfold decimal_value
  rw [List.foldl_append]
  rfl

theorem digit_char (d : Nat) (h : d < 10) :
    is_digit_char (Char.ofNat (48 + d)) = true ∧ (Char.ofNat (48 + d)).toNat = 48 + d := by
  interval_cases d <;> decide

theorem digit_run_zero (b : Nat) (digit : Nat → Char) : digit_run b digit 0 = [] := by
  unfold digit_run
  rw [Nat.digits_zero]
  rfl

theorem digit_run_of_pos (b : Nat) (digit : Nat → Char) (v : Nat) (hb : 1 < b) (hv : 0 < v) :
    digit_run b digit v = digit_run b digit (v / b) ++ [digit (v % b)] := by
  unfold digit_run
  rw [Nat.digits_def' hb hv, List.reverse_cons, List.map_append]
  rfl

theorem digit_run_congr (b : Nat) (f g : Nat → Char) (v : Nat) (hb : 1 < b)
    (h : ∀ d, d < b → f d = g d) : digit_run b f v = digit_run b g v := by
  unfold digit_run
  apply List.map_congr_left
  intro d hd
  exact h d (Nat.digits_lt_base hb (List.mem_reverse.mp hd))

/-- The loop of `uint_to_hex`, `uint_to_oct` and `uint_to_bin` puts the digits of the value
in base `2 ^ shift` before what is written already. -/
theorem radix_loop_eq (shift : Nat) (digit : Nat → Char) (hs : 0 < shift) :
    ∀ fuel value acc, value ≤ fuel →
      radix_loop shift digit fuel value acc = digit_run (2 ^ shift) digit value ++ acc := by
  have hb : 1 < 2 ^ shift := Nat.one_lt_two_pow (by omega)
  intro fuel
  induction fuel with
  | zero =>
    intro value acc h
    have h0 : value = 0 := by omega
    subst h0
    rw [digit_run_zero]
    rfl
  | succ n ih =>
    intro value acc h
    unfold radix_loop
    by_cases hv : value > 0
    · rw [if_pos hv, Nat.shiftRight_eq_div_pow, Nat.and_pow_two_sub_one_eq_mod]
      have hlt : value / 2 ^ shift < value := Nat.div_lt_self hv hb
      rw [ih _ _ (by omega), digit_run_of_pos _ digit value hb hv, List.append_assoc]
      rfl
    · have h0 : value = 0 := by omega
      subst h0
      rw [if_neg hv, digit_run_zero]
      rfl

theorem hex_table (uppercase : Bool) :
    ∀ d, d < 16 → (if uppercase then hex_digits_upper else hex_digits_lower).getD d NUL =
      hex_digit uppercase d := by
  cases uppercase <;> decide

theorem uint_to_hex_eq (value : Nat) (uppercase : Bool) :
    uint_to_hex value uppercase = numeral 16 (hex_digit uppercase) value := by
  unfold uint_to_hex numeral
  dsimp only
  by_cases hv : value = 0
  · rw [if_pos hv, if_pos hv]
    cases uppercase <;> rfl
  · rw [if_neg hv, if_neg hv, radix_loop_eq 4 _ (by decide) _ _ _ (le_refl _), List.append_nil]
    exact digit_run_congr 16 _ _ value (by decide) (hex_table uppercase)

theorem uint_to_oct_eq (value : Nat) : uint_to_oct value = numeral 8 dec_digit value := by
  unfold uint_to_oct numeral
  by_cases hv : value = 0
  · rw [if_pos hv, if_pos hv]
    rfl
  · rw [if_neg hv, if_neg hv, radix_loop_eq 3 _ (by decide) _ _ _ (le_refl _), List.append_nil]
    rfl

theorem uint_to_bin_eq (value : Nat) : uint_to_bin value = numeral 2 dec_digit value := by
  unfold uint_to_bin numeral
  by_cases hv : value = 0
  · rw [if_pos hv, if_pos hv]
    rfl
  · rw [if_neg hv, if_neg hv, radix_loop_eq 1 _ (by decide) _ _ _ (le_refl _), List.append_nil]
    rfl

theorem digit_pairs_table :
    ∀ k, k < 100 → digit_pairs.getD (k * 2) NUL = dec_digit (k / 10) ∧
      digit_pairs.getD (k * 2 + 1) NUL = dec_digit (k % 10) := by
  decide

theorem digit_run_two (v : Nat) (hv : 10 ≤ v) :
    digit_run 10 dec_digit v =
      digit_run 10 dec_digit (v / 100) ++ [dec_digit (v % 100 / 10), dec_digit (v % 100 % 10)] := by
  rw [digit_run_of_pos 10 dec_digit v (by decide) (by omega),
    digit_run_of_pos 10 dec_digit (v / 10) (by decide) (by omega), List.append_assoc]
  have e1 : v / 10 / 10 = v / 100 := by omega
  have e2 : v / 10 % 10 = v % 100 / 10 := by omega
  have e3 : v % 10 = v % 100 % 10 := by omega
  rw [e1, e2, e3]
  rfl

/-- The loop of `uint_to_str_backward` writes the digits two at a time and leaves a value
below 100. -/
theorem uint_to_str_backward_loop_eq :
    ∀ fuel value acc, value ≤ fuel →
      (uint_to_str_backward_loop fuel value acc).1 < 100 ∧
      (0 < value → 0 < (uint_to_str_backward_loop fuel value acc).1) ∧
      digit_run 10 dec_digit (uint_to_str_backward_loop fuel value acc).1 ++
          (uint_to_str_backward_loop fuel value acc).2 =
        digit_run 10 dec_digit value ++ acc := by
  intro fuel
  induction fuel with
  | zero =>
    intro value acc h
    have h0 : value = 0 := by omega
    subst h0
    exact ⟨Nat.zero_lt_succ _, fun hx => absurd hx (Nat.lt_irrefl 0), rfl⟩
  | succ n ih =>
    intro value acc h
    unfold uint_to_str_backward_loop
    by_cases hv : value ≥ 100
    · rw [if_pos hv]
      dsimp only
      obtain ⟨h1, h2, h3⟩ := ih (value / 100)
        (digit_pairs.getD (value % 100 * 2) NUL :: digit_pairs.getD (value % 100 * 2 + 1) NUL :: acc)
        (by omega)
      refine ⟨h1, fun _ => h2 (by omega), ?_⟩
      obtain ⟨t1, t2⟩ := digit_pairs_table (value % 100) (Nat.mod_lt _ (by decide))
      rw [h3, t1, t2, digit_run_two value (by omega), List.append_assoc]
      rfl
    · rw [if_neg hv]
      exact ⟨by omega, fun hx => hx, rfl⟩

theorem uint_to_str_eq (value : Nat) : uint_to_str value = numeral 10 dec_digit value := by
  unfold uint_to_str uint_to_str_backward
  obtain ⟨h1, h2, h3⟩ := uint_to_str_backward_loop_eq value value [] (le_refl _)
  rw [List.append_nil] at h3
  rcases hr : uint_to_str_backward_loop value value [] with ⟨v, acc⟩
  rw [hr] at h1 h2 h3
  dsimp only at h1 h2 h3 ⊢
  obtain ⟨t1, t2⟩ := digit_pairs_table v h1
  unfold numeral
  by_cases hv : value = 0
  · subst hv
    have hr0 : uint_to_str_backward_loop 0 0 [] = (0, []) := rfl
    rw [hr0] at hr
    injection hr with e1 e2
    subst e1 e2
    rfl
  · have hpos : 0 < v := h2 (by omega)
    rw [if_neg hv, ← h3]
    by_cases h10 : v ≥ 10
    · rw [if_pos h10, t1, t2, digit_run_two v h10]
      have e1 : v / 100 = 0 := by omega
      have e2 : v % 100 = v := by omega
      rw [e1, e2, digit_run_zero]
      rfl
    · rw [if_neg h10, digit_run_of_pos 10 dec_digit v (by decide) hpos]
      have e1 : v / 10 = 0 := by omega
      have e2 : v % 10 = v := by omega
      rw [e1, e2, digit_run_zero]
      rfl

theorem numeral_value_append (b : Nat) (xs : List Char) (c : Char) :
    numeral_value b (xs ++ [c]) = numeral_value b xs * b + digit_value c := by
  unfold numeral_value
  rw [List.foldl_append]
  rfl

/-- Reading a digit run back gives the value. -/
theorem numeral_value_digit_run (b : Nat) (digit : Nat → Char) (hb : 1 < b)
    (hd : ∀ d, d < b → digit_value (digit d) = d) (v : Nat) :
    numeral_value b (digit_run b digit v) = v := by
  induction v using Nat.strong_induction_on with
  | _ v ih =>
    by_cases hv : v = 0
    · subst hv
      rw [digit_run_zero]
      rfl
    · have hlt : v / b < v := Nat.div_lt_self (by omega) hb
      rw [digit_run_of_pos b digit v hb (by omega), numeral_value_append, ih _ hlt,
        hd _ (Nat.mod_lt _ (by omega))]
      exact Nat.div_add_mod' v b

theorem numeral_value_numeral (b : Nat) (digit : Nat → Char) (hb : 1 < b)
    (hd : ∀ d, d < b → digit_value (digit d) = d) (v : Nat) :
    numeral_value b (numeral b digit v) = v := by
  unfold numeral
  by_cases hv : v = 0
  · subst hv
    rw [if_pos rfl]
    have h := numeral_value_append b [] (digit 0)
    rw [List.nil_append] at h
    rw [h, hd 0 (by omega)]
    show 0 * b + 0 = 0
    omega
  · rw [if_neg hv]
    exact numeral_value_digit_run b digit hb hd v

theorem digit_value_dec : ∀ d, d < 10 → digit_value (dec_digit d) = d := by decide

theorem digit_value_hex (upper : Bool) : ∀ d, d < 16 → digit_value (hex_digit upper d) = d := by
  cases upper <;> decide

theorem dec_digit_is_digit : ∀ d, d < 10 → is_digit_char (dec_digit d) = true := by decide

theorem mem_digit_run (b : Nat) (digit : Nat → Char) (hb : 1 < b) (v : Nat) (c : Char)
    (h : c ∈ digit_run b digit v) : ∃ d, d < b ∧ c = digit d := by
  unfold digit_run at h
  rw [List.mem_map] at h
  obtain ⟨d, hd, hc⟩ := h
  exact ⟨d, Nat.digits_lt_base hb (List.mem_reverse.mp hd), hc.symm⟩

theorem mem_numeral (b : Nat) (digit : Nat → Char) (hb : 1 < b) (v : Nat) (c : Char)
    (h : c ∈ numeral b digit v) : ∃ d, d < b ∧ c = digit d := by
  unfold numeral at h
  by_cases hv : v = 0
  · rw [if_pos hv, List.mem_singleton] at h
    exact ⟨0, by omega, h⟩
  · rw [if_neg hv] at h
    exact mem_digit_run b digit hb v c h

theorem numeral_ne_nil (b : Nat) (digit : Nat → Char) (v : Nat) : numeral b digit v ≠ [] := by
  unfold numeral digit_run
  by_cases hv : v = 0
  · rw [if_pos hv]
    exact List.cons_ne_nil _ _
  · rw [if_neg hv]
    intro h
    rw [List.map_eq_nil_iff, List.reverse_eq_nil_iff] at h
    exact hv (Nat.digits_eq_nil_iff_eq_zero.mp h)

/-- The numeral of a value other than 0 does not start with the digit 0. -/
theorem numeral_head (b : Nat) (digit : Nat → Char) (hb : 1 < b) (v : Nat) (hv : v ≠ 0) :
    ∃ d, 0 < d ∧ d < b ∧ (numeral b digit v).head? = some (digit d) := by
  unfold numeral digit_run
  rw [if_neg hv, List.head?_map, List.head?_reverse]
  have hne : Nat.digits b v ≠ [] := fun h => hv (Nat.digits_eq_nil_iff_eq_zero.mp h)
  rw [List.getLast?_eq_getLast _ hne]
  refine ⟨(Nat.digits b v).getLast hne, ?_, ?_, rfl⟩
  · exact Nat.pos_of_ne_zero (Nat.getLast_digit_ne_zero b hv)
  · exact Nat.digits_lt_base hb (List.getLast_mem hne)

theorem decimal_value_digit_run (v : Nat) :
    decimal_value (digit_run 10 dec_digit v) = (v : Int) := by
  induction v using Nat.strong_induction_on with
  | _ v ih =>
    by_cases hv : v = 0
    · subst hv
      rw [digit_run_zero]
      rfl
    · have hlt : v / 10 < v := Nat.div_lt_self (by omega) (by decide)
      have hm : v % 10 < 10 := Nat.mod_lt _ (by decide)
      rw [digit_run_of_pos 10 dec_digit v (by decide) (by omega), decimal_value_append, ih _ hlt,
        show dec_digit (v % 10) = Char.ofNat (48 + v % 10) from rfl, (digit_char _ hm).2]
      omega

theorem decimal_value_numeral (v : Nat) :
    decimal_value (numeral 10 dec_digit v) = (v : Int) := by
  unfold numeral
  by_cases hv : v = 0
  · subst hv
    rfl
  · rw [if_neg hv]
    exact decimal_value_digit_run v

/-- The unsigned cast of the magnitude of a signed value of `bits` bits. -/
theorem wrap_abs (bits : Nat) (v : Int) (h : v.natAbs < 2 ^ bits) :
    ((if v < 0 then -v else v) % (2 : Int) ^ bits).toNat = v.natAbs := by
  have h2 : ((2 : Int) ^ bits) = ((2 ^ bits : Nat) : Int) := by push_cast; rfl
  rw [h2]
  by_cases hv : v < 0
  · rw [if_pos hv, Int.emod_eq_of_lt (by omega) (by omega)]
    omega
  · rw [if_neg hv, Int.emod_eq_of_lt (by omega) (by omega)]
    omega

theorem int_to_str_eq (bits : Nat) (v : Int) (h : v.natAbs < 2 ^ bits) :
    int_to_str bits v =
      if v < 0 then '-' :: numeral 10 dec_digit v.natAbs else numeral 10 dec_digit v.natAbs := by
  have hw := wrap_abs bits v h
  unfold int_to_str
  by_cases hv : v < 0
  · rw [if_pos hv] at hw
    rw [if_pos hv, if_pos hv, hw, uint_to_str_eq]
  · rw [if_neg hv] at hw
    rw [if_neg hv, if_neg hv, hw, uint_to_str_eq]

/-! ## A field with a spec -/

/-- A valid field with a spec: `{`, an optional digit run, `:`, the spec and `}`. -/
theorem parse_placeholder_of_spec_field (p : FormatParser) (hinv : p.Inv)
    (rest r2 tail : List Char) (h : p.fmt.drop p.ptr_ = '{' :: rest)
    (hr : rest.dropWhile is_digit_char = ':' :: r2)
    (hc : r2.dropWhile no_close = '}' :: tail) :
    p.parse_placeholder.1.type = .PLACEHOLDER ∧
    p.parse_placeholder.1.placeholder.arg_index =
      (FormatParser.parse_arg_index { p with ptr_ := p.ptr_ + 1 }).1 ∧
    p.parse_placeholder.1.placeholder.spec = (parse_format_spec (r2.takeWhile no_close) {}).2 ∧
    p.parse_placeholder.2 =
      { (FormatParser.parse_arg_index { p with ptr_ := p.ptr_ + 1 }).2 with
        ptr_ := p.ptr_ + 1 + (rest.takeWhile is_digit_char).length + 1 +
          (r2.takeWhile no_close).length + 1 } := by
  obtain ⟨h1, _, h3⟩ := peek_of_drop h
  have hA := parse_arg_index_ptr { p with ptr_ := p.ptr_ + 1 } hinv.1
  simp only [h3] at hA
  obtain ⟨hA1, hA2, hA3, hA4⟩ := hA
  have hendA : (FormatParser.parse_arg_index { p with ptr_ := p.ptr_ + 1 }).2.end_ =
      (FormatParser.parse_arg_index { p with ptr_ := p.ptr_ + 1 }).2.fmt.length := by
    rw [hA1, hA2]; exact hinv.1
  have hB := parse_spec_field_of_colon _ hendA r2 (by rw [hA1, hA4, hr])
  have hpeek : (FormatParser.parse_spec_field (FormatParser.parse_arg_index
        { p with ptr_ := p.ptr_ + 1 }).2).2.ptr_ <
      (FormatParser.parse_spec_field (FormatParser.parse_arg_index
        { p with ptr_ := p.ptr_ + 1 }).2).2.end_ ∧
      (FormatParser.parse_spec_field (FormatParser.parse_arg_index
        { p with ptr_ := p.ptr_ + 1 }).2).2.peek
        (FormatParser.parse_spec_field (FormatParser.parse_arg_index
          { p with ptr_ := p.ptr_ + 1 }).2).2.ptr_ = '}' := by
    rw [hB]
    rw [peek_iff_head _ (by exact hendA)]
    show (List.drop (_ + 1 + (r2.takeWhile no_close).length) _).head? = some '}'
    rw [hA1, Nat.add_assoc, ← List.drop_drop, hA4, hr, Nat.add_comm 1, ← List.drop_drop,
      List.drop_drop, List.drop_succ_cons, drop_length_takeWhile, hc]
    rfl
  rw [parse_placeholder_eq, if_pos hpeek, hB]
  refine ⟨rfl, rfl, rfl, ?_⟩
  dsimp only
  rw [hA3]

/-- A valid field with a spec: the loop gives the text of the field under the parsed spec
and then what it gives behind the field. -/
theorem run_of_spec_field (core : FloatCore) (no_exceptions : Bool) (args : List FormatArg)
    (p : FormatParser) (hinv : p.Inv) (rest r2 tail : List Char)
    (h : p.fmt.drop p.ptr_ = '{' :: rest)
    (hr : rest.dropWhile is_digit_char = ':' :: r2)
    (hc : r2.dropWhile no_close = '}' :: tail) :
    run core no_exceptions args p FormatOutput.init =
      prepend
        (field_text core args (FormatParser.parse_arg_index { p with ptr_ := p.ptr_ + 1 }).1
          (parse_format_spec (r2.takeWhile no_close) {}).2)
        (run core no_exceptions args
          { (FormatParser.parse_arg_index { p with ptr_ := p.ptr_ + 1 }).2 with
            ptr_ := p.ptr_ + 1 + (rest.takeWhile is_digit_char).length + 1 +
              (r2.takeWhile no_close).length + 1 }
          FormatOutput.init) := by
  have hne : rest.head? ≠ some '{' := by
    cases rest with
    | nil => simp
    | cons d r =>
      intro hx
      rw [List.head?_cons] at hx
      have hd : d = '{' := Option.some.inj hx
      subst hd
      rw [List.dropWhile_cons_of_neg (by decide)] at hr
      cases hr
  obtain ⟨hty, hidx, hspec, hnext⟩ := parse_placeholder_of_spec_field p hinv rest r2 tail h hr hc
  have hn := next_of_field p hinv rest h hne
  rw [run_step core no_exceptions args p _ hinv, hn, hnext]
  unfold field_text
  by_cases hin : (FormatParser.parse_arg_index { p with ptr_ := p.ptr_ + 1 }).1 ≥ 0 ∧
      (FormatParser.parse_arg_index { p with ptr_ := p.ptr_ + 1 }).1.toNat < args.length
  · rw [if_pos hin]
    simp only [format_step, hty, hidx, hspec, if_pos hin]
    rw [run_bytes, format_arg_bytes, FormatOutput.bytes_init, List.nil_append]
  · rw [if_neg hin]
    simp only [format_step, hty, hidx, hspec, if_neg hin]
    rw [run_bytes, FormatOutput.bytes_append, FormatOutput.bytes_init, List.nil_append]

/-- The template of one field `{:spec}`, formatted with one argument, is the rendering of
the argument under the parsed spec. -/
theorem format_single_field (core : FloatCore) (no_exceptions : Bool) (s : List Char)
    (arg : FormatArg) (hs : '}' ∉ s) :
    format core no_exceptions ('{' :: ':' :: (s ++ ['}'])) [arg] =
      .ok (rendered core arg (parse_format_spec s {}).2) := by
  have hall : ∀ c ∈ s, no_close c = true := by
    intro c hc
    unfold no_close
    rw [bne_iff_ne]
    intro hx
    exact hs (hx ▸ hc)
  have htw : (s ++ ['}']).takeWhile no_close = s := by
    rw [List.takeWhile_append_of_pos hall, List.takeWhile_cons_of_neg (by decide),
      List.append_nil]
  have hdw : (s ++ ['}']).dropWhile no_close = ['}'] := by
    rw [List.dropWhile_append_of_pos hall, List.dropWhile_cons_of_neg (by decide)]
  have hinv := FormatParser.inv_init ('{' :: ':' :: (s ++ ['}']))
  have hrun := run_of_spec_field core no_exceptions [arg]
    (FormatParser.init ('{' :: ':' :: (s ++ ['}']))) hinv (':' :: (s ++ ['}'])) (s ++ ['}']) []
    rfl (List.dropWhile_cons_of_neg (by decide)) hdw
  have hA := parse_arg_index_eq
    { FormatParser.init ('{' :: ':' :: (s ++ ['}'])) with ptr_ := 0 + 1 } rfl
  rw [show (FormatParser.fmt { FormatParser.init ('{' :: ':' :: (s ++ ['}'])) with
        ptr_ := 0 + 1 }).drop
      (FormatParser.ptr_ { FormatParser.init ('{' :: ':' :: (s ++ ['}'])) with ptr_ := 0 + 1 }) =
      ':' :: (s ++ ['}']) from rfl,
    List.takeWhile_cons_of_neg (by decide), if_pos rfl] at hA
  unfold format
  rw [format_impl_eq_run]
  rw [show (FormatParser.init ('{' :: ':' :: (s ++ ['}']))).ptr_ = 0 from rfl] at hrun
  rw [hrun, hA, htw, List.takeWhile_cons_of_neg (by decide)]
  rw [run_of_nil core no_exceptions [arg] _
    ⟨rfl, by
      show 0 + 1 + ([] : List Char).length + 1 + s.length + 1 ≤
        ('{' :: ':' :: (s ++ ['}'])).length
      simp only [List.length_cons, List.length_append, List.length_nil]
      omega⟩
    (by
      show List.drop (0 + 1 + ([] : List Char).length + 1 + s.length + 1)
        ('{' :: ':' :: (s ++ ['}'])) = []
      apply List.drop_eq_nil_of_le
      simp only [List.length_cons, List.length_append, List.length_nil]
      omega)]
  show prepend (field_text core [arg] 0 (parse_format_spec s {}).2)
    (.ok FormatOutput.init.bytes) = _
  unfold field_text
  rw [if_pos ⟨le_refl (0 : Int), Nat.zero_lt_one⟩]
  show Except.ok (rendered core arg (parse_format_spec s {}).2 ++ []) = _
  rw [List.append_nil]

/-! ## The switch of `format_arg` -/

/-- After the switch, `format_arg` pads the buffer under the adjusted spec. -/
theorem format_arg_of_buffer (core : FloatCore) (out : FormatOutput) (arg : FormatArg)
    (spec : FormatSpec) (b : List Char) (h : format_arg_switch core out arg spec = .inr b) :
    format_arg core out arg spec = apply_format_spec out b (adjusted_spec spec) := by
  unfold format_arg adjusted_spec
  rw [h]

/-- A case that returns inside the switch is the result of `format_arg`. -/
theorem format_arg_of_return (core : FloatCore) (out : FormatOutput) (arg : FormatArg)
    (spec : FormatSpec) (o : FormatOutput) (h : format_arg_switch core out arg spec = .inl o) :
    format_arg core out arg spec = o := by
  unfold format_arg
  rw [h]

/-- The integer cases leave their text in the buffer. -/
theorem format_arg_switch_integer (core : FloatCore) (out : FormatOutput) (arg : FormatArg)
    (spec : FormatSpec) (hint : arg.is_integer = true) :
    format_arg_switch core out arg spec = .inr (switch_buffer core arg spec) := by
  cases arg <;> first | rfl | exact absurd hint Bool.false_ne_true

theorem format_arg_integer (core : FloatCore) (out : FormatOutput) (arg : FormatArg)
    (spec : FormatSpec) (hint : arg.is_integer = true) :
    format_arg core out arg spec =
      apply_format_spec out (switch_buffer core arg spec) (adjusted_spec spec) :=
  format_arg_of_buffer core out arg spec _ (format_arg_switch_integer core out arg spec hint)

/-- The text of an integer depends on the type and the sign of the spec only. -/
theorem switch_buffer_integer_congr (core : FloatCore) (arg : FormatArg)
    (spec spec2 : FormatSpec) (hint : arg.is_integer = true) (ht : spec.type = spec2.type)
    (hs : spec.sign = spec2.sign) :
    switch_buffer core arg spec = switch_buffer core arg spec2 := by
  cases arg <;> first
    | exact absurd hint Bool.false_ne_true
    | (simp only [switch_buffer, format_arg_switch, signed_buffer, unsigned_buffer, ht, hs])

/-- The text of an integer is not empty. -/
theorem switch_buffer_integer_ne_nil (core : FloatCore) (arg : FormatArg) (spec : FormatSpec)
    (hint : arg.is_integer = true) : switch_buffer core arg spec ≠ [] := by
  cases arg <;> first
    | exact absurd hint Bool.false_ne_true
    | (simp only [switch_buffer, format_arg_switch, signed_buffer, unsigned_buffer, int_to_str,
        uint_to_hex_eq, uint_to_oct_eq, uint_to_bin_eq, uint_to_str_eq]
       split_ifs <;> first
         | exact List.cons_ne_nil _ _
         | exact numeral_ne_nil _ _ _)

/-- Sign-aware padding of a content that starts with a sign byte. -/
theorem apply_format_spec_sign_first (out : FormatOutput) (c : Char) (rest : List Char)
    (spec : FormatSpec) (halign : spec.align = '=')
    (hlen : (((c :: rest).length : Nat) : Int) < spec.width) (hsign : is_sign_byte c = true) :
    (apply_format_spec out (c :: rest) spec).bytes =
      out.bytes ++ [c] ++ List.replicate (spec.width.toNat - (c :: rest).length) spec.fill ++
        rest := by
  have ha : (if spec.align ≠ NUL then spec.align else '<') = '=' := by rw [halign]; decide
  have hp := apply_format_spec_padded out (c :: rest) spec hlen _ ha
  rw [if_neg (by decide), if_neg (by decide), if_neg (by decide), if_pos rfl] at hp
  have hs : c = '-' ∨ c = '+' ∨ c = ' ' := by
    simpa [is_sign_byte, or_assoc] using hsign
  rw [hp, if_pos ⟨by simp, by simpa using hs⟩, FormatOutput.bytes_append,
    FormatOutput.bytes_append_fill, FormatOutput.bytes_append_char]
  simp

/-- Sign-aware padding of a content that does not start with a sign byte. -/
theorem apply_format_spec_sign_none (out : FormatOutput) (c : Char) (rest : List Char)
    (spec : FormatSpec) (halign : spec.align = '=')
    (hlen : (((c :: rest).length : Nat) : Int) < spec.width) (hsign : is_sign_byte c = false) :
    (apply_format_spec out (c :: rest) spec).bytes =
      out.bytes ++ List.replicate (spec.width.toNat - (c :: rest).length) spec.fill ++
        c :: rest := by
  have ha : (if spec.align ≠ NUL then spec.align else '<') = '=' := by rw [halign]; decide
  have hp := apply_format_spec_padded out (c :: rest) spec hlen _ ha
  rw [if_neg (by decide), if_neg (by decide), if_neg (by decide), if_pos rfl] at hp
  have hs : ¬ (c = '-' ∨ c = '+' ∨ c = ' ') := by
    simpa [is_sign_byte, and_assoc] using hsign
  have hn : ¬ ((c :: rest).length > 0 ∧ ((c :: rest).getD 0 NUL = '-' ∨
      (c :: rest).getD 0 NUL = '+' ∨ (c :: rest).getD 0 NUL = ' ')) := by
    simpa using hs
  rw [hp, if_neg hn, FormatOutput.bytes_append, FormatOutput.bytes_append_fill]

/-! ## Flags that `format_arg` does not read -/

/-- The switch does not read the zero-pad flag. -/
theorem format_arg_switch_zero_pad (core : FloatCore) (out : FormatOutput) (arg : FormatArg)
    (spec : FormatSpec) (b : Bool) :
    format_arg_switch core out arg { spec with zero_pad := b } =
      format_arg_switch core out arg spec := by
  cases arg with
  | CSTRING v => cases v <;> rfl
  | _ => rfl

/-- The switch does not read the alternate-form flag. -/
theorem format_arg_switch_alt_form (core : FloatCore) (out : FormatOutput) (arg : FormatArg)
    (spec : FormatSpec) (b : Bool) :
    format_arg_switch core out arg { spec with alt_form := b } =
      format_arg_switch core out arg spec := by
  cases arg with
  | CSTRING v => cases v <;> rfl
  | _ => rfl

/-- The function `format_arg` does not read the alternate-form flag. -/
theorem format_arg_alt_form_eq (core : FloatCore) (out : FormatOutput) (arg : FormatArg)
    (spec : FormatSpec) (b : Bool) :
    format_arg core out arg { spec with alt_form := b } = format_arg core out arg spec := by
  unfold format_arg
  rw [format_arg_switch_alt_form core out arg spec b]
  cases format_arg_switch core out arg spec with
  | inl o => rfl
  | inr buffer =>
    dsimp only
    by_cases h : spec.zero_pad = true ∧ spec.width > 0 ∧ spec.align = NUL
    · rw [if_pos h, if_pos h]
      rfl
    · rw [if_neg h, if_neg h]
      rfl

/-- The blocks after `// alt form` keep the flag. -/
theorem spec_tail_alt_form (s : List Char) (st : Nat × FormatSpec) :
    (spec_type s (spec_precision s (spec_width s (spec_zero_pad s st)))).2.alt_form =
      st.2.alt_form := by
  have h1 : ∀ st, (spec_zero_pad s st).2.alt_form = st.2.alt_form := by
    intro st; unfold spec_zero_pad; split_ifs <;> rfl
  have h2 : ∀ st, (spec_width s st).2.alt_form = st.2.alt_form := by
    intro st; unfold spec_width; split_ifs <;> rfl
  have h3 : ∀ st, (spec_precision s st).2.alt_form = st.2.alt_form := by
    intro st; unfold spec_precision; split_ifs <;> rfl
  have h4 : ∀ st, (spec_type s st).2.alt_form = st.2.alt_form := by
    intro st; unfold spec_type; split_ifs <;> rfl
  rw [h4, h3, h2, h1]

/-- A spec text that starts with `#`, not followed by an alignment byte, sets the flag. -/
theorem parse_format_spec_alt_form (rest : List Char) (spec : FormatSpec)
    (hr : ∀ c, rest.head? = some c → is_align_char c = false) :
    (parse_format_spec ('#' :: rest) spec).2.alt_form = true := by
  unfold parse_format_spec
  rw [if_neg (by simp)]
  have h1 : spec_fill_align ('#' :: rest) (0, spec) = (0, spec) := by
    unfold spec_fill_align
    rw [if_neg]
    rintro ⟨hl, ha⟩
    cases rest with
    | nil => simp at hl
    | cons c r =>
      have := hr c rfl
      simp only [List.getD_cons_succ, List.getD_cons_zero] at ha
      rw [this] at ha
      exact absurd ha (by decide)
  have h2 : spec_align ('#' :: rest) (0, spec) = (0, spec) := by
    unfold spec_align
    rw [if_neg]
    rintro ⟨_, _, ha⟩
    change is_align_char '#' = true at ha
    exact absurd ha (by decide)
  have h3 : spec_sign ('#' :: rest) (0, spec) = (0, spec) := by
    unfold spec_sign
    rw [if_neg]
    rintro ⟨_, ha⟩
    change '#' = '+' ∨ '#' = '-' ∨ '#' = ' ' at ha
    exact absurd ha (by decide)
  have h4 : spec_alt_form ('#' :: rest) (0, spec) = (1, { spec with alt_form := true }) := by
    unfold spec_alt_form
    rw [if_pos ⟨by simp, rfl⟩]
  rw [h1, h2, h3, h4, spec_tail_alt_form]

/-! ## Digit bytes -/

theorem dec_digit_ne_zero : ∀ d, d < 10 → 0 < d → dec_digit d ≠ '0' := by decide

theorem hex_digit_ne_zero (upper : Bool) : ∀ d, d < 16 → 0 < d → hex_digit upper d ≠ '0' := by
  cases upper <;> decide

theorem dec_digit_ne_minus : ∀ d, d < 10 → dec_digit d ≠ '-' := by decide

theorem hex_digit_lower_mem : ∀ d, d < 16 → hex_digit false d ∈ "0123456789abcdef".toList := by
  decide

theorem hex_digit_upper_mem : ∀ d, d < 16 → hex_digit true d ∈ "0123456789ABCDEF".toList := by
  decide

theorem oct_digit_mem : ∀ d, d < 8 → dec_digit d ∈ "01234567".toList := by decide

theorem bin_digit_mem : ∀ d, d < 2 → dec_digit d ∈ "01".toList := by decide

theorem hex_digit_upper_eq : ∀ d, d < 16 → hex_digit true d = upper_hex (hex_digit false d) := by
  decide

/-- The first byte of the numeral of a value other than 0 is not the digit 0. -/
theorem numeral_head_ne_zero (b : Nat) (digit : Nat → Char) (hb : 1 < b)
    (hd : ∀ d, d < b → 0 < d → digit d ≠ '0') (v : Nat) (hv : v ≠ 0) :
    (numeral b digit v).head? ≠ some '0' := by
  obtain ⟨d, h0, hlt, hh⟩ := numeral_head b digit hb v hv
  rw [hh]
  intro h
  exact hd d hlt h0 (Option.some.inj h)

/-- Every byte of a numeral is in the digit set. -/
theorem numeral_subset (b : Nat) (digit : Nat → Char) (hb : 1 < b) (set : List Char)
    (hd : ∀ d, d < b → digit d ∈ set) (v : Nat) : ∀ c ∈ numeral b digit v, c ∈ set := by
  intro c hc
  obtain ⟨d, hlt, rfl⟩ := mem_numeral b digit hb v c hc
  exact hd d hlt

/-- Mapping the bytes of a numeral is the numeral over the mapped digits. -/
theorem numeral_map (b : Nat) (digit : Nat → Char) (f : Char → Char) (v : Nat) :
    (numeral b digit v).map f = numeral b (fun d => f (digit d)) v := by
  unfold numeral digit_run
  by_cases hv : v = 0
  · rw [if_pos hv, if_pos hv]
    rfl
  · rw [if_neg hv, if_neg hv, List.map_map]
    rfl

theorem numeral_congr (b : Nat) (f g : Nat → Char) (v : Nat) (hb : 1 < b)
    (h : ∀ d, d < b → f d = g d) : numeral b f v = numeral b g v := by
  unfold numeral
  rw [digit_run_congr b f g v hb h, h 0 (by omega)]

/-- The uppercase hexadecimal numeral is the lowercase one with `a` to `f` replaced. -/
theorem uint_to_hex_upper (v : Nat) :
    uint_to_hex v true = (uint_to_hex v false).map upper_hex := by
  rw [uint_to_hex_eq, uint_to_hex_eq, numeral_map]
  exact numeral_congr 16 _ _ v (by decide) hex_digit_upper_eq

/-- Reading the text of `int_to_str` back gives the value. -/
theorem signed_decimal_value_numeral (v : Nat) :
    signed_decimal_value (numeral 10 dec_digit v) = (v : Int) := by
  rcases hn : numeral 10 dec_digit v with _ | ⟨c, rest⟩
  · exact absurd hn (numeral_ne_nil _ _ _)
  · have hc : c ≠ '-' := by
      obtain ⟨d, hlt, hd⟩ := mem_numeral 10 dec_digit (by decide) v c
        (by rw [hn]; exact List.mem_cons_self _ _)
      rw [hd]
      exact dec_digit_ne_minus d hlt
    have : signed_decimal_value (c :: rest) = decimal_value (c :: rest) := by
      unfold signed_decimal_value
      split
      · rename_i ds heq
        exact absurd (List.cons.inj heq).1 hc
      · rfl
    rw [this, ← hn, decimal_value_numeral]

/-! ## The integer cases of the switch -/

theorem not_radix_type (c : Char) (h : is_radix_type c = false) :
    c ≠ 'x' ∧ c ≠ 'X' ∧ c ≠ 'o' ∧ c ≠ 'b' := by
  simpa [is_radix_type, and_assoc] using h

theorem radix_type_cases (c : Char) (h : is_radix_type c = true) :
    c = 'x' ∨ c = 'X' ∨ c = 'o' ∨ c = 'b' := by
  simpa [is_radix_type, or_assoc] using h

/-- The decimal branch of the signed cases. -/
theorem signed_buffer_decimal (bits : Nat) (v : Int) (spec : FormatSpec)
    (ht : is_radix_type spec.type = false) (habs : v.natAbs < 2 ^ bits) :
    signed_buffer bits v spec =
      if v < 0 then '-' :: numeral 10 dec_digit v.natAbs
      else sign_bytes spec.sign ++ numeral 10 dec_digit v.natAbs := by
  obtain ⟨h1, h2, h3, h4⟩ := not_radix_type _ ht
  unfold signed_buffer
  rw [if_neg h1, if_neg h2, if_neg h3, if_neg h4]
  dsimp only
  rw [int_to_str_eq bits v habs]
  unfold sign_bytes
  by_cases hneg : v < 0
  · have hge : ¬ v ≥ 0 := by omega
    rw [if_pos hneg, if_pos hneg, if_neg (fun h => hge h.2), if_neg (fun h => hge h.2)]
  · have hge : v ≥ 0 := by omega
    rw [if_neg hneg, if_neg hneg]
    by_cases hp : spec.sign = '+'
    · rw [if_pos ⟨hp, hge⟩, if_pos hp]
      rfl
    · rw [if_neg (fun h => hp h.1), if_neg hp]
      by_cases hsp : spec.sign = ' '
      · rw [if_pos ⟨hsp, hge⟩, if_pos hsp]
        rfl
      · rw [if_neg (fun h => hsp h.1), if_neg hsp]
        rfl

/-- The decimal branch of the unsigned cases. -/
theorem unsigned_buffer_decimal (v : Nat) (spec : FormatSpec)
    (ht : is_radix_type spec.type = false) :
    unsigned_buffer v spec = sign_bytes spec.sign ++ numeral 10 dec_digit v := by
  obtain ⟨h1, h2, h3, h4⟩ := not_radix_type _ ht
  unfold unsigned_buffer
  rw [if_neg h1, if_neg h2, if_neg h3, if_neg h4]
  dsimp only
  rw [uint_to_str_eq]
  unfold sign_bytes
  by_cases hp : spec.sign = '+'
  · rw [if_pos hp, if_pos hp]
    rfl
  · rw [if_neg hp, if_neg hp]
    by_cases hsp : spec.sign = ' '
    · rw [if_pos hsp, if_pos hsp]
      rfl
    · rw [if_neg hsp, if_neg hsp]
      rfl

/-- The hexadecimal, octal and binary branches of the signed cases do not read the sign of
the spec. -/
theorem signed_buffer_radix_sign (bits : Nat) (v : Int) (spec : FormatSpec) (s : Char)
    (ht : is_radix_type spec.type = true) :
    signed_buffer bits v { spec with sign := s } = signed_buffer bits v spec := by
  unfold signed_buffer
  dsimp only
  rcases radix_type_cases _ ht with h | h | h | h <;> rw [h] <;>
    simp only [if_pos, if_neg, (by decide : ¬ 'X' = 'x'), (by decide : ¬ 'o' = 'x'),
      (by decide : ¬ 'o' = 'X'), (by decide : ¬ 'b' = 'x'), (by decide : ¬ 'b' = 'X'),
      (by decide : ¬ 'b' = 'o'), if_true, if_false]

/-- The hexadecimal, octal and binary branches of the unsigned cases do not read the sign
of the spec. -/
theorem unsigned_buffer_radix_sign (v : Nat) (spec : FormatSpec) (s : Char)
    (ht : is_radix_type spec.type = true) :
    unsigned_buffer v { spec with sign := s } = unsigned_buffer v spec := by
  unfold unsigned_buffer
  dsimp only
  rcases radix_type_cases _ ht with h | h | h | h <;> rw [h] <;>
    simp only [if_pos, if_neg, (by decide : ¬ 'X' = 'x'), (by decide : ¬ 'o' = 'x'),
      (by decide : ¬ 'o' = 'X'), (by decide : ¬ 'b' = 'x'), (by decide : ¬ 'b' = 'X'),
      (by decide : ¬ 'b' = 'o'), if_true, if_false]

theorem switch_buffer_radix_sign (core : FloatCore) (arg : FormatArg) (spec : FormatSpec)
    (s : Char) (hint : arg.is_integer = true) (ht : is_radix_type spec.type = true) :
    switch_buffer core arg { spec with sign := s } = switch_buffer core arg spec := by
  cases arg <;> first
    | exact absurd hint Bool.false_ne_true
    | exact signed_buffer_radix_sign _ _ spec s ht
    | exact unsigned_buffer_radix_sign _ spec s ht

/-- For the hexadecimal, octal and binary types `format_arg` does not read the sign of the
spec. -/
theorem format_arg_radix_sign (core : FloatCore) (out : FormatOutput) (arg : FormatArg)
    (spec : FormatSpec) (s : Char) (hint : arg.is_integer = true)
    (ht : is_radix_type spec.type = true) :
    format_arg core out arg { spec with sign := s } = format_arg core out arg spec := by
  rw [format_arg_integer core out arg { spec with sign := s } hint,
    format_arg_integer core out arg spec hint, switch_buffer_radix_sign core arg spec s hint ht]
  unfold adjusted_spec
  by_cases h : spec.zero_pad = true ∧ spec.width > 0 ∧ spec.align = NUL
  · rw [if_pos h, if_pos h]
    rfl
  · rw [if_neg h, if_neg h]
    rfl

/-- The magnitude of an integer argument of its C++ type is below `2 ^ 64`, and below
`2 ^ 32` for the 32-bit kinds. -/
theorem natAbs_of_in_range_int (v : Int) (h : (FormatArg.INT v).in_range = true) :
    v.natAbs < 2 ^ 32 := by
  have h2 : -2147483648 ≤ v ∧ v ≤ 2147483647 := of_decide_eq_true h
  norm_num
  omega

theorem natAbs_of_in_range_llong (v : Int) (h : (FormatArg.LLONG v).in_range = true) :
    v.natAbs < 2 ^ 64 := by
  have h2 : -9223372036854775808 ≤ v ∧ v ≤ 9223372036854775807 := of_decide_eq_true h
  norm_num
  omega

/-- The bytes a string keeps under a precision, as the source computes their number. -/
theorem take_str_len (s : List Char) (p : Int) :
    s.take (if p ≥ 0 ∧ p.toNat < s.length then p.toNat else s.length) = truncated s p := by
  unfold truncated
  by_cases hp : p ≥ 0
  · rw [if_pos hp]
    by_cases hl : p.toNat < s.length
    · rw [if_pos ⟨hp, hl⟩]
    · rw [if_neg (fun h => hl h.2), List.take_of_length_le (le_refl _),
        List.take_of_length_le (by omega)]
  · rw [if_neg hp, if_neg (fun h => hp h.1), List.take_of_length_le (le_refl _)]

/-- The decimal text of an integer argument. -/
theorem switch_buffer_decimal (core : FloatCore) (arg : FormatArg) (spec : FormatSpec)
    (hint : arg.is_integer = true) (hr : arg.in_range = true)
    (ht : is_radix_type spec.type = false) :
    switch_buffer core arg spec =
      if arg.int_value < 0 then '-' :: numeral 10 dec_digit arg.int_value.natAbs
      else sign_bytes spec.sign ++ numeral 10 dec_digit arg.int_value.natAbs := by
  cases arg with
  | INT v => exact signed_buffer_decimal 32 v spec ht (natAbs_of_in_range_int v hr)
  | LLONG v => exact signed_buffer_decimal 64 v spec ht (natAbs_of_in_range_llong v hr)
  | UINT v =>
    show unsigned_buffer v spec = if (v : Int) < 0 then _ else _ ++ numeral 10 dec_digit
      (v : Int).natAbs
    rw [if_neg (by omega), unsigned_buffer_decimal v spec ht, Int.natAbs_ofNat]
  | ULLONG v =>
    show unsigned_buffer v spec = if (v : Int) < 0 then _ else _ ++ numeral 10 dec_digit
      (v : Int).natAbs
    rw [if_neg (by omega), unsigned_buffer_decimal v spec ht, Int.natAbs_ofNat]
  | _ => exact absurd hint Bool.false_ne_true

/-! ## Uniqueness of numerals -/

/-- The numeral of a single digit. -/
theorem numeral_of_lt (b : Nat) (digit : Nat → Char) (hb : 1 < b) (d : Nat) (hd : d < b) :
    numeral b digit d = [digit d] := by
  unfold numeral
  by_cases h0 : d = 0
  · rw [if_pos h0, h0]
  · rw [if_neg h0, digit_run_of_pos b digit d hb (by omega), Nat.div_eq_of_lt hd,
      Nat.mod_eq_of_lt hd, digit_run_zero]
    rfl

/-- A text of digits of the base that does not start with the digit 0, unless it is that
digit alone, is the numeral of its value. -/
theorem numeral_unique (b : Nat) (digit : Nat → Char) (hb : 1 < b)
    (hd : ∀ d, d < b → digit_value (digit d) = d) :
    ∀ t : List Char, t ≠ [] → (∀ c ∈ t, ∃ d, d < b ∧ c = digit d) →
      (t.head? = some (digit 0) → t = [digit 0]) →
      t = numeral b digit (numeral_value b t) := by
  intro t
  induction t using List.reverseRecOn with
  | nil => intro h; exact absurd rfl h
  | append_singleton xs c ih =>
    intro _ hmem hz
    obtain ⟨d, hdlt, hc⟩ := hmem c (by simp)
    have hval : numeral_value b (xs ++ [c]) = numeral_value b xs * b + d := by
      rw [numeral_value_append, hc, hd d hdlt]
    by_cases hx : xs = []
    · subst hx
      rw [hval]
      have h0 : numeral_value b [] = 0 := rfl
      rw [h0, Nat.zero_mul, Nat.zero_add, numeral_of_lt b digit hb d hdlt, hc]
      rfl
    · obtain ⟨x, rest, hxs⟩ := List.exists_cons_of_ne_nil hx
      have hhead : xs.head? ≠ some (digit 0) := by
        intro h
        have h2 : (xs ++ [c]).head? = some (digit 0) := by
          rw [hxs] at h ⊢
          exact h
        have h3 := congrArg List.length (hz h2)
        rw [hxs] at h3
        simp at h3
      have hxs2 := ih hx (fun y hy => hmem y (List.mem_append_left _ hy))
        (fun h => absurd h hhead)
      have hn : numeral_value b xs ≠ 0 := by
        intro h
        rw [h] at hxs2
        apply hhead
        rw [hxs2]
        rfl
      have hrun : xs = digit_run b digit (numeral_value b xs) := by
        have := hxs2
        unfold numeral at this
        rwa [if_neg hn] at this
      have hpos : 0 < numeral_value b xs * b + d := by
        have : 0 < numeral_value b xs * b := Nat.mul_pos (Nat.pos_of_ne_zero hn) (by omega)
        omega
      have hdiv : (numeral_value b xs * b + d) / b = numeral_value b xs := by
        rw [Nat.add_comm, Nat.add_mul_div_right _ _ (by omega : 0 < b), Nat.div_eq_of_lt hdlt,
          Nat.zero_add]
      have hmod : (numeral_value b xs * b + d) % b = d := by
        rw [Nat.add_comm, Nat.add_mul_mod_self_right, Nat.mod_eq_of_lt hdlt]
      rw [hval]
      unfold numeral
      rw [if_neg (by omega), digit_run_of_pos b digit _ hb hpos, hdiv, hmod, ← hrun, hc]

theorem hex_digit_lower_of_mem :
    ∀ c ∈ "0123456789abcdef".toList, ∃ d, d < 16 ∧ c = hex_digit false d := by decide

theorem hex_digit_upper_of_mem :
    ∀ c ∈ "0123456789ABCDEF".toList, ∃ d, d < 16 ∧ c = hex_digit true d := by decide

theorem dec_digit_of_mem :
    ∀ c ∈ "0123456789".toList, ∃ d, d < 10 ∧ c = dec_digit d := by decide

theorem oct_digit_of_mem :
    ∀ c ∈ "01234567".toList, ∃ d, d < 8 ∧ c = dec_digit d := by decide

theorem bin_digit_of_mem : ∀ c ∈ "01".toList, ∃ d, d < 2 ∧ c = dec_digit d := by decide

theorem dec_digit_mem : ∀ d, d < 10 → dec_digit d ∈ "0123456789".toList := by decide

/-- The numeral is the only text over a digit set that reads back as the value and does not
start with `0` unless it is `0` alone. -/
theorem numeral_unique_of_set (b : Nat) (digit : Nat → Char) (hb : 1 < b) (set : List Char)
    (hd : ∀ d, d < b → digit_value (digit d) = d)
    (hset : ∀ c ∈ set, ∃ d, d < b ∧ c = digit d) (h0 : digit 0 = '0') (v : Nat)
    (t : List Char) (hne : t ≠ []) (hmem : ∀ c ∈ t, c ∈ set)
    (hz : t.head? = some '0' → t = ['0']) (hv : numeral_value b t = v) :
    t = numeral b digit v := by
  rw [← hv]
  apply numeral_unique b digit hb hd t hne (fun c hc => hset c (hmem c hc))
  rw [h0]
  exact hz

/-- The numerals of a value over a digit set are exactly the one numeral of the value. -/
theorem is_numeral_of_iff (b : Nat) (digit : Nat → Char) (hb : 1 < b) (set : List Char)
    (hd : ∀ d, d < b → digit_value (digit d) = d)
    (hset : ∀ c ∈ set, ∃ d, d < b ∧ c = digit d) (hin : ∀ d, d < b → digit d ∈ set)
    (hnz : ∀ d, d < b → 0 < d → digit d ≠ '0') (h0 : digit 0 = '0') (v : Nat)
    (t : List Char) : is_numeral_of b set v t ↔ t = numeral b digit v := by
  constructor
  · rintro ⟨hne, hmem, hz, hv⟩
    exact numeral_unique_of_set b digit hb set hd hset h0 v t hne hmem hz hv
  · intro ht
    subst ht
    refine ⟨numeral_ne_nil _ _ _, numeral_subset b digit hb set hin v, ?_,
      numeral_value_numeral b digit hb hd v⟩
    intro hh
    by_cases hv : v = 0
    · subst hv
      unfold numeral
      rw [if_pos rfl, h0]
    · exact absurd hh (numeral_head_ne_zero b digit hb hnz v hv)

theorem is_numeral_of_dec (v : Nat) (t : List Char) :
    is_numeral_of 10 "0123456789".toList v t ↔ t = numeral 10 dec_digit v :=
  is_numeral_of_iff 10 dec_digit (by decide) _ digit_value_dec dec_digit_of_mem dec_digit_mem
    dec_digit_ne_zero rfl v t

theorem is_numeral_of_hex (upper : Bool) (v : Nat) (t : List Char) :
    is_numeral_of 16 (if upper then "0123456789ABCDEF" else "0123456789abcdef").toList v t ↔
      t = numeral 16 (hex_digit upper) v := by
  cases upper
  · exact is_numeral_of_iff 16 (hex_digit false) (by decide) _ (digit_value_hex false)
      hex_digit_lower_of_mem hex_digit_lower_mem (hex_digit_ne_zero false) rfl v t
  · exact is_numeral_of_iff 16 (hex_digit true) (by decide) _ (digit_value_hex true)
      hex_digit_upper_of_mem hex_digit_upper_mem (hex_digit_ne_zero true) rfl v t

theorem is_numeral_of_oct (v : Nat) (t : List Char) :
    is_numeral_of 8 "01234567".toList v t ↔ t = numeral 8 dec_digit v :=
  is_numeral_of_iff 8 dec_digit (by decide) _ (fun d hd => digit_value_dec d (by omega))
    oct_digit_of_mem oct_digit_mem (fun d hd => dec_digit_ne_zero d (by omega)) rfl v t

theorem is_numeral_of_bin (v : Nat) (t : List Char) :
    is_numeral_of 2 "01".toList v t ↔ t = numeral 2 dec_digit v :=
  is_numeral_of_iff 2 dec_digit (by decide) _ (fun d hd => digit_value_dec d (by omega))
    bin_digit_of_mem bin_digit_mem (fun d hd => dec_digit_ne_zero d (by omega)) rfl v t

/-! ## Special floating-point values -/

/-- The fields that `decompose_double` extracts with shifts and masks. -/
theorem decompose_fields (bits : Nat) :
    (bits >>> 52) &&& 0x7FF = exponent_field bits ∧
    bits &&& 0xFFFFFFFFFFFFF = fraction_field bits := by
  unfold exponent_field fraction_field
  constructor
  · rw [Nat.shiftRight_eq_div_pow]
    exact Nat.and_pow_two_sub_one_eq_mod _ 11
  · exact Nat.and_pow_two_sub_one_eq_mod _ 52

/-- A NaN pattern is decomposed as a NaN. -/
theorem decompose_double_nan (bits : Nat) (h : is_nan_bits bits = true) :
    (decompose_double bits).is_nan = true := by
  obtain ⟨h1, h2⟩ := decompose_fields bits
  have h3 : exponent_field bits = 2047 ∧ fraction_field bits ≠ 0 := by
    simpa [is_nan_bits] using h
  unfold decompose_double
  dsimp only
  rw [h1, h2, h3.1, if_neg (by decide), if_pos (by decide)]
  simp [h3.2]

/-! ## The segments partition the template -/

/-- The segment of call `k` runs from the pointer before the call to the pointer after
it. -/
theorem segment_at_bounds (fmt : List Char) (k : Nat) :
    (segment_at fmt k).begin_ = (parser_after fmt k).ptr_ ∧
    (segment_at fmt k).end_ = (parser_after fmt (k + 1)).ptr_ ∧
    (parser_after fmt k).ptr_ ≤ (parser_after fmt (k + 1)).ptr_ ∧
    (parser_after fmt (k + 1)).ptr_ ≤ fmt.length ∧
    ((segment_at fmt k).type = .END ↔ (parser_after fmt k).ptr_ = fmt.length) ∧
    ((segment_at fmt k).type ≠ .END →
      (parser_after fmt k).ptr_ < (parser_after fmt (k + 1)).ptr_) := by
  have hinv := parser_after_inv fmt k
  have hfmt := parser_after_fmt fmt k
  have hb := next_bounds (parser_after fmt k) hinv
  have hend : (parser_after fmt k).end_ = fmt.length := by rw [hinv.1, hfmt]
  rw [parser_after_succ]
  unfold segment_at
  refine ⟨hb.2.2.1, hb.2.2.2.1, ?_, ?_, ?_, hb.2.2.2.2.2.2⟩
  · by_cases he : (parser_after fmt k).next.1.type = .END
    · rw [(hb.2.2.2.2.2.1 he).1]
    · exact Nat.le_of_lt (hb.2.2.2.2.2.2 he)
  · rw [← hend]
    exact hb.2.2.2.2.1
  · constructor
    · intro he
      have h1 := (hb.2.2.2.2.2.1 he).2
      have h2 := hinv.2
      omega
    · intro hp
      unfold FormatParser.next
      rw [if_pos (by omega)]

/-- The ranges of the first `n` segments make up the template up to the pointer after
them. -/
theorem segment_bytes_take (fmt : List Char) (n : Nat) :
    (List.range n).flatMap (fun k => segment_bytes fmt (segment_at fmt k)) =
      fmt.take (parser_after fmt n).ptr_ := by
  induction n with
  | zero => rfl
  | succ n ih =>
    obtain ⟨h1, h2, h3, _⟩ := segment_at_bounds fmt n
    rw [List.range_succ, List.flatMap_append, ih, List.flatMap_singleton]
    unfold segment_bytes
    rw [h1, h2]
    have e : (parser_after fmt (n + 1)).ptr_ =
        (parser_after fmt n).ptr_ +
          ((parser_after fmt (n + 1)).ptr_ - (parser_after fmt n).ptr_) := by omega
    conv_rhs => rw [e]
    rw [List.take_add]

/-- After `k` calls the pointer is at the end or at least `k` bytes into the template. -/
theorem parser_after_progress (fmt : List Char) (k : Nat) :
    (parser_after fmt k).ptr_ = fmt.length ∨ k ≤ (parser_after fmt k).ptr_ := by
  induction k with
  | zero => exact Or.inr (Nat.zero_le _)
  | succ k ih =>
    obtain ⟨_, _, h3, h4, h5, h6⟩ := segment_at_bounds fmt k
    by_cases he : (segment_at fmt k).type = .END
    · have := h5.mp he
      left
      omega
    · have := h6 he
      rcases ih with ih | ih
      · left; omega
      · right; omega

/-- An escape segment is two bytes long. -/
theorem next_escape_length (p : FormatParser) (hinv : p.Inv)
    (h : p.next.1.type = .ESCAPE_OPEN ∨ p.next.1.type = .ESCAPE_CLOSE) :
    p.next.1.end_ = p.next.1.begin_ + 2 := by
  revert h
  unfold FormatParser.next
  split
  · intro h; rcases h with h | h <;> cases h
  · rename_i h0
    split
    · intro _; rfl
    · split
      · intro _; rfl
      · split
        · intro h
          have hb := parse_placeholder_bounds p hinv.1 (by omega)
          rcases hb.2.2.2.2.2.2 with ht | ht <;> rw [ht] at h <;>
            rcases h with h | h <;> cases h
        · intro h; rcases h with h | h <;> cases h

/-- Some call of `next()` within the first `length + 1` returns `END`, and the segments
before the first such call make up the template. -/
theorem exists_first_end (fmt : List Char) :
    ∃ n, n ≤ fmt.length ∧ (segment_at fmt n).type = .END ∧
      (∀ k, k < n → (segment_at fmt k).type ≠ .END) ∧
      (List.range n).flatMap (fun k => segment_bytes fmt (segment_at fmt k)) = fmt := by
  have hex : ∃ n, (parser_after fmt n).ptr_ = fmt.length := by
    refine ⟨fmt.length, ?_⟩
    rcases parser_after_progress fmt fmt.length with h | h
    · exact h
    · have := (parser_after_inv fmt fmt.length).2
      rw [(parser_after_inv fmt fmt.length).1, parser_after_fmt] at this
      omega
  refine ⟨Nat.find hex, ?_, ?_, ?_, ?_⟩
  · apply Nat.find_min' hex
    rcases parser_after_progress fmt fmt.length with h | h
    · exact h
    · have := (parser_after_inv fmt fmt.length).2
      rw [(parser_after_inv fmt fmt.length).1, parser_after_fmt] at this
      omega
  · exact (segment_at_bounds fmt _).2.2.2.2.1.mpr (Nat.find_spec hex)
  · intro k hk he
    exact Nat.find_min hex hk ((segment_at_bounds fmt k).2.2.2.2.1.mp he)
  · rw [segment_bytes_take, Nat.find_spec hex, List.take_length]

/-! ## A field with a spec, by its bytes -/

theorem no_close_of_not_mem (s : List Char) (hs : '}' ∉ s) : ∀ c ∈ s, no_close c = true := by
  intro c hc
  unfold no_close
  rw [bne_iff_ne]
  intro hx
  exact hs (hx ▸ hc)

/-- The member `next()` on a field `{`, digits, `:`, spec bytes without `}`, `}`. -/
theorem next_of_spec_field (p : FormatParser) (hinv : p.Inv) (digits s tail : List Char)
    (hd : ∀ c ∈ digits, is_digit_char c = true) (hs : '}' ∉ s)
    (h : p.fmt.drop p.ptr_ = '{' :: (digits ++ ':' :: (s ++ '}' :: tail))) :
    p.next.1.type = .PLACEHOLDER ∧
    p.next.1.placeholder.spec = (parse_format_spec s {}).2 ∧
    p.next.1.begin_ = p.ptr_ ∧
    p.next.1.end_ = p.ptr_ + 1 + digits.length + 1 + s.length + 1 ∧
    p.next.2.ptr_ = p.ptr_ + 1 + digits.length + 1 + s.length + 1 := by
  have hall := no_close_of_not_mem s hs
  have htw : (s ++ '}' :: tail).takeWhile no_close = s := by
    rw [List.takeWhile_append_of_pos hall, List.takeWhile_cons_of_neg (by decide),
      List.append_nil]
  have hdw : (s ++ '}' :: tail).dropWhile no_close = '}' :: tail := by
    rw [List.dropWhile_append_of_pos hall, List.dropWhile_cons_of_neg (by decide)]
  have hr : (digits ++ ':' :: (s ++ '}' :: tail)).dropWhile is_digit_char =
      ':' :: (s ++ '}' :: tail) := by
    rw [List.dropWhile_append_of_pos hd, List.dropWhile_cons_of_neg (by decide)]
  have hdt : (digits ++ ':' :: (s ++ '}' :: tail)).takeWhile is_digit_char = digits := by
    rw [List.takeWhile_append_of_pos hd, List.takeWhile_cons_of_neg (by decide),
      List.append_nil]
  have hne : (digits ++ ':' :: (s ++ '}' :: tail)).head? ≠ some '{' := by
    cases digits with
    | nil => exact fun hx => absurd (Option.some.inj hx) (by decide)
    | cons d r =>
      intro hx
      have hd1 := hd d (List.mem_cons_self _ _)
      rw [show d = '{' from Option.some.inj hx] at hd1
      exact absurd hd1 (by decide)
  obtain ⟨hty, _, hspec, hnext⟩ := parse_placeholder_of_spec_field p hinv _ _ tail h hr hdw
  have hb := next_bounds p hinv
  rw [next_of_field p hinv _ h hne] at hb ⊢
  rw [htw] at hspec
  rw [htw, hdt] at hnext
  refine ⟨hty, hspec, hb.2.2.1, ?_, ?_⟩
  · rw [hb.2.2.2.1, hnext]
  · rw [hnext]

/-! ## The blocks of `parse_format_spec` at a position of the text -/

theorem getD_append_cons (pre rest : List Char) (c : Char) :
    (pre ++ c :: rest).getD pre.length NUL = c := by
  induction pre with
  | nil => rfl
  | cons a l ih => simpa using ih

/-- The test `p < end && P(*p)` at the position behind `pre`. -/
theorem pos_cond_iff (pre rest : List Char) (P : Char → Prop) :
    (pre.length < (pre ++ rest).length ∧ P ((pre ++ rest).getD pre.length NUL)) ↔
      ∃ c, rest.head? = some c ∧ P c := by
  cases rest with
  | nil =>
    rw [List.append_nil]
    constructor
    · rintro ⟨h, _⟩; omega
    · rintro ⟨c, h, _⟩; cases h
  | cons a r =>
    rw [getD_append_cons, List.length_append, List.length_cons]
    constructor
    · rintro ⟨_, h⟩; exact ⟨a, rfl, h⟩
    · rintro ⟨c, h, hp⟩
      rw [List.head?_cons] at h
      rw [Option.some.inj h]
      exact ⟨by omega, hp⟩

theorem takeWhile_append_stop (P : Char → Bool) (a b : List Char)
    (ha : ∀ c ∈ a, P c = true) (hb : ∀ c, b.head? = some c → P c = false) :
    (a ++ b).takeWhile P = a := by
  rw [List.takeWhile_append_of_pos ha]
  cases b with
  | nil => simp
  | cons c r =>
    rw [List.takeWhile_cons_of_neg (by rw [hb c rfl]; decide), List.append_nil]

theorem spec_sign_hit (pre rest : List Char) (c : Char) (sp : FormatSpec)
    (hc : c = '+' ∨ c = '-' ∨ c = ' ') :
    spec_sign (pre ++ c :: rest) (pre.length, sp) = (pre.length + 1, { sp with sign := c }) := by
  unfold spec_sign
  dsimp only
  rw [if_pos ((pos_cond_iff pre (c :: rest) (fun c => c = '+' ∨ c = '-' ∨ c = ' ')).mpr
    ⟨c, rfl, hc⟩), getD_append_cons]

theorem spec_sign_miss (pre rest : List Char) (sp : FormatSpec)
    (h : ∀ c, rest.head? = some c → ¬ (c = '+' ∨ c = '-' ∨ c = ' ')) :
    spec_sign (pre ++ rest) (pre.length, sp) = (pre.length, sp) := by
  unfold spec_sign
  dsimp only
  rw [if_neg]
  intro hx
  obtain ⟨c, h1, h2⟩ :=
    (pos_cond_iff pre rest (fun c => c = '+' ∨ c = '-' ∨ c = ' ')).mp hx
  exact h c h1 h2

theorem spec_alt_form_hit (pre rest : List Char) (sp : FormatSpec) :
    spec_alt_form (pre ++ '#' :: rest) (pre.length, sp) =
      (pre.length + 1, { sp with alt_form := true }) := by
  unfold spec_alt_form
  dsimp only
  rw [if_pos ((pos_cond_iff pre ('#' :: rest) (fun c => c = '#')).mpr ⟨'#', rfl, rfl⟩)]

theorem spec_alt_form_miss (pre rest : List Char) (sp : FormatSpec)
    (h : rest.head? ≠ some '#') :
    spec_alt_form (pre ++ rest) (pre.length, sp) = (pre.length, sp) := by
  unfold spec_alt_form
  dsimp only
  rw [if_neg]
  intro hx
  obtain ⟨c, h1, h2⟩ := (pos_cond_iff pre rest (fun c => c = '#')).mp hx
  exact h (h2 ▸ h1)

theorem spec_zero_pad_hit (pre rest : List Char) (sp : FormatSpec) :
    spec_zero_pad (pre ++ '0' :: rest) (pre.length, sp) =
      (pre.length + 1, { sp with zero_pad := true }) := by
  unfold spec_zero_pad
  dsimp only
  rw [if_pos ((pos_cond_iff pre ('0' :: rest) (fun c => c = '0')).mpr ⟨'0', rfl, rfl⟩)]

theorem spec_zero_pad_miss (pre rest : List Char) (sp : FormatSpec)
    (h : rest.head? ≠ some '0') :
    spec_zero_pad (pre ++ rest) (pre.length, sp) = (pre.length, sp) := by
  unfold spec_zero_pad
  dsimp only
  rw [if_neg]
  intro hx
  obtain ⟨c, h1, h2⟩ := (pos_cond_iff pre rest (fun c => c = '0')).mp hx
  exact h (h2 ▸ h1)

theorem spec_type_hit (pre rest : List Char) (c : Char) (sp : FormatSpec)
    (hc : is_type_char c = true) :
    spec_type (pre ++ c :: rest) (pre.length, sp) = (pre.length + 1, { sp with type := c }) := by
  unfold spec_type
  dsimp only
  rw [if_pos ((pos_cond_iff pre (c :: rest) (fun c => is_type_char c = true)).mpr ⟨c, rfl, hc⟩),
    getD_append_cons]

theorem spec_type_miss (pre rest : List Char) (sp : FormatSpec)
    (h : ∀ c, rest.head? = some c → is_type_char c = false) :
    spec_type (pre ++ rest) (pre.length, sp) = (pre.length, sp) := by
  unfold spec_type
  dsimp only
  rw [if_neg]
  intro hx
  obtain ⟨c, h1, h2⟩ := (pos_cond_iff pre rest (fun c => is_type_char c = true)).mp hx
  rw [h c h1] at h2
  exact absurd h2 (by decide)

theorem head_append_of_head (a b : List Char) (c : Char) (h : a.head? = some c) :
    (a ++ b).head? = some c := by
  cases a with
  | nil => cases h
  | cons x r => exact h

theorem spec_width_hit (pre ds rest : List Char) (sp : FormatSpec)
    (hds : ∀ c ∈ ds, is_digit_char c = true)
    (hhead : ∃ c, ds.head? = some c ∧ '1' ≤ c ∧ c ≤ '9')
    (hrest : ∀ c, rest.head? = some c → is_digit_char c = false) :
    spec_width (pre ++ (ds ++ rest)) (pre.length, sp) =
      (pre.length + ds.length, { sp with width := decimal_value ds }) := by
  obtain ⟨c, hc, hr⟩ := hhead
  unfold spec_width
  dsimp only
  rw [if_pos ((pos_cond_iff pre (ds ++ rest) (fun c => '1' ≤ c ∧ c ≤ '9')).mpr
    ⟨c, head_append_of_head ds rest c hc, hr⟩),
    digits_loop_eq (pre ++ (ds ++ rest)) _ _ _ (le_refl _), List.drop_left,
    takeWhile_append_stop is_digit_char ds rest hds hrest]
  rfl

theorem spec_width_miss (pre rest : List Char) (sp : FormatSpec)
    (h : ∀ c, rest.head? = some c → ¬ ('1' ≤ c ∧ c ≤ '9')) :
    spec_width (pre ++ rest) (pre.length, sp) = (pre.length, sp) := by
  unfold spec_width
  dsimp only
  rw [if_neg]
  intro hx
  obtain ⟨c, h1, h2⟩ := (pos_cond_iff pre rest (fun c => '1' ≤ c ∧ c ≤ '9')).mp hx
  exact h c h1 h2

theorem spec_precision_hit (pre ds rest : List Char) (sp : FormatSpec)
    (hds : ∀ c ∈ ds, is_digit_char c = true)
    (hrest : ∀ c, rest.head? = some c → is_digit_char c = false) :
    spec_precision (pre ++ '.' :: (ds ++ rest)) (pre.length, sp) =
      (pre.length + 1 + ds.length, { sp with precision := decimal_value ds }) := by
  unfold spec_precision
  dsimp only
  rw [if_pos ((pos_cond_iff pre ('.' :: (ds ++ rest)) (fun c => c = '.')).mpr ⟨'.', rfl, rfl⟩),
    digits_loop_eq (pre ++ '.' :: (ds ++ rest)) _ _ _ (le_refl _)]
  have hd : (pre ++ '.' :: (ds ++ rest)).drop (pre.length + 1) = ds ++ rest := by
    have := List.drop_left (pre ++ ['.']) (ds ++ rest)
    rwa [List.append_assoc, List.length_append] at this
  rw [hd, takeWhile_append_stop is_digit_char ds rest hds hrest]
  rfl

theorem spec_precision_miss (pre rest : List Char) (sp : FormatSpec)
    (h : rest.head? ≠ some '.') :
    spec_precision (pre ++ rest) (pre.length, sp) = (pre.length, sp) := by
  unfold spec_precision
  dsimp only
  rw [if_neg]
  intro hx
  obtain ⟨c, h1, h2⟩ := (pos_cond_iff pre rest (fun c => c = '.')).mp hx
  exact h (h2 ▸ h1)

theorem spec_fill_align_hit (f a : Char) (rest : List Char) (sp : FormatSpec)
    (ha : is_align_char a = true) :
    spec_fill_align (f :: a :: rest) (0, sp) = (2, { sp with fill := f, align := a }) := by
  unfold spec_fill_align
  rw [if_pos ⟨by simp, ha⟩]
  rfl

theorem getD_mem_of_lt (s : List Char) (i : Nat) (h : i < s.length) : s.getD i NUL ∈ s := by
  rw [List.getD_eq_getElem _ _ h]
  exact List.getElem_mem h

theorem spec_fill_align_miss (s : List Char) (sp : FormatSpec)
    (h : ∀ c ∈ s, is_align_char c = false) :
    spec_fill_align s (0, sp) = (0, sp) := by
  unfold spec_fill_align
  rw [if_neg]
  rintro ⟨h1, h2⟩
  rw [h _ (getD_mem_of_lt s _ h1)] at h2
  exact absurd h2 (by decide)

theorem spec_align_skip (s : List Char) (p : Nat) (sp : FormatSpec) (h : sp.align ≠ NUL) :
    spec_align s (p, sp) = (p, sp) := by
  unfold spec_align
  rw [if_neg (fun hx => h hx.1)]

theorem spec_align_miss (s : List Char) (sp : FormatSpec)
    (h : ∀ c ∈ s, is_align_char c = false) :
    spec_align s (0, sp) = (0, sp) := by
  unfold spec_align
  rw [if_neg]
  rintro ⟨_, h1, h2⟩
  rw [h _ (getD_mem_of_lt s _ h1)] at h2
  exact absurd h2 (by decide)

/-- The function `parse_format_spec` is the chain of its blocks, also on the empty text. -/
theorem parse_format_spec_chain (s : List Char) (sp : FormatSpec) :
    parse_format_spec s sp =
      spec_type s (spec_precision s (spec_width s (spec_zero_pad s (spec_alt_form s
        (spec_sign s (spec_align s (spec_fill_align s (0, sp)))))))) := by
  unfold parse_format_spec
  by_cases h : 0 ≥ s.length
  · have hs : s = [] := List.length_eq_zero.mp (by omega)
    subst hs
    rw [if_pos h, spec_fill_align_miss [] sp (fun _ hc => nomatch hc),
      spec_align_miss [] sp (fun _ hc => nomatch hc),
      show spec_sign [] (0, sp) = (0, sp) from
        spec_sign_miss [] [] sp (fun _ hc => nomatch hc),
      show spec_alt_form [] (0, sp) = (0, sp) from
        spec_alt_form_miss [] [] sp (fun hc => nomatch hc),
      show spec_zero_pad [] (0, sp) = (0, sp) from
        spec_zero_pad_miss [] [] sp (fun hc => nomatch hc),
      show spec_width [] (0, sp) = (0, sp) from
        spec_width_miss [] [] sp (fun _ hc => nomatch hc),
      show spec_precision [] (0, sp) = (0, sp) from
        spec_precision_miss [] [] sp (fun hc => nomatch hc),
      show spec_type [] (0, sp) = (0, sp) from
        spec_type_miss [] [] sp (fun _ hc => nomatch hc)]
  · rw [if_neg h]

/-! ## Character classes -/

theorem is_type_char_mem (c : Char) (h : is_type_char c = true) : c ∈ type_chars := by
  unfold is_type_char at h
  simp only [Bool.or_eq_true, beq_iff_eq] at h
  rcases h with (((((((((((((((h | h) | h) | h) | h) | h) | h) | h) | h) | h) | h) | h) | h) |
    h) | h) | h) <;> rw [h] <;> decide

theorem is_digit_char_mem (c : Char) (h : is_digit_char c = true) : c ∈ digit_chars := by
  unfold is_digit_char at h
  rw [Bool.and_eq_true, decide_eq_true_eq, decide_eq_true_eq] at h
  have h1 : 48 ≤ c.toNat := h.1
  have h2 : c.toNat ≤ 57 := h.2
  have hc : c = Char.ofNat c.toNat := (Char.ofNat_toNat c).symm
  rw [hc]
  interval_cases c.toNat <;> decide

theorem mem_uint_to_str (v : Nat) : ∀ c ∈ uint_to_str v, c ∈ digit_chars := by
  rw [uint_to_str_eq]
  exact numeral_subset 10 dec_digit (by decide) _ dec_digit_mem v

theorem digit_chars_is_digit : ∀ c ∈ digit_chars, is_digit_char c = true := by decide

theorem uint_to_str_digits (v : Nat) : ∀ c ∈ uint_to_str v, is_digit_char c = true :=
  fun c hc => digit_chars_is_digit c (mem_uint_to_str v c hc)

/-- The first digit of the numeral of a positive value is one of `1` to `9`. -/
theorem uint_to_str_head (v : Nat) (hv : v ≠ 0) :
    ∃ c, (uint_to_str v).head? = some c ∧ '1' ≤ c ∧ c ≤ '9' := by
  rw [uint_to_str_eq]
  obtain ⟨d, h0, hlt, hh⟩ := numeral_head 10 dec_digit (by decide) v hv
  refine ⟨dec_digit d, hh, ?_⟩
  have : ∀ d, d < 10 → 0 < d → '1' ≤ dec_digit d ∧ dec_digit d ≤ '9' := by decide
  exact this d hlt h0

theorem decimal_value_uint_to_str (v : Nat) : decimal_value (uint_to_str v) = (v : Int) := by
  rw [uint_to_str_eq, decimal_value_numeral]

/-! ## The blocks of `parse_format_spec` on the printed parts of a spec -/

theorem stage_sign (pre rest : List Char) (sp : FormatSpec) (explicit : Bool)
    (spec : FormatSpec) (hsg : spec.sign = '+' ∨ spec.sign = '-' ∨ spec.sign = ' ')
    (hsp : sp.sign = '-')
    (hrest : ∀ c, rest.head? = some c → ¬ (c = '+' ∨ c = '-' ∨ c = ' ')) :
    spec_sign (pre ++ (print_sign explicit spec ++ rest)) (pre.length, sp) =
      ((pre ++ print_sign explicit spec).length, { sp with sign := spec.sign }) := by
  unfold print_sign
  by_cases h : spec.sign = '-' ∧ explicit = false
  · rw [if_pos h, List.nil_append, List.append_nil, spec_sign_miss pre rest sp hrest, h.1,
      ← hsp]
  · rw [if_neg h, List.singleton_append, spec_sign_hit pre rest spec.sign sp hsg,
      List.length_append]
    rfl

theorem stage_alt_form (pre rest : List Char) (sp : FormatSpec) (spec : FormatSpec)
    (hsp : sp.alt_form = false) (hrest : rest.head? ≠ some '#') :
    spec_alt_form (pre ++ (print_alt_form spec ++ rest)) (pre.length, sp) =
      ((pre ++ print_alt_form spec).length, { sp with alt_form := spec.alt_form }) := by
  unfold print_alt_form
  by_cases h : spec.alt_form = true
  · rw [if_pos h, List.singleton_append, spec_alt_form_hit pre rest sp, List.length_append, h]
    rfl
  · rw [if_neg h, List.nil_append, List.append_nil, spec_alt_form_miss pre rest sp hrest,
      Bool.eq_false_iff.mpr h, ← hsp]

theorem stage_zero_pad (pre rest : List Char) (sp : FormatSpec) (spec : FormatSpec)
    (hsp : sp.zero_pad = false) (hrest : rest.head? ≠ some '0') :
    spec_zero_pad (pre ++ (print_zero_pad spec ++ rest)) (pre.length, sp) =
      ((pre ++ print_zero_pad spec).length, { sp with zero_pad := spec.zero_pad }) := by
  unfold print_zero_pad
  by_cases h : spec.zero_pad = true
  · rw [if_pos h, List.singleton_append, spec_zero_pad_hit pre rest sp, List.length_append, h]
    rfl
  · rw [if_neg h, List.nil_append, List.append_nil, spec_zero_pad_miss pre rest sp hrest,
      Bool.eq_false_iff.mpr h, ← hsp]

theorem stage_width (pre rest : List Char) (sp : FormatSpec) (spec : FormatSpec)
    (hw : 0 ≤ spec.width) (hsp : sp.width = 0)
    (hrest : ∀ c, rest.head? = some c → is_digit_char c = false) :
    spec_width (pre ++ (print_width spec ++ rest)) (pre.length, sp) =
      ((pre ++ print_width spec).length, { sp with width := spec.width }) := by
  unfold print_width
  by_cases h : spec.width = 0
  · rw [if_pos h, List.nil_append, List.append_nil, h, ← hsp]
    apply spec_width_miss pre rest sp
    intro c hc hx
    have hd : is_digit_char c = true := by
      unfold is_digit_char
      rw [Bool.and_eq_true, decide_eq_true_eq, decide_eq_true_eq]
      exact ⟨le_trans (by decide) hx.1, hx.2⟩
    rw [hrest c hc] at hd
    exact absurd hd (by decide)
  · have hv : spec.width.toNat ≠ 0 := by omega
    rw [if_neg h, spec_width_hit pre _ rest sp (uint_to_str_digits _) (uint_to_str_head _ hv)
      hrest, decimal_value_uint_to_str, List.length_append, Int.toNat_of_nonneg hw]

theorem stage_precision (pre rest : List Char) (sp : FormatSpec) (spec : FormatSpec)
    (hp : -1 ≤ spec.precision) (hsp : sp.precision = -1)
    (hrest : ∀ c, rest.head? = some c → is_digit_char c = false ∧ c ≠ '.') :
    spec_precision (pre ++ (print_precision spec ++ rest)) (pre.length, sp) =
      ((pre ++ print_precision spec).length, { sp with precision := spec.precision }) := by
  unfold print_precision
  by_cases h : spec.precision < 0
  · have he : spec.precision = -1 := by omega
    rw [if_pos h, List.nil_append, List.append_nil, he, ← hsp]
    apply spec_precision_miss pre rest sp
    intro hc
    exact (hrest '.' hc).2 rfl
  · rw [if_neg h, List.cons_append, spec_precision_hit pre _ rest sp (uint_to_str_digits _)
      (fun c hc => (hrest c hc).1), decimal_value_uint_to_str, List.length_append,
      List.length_cons, Int.toNat_of_nonneg (by omega), Nat.add_assoc, Nat.add_comm 1]

theorem stage_type (pre : List Char) (sp : FormatSpec) (spec : FormatSpec)
    (hty : spec.type = NUL ∨ is_type_char spec.type = true) (hsp : sp.type = NUL) :
    spec_type (pre ++ print_type spec) (pre.length, sp) =
      ((pre ++ print_type spec).length, { sp with type := spec.type }) := by
  unfold print_type
  by_cases h : spec.type = NUL
  · rw [if_pos h, List.append_nil, h, ← hsp]
    have := spec_type_miss pre [] sp (fun _ hc => nomatch hc)
    rwa [List.append_nil] at this
  · have ht : is_type_char spec.type = true := hty.resolve_left h
    rw [if_neg h, spec_type_hit pre [] spec.type sp ht, List.length_append]
    rfl

theorem stage_align (rest : List Char) (spec : FormatSpec)
    (hal : (spec.align = NUL ∧ spec.fill = ' ') ∨ is_align_char spec.align = true)
    (hrest : ∀ c ∈ rest, is_align_char c = false) :
    spec_align (print_fill_align spec ++ rest)
        (spec_fill_align (print_fill_align spec ++ rest) (0, {})) =
      ((print_fill_align spec).length, { fill := spec.fill, align := spec.align }) := by
  unfold print_fill_align
  by_cases h : spec.align = NUL
  · have hf : spec.fill = ' ' := by
      rcases hal with hal | hal
      · exact hal.2
      · rw [h] at hal
        exact absurd hal (by decide)
    rw [if_pos h, List.nil_append, spec_fill_align_miss rest _ hrest,
      spec_align_miss rest _ hrest, h, hf]
    rfl
  · rw [if_neg h]
    show spec_align (spec.fill :: spec.align :: rest)
      (spec_fill_align (spec.fill :: spec.align :: rest) (0, {})) = _
    have ha : is_align_char spec.align = true := by
      rcases hal with hal | hal
      · exact absurd hal.1 h
      · exact hal
    rw [spec_fill_align_hit spec.fill spec.align rest {} ha,
      spec_align_skip _ 2 { ({} : FormatSpec) with fill := spec.fill, align := spec.align } h]
    rfl

theorem head_mem (l : List Char) (c : Char) (h : l.head? = some c) : c ∈ l := by
  cases l with
  | nil => cases h
  | cons a r =>
    rw [List.head?_cons] at h
    rw [Option.some.inj h]
    exact List.mem_cons_self _ _

theorem head_append_cases (a b : List Char) (c : Char) (h : (a ++ b).head? = some c) :
    a.head? = some c ∨ (a = [] ∧ b.head? = some c) := by
  cases a with
  | nil => exact Or.inr ⟨rfl, h⟩
  | cons x r => exact Or.inl h

theorem mem_print_type (spec : FormatSpec)
    (hty : spec.type = NUL ∨ is_type_char spec.type = true) :
    ∀ c ∈ print_type spec, c ∈ type_chars := by
  intro c hc
  unfold print_type at hc
  by_cases h : spec.type = NUL
  · rw [if_pos h] at hc
    cases hc
  · rw [if_neg h, List.mem_singleton] at hc
    rw [hc]
    exact is_type_char_mem _ (hty.resolve_left h)

/-- The first byte of the precision and the type is `.` or a type letter. -/
theorem head_precision_type (spec : FormatSpec)
    (hty : spec.type = NUL ∨ is_type_char spec.type = true) (c : Char)
    (h : (print_precision spec ++ print_type spec).head? = some c) :
    c ∈ '.' :: type_chars := by
  rcases head_append_cases _ _ c h with h1 | ⟨_, h2⟩
  · unfold print_precision at h1
    by_cases hp : spec.precision < 0
    · rw [if_pos hp] at h1
      cases h1
    · rw [if_neg hp, List.head?_cons] at h1
      rw [← Option.some.inj h1]
      exact List.mem_cons_self _ _
  · exact List.mem_cons_of_mem _ (mem_print_type spec hty c (head_mem _ c h2))

/-- The first byte of the width, the precision and the type is no `0`. -/
theorem head_width_tail (spec : FormatSpec) (hw0 : 0 ≤ spec.width)
    (hty : spec.type = NUL ∨ is_type_char spec.type = true) :
    (print_width spec ++ (print_precision spec ++ print_type spec)).head? ≠ some '0' := by
  intro h
  rcases head_append_cases _ _ _ h with h1 | ⟨_, h2⟩
  · unfold print_width at h1
    by_cases hw : spec.width = 0
    · rw [if_pos hw] at h1
      cases h1
    · rw [if_neg hw] at h1
      by_cases hv : spec.width.toNat = 0
      · omega
      · obtain ⟨c, hc, hr⟩ := uint_to_str_head _ hv
        rw [hc] at h1
        rw [Option.some.inj h1] at hr
        exact absurd hr.1 (by decide)
  · have := head_precision_type spec hty '0' h2
    exact absurd this (by decide)

/-- The bytes of the width, the precision and the type. -/
theorem mem_width_tail (spec : FormatSpec)
    (hty : spec.type = NUL ∨ is_type_char spec.type = true) :
    ∀ c ∈ print_width spec ++ (print_precision spec ++ print_type spec),
      c ∈ spec_tail_chars := by
  intro c hc
  unfold spec_tail_chars
  rw [List.mem_append, List.mem_append] at hc
  rcases hc with hc | hc | hc
  · unfold print_width at hc
    by_cases hw : spec.width = 0
    · rw [if_pos hw] at hc
      cases hc
    · rw [if_neg hw] at hc
      exact List.mem_append_left _ (mem_uint_to_str _ c hc)
  · unfold print_precision at hc
    by_cases hp : spec.precision < 0
    · rw [if_pos hp] at hc
      cases hc
    · rw [if_neg hp, List.mem_cons] at hc
      rcases hc with hc | hc
      · rw [hc]
        exact List.mem_append_right _ (List.mem_cons_self _ _)
      · exact List.mem_append_left _ (mem_uint_to_str _ c hc)
  · exact List.mem_append_right _ (List.mem_cons_of_mem _ (mem_print_type spec hty c hc))

/-! ## The tests of the validator and of the runtime parser -/

theorem strsyn_is_digit_eq : strsyn.is_digit = is_digit_char := by
  funext c
  rfl

theorem strsyn_is_align_eq : strsyn.is_align = is_align_char := by
  funext c
  rfl

theorem strsyn_is_type_eq (c : Char) : strsyn.is_type c = is_type_char c := by
  rw [Bool.eq_iff_iff]
  unfold strsyn.is_type is_type_char
  simp only [Bool.or_eq_true, beq_iff_eq]
  tauto

theorem strsyn_is_sign_iff (c : Char) :
    strsyn.is_sign c = true ↔ (c = '+' ∨ c = '-' ∨ c = ' ') := by
  unfold strsyn.is_sign
  simp only [Bool.or_eq_true, beq_iff_eq, or_assoc]

/-! ## The blocks of the validator -/

theorem digits_block_eq (s : List Char) (i : Nat) :
    strsyn.digits_block s s.length i = i + ((s.drop i).takeWhile is_digit_char).length := by
  unfold strsyn.digits_block
  rw [skip_while_eq s _ _ _ (le_refl _), strsyn_is_digit_eq]

theorem digits_block_bounds (s : List Char) (i : Nat) (h : i ≤ s.length) :
    i ≤ strsyn.digits_block s s.length i ∧ strsyn.digits_block s s.length i ≤ s.length := by
  rw [digits_block_eq]
  have := takeWhile_length_le_drop s is_digit_char i
  omega

theorem step_if_bounds (s : List Char) (n : Nat) (cond : Char → Bool) (i : Nat) (h : i ≤ n) :
    i ≤ strsyn.step_if s n cond i ∧ strsyn.step_if s n cond i ≤ n := by
  unfold strsyn.step_if
  split <;> omega

theorem precision_block_bounds (s : List Char) (i : Nat) (h : i ≤ s.length) :
    i ≤ strsyn.precision_block s s.length i ∧
      strsyn.precision_block s s.length i ≤ s.length := by
  unfold strsyn.precision_block
  split
  · rename_i hc
    have := digits_block_bounds s (i + 1) (by omega)
    omega
  · omega

theorem align_block_bounds (s : List Char) (n : Nat) (i : Nat) (h : i < n) :
    i ≤ strsyn.align_block s n i ∧ strsyn.align_block s n i ≤ n := by
  unfold strsyn.align_block
  split
  · omega
  · split <;> omega

/-- The index after `strsyn::parse_format_spec` is not before the start and not past the
end, and the code is 0. -/
theorem strsyn_parse_bounds (s : List Char) (i : Nat) (h : i ≤ s.length) :
    (strsyn.parse_format_spec s s.length i).1 = 0 ∧
    i ≤ (strsyn.parse_format_spec s s.length i).2 ∧
    (strsyn.parse_format_spec s s.length i).2 ≤ s.length := by
  unfold strsyn.parse_format_spec
  split
  · exact ⟨rfl, le_refl _, h⟩
  · rename_i hc
    have hlt : i < s.length := by omega
    have h1 := align_block_bounds s s.length i hlt
    have h2 := step_if_bounds s s.length strsyn.is_sign _ h1.2
    have h3 := step_if_bounds s s.length (fun c => c == '#') _ h2.2
    have h4 := step_if_bounds s s.length (fun c => c == '0') _ h3.2
    have h5 := digits_block_bounds s _ h4.2
    have h6 := precision_block_bounds s _ h5.2
    have h7 := step_if_bounds s s.length strsyn.is_type _ h6.2
    refine ⟨rfl, ?_, h7.2⟩
    dsimp only
    omega

/-! ## The loop of the validator -/

/-- A turn of the loop that does not return moves the index forward, not past the end. -/
theorem validate_step_bounds (s : List Char) (i j : Nat) (hi : i < s.length)
    (h : strsyn.validate_step s s.length i = .inr j) : i < j ∧ j ≤ s.length := by
  have hd := digits_block_bounds s (i + 1) (by omega)
  have hp := strsyn_parse_bounds s (strsyn.digits_block s s.length (i + 1) + 1)
  unfold strsyn.validate_step at h
  split_ifs at h with h1 h2 h3 h4 h5 h6 h7 h8 h9
  all_goals cases h
  all_goals omega

theorem validate_loop_fuel (s : List Char) :
    ∀ (d i f1 f2 : Nat), s.length - i ≤ d → s.length - i < f1 → s.length - i < f2 →
      strsyn.validate_loop s s.length f1 i = strsyn.validate_loop s s.length f2 i := by
  intro d
  induction d with
  | zero =>
    intro i f1 f2 hd h1 h2
    obtain ⟨g1, rfl⟩ : ∃ g, f1 = g + 1 := ⟨f1 - 1, by omega⟩
    obtain ⟨g2, rfl⟩ : ∃ g, f2 = g + 1 := ⟨f2 - 1, by omega⟩
    unfold strsyn.validate_loop
    rw [if_neg (by omega), if_neg (by omega)]
  | succ d ih =>
    intro i f1 f2 hd h1 h2
    obtain ⟨g1, rfl⟩ : ∃ g, f1 = g + 1 := ⟨f1 - 1, by omega⟩
    obtain ⟨g2, rfl⟩ : ∃ g, f2 = g + 1 := ⟨f2 - 1, by omega⟩
    unfold strsyn.validate_loop
    by_cases hi : i < s.length
    · rw [if_pos hi, if_pos hi]
      cases hs : strsyn.validate_step s s.length i with
      | inl c => rfl
      | inr j =>
        have hb := validate_step_bounds s i j hi hs
        exact ih j g1 g2 (by omega) (by omega) (by omega)
    · rw [if_neg hi, if_neg hi]

/-- The loop of `validate` from an index: one turn and the loop from the next index. -/
theorem validate_from_eq (s : List Char) (i : Nat) :
    validate_from s i =
      if i < s.length then
        match strsyn.validate_step s s.length i with
        | .inl code => some code
        | .inr j => validate_from s j
      else some 0 := by
  unfold validate_from
  rw [show s.length - i + 1 = (s.length - i) + 1 from rfl]
  conv_lhs => unfold strsyn.validate_loop
  by_cases hi : i < s.length
  · rw [if_pos hi, if_pos hi]
    cases hs : strsyn.validate_step s s.length i with
    | inl c => rfl
    | inr j =>
      have hb := validate_step_bounds s i j hi hs
      exact validate_loop_fuel s (s.length - j) j _ _ (le_refl _) (by omega) (by omega)
  · rw [if_neg hi, if_neg hi]

theorem validate_eq_from (s : List Char) : strsyn.validate s = validate_from s 0 := rfl

/-- The function `validate` returns a code. -/
theorem validate_from_total (s : List Char) :
    ∀ (d i : Nat), s.length - i ≤ d → ∃ c, validate_from s i = some c := by
  intro d
  induction d with
  | zero =>
    intro i hd
    rw [validate_from_eq, if_neg (by omega)]
    exact ⟨0, rfl⟩
  | succ d ih =>
    intro i hd
    rw [validate_from_eq]
    by_cases hi : i < s.length
    · rw [if_pos hi]
      cases hs : strsyn.validate_step s s.length i with
      | inl c => exact ⟨c, rfl⟩
      | inr j =>
        have hb := validate_step_bounds s i j hi hs
        exact ih j (by omega)
    · rw [if_neg hi]
      exact ⟨0, rfl⟩

theorem validate_total (s : List Char) : ∃ c, strsyn.validate s = some c :=
  validate_from_total s s.length 0 (by omega)

/-! ## The spec of a field, as the validator reads it in the template -/

theorem getD_drop_add (s : List Char) (b j : Nat) :
    (s.drop b).getD j NUL = s.getD (b + j) NUL := by
  simp [List.getD_eq_getElem?_getD, List.getElem?_drop]

theorem takeWhile_append_cons_stop (P : Char → Bool) (a t : List Char) (c : Char)
    (hc : P c = false) : (a ++ c :: t).takeWhile P = a.takeWhile P := by
  induction a with
  | nil => rw [List.nil_append, List.takeWhile_cons_of_neg (by rw [hc]; decide)]; rfl
  | cons x r ih =>
    rw [List.cons_append]
    by_cases hx : P x = true
    · rw [List.takeWhile_cons_of_pos hx, List.takeWhile_cons_of_pos hx, ih]
    · rw [List.takeWhile_cons_of_neg hx, List.takeWhile_cons_of_neg hx]

/-- The bytes of a window of the template that ends before a `}`. -/
theorem spec_window (s sp tail : List Char) (b : Nat) (hdrop : s.drop b = sp ++ '}' :: tail)
    (hs : '}' ∉ sp) :
    (∀ j, j < sp.length → s.getD (b + j) NUL = sp.getD j NUL) ∧
    s.getD (b + sp.length) NUL = '}' ∧ b + sp.length < s.length ∧
    (∀ j, j < sp.length → sp.getD j NUL ≠ '}') := by
  refine ⟨?_, ?_, ?_, ?_⟩
  · intro j hj
    rw [← getD_drop_add, hdrop, List.getD_append _ _ _ _ hj]
  · rw [← getD_drop_add, hdrop, getD_append_cons]
  · have h := congrArg List.length hdrop
    rw [List.length_drop, List.length_append, List.length_cons] at h
    omega
  · intro j hj hx
    exact hs (hx ▸ getD_mem_of_lt sp j hj)

theorem step_if_window (s sp tail : List Char) (b : Nat)
    (hdrop : s.drop b = sp ++ '}' :: tail) (hs : '}' ∉ sp) (cond : Char → Bool)
    (hc : cond '}' = false) (j : Nat) (hj : j ≤ sp.length) :
    strsyn.step_if s s.length cond (b + j) = b + strsyn.step_if sp sp.length cond j := by
  obtain ⟨h1, h2, h3, _⟩ := spec_window s sp tail b hdrop hs
  unfold strsyn.step_if
  by_cases hlt : j < sp.length
  · rw [h1 j hlt]
    by_cases hx : cond (sp.getD j NUL) = true
    · rw [if_pos ⟨by omega, hx⟩, if_pos ⟨hlt, hx⟩]
      omega
    · rw [if_neg (fun h => hx h.2), if_neg (fun h => hx h.2)]
  · have hj2 : j = sp.length := by omega
    subst hj2
    rw [h2, if_neg (fun h => by rw [hc] at h; exact absurd h.2 (by decide)),
      if_neg (fun h => hlt h.1)]

theorem digits_block_window (s sp tail : List Char) (b : Nat)
    (hdrop : s.drop b = sp ++ '}' :: tail) (j : Nat) (hj : j ≤ sp.length) :
    strsyn.digits_block s s.length (b + j) = b + strsyn.digits_block sp sp.length j := by
  rw [digits_block_eq, digits_block_eq, ← List.drop_drop, hdrop,
    List.drop_append_of_le_length hj, takeWhile_append_cons_stop _ _ _ _ (by decide)]
  omega

theorem precision_block_window (s sp tail : List Char) (b : Nat)
    (hdrop : s.drop b = sp ++ '}' :: tail) (hs : '}' ∉ sp) (j : Nat) (hj : j ≤ sp.length) :
    strsyn.precision_block s s.length (b + j) =
      b + strsyn.precision_block sp sp.length j := by
  obtain ⟨h1, h2, h3, _⟩ := spec_window s sp tail b hdrop hs
  unfold strsyn.precision_block
  by_cases hlt : j < sp.length
  · rw [h1 j hlt]
    by_cases hx : sp.getD j NUL = '.'
    · rw [if_pos ⟨by omega, hx⟩, if_pos ⟨hlt, hx⟩, Nat.add_assoc,
        digits_block_window s sp tail b hdrop (j + 1) (by omega)]
    · rw [if_neg (fun h => hx h.2), if_neg (fun h => hx h.2)]
  · have hj2 : j = sp.length := by omega
    subst hj2
    rw [h2, if_neg (fun h => absurd h.2 (by decide)), if_neg (fun h => hlt h.1)]

theorem align_block_window (s sp tail : List Char) (b : Nat)
    (hdrop : s.drop b = sp ++ '}' :: tail) (hs : '}' ∉ sp) (j : Nat) (hj : j < sp.length) :
    strsyn.align_block s s.length (b + j) = b + strsyn.align_block sp sp.length j := by
  obtain ⟨h1, h2, h3, _⟩ := spec_window s sp tail b hdrop hs
  have hc1 : (b + j + 1 < s.length ∧ strsyn.is_align (s.getD (b + j + 1) NUL) = true) ↔
      (j + 1 < sp.length ∧ strsyn.is_align (sp.getD (j + 1) NUL) = true) := by
    by_cases hlt : j + 1 < sp.length
    · rw [Nat.add_assoc, h1 (j + 1) hlt]
      constructor
      · intro h; exact ⟨hlt, h.2⟩
      · intro h; exact ⟨by omega, h.2⟩
    · have hj2 : j + 1 = sp.length := by omega
      rw [Nat.add_assoc, hj2, h2]
      constructor
      · intro h; exact absurd h.2 (by decide)
      · intro h; exact absurd h.1 (by omega)
  unfold strsyn.align_block
  rw [h1 j hj]
  by_cases hc : j + 1 < sp.length ∧ strsyn.is_align (sp.getD (j + 1) NUL) = true
  · rw [if_pos (hc1.mpr hc), if_pos hc]
    omega
  · rw [if_neg (fun h => hc (hc1.mp h)), if_neg hc]
    split <;> omega

/-- The function `strsyn::parse_format_spec` reads the spec of a field in the template as it
reads the spec alone. -/
theorem strsyn_parse_window (s sp tail : List Char) (b : Nat)
    (hdrop : s.drop b = sp ++ '}' :: tail) (hs : '}' ∉ sp) :
    strsyn.parse_format_spec s s.length b =
      (0, b + (strsyn.parse_format_spec sp sp.length 0).2) := by
  obtain ⟨h1, h2, h3, h4⟩ := spec_window s sp tail b hdrop hs
  unfold strsyn.parse_format_spec
  by_cases hm : sp.length = 0
  · have h2b : s.getD b NUL = '}' := by rw [hm] at h2; exact h2
    rw [if_pos (Or.inr h2b), if_pos (Or.inl (by omega))]
    rfl
  · have hpos : 0 < sp.length := by omega
    have h0 := h1 0 hpos
    rw [Nat.add_zero] at h0
    rw [if_neg (fun h => by
        rcases h with h | h
        · omega
        · rw [h0] at h; exact h4 0 hpos h),
      if_neg (fun h => by
        rcases h with h | h
        · omega
        · exact h4 0 hpos h)]
    have a1 := align_block_bounds sp sp.length 0 hpos
    have a2 := step_if_bounds sp sp.length strsyn.is_sign _ a1.2
    have a3 := step_if_bounds sp sp.length (fun c => c == '#') _ a2.2
    have a4 := step_if_bounds sp sp.length (fun c => c == '0') _ a3.2
    have a5 := digits_block_bounds sp _ a4.2
    have a6 := precision_block_bounds sp _ a5.2
    have e1 := align_block_window s sp tail b hdrop hs 0 hpos
    rw [Nat.add_zero] at e1
    rw [e1, step_if_window s sp tail b hdrop hs strsyn.is_sign (by decide) _ a1.2,
      step_if_window s sp tail b hdrop hs (fun c => c == '#') (by decide) _ a2.2,
      step_if_window s sp tail b hdrop hs (fun c => c == '0') (by decide) _ a3.2,
      digits_block_window s sp tail b hdrop _ a4.2,
      precision_block_window s sp tail b hdrop hs _ a5.2,
      step_if_window s sp tail b hdrop hs strsyn.is_type (by decide) _ a6.2]

/-! ## One turn of the loop of the validator, by the bytes ahead -/

theorem validate_step_escape_open (s r : List Char) (i : Nat)
    (h : s.drop i = '{' :: '{' :: r) : strsyn.validate_step s s.length i = .inr (i + 2) := by
  obtain ⟨h1, h2, h3⟩ := getD_of_drop_eq_cons h
  obtain ⟨h4, h5, _⟩ := getD_of_drop_eq_cons h3
  unfold strsyn.validate_step
  rw [if_pos h2, if_pos ⟨h4, h5⟩]

theorem validate_step_escape_close (s r : List Char) (i : Nat)
    (h : s.drop i = '}' :: '}' :: r) : strsyn.validate_step s s.length i = .inr (i + 2) := by
  obtain ⟨h1, h2, h3⟩ := getD_of_drop_eq_cons h
  obtain ⟨h4, h5, _⟩ := getD_of_drop_eq_cons h3
  unfold strsyn.validate_step
  rw [h2, if_neg (by decide), if_pos rfl, if_pos ⟨h4, h5⟩]

theorem not_next_of_head (s rest : List Char) (i : Nat) (x : Char)
    (h : s.drop (i + 1) = rest) (hx : rest.head? ≠ some x) :
    ¬ (i + 1 < s.length ∧ s.getD (i + 1) NUL = x) := by
  rintro ⟨h1, h2⟩
  rw [drop_eq_getD_cons h1] at h
  rw [← h, List.head?_cons, h2] at hx
  exact hx rfl

theorem validate_step_lone_close (s rest : List Char) (i : Nat)
    (h : s.drop i = '}' :: rest) (hr : rest.head? ≠ some '}') :
    strsyn.validate_step s s.length i = .inr (i + 1) := by
  obtain ⟨h1, h2, h3⟩ := getD_of_drop_eq_cons h
  unfold strsyn.validate_step
  rw [h2, if_neg (by decide), if_pos rfl, if_neg (not_next_of_head s rest i '}' h3 hr)]

theorem validate_step_plain (s rest : List Char) (i : Nat) (c : Char)
    (h : s.drop i = c :: rest) (hc : no_brace c = true) :
    strsyn.validate_step s s.length i = .inr (i + 1) := by
  obtain ⟨h1, h2, h3⟩ := getD_of_drop_eq_cons h
  have hb : c ≠ '{' ∧ c ≠ '}' := by
    simpa [no_brace] using hc
  unfold strsyn.validate_step
  rw [h2, if_neg hb.1, if_neg hb.2]

/-- At a `{` that opens a field the validator skips the digits and looks at the byte behind
them. -/
theorem validate_step_field (s rest : List Char) (i : Nat) (h : s.drop i = '{' :: rest)
    (hne : rest.head? ≠ some '{') :
    s.drop (i + 1 + (rest.takeWhile is_digit_char).length) = rest.dropWhile is_digit_char ∧
    strsyn.validate_step s s.length i =
      if i + 1 + (rest.takeWhile is_digit_char).length ≥ s.length then .inl 1
      else if s.getD (i + 1 + (rest.takeWhile is_digit_char).length) NUL = '}' then
        .inr (i + 1 + (rest.takeWhile is_digit_char).length + 1)
      else if s.getD (i + 1 + (rest.takeWhile is_digit_char).length) NUL ≠ ':' then .inl 2
      else if (strsyn.parse_format_spec s s.length
          (i + 1 + (rest.takeWhile is_digit_char).length + 1)).1 ≠ 0 then
        .inl (strsyn.parse_format_spec s s.length
          (i + 1 + (rest.takeWhile is_digit_char).length + 1)).1
      else if (strsyn.parse_format_spec s s.length
            (i + 1 + (rest.takeWhile is_digit_char).length + 1)).2 ≥ s.length ∨
          s.getD (strsyn.parse_format_spec s s.length
            (i + 1 + (rest.takeWhile is_digit_char).length + 1)).2 NUL ≠ '}' then
        .inl 3
      else .inr ((strsyn.parse_format_spec s s.length
        (i + 1 + (rest.takeWhile is_digit_char).length + 1)).2 + 1) := by
  obtain ⟨h1, h2, h3⟩ := getD_of_drop_eq_cons h
  constructor
  · rw [← h3, drop_add_takeWhile]
  · unfold strsyn.validate_step
    rw [if_pos h2, if_neg (not_next_of_head s rest i '{' h3 hne), digits_block_eq, h3]

theorem validate_step_open_end (s rest : List Char) (i : Nat) (h : s.drop i = '{' :: rest)
    (hne : rest.head? ≠ some '{') (hr : rest.dropWhile is_digit_char = []) :
    strsyn.validate_step s s.length i = .inl 1 := by
  obtain ⟨hd, hv⟩ := validate_step_field s rest i h hne
  rw [hr] at hd
  rw [hv, if_pos (List.drop_eq_nil_iff.mp hd)]

theorem validate_step_plain_field (s rest tail : List Char) (i : Nat)
    (h : s.drop i = '{' :: rest) (hne : rest.head? ≠ some '{')
    (hr : rest.dropWhile is_digit_char = '}' :: tail) :
    strsyn.validate_step s s.length i =
      .inr (i + 1 + (rest.takeWhile is_digit_char).length + 1) := by
  obtain ⟨hd, hv⟩ := validate_step_field s rest i h hne
  rw [hr] at hd
  obtain ⟨h1, h2, _⟩ := getD_of_drop_eq_cons hd
  rw [hv, if_neg (by omega), if_pos h2]

theorem validate_step_bad_field (s rest t : List Char) (x : Char) (i : Nat)
    (h : s.drop i = '{' :: rest) (hne : rest.head? ≠ some '{')
    (hr : rest.dropWhile is_digit_char = x :: t) (hx1 : x ≠ '}') (hx2 : x ≠ ':') :
    strsyn.validate_step s s.length i = .inl 2 := by
  obtain ⟨hd, hv⟩ := validate_step_field s rest i h hne
  rw [hr] at hd
  obtain ⟨h1, h2, _⟩ := getD_of_drop_eq_cons hd
  rw [hv, if_neg (by omega), h2, if_neg hx1, if_pos hx2]

theorem validate_step_spec_field (s rest sp tail : List Char) (i : Nat)
    (h : s.drop i = '{' :: rest) (hne : rest.head? ≠ some '{')
    (hr : rest.dropWhile is_digit_char = ':' :: (sp ++ '}' :: tail)) (hs : '}' ∉ sp) :
    strsyn.validate_step s s.length i =
      if (strsyn.parse_format_spec sp sp.length 0).2 = sp.length then
        .inr (i + 1 + (rest.takeWhile is_digit_char).length + 1 + sp.length + 1)
      else .inl 3 := by
  obtain ⟨hd, hv⟩ := validate_step_field s rest i h hne
  rw [hr] at hd
  obtain ⟨h1, h2, h3⟩ := getD_of_drop_eq_cons hd
  obtain ⟨w1, w2, w3, w4⟩ := spec_window s sp tail _ h3 hs
  have hb := (strsyn_parse_bounds sp 0 (Nat.zero_le _)).2.2
  rw [hv, if_neg (by omega), h2, if_neg (by decide), if_neg (fun hx => hx rfl),
    strsyn_parse_window s sp tail _ h3 hs]
  dsimp only
  rw [if_neg (fun hx => hx rfl)]
  by_cases hv2 : (strsyn.parse_format_spec sp sp.length 0).2 = sp.length
  · rw [if_pos hv2, hv2, if_neg (fun hx => by
      rcases hx with hx | hx
      · omega
      · exact hx w2)]
  · rw [if_neg hv2, if_pos (Or.inr (by
      rw [w1 _ (by omega)]
      exact w4 _ (by omega)))]

theorem getD_mem_drop (s : List Char) (b m : Nat) (h1 : b ≤ m) (h2 : m < s.length) :
    s.getD m NUL ∈ s.drop b := by
  have e : m = b + (m - b) := by omega
  rw [e, ← getD_drop_add]
  apply getD_mem_of_lt
  rw [List.length_drop]
  omega

theorem validate_step_spec_open (s rest r2 : List Char) (i : Nat)
    (h : s.drop i = '{' :: rest) (hne : rest.head? ≠ some '{')
    (hr : rest.dropWhile is_digit_char = ':' :: r2) (hs : '}' ∉ r2) :
    strsyn.validate_step s s.length i = .inl 3 := by
  obtain ⟨hd, hv⟩ := validate_step_field s rest i h hne
  rw [hr] at hd
  obtain ⟨h1, h2, h3⟩ := getD_of_drop_eq_cons hd
  have hb := strsyn_parse_bounds s (i + 1 + (rest.takeWhile is_digit_char).length + 1)
    (by omega)
  rw [hv, if_neg (by omega), h2, if_neg (by decide), if_neg (fun hx => hx rfl),
    if_neg (fun hx => hx hb.1), if_pos]
  by_cases hlt : (strsyn.parse_format_spec s s.length
      (i + 1 + (rest.takeWhile is_digit_char).length + 1)).2 < s.length
  · right
    intro hx
    have hm := getD_mem_drop s _ _ hb.2.1 hlt
    rw [h3, hx] at hm
    exact hs hm
  · left
    omega

/-! ## The validator along the segments of the runtime scanner -/

/-- Over a run of plain bytes the validator moves byte by byte. -/
theorem validate_from_plain_run (s : List Char) :
    ∀ (l rest : List Char) (i : Nat), (∀ c ∈ l, no_brace c = true) → s.drop i = l ++ rest →
      validate_from s i = validate_from s (i + l.length) := by
  intro l
  induction l with
  | nil => intro rest i _ _; rfl
  | cons c l ih =>
    intro rest i hl h
    obtain ⟨h1, _, h3⟩ := getD_of_drop_eq_cons h
    rw [validate_from_eq, if_pos h1,
      validate_step_plain s (l ++ rest) i c h (hl c (List.mem_cons_self _ _))]
    dsimp only
    rw [ih rest (i + 1) (fun x hx => hl x (List.mem_cons_of_mem _ hx)) h3, List.length_cons]
    congr 1
    omega

/-- The validator from the start of a literal is the validator from its end. -/
theorem validate_from_literal_end (p : FormatParser) (hinv : p.Inv) :
    validate_from p.fmt p.ptr_ = validate_from p.fmt p.literal_end := by
  have hrun := validate_from_plain_run p.fmt ((p.fmt.drop p.ptr_).takeWhile no_brace)
    ((p.fmt.drop p.ptr_).dropWhile no_brace) p.ptr_
    (fun c hc => (List.mem_takeWhile_imp hc))
    (List.takeWhile_append_dropWhile _ _).symm
  rw [hrun, literal_end_eq p hinv.1]
  split
  · rename_i hc
    obtain ⟨hc1, hc2, hc3⟩ := hc
    have hd := drop_eq_getD_cons hc1
    unfold FormatParser.peek at hc2 hc3
    rw [hc2] at hd
    have hne : (p.fmt.drop (p.ptr_ + ((p.fmt.drop p.ptr_).takeWhile no_brace).length +
        1)).head? ≠ some '}' := by
      intro hx
      rcases hc3 with hc3 | hc3
      · rw [List.drop_eq_nil_of_le hc3] at hx
        cases hx
      · by_cases hlt : p.ptr_ + ((p.fmt.drop p.ptr_).takeWhile no_brace).length + 1 <
            p.fmt.length
        · rw [drop_eq_getD_cons hlt, List.head?_cons] at hx
          exact hc3 (Option.some.inj hx)
        · rw [List.drop_eq_nil_of_le (by omega)] at hx
          cases hx
    rw [validate_from_eq p.fmt (p.ptr_ + _), if_pos hc1,
      validate_step_lone_close p.fmt _ _ hd hne]
  · rfl

theorem split_at_close (t : List Char) (h : '}' ∈ t) :
    ∃ sp tail, t = sp ++ '}' :: tail ∧ '}' ∉ sp := by
  refine ⟨t.takeWhile no_close, (t.dropWhile no_close).tail, ?_, ?_⟩
  · have hh := (head_dropWhile_no_close t).mpr h
    cases hd : t.dropWhile no_close with
    | nil => rw [hd] at hh; cases hh
    | cons x r =>
      rw [hd, List.head?_cons] at hh
      have e := List.takeWhile_append_dropWhile no_close t
      rw [hd, Option.some.inj hh] at e
      exact e.symm
  · intro hx
    have := List.mem_takeWhile_imp hx
    exact absurd this (by decide)

/-- Where the validator goes on with code 0 in reach, `next()` returns no `ERROR` segment
and leaves the pointer where the validator goes on with code 0 in reach. -/
theorem validate_next (p : FormatParser) (hinv : p.Inv)
    (hq : validate_from p.fmt p.ptr_ = some 0) :
    p.next.1.type ≠ .ERROR ∧ validate_from p.fmt p.next.2.ptr_ = some 0 := by
  cases hd : p.fmt.drop p.ptr_ with
  | nil =>
    rw [next_of_nil p hinv hd]
    exact ⟨fun h => (by cases h), hq⟩
  | cons c rest =>
    obtain ⟨h1, h2, h3⟩ := getD_of_drop_eq_cons hd
    rw [validate_from_eq, if_pos h1] at hq
    by_cases hc : c = '{'
    · subst hc
      by_cases hr : rest.head? = some '{'
      · obtain ⟨r, rfl⟩ : ∃ r, rest = '{' :: r := by
          cases rest with
          | nil => cases hr
          | cons d r => exact ⟨r, by rw [List.head?_cons] at hr; rw [Option.some.inj hr]⟩
        rw [validate_step_escape_open p.fmt r p.ptr_ hd] at hq
        rw [next_of_escape_open p hinv r hd]
        exact ⟨fun h => (by cases h), hq⟩
      · rw [next_of_field p hinv rest hd hr]
        cases hr1 : rest.dropWhile is_digit_char with
        | nil =>
          rw [validate_step_open_end p.fmt rest p.ptr_ hd hr hr1] at hq
          cases hq
        | cons x t =>
          by_cases hx1 : x = '}'
          · subst hx1
            rw [validate_step_plain_field p.fmt rest t p.ptr_ hd hr hr1] at hq
            rw [parse_placeholder_of_plain_field p hinv rest t hd hr1]
            exact ⟨fun h => (by cases h), hq⟩
          · by_cases hx2 : x = ':'
            · subst hx2
              by_cases hcl : '}' ∈ t
              · obtain ⟨sp, tail, rfl, hs⟩ := split_at_close t hcl
                rw [validate_step_spec_field p.fmt rest sp tail p.ptr_ hd hr hr1 hs] at hq
                by_cases hv : (strsyn.parse_format_spec sp sp.length 0).2 = sp.length
                · rw [if_pos hv] at hq
                  have hall := no_close_of_not_mem sp hs
                  have hdw : (sp ++ '}' :: tail).dropWhile no_close = '}' :: tail := by
                    rw [List.dropWhile_append_of_pos hall,
                      List.dropWhile_cons_of_neg (by decide)]
                  have htw : (sp ++ '}' :: tail).takeWhile no_close = sp := by
                    rw [List.takeWhile_append_of_pos hall,
                      List.takeWhile_cons_of_neg (by decide), List.append_nil]
                  obtain ⟨hty, _, _, hnext⟩ :=
                    parse_placeholder_of_spec_field p hinv rest _ tail hd hr1 hdw
                  rw [htw] at hnext
                  rw [hnext]
                  exact ⟨fun h => (by rw [hty] at h; cases h), hq⟩
                · rw [if_neg hv] at hq
                  cases hq
              · rw [validate_step_spec_open p.fmt rest t p.ptr_ hd hr hr1 hcl] at hq
                cases hq
            · rw [validate_step_bad_field p.fmt rest t x p.ptr_ hd hr hr1 hx1 hx2] at hq
              cases hq
    · by_cases hc2 : c = '}'
      · subst hc2
        by_cases hr : rest.head? = some '}'
        · obtain ⟨r, rfl⟩ : ∃ r, rest = '}' :: r := by
            cases rest with
            | nil => cases hr
            | cons d r => exact ⟨r, by rw [List.head?_cons] at hr; rw [Option.some.inj hr]⟩
          rw [validate_step_escape_close p.fmt r p.ptr_ hd] at hq
          rw [next_of_escape_close p hinv r hd]
          exact ⟨fun h => (by cases h), hq⟩
        · rw [validate_step_lone_close p.fmt rest p.ptr_ hd hr] at hq
          rw [next_of_literal p hinv '}' rest hd (by decide) (fun _ => hr),
            literal_end_of_lone_close p hinv rest hd hr]
          exact ⟨fun h => (by cases h), hq⟩
      · have hnb : no_brace c = true := by
          simp [no_brace, hc, hc2]
        have hle := validate_from_literal_end p hinv
        rw [validate_from_eq, if_pos h1] at hle
        rw [next_of_literal p hinv c rest hd hc (fun h => absurd h hc2)]
        refine ⟨fun h => (by cases h), ?_⟩
        show validate_from p.fmt p.literal_end = some 0
        rw [← hle]
        exact hq

/-- A template that the validator accepts: at every segment boundary the validator has
code 0 in reach, and no segment is an `ERROR`. -/
theorem validate_boundaries (s : List Char) (h : strsyn.validate s = some 0) :
    ∀ k, validate_from s (parser_after s k).ptr_ = some 0 ∧
      (segment_at s k).type ≠ .ERROR := by
  have key : ∀ k, validate_from s (parser_after s k).ptr_ = some 0 := by
    intro k
    induction k with
    | zero => exact h
    | succ k ih =>
      have hn := validate_next (parser_after s k) (parser_after_inv s k)
        (by rw [parser_after_fmt]; exact ih)
      rw [parser_after_fmt] at hn
      rw [parser_after_succ]
      exact hn.2
  intro k
  refine ⟨key k, ?_⟩
  have hn := validate_next (parser_after s k) (parser_after_inv s k)
    (by rw [parser_after_fmt]; exact key k)
  exact hn.1

/-! ## The runtime parser and the validator on one spec -/

theorem spec_sign_pos (s : List Char) (st : Nat × FormatSpec) :
    (spec_sign s st).1 = strsyn.step_if s s.length strsyn.is_sign st.1 := by
  unfold spec_sign strsyn.step_if
  by_cases h : st.1 < s.length ∧ (s.getD st.1 NUL = '+' ∨ s.getD st.1 NUL = '-' ∨
      s.getD st.1 NUL = ' ')
  · rw [if_pos h, if_pos ⟨h.1, (strsyn_is_sign_iff _).mpr h.2⟩]
  · rw [if_neg h, if_neg (fun hx => h ⟨hx.1, (strsyn_is_sign_iff _).mp hx.2⟩)]

theorem spec_alt_form_pos (s : List Char) (st : Nat × FormatSpec) :
    (spec_alt_form s st).1 = strsyn.step_if s s.length (fun c => c == '#') st.1 := by
  unfold spec_alt_form strsyn.step_if
  by_cases h : st.1 < s.length ∧ s.getD st.1 NUL = '#'
  · rw [if_pos h, if_pos ⟨h.1, beq_iff_eq.mpr h.2⟩]
  · rw [if_neg h, if_neg (fun hx => h ⟨hx.1, beq_iff_eq.mp hx.2⟩)]

theorem spec_zero_pad_pos (s : List Char) (st : Nat × FormatSpec) :
    (spec_zero_pad s st).1 = strsyn.step_if s s.length (fun c => c == '0') st.1 := by
  unfold spec_zero_pad strsyn.step_if
  by_cases h : st.1 < s.length ∧ s.getD st.1 NUL = '0'
  · rw [if_pos h, if_pos ⟨h.1, beq_iff_eq.mpr h.2⟩]
  · rw [if_neg h, if_neg (fun hx => h ⟨hx.1, beq_iff_eq.mp hx.2⟩)]

theorem spec_type_pos (s : List Char) (st : Nat × FormatSpec) :
    (spec_type s st).1 = strsyn.step_if s s.length strsyn.is_type st.1 := by
  unfold spec_type strsyn.step_if
  by_cases h : st.1 < s.length ∧ is_type_char (s.getD st.1 NUL) = true
  · rw [if_pos h, if_pos ⟨h.1, by rw [strsyn_is_type_eq]; exact h.2⟩]
  · rw [if_neg h, if_neg (fun hx => h ⟨hx.1, by rw [← strsyn_is_type_eq]; exact hx.2⟩)]

theorem digits_loop_pos (s : List Char) (i : Nat) :
    (digits_loop s s.length (s.length - i) i 0).1 = strsyn.digits_block s s.length i := by
  rw [digits_loop_eq s _ _ _ (le_refl _), digits_block_eq]

theorem spec_precision_pos (s : List Char) (st : Nat × FormatSpec) :
    (spec_precision s st).1 = strsyn.precision_block s s.length st.1 := by
  unfold spec_precision strsyn.precision_block
  by_cases h : st.1 < s.length ∧ s.getD st.1 NUL = '.'
  · rw [if_pos h, if_pos h]
    exact digits_loop_pos s (st.1 + 1)
  · rw [if_neg h, if_neg h]

theorem digit_chars_nonzero : ∀ c ∈ digit_chars, c ≠ '0' → '1' ≤ c ∧ c ≤ '9' := by decide

/-- Behind the zero-pad marker the runtime parser reads a width where the validator reads
digits, unless the next byte is `0`. -/
theorem spec_width_pos (s : List Char) (st : Nat × FormatSpec)
    (h : ¬ (st.1 < s.length ∧ s.getD st.1 NUL = '0')) :
    (spec_width s st).1 = strsyn.digits_block s s.length st.1 := by
  unfold spec_width
  by_cases hc : st.1 < s.length ∧ '1' ≤ s.getD st.1 NUL ∧ s.getD st.1 NUL ≤ '9'
  · rw [if_pos hc]
    exact digits_loop_pos s st.1
  · rw [if_neg hc, digits_block_eq]
    by_cases hlt : st.1 < s.length
    · rw [drop_eq_getD_cons hlt, List.takeWhile_cons_of_neg]
      · rfl
      · intro hd
        have hm := is_digit_char_mem _ hd
        exact hc ⟨hlt, digit_chars_nonzero _ hm (fun hx => h ⟨hlt, hx⟩)⟩
    · rw [List.drop_eq_nil_of_le (by omega)]
      rfl

/-- At a `0` the width, the precision and the type of the runtime parser read nothing. -/
theorem spec_tail_at_zero (s : List Char) (st : Nat × FormatSpec)
    (h : s.getD st.1 NUL = '0') :
    spec_type s (spec_precision s (spec_width s st)) = st := by
  have h1 : spec_width s st = st := by
    unfold spec_width
    rw [h, if_neg (fun hx => absurd hx.2.1 (by decide))]
  have h2 : spec_precision s st = st := by
    unfold spec_precision
    rw [h, if_neg (fun hx => absurd hx.2 (by decide))]
  have h3 : spec_type s st = st := by
    unfold spec_type
    rw [h, if_neg (fun hx => absurd hx.2 (by decide))]
  rw [h1, h2, h3]

/-- A `0` behind the zero-pad block means that the block has set the flag. -/
theorem spec_zero_pad_flag (s : List Char) (st : Nat × FormatSpec)
    (h1 : (spec_zero_pad s st).1 < s.length)
    (h2 : s.getD (spec_zero_pad s st).1 NUL = '0') :
    (spec_zero_pad s st).2.zero_pad = true := by
  unfold spec_zero_pad at h1 h2 ⊢
  by_cases hc : st.1 < s.length ∧ s.getD st.1 NUL = '0'
  · rw [if_pos hc]
  · rw [if_neg hc] at h1 h2
    exact absurd ⟨h1, h2⟩ hc

/-- The first two blocks of the runtime parser end where the alignment block of the
validator ends. -/
theorem spec_align_pos (s : List Char) (hne : s ≠ []) :
    (spec_align s (spec_fill_align s (0, {}))).1 = strsyn.align_block s s.length 0 := by
  have hpos : 0 < s.length := List.length_pos.mpr hne
  unfold strsyn.align_block
  rw [strsyn_is_align_eq]
  by_cases hc : 0 + 1 < s.length ∧ is_align_char (s.getD (0 + 1) NUL) = true
  · have hnn : s.getD (0 + 1) NUL ≠ NUL := by
      intro hx
      rw [hx] at hc
      exact absurd hc.2 (by decide)
    have h1 : spec_fill_align s (0, {}) =
        (0 + 2, { ({} : FormatSpec) with fill := s.getD 0 NUL, align := s.getD (0 + 1) NUL }) := by
      unfold spec_fill_align
      rw [if_pos hc]
    rw [h1, spec_align_skip _ _ _ hnn, if_pos hc]
  · have h1 : spec_fill_align s (0, {}) = (0, {}) := by
      unfold spec_fill_align
      rw [if_neg hc]
    rw [h1, if_neg hc]
    unfold spec_align
    by_cases ha : is_align_char (s.getD 0 NUL) = true
    · rw [if_pos ⟨rfl, hpos, ha⟩, if_pos ha]
    · rw [if_neg (fun hx => ha hx.2.2), if_neg ha]

/-- The runtime parser and the validator stop at the same byte of a spec, unless the runtime
parser stops at a `0` behind the zero-pad marker. -/
theorem runtime_vs_validator (s : List Char) (hs : '}' ∉ s) :
    (parse_format_spec s {}).1 = (strsyn.parse_format_spec s s.length 0).2 ∨
    ((parse_format_spec s {}).1 < s.length ∧ s.getD (parse_format_spec s {}).1 NUL = '0' ∧
      (parse_format_spec s {}).2.zero_pad = true) := by
  by_cases hne : s = []
  · subst hne
    left
    rfl
  · have hpos : 0 < s.length := List.length_pos.mpr hne
    have h0 : s.getD 0 NUL ≠ '}' := fun hx => hs (hx ▸ getD_mem_of_lt s 0 hpos)
    rw [parse_format_spec_chain]
    unfold strsyn.parse_format_spec
    rw [if_neg (fun hx => by
      rcases hx with hx | hx
      · omega
      · exact h0 hx)]
    dsimp only
    rw [← spec_align_pos s hne, ← spec_sign_pos, ← spec_alt_form_pos, ← spec_zero_pad_pos]
    obtain ⟨st4, hst4⟩ : ∃ st4, st4 = spec_alt_form s (spec_sign s (spec_align s
      (spec_fill_align s (0, {})))) := ⟨_, rfl⟩
    rw [← hst4]
    by_cases hz : (spec_zero_pad s st4).1 < s.length ∧
        s.getD (spec_zero_pad s st4).1 NUL = '0'
    · right
      rw [spec_tail_at_zero s _ hz.2]
      exact ⟨hz.1, hz.2, spec_zero_pad_flag s st4 hz.1 hz.2⟩
    · left
      rw [← spec_width_pos s _ hz, ← spec_precision_pos, ← spec_type_pos]

/-- The validator on the template of one field: code 0 when its spec parser consumes the
whole spec, code 3 otherwise. -/
theorem validate_field_template (s : List Char) (hs : '}' ∉ s) :
    strsyn.validate (field_template s) =
      if (strsyn.parse_format_spec s s.length 0).2 = s.length then some 0 else some 3 := by
  have hd : (field_template s).drop 0 = '{' :: (':' :: (s ++ '}' :: [])) := rfl
  have hstep := validate_step_spec_field (field_template s) (':' :: (s ++ '}' :: [])) s []
    0 hd (fun hx => absurd (Option.some.inj hx) (by decide))
    (List.dropWhile_cons_of_neg (by decide)) hs
  rw [List.takeWhile_cons_of_neg (by decide)] at hstep
  rw [validate_eq_from, validate_from_eq, if_pos (by
    show 0 < (field_template s).length
    unfold field_template
    simp), hstep]
  by_cases hv : (strsyn.parse_format_spec s s.length 0).2 = s.length
  · rw [if_pos hv, if_pos hv]
    dsimp only
    rw [validate_from_eq, if_neg]
    unfold field_template
    simp only [List.length_cons, List.length_append, List.length_nil]
    omega
  · rw [if_neg hv, if_neg hv]

/-! ## The blocks of the spec parser on a prefix of the spec -/

theorem getD_take_lt (s : List Char) (n i : Nat) (h : i < n) :
    (s.take n).getD i NUL = s.getD i NUL := by
  rw [List.getD_eq_getElem?_getD, List.getD_eq_getElem?_getD, List.getElem?_take_of_lt h]

theorem takeWhile_take_of_le (P : Char → Bool) :
    ∀ (l : List Char) (m : Nat), (l.takeWhile P).length ≤ m →
      (l.take m).takeWhile P = l.takeWhile P := by
  intro l
  induction l with
  | nil => intro m _; simp
  | cons a l ih =>
    intro m h
    by_cases ha : P a = true
    · rw [List.takeWhile_cons_of_pos ha] at h ⊢
      cases m with
      | zero => simp at h
      | succ m =>
        rw [List.take_succ_cons, List.takeWhile_cons_of_pos ha, ih m (by simpa using h)]
    · rw [List.takeWhile_cons_of_neg ha]
      cases m with
      | zero => simp
      | succ m => rw [List.take_succ_cons, List.takeWhile_cons_of_neg ha]

theorem digits_loop_take (s : List Char) (n p : Nat)
    (h : (digits_loop s s.length (s.length - p) p 0).1 ≤ n) :
    digits_loop (s.take n) (s.take n).length ((s.take n).length - p) p 0 =
      digits_loop s s.length (s.length - p) p 0 := by
  rw [digits_loop_eq s _ _ _ (le_refl _)] at h ⊢
  rw [digits_loop_eq (s.take n) _ _ _ (le_refl _), List.drop_take,
    takeWhile_take_of_le _ _ _ (by dsimp only at h; omega)]

theorem digits_loop_mono (s : List Char) (p : Nat) :
    p ≤ (digits_loop s s.length (s.length - p) p 0).1 := by
  rw [digits_loop_eq s _ _ _ (le_refl _)]
  exact Nat.le_add_right _ _

theorem spec_fill_align_mono (s : List Char) (st : Nat × FormatSpec) :
    st.1 ≤ (spec_fill_align s st).1 := by
  unfold spec_fill_align
  split
  · exact Nat.le_add_right _ _
  · exact le_refl _

theorem spec_align_mono (s : List Char) (st : Nat × FormatSpec) :
    st.1 ≤ (spec_align s st).1 := by
  unfold spec_align
  split
  · exact Nat.le_add_right _ _
  · exact le_refl _

theorem spec_sign_mono (s : List Char) (st : Nat × FormatSpec) :
    st.1 ≤ (spec_sign s st).1 := by
  unfold spec_sign
  split
  · exact Nat.le_add_right _ _
  · exact le_refl _

theorem spec_alt_form_mono (s : List Char) (st : Nat × FormatSpec) :
    st.1 ≤ (spec_alt_form s st).1 := by
  unfold spec_alt_form
  split
  · exact Nat.le_add_right _ _
  · exact le_refl _

theorem spec_zero_pad_mono (s : List Char) (st : Nat × FormatSpec) :
    st.1 ≤ (spec_zero_pad s st).1 := by
  unfold spec_zero_pad
  split
  · exact Nat.le_add_right _ _
  · exact le_refl _

theorem spec_width_mono (s : List Char) (st : Nat × FormatSpec) :
    st.1 ≤ (spec_width s st).1 := by
  unfold spec_width
  split
  · exact digits_loop_mono s st.1
  · exact le_refl _

theorem spec_precision_mono (s : List Char) (st : Nat × FormatSpec) :
    st.1 ≤ (spec_precision s st).1 := by
  unfold spec_precision
  split
  · exact le_trans (Nat.le_add_right _ 1) (digits_loop_mono s (st.1 + 1))
  · exact le_refl _

theorem spec_type_mono (s : List Char) (st : Nat × FormatSpec) :
    st.1 ≤ (spec_type s st).1 := by
  unfold spec_type
  split
  · exact Nat.le_add_right _ _
  · exact le_refl _

/-- The test `p < end && P(*p)` on a prefix that reaches behind the byte, or ends at it when
the test fails. -/
theorem cond_take_iff (s : List Char) (n p : Nat) (P : Char → Prop)
    (h : (p < s.length ∧ P (s.getD p NUL)) → p < n) :
    (p < (s.take n).length ∧ P ((s.take n).getD p NUL)) ↔ (p < s.length ∧ P (s.getD p NUL)) := by
  rw [List.length_take]
  constructor
  · rintro ⟨h1, h2⟩
    rw [getD_take_lt s n p (by omega)] at h2
    exact ⟨by omega, h2⟩
  · intro hx
    have hn := h hx
    rw [getD_take_lt s n p hn]
    exact ⟨by omega, hx.2⟩

theorem spec_fill_align_take (s : List Char) (n : Nat) (st : Nat × FormatSpec)
    (h : (spec_fill_align s st).1 ≤ n) :
    spec_fill_align (s.take n) st = spec_fill_align s st := by
  unfold spec_fill_align at h ⊢
  by_cases hc : st.1 + 1 < s.length ∧ is_align_char (s.getD (st.1 + 1) NUL) = true
  · rw [if_pos hc] at h ⊢
    dsimp only at h
    rw [if_pos ((cond_take_iff s n (st.1 + 1) (fun c => is_align_char c = true)
      (fun _ => by omega)).mpr hc), getD_take_lt s n _ (by omega), getD_take_lt s n _ (by omega)]
  · rw [if_neg hc, if_neg]
    intro hx
    rw [List.length_take] at hx
    rw [getD_take_lt s n _ (by omega)] at hx
    exact hc ⟨by omega, hx.2⟩

theorem spec_align_take (s : List Char) (n : Nat) (st : Nat × FormatSpec)
    (h : (spec_align s st).1 ≤ n) :
    spec_align (s.take n) st = spec_align s st := by
  unfold spec_align at h ⊢
  by_cases hc : st.2.align = NUL ∧ st.1 < s.length ∧ is_align_char (s.getD st.1 NUL) = true
  · rw [if_pos hc] at h ⊢
    dsimp only at h
    rw [if_pos ⟨hc.1, (cond_take_iff s n st.1 (fun c => is_align_char c = true)
      (fun _ => by omega)).mpr hc.2⟩, getD_take_lt s n _ (by omega)]
  · rw [if_neg hc, if_neg]
    intro hx
    have h2 := hx.2
    rw [List.length_take] at h2
    rw [getD_take_lt s n _ (by omega)] at h2
    exact hc ⟨hx.1, by omega, h2.2⟩

theorem spec_sign_take (s : List Char) (n : Nat) (st : Nat × FormatSpec)
    (h : (spec_sign s st).1 ≤ n) :
    spec_sign (s.take n) st = spec_sign s st := by
  unfold spec_sign at h ⊢
  by_cases hc : st.1 < s.length ∧ (s.getD st.1 NUL = '+' ∨ s.getD st.1 NUL = '-' ∨
      s.getD st.1 NUL = ' ')
  · rw [if_pos hc] at h ⊢
    dsimp only at h
    rw [if_pos ((cond_take_iff s n st.1 (fun c => c = '+' ∨ c = '-' ∨ c = ' ')
      (fun _ => by omega)).mpr hc), getD_take_lt s n _ (by omega)]
  · rw [if_neg hc, if_neg]
    intro hx
    rw [List.length_take] at hx
    rw [getD_take_lt s n _ (by omega)] at hx
    exact hc ⟨by omega, hx.2⟩

theorem spec_alt_form_take (s : List Char) (n : Nat) (st : Nat × FormatSpec)
    (h : (spec_alt_form s st).1 ≤ n) :
    spec_alt_form (s.take n) st = spec_alt_form s st := by
  unfold spec_alt_form at h ⊢
  by_cases hc : st.1 < s.length ∧ s.getD st.1 NUL = '#'
  · rw [if_pos hc] at h ⊢
    dsimp only at h
    rw [if_pos ((cond_take_iff s n st.1 (fun c => c = '#') (fun _ => by omega)).mpr hc)]
  · rw [if_neg hc, if_neg]
    intro hx
    rw [List.length_take] at hx
    rw [getD_take_lt s n _ (by omega)] at hx
    exact hc ⟨by omega, hx.2⟩

theorem spec_zero_pad_take (s : List Char) (n : Nat) (st : Nat × FormatSpec)
    (h : (spec_zero_pad s st).1 ≤ n) :
    spec_zero_pad (s.take n) st = spec_zero_pad s st := by
  unfold spec_zero_pad at h ⊢
  by_cases hc : st.1 < s.length ∧ s.getD st.1 NUL = '0'
  · rw [if_pos hc] at h ⊢
    dsimp only at h
    rw [if_pos ((cond_take_iff s n st.1 (fun c => c = '0') (fun _ => by omega)).mpr hc)]
  · rw [if_neg hc, if_neg]
    intro hx
    rw [List.length_take] at hx
    rw [getD_take_lt s n _ (by omega)] at hx
    exact hc ⟨by omega, hx.2⟩

theorem spec_width_take (s : List Char) (n : Nat) (st : Nat × FormatSpec)
    (h : (spec_width s st).1 ≤ n) :
    spec_width (s.take n) st = spec_width s st := by
  unfold spec_width at h ⊢
  by_cases hc : st.1 < s.length ∧ '1' ≤ s.getD st.1 NUL ∧ s.getD st.1 NUL ≤ '9'
  · rw [if_pos hc] at h ⊢
    dsimp only at h
    have hd : is_digit_char (s.getD st.1 NUL) = true := by
      have := hc.2
      simp only [is_digit_char, Bool.and_eq_true, decide_eq_true_eq]
      exact ⟨le_trans (by decide) this.1, this.2⟩
    have hlt : st.1 < n := by
      have hm := digits_loop_eq s (s.length - st.1) st.1 0 (le_refl _)
      rw [hm] at h
      dsimp only at h
      rw [drop_eq_getD_cons hc.1, List.takeWhile_cons_of_pos hd, List.length_cons] at h
      omega
    rw [if_pos ((cond_take_iff s n st.1 (fun c => '1' ≤ c ∧ c ≤ '9')
      (fun _ => hlt)).mpr hc), digits_loop_take s n st.1 h]
  · rw [if_neg hc, if_neg]
    intro hx
    rw [List.length_take] at hx
    rw [getD_take_lt s n _ (by omega)] at hx
    exact hc ⟨by omega, hx.2⟩

theorem spec_precision_take (s : List Char) (n : Nat) (st : Nat × FormatSpec)
    (h : (spec_precision s st).1 ≤ n) :
    spec_precision (s.take n) st = spec_precision s st := by
  unfold spec_precision at h ⊢
  by_cases hc : st.1 < s.length ∧ s.getD st.1 NUL = '.'
  · rw [if_pos hc] at h ⊢
    dsimp only at h
    have hlt : st.1 < n := by
      have := digits_loop_mono s (st.1 + 1)
      omega
    rw [if_pos ((cond_take_iff s n st.1 (fun c => c = '.') (fun _ => hlt)).mpr hc),
      digits_loop_take s n (st.1 + 1) h]
  · rw [if_neg hc, if_neg]
    intro hx
    rw [List.length_take] at hx
    rw [getD_take_lt s n _ (by omega)] at hx
    exact hc ⟨by omega, hx.2⟩

theorem spec_type_take (s : List Char) (n : Nat) (st : Nat × FormatSpec)
    (h : (spec_type s st).1 ≤ n) :
    spec_type (s.take n) st = spec_type s st := by
  unfold spec_type at h ⊢
  by_cases hc : st.1 < s.length ∧ is_type_char (s.getD st.1 NUL) = true
  · rw [if_pos hc] at h ⊢
    dsimp only at h
    rw [if_pos ((cond_take_iff s n st.1 (fun c => is_type_char c = true)
      (fun _ => by omega)).mpr hc), getD_take_lt s n _ (by omega)]
  · rw [if_neg hc, if_neg]
    intro hx
    rw [List.length_take] at hx
    rw [getD_take_lt s n _ (by omega)] at hx
    exact hc ⟨by omega, hx.2⟩

/-- The spec parser reads the same from a prefix of the spec that holds every byte it
consumes. -/
theorem parse_format_spec_take (s : List Char) (sp : FormatSpec) (n : Nat)
    (h : (parse_format_spec s sp).1 ≤ n) :
    parse_format_spec (s.take n) sp = parse_format_spec s sp := by
  rw [parse_format_spec_chain] at h
  rw [parse_format_spec_chain, parse_format_spec_chain]
  have h7 := le_trans (spec_type_mono s _) h
  have h6 := le_trans (spec_precision_mono s _) h7
  have h5 := le_trans (spec_width_mono s _) h6
  have h4 := le_trans (spec_zero_pad_mono s _) h5
  have h3 := le_trans (spec_alt_form_mono s _) h4
  have h2 := le_trans (spec_sign_mono s _) h3
  have h1 := le_trans (spec_align_mono s _) h2
  rw [spec_fill_align_take s n _ h1, spec_align_take s n _ h2, spec_sign_take s n _ h3,
    spec_alt_form_take s n _ h4, spec_zero_pad_take s n _ h5, spec_width_take s n _ h6,
    spec_precision_take s n _ h7, spec_type_take s n _ h]

/-- The spec parser does not run past the end of the spec. -/
theorem parse_format_spec_le (s : List Char) (sp : FormatSpec) :
    (parse_format_spec s sp).1 ≤ s.length := by
  rw [parse_format_spec_chain]
  have a1 : (spec_fill_align s (0, sp)).1 ≤ s.length := by
    unfold spec_fill_align
    split
    · rename_i hc; dsimp only at hc ⊢; omega
    · exact Nat.zero_le _
  have a2 : (spec_align s (spec_fill_align s (0, sp))).1 ≤ s.length := by
    unfold spec_align
    split
    · rename_i hc; dsimp only; omega
    · exact a1
  have a3 : (spec_sign s (spec_align s (spec_fill_align s (0, sp)))).1 ≤ s.length := by
    unfold spec_sign
    split
    · rename_i hc; dsimp only; omega
    · exact a2
  have a4 : (spec_alt_form s (spec_sign s (spec_align s
      (spec_fill_align s (0, sp))))).1 ≤ s.length := by
    unfold spec_alt_form
    split
    · rename_i hc; dsimp only; omega
    · exact a3
  have a5 : (spec_zero_pad s (spec_alt_form s (spec_sign s (spec_align s
      (spec_fill_align s (0, sp)))))).1 ≤ s.length := by
    unfold spec_zero_pad
    split
    · rename_i hc; dsimp only; omega
    · exact a4
  have hdig : ∀ p, p ≤ s.length → (digits_loop s s.length (s.length - p) p 0).1 ≤ s.length := by
    intro p hp
    rw [digits_loop_eq s _ _ _ (le_refl _)]
    have := takeWhile_length_le_drop s is_digit_char p
    dsimp only
    omega
  have a6 : (spec_width s (spec_zero_pad s (spec_alt_form s (spec_sign s (spec_align s
      (spec_fill_align s (0, sp))))))).1 ≤ s.length := by
    unfold spec_width
    split
    · exact hdig _ a5
    · exact a5
  have a7 : (spec_precision s (spec_width s (spec_zero_pad s (spec_alt_form s (spec_sign s
      (spec_align s (spec_fill_align s (0, sp)))))))).1 ≤ s.length := by
    unfold spec_precision
    split
    · rename_i hc; exact hdig _ (by omega)
    · exact a6
  unfold spec_type
  split
  · rename_i hc; dsimp only; omega
  · exact a7
/-! ## The blocks of the spec parser on a spec with bytes added behind -/

theorem getD_append_lt (t rest : List Char) (i : Nat) (h : i < t.length) :
    (t ++ rest).getD i NUL = t.getD i NUL := by
  rw [List.getD_eq_getElem?_getD, List.getD_eq_getElem?_getD, List.getElem?_append_left h]

theorem takeWhile_append_inside (P : Char → Bool) :
    ∀ (l r : List Char), (l.takeWhile P).length < l.length →
      (l ++ r).takeWhile P = l.takeWhile P := by
  intro l
  induction l with
  | nil => intro r h; simp at h
  | cons a l ih =>
    intro r h
    by_cases ha : P a = true
    · rw [List.takeWhile_cons_of_pos ha] at h ⊢
      rw [List.cons_append, List.takeWhile_cons_of_pos ha, ih r (by simpa using h)]
    · rw [List.takeWhile_cons_of_neg ha, List.cons_append, List.takeWhile_cons_of_neg ha]

theorem digits_loop_append (t rest : List Char) (p : Nat)
    (h : (digits_loop t t.length (t.length - p) p 0).1 < t.length) :
    digits_loop (t ++ rest) (t ++ rest).length ((t ++ rest).length - p) p 0 =
      digits_loop t t.length (t.length - p) p 0 := by
  rw [digits_loop_eq t _ _ _ (le_refl _)] at h ⊢
  dsimp only at h
  have hp : p ≤ t.length := by omega
  rw [digits_loop_eq (t ++ rest) _ _ _ (le_refl _), List.drop_append_of_le_length hp,
    takeWhile_append_inside _ _ _ (by rw [List.length_drop]; omega)]

/-- The test `p < end && P(*p)` at a byte of the spec, with bytes added behind the spec. -/
theorem cond_append_iff (t rest : List Char) (p : Nat) (P : Char → Prop) (h : p < t.length) :
    (p < (t ++ rest).length ∧ P ((t ++ rest).getD p NUL)) ↔ (p < t.length ∧ P (t.getD p NUL)) := by
  rw [getD_append_lt t rest p h, List.length_append]
  constructor
  · rintro ⟨_, h2⟩; exact ⟨h, h2⟩
  · rintro ⟨_, h2⟩; exact ⟨by omega, h2⟩

theorem spec_fill_align_append (t rest : List Char) (st : Nat × FormatSpec)
    (h : (spec_fill_align t st).1 < t.length)
    (hr : st.1 + 1 < t.length ∨ ∀ d, rest.head? = some d → is_align_char d = false) :
    spec_fill_align (t ++ rest) st = spec_fill_align t st := by
  unfold spec_fill_align at h ⊢
  by_cases hc : st.1 + 1 < t.length ∧ is_align_char (t.getD (st.1 + 1) NUL) = true
  · rw [if_pos hc] at h ⊢
    rw [if_pos ((cond_append_iff t rest (st.1 + 1) (fun c => is_align_char c = true)
      hc.1).mpr hc), getD_append_lt t rest _ (by omega), getD_append_lt t rest _ hc.1]
  · rw [if_neg hc] at h ⊢
    rw [if_neg]
    rintro ⟨h1, h2⟩
    by_cases hlt : st.1 + 1 < t.length
    · rw [getD_append_lt t rest _ hlt] at h2
      exact hc ⟨hlt, h2⟩
    · rcases hr with hr | hr
      · exact hlt hr
      · have he : st.1 + 1 = t.length := by omega
        rw [he] at h1 h2
        cases rest with
        | nil => simp at h1
        | cons d r =>
          rw [getD_append_cons] at h2
          rw [hr d rfl] at h2
          cases h2

theorem spec_align_append (t rest : List Char) (st : Nat × FormatSpec)
    (h : (spec_align t st).1 < t.length) :
    spec_align (t ++ rest) st = spec_align t st := by
  have hp : st.1 < t.length := lt_of_le_of_lt (spec_align_mono t st) h
  unfold spec_align
  by_cases hc : st.2.align = NUL ∧ st.1 < t.length ∧ is_align_char (t.getD st.1 NUL) = true
  · rw [if_pos hc, if_pos ⟨hc.1, (cond_append_iff t rest st.1
      (fun c => is_align_char c = true) hp).mpr hc.2⟩, getD_append_lt t rest _ hp]
  · rw [if_neg hc, if_neg]
    intro hx
    exact hc ⟨hx.1, (cond_append_iff t rest st.1 (fun c => is_align_char c = true) hp).mp hx.2⟩

theorem spec_sign_append (t rest : List Char) (st : Nat × FormatSpec)
    (h : (spec_sign t st).1 < t.length) :
    spec_sign (t ++ rest) st = spec_sign t st := by
  have hp : st.1 < t.length := lt_of_le_of_lt (spec_sign_mono t st) h
  unfold spec_sign
  by_cases hc : st.1 < t.length ∧ (t.getD st.1 NUL = '+' ∨ t.getD st.1 NUL = '-' ∨
      t.getD st.1 NUL = ' ')
  · rw [if_pos hc, if_pos ((cond_append_iff t rest st.1
      (fun c => c = '+' ∨ c = '-' ∨ c = ' ') hp).mpr hc), getD_append_lt t rest _ hp]
  · rw [if_neg hc, if_neg]
    intro hx
    exact hc ((cond_append_iff t rest st.1 (fun c => c = '+' ∨ c = '-' ∨ c = ' ') hp).mp hx)

theorem spec_alt_form_append (t rest : List Char) (st : Nat × FormatSpec)
    (h : (spec_alt_form t st).1 < t.length) :
    spec_alt_form (t ++ rest) st = spec_alt_form t st := by
  have hp : st.1 < t.length := lt_of_le_of_lt (spec_alt_form_mono t st) h
  unfold spec_alt_form
  by_cases hc : st.1 < t.length ∧ t.getD st.1 NUL = '#'
  · rw [if_pos hc, if_pos ((cond_append_iff t rest st.1 (fun c => c = '#') hp).mpr hc)]
  · rw [if_neg hc, if_neg]
    intro hx
    exact hc ((cond_append_iff t rest st.1 (fun c => c = '#') hp).mp hx)

theorem spec_zero_pad_append (t rest : List Char) (st : Nat × FormatSpec)
    (h : (spec_zero_pad t st).1 < t.length) :
    spec_zero_pad (t ++ rest) st = spec_zero_pad t st := by
  have hp : st.1 < t.length := lt_of_le_of_lt (spec_zero_pad_mono t st) h
  unfold spec_zero_pad
  by_cases hc : st.1 < t.length ∧ t.getD st.1 NUL = '0'
  · rw [if_pos hc, if_pos ((cond_append_iff t rest st.1 (fun c => c = '0') hp).mpr hc)]
  · rw [if_neg hc, if_neg]
    intro hx
    exact hc ((cond_append_iff t rest st.1 (fun c => c = '0') hp).mp hx)

theorem spec_width_append (t rest : List Char) (st : Nat × FormatSpec)
    (h : (spec_width t st).1 < t.length) :
    spec_width (t ++ rest) st = spec_width t st := by
  have hp : st.1 < t.length := lt_of_le_of_lt (spec_width_mono t st) h
  unfold spec_width at h ⊢
  by_cases hc : st.1 < t.length ∧ '1' ≤ t.getD st.1 NUL ∧ t.getD st.1 NUL ≤ '9'
  · rw [if_pos hc] at h ⊢
    rw [if_pos ((cond_append_iff t rest st.1 (fun c => '1' ≤ c ∧ c ≤ '9') hp).mpr hc),
      digits_loop_append t rest st.1 h]
  · rw [if_neg hc, if_neg]
    intro hx
    exact hc ((cond_append_iff t rest st.1 (fun c => '1' ≤ c ∧ c ≤ '9') hp).mp hx)

theorem spec_precision_append (t rest : List Char) (st : Nat × FormatSpec)
    (h : (spec_precision t st).1 < t.length) :
    spec_precision (t ++ rest) st = spec_precision t st := by
  have hp : st.1 < t.length := lt_of_le_of_lt (spec_precision_mono t st) h
  unfold spec_precision at h ⊢
  by_cases hc : st.1 < t.length ∧ t.getD st.1 NUL = '.'
  · rw [if_pos hc] at h ⊢
    rw [if_pos ((cond_append_iff t rest st.1 (fun c => c = '.') hp).mpr hc),
      digits_loop_append t rest (st.1 + 1) h]
  · rw [if_neg hc, if_neg]
    intro hx
    exact hc ((cond_append_iff t rest st.1 (fun c => c = '.') hp).mp hx)

theorem spec_type_append (t rest : List Char) (st : Nat × FormatSpec)
    (h : (spec_type t st).1 < t.length) :
    spec_type (t ++ rest) st = spec_type t st := by
  have hp : st.1 < t.length := lt_of_le_of_lt (spec_type_mono t st) h
  unfold spec_type
  by_cases hc : st.1 < t.length ∧ is_type_char (t.getD st.1 NUL) = true
  · rw [if_pos hc, if_pos ((cond_append_iff t rest st.1
      (fun c => is_type_char c = true) hp).mpr hc), getD_append_lt t rest _ hp]
  · rw [if_neg hc, if_neg]
    intro hx
    exact hc ((cond_append_iff t rest st.1 (fun c => is_type_char c = true) hp).mp hx)

/-- A spec parser that stops before the end of the spec reads the same when bytes are
added behind the spec, unless the spec is a single byte that an added alignment byte turns
into a fill. -/
theorem parse_format_spec_append (t rest : List Char) (sp : FormatSpec)
    (h : (parse_format_spec t sp).1 < t.length)
    (hr : 1 < t.length ∨ ∀ d, rest.head? = some d → is_align_char d = false) :
    parse_format_spec (t ++ rest) sp = parse_format_spec t sp := by
  rw [parse_format_spec_chain] at h
  rw [parse_format_spec_chain, parse_format_spec_chain]
  have h7 := lt_of_le_of_lt (spec_type_mono t _) h
  have h6 := lt_of_le_of_lt (spec_precision_mono t _) h7
  have h5 := lt_of_le_of_lt (spec_width_mono t _) h6
  have h4 := lt_of_le_of_lt (spec_zero_pad_mono t _) h5
  have h3 := lt_of_le_of_lt (spec_alt_form_mono t _) h4
  have h2 := lt_of_le_of_lt (spec_sign_mono t _) h3
  have h1 := lt_of_le_of_lt (spec_align_mono t _) h2
  have hr2 : (0, sp).1 + 1 < t.length ∨ ∀ d, rest.head? = some d → is_align_char d = false := by
    rcases hr with hr | hr
    · exact Or.inl (by dsimp only; omega)
    · exact Or.inr hr
  rw [spec_fill_align_append t rest _ h1 hr2, spec_align_append t rest _ h2, spec_sign_append t rest _ h3,
    spec_alt_form_append t rest _ h4, spec_zero_pad_append t rest _ h5,
    spec_width_append t rest _ h6, spec_precision_append t rest _ h7,
    spec_type_append t rest _ h]

/-! ## The fields of the spec that a block leaves alone -/

theorem spec_alt_form_frame (s : List Char) (st : Nat × FormatSpec) :
    (spec_alt_form s st).2.fill = st.2.fill ∧ (spec_alt_form s st).2.align = st.2.align ∧
    (spec_alt_form s st).2.sign = st.2.sign ∧ (spec_alt_form s st).2.type = st.2.type := by
  unfold spec_alt_form
  split <;> exact ⟨rfl, rfl, rfl, rfl⟩

theorem spec_zero_pad_frame (s : List Char) (st : Nat × FormatSpec) :
    (spec_zero_pad s st).2.fill = st.2.fill ∧ (spec_zero_pad s st).2.align = st.2.align ∧
    (spec_zero_pad s st).2.sign = st.2.sign ∧ (spec_zero_pad s st).2.type = st.2.type := by
  unfold spec_zero_pad
  split <;> exact ⟨rfl, rfl, rfl, rfl⟩

theorem spec_width_frame (s : List Char) (st : Nat × FormatSpec) :
    (spec_width s st).2.fill = st.2.fill ∧ (spec_width s st).2.align = st.2.align ∧
    (spec_width s st).2.sign = st.2.sign ∧ (spec_width s st).2.type = st.2.type := by
  unfold spec_width
  split <;> exact ⟨rfl, rfl, rfl, rfl⟩

theorem spec_precision_frame (s : List Char) (st : Nat × FormatSpec) :
    (spec_precision s st).2.fill = st.2.fill ∧ (spec_precision s st).2.align = st.2.align ∧
    (spec_precision s st).2.sign = st.2.sign ∧ (spec_precision s st).2.type = st.2.type := by
  unfold spec_precision
  split <;> exact ⟨rfl, rfl, rfl, rfl⟩

theorem spec_type_frame (s : List Char) (st : Nat × FormatSpec) :
    (spec_type s st).2.fill = st.2.fill ∧ (spec_type s st).2.align = st.2.align ∧
    (spec_type s st).2.sign = st.2.sign := by
  unfold spec_type
  split <;> exact ⟨rfl, rfl, rfl⟩

theorem spec_sign_frame (s : List Char) (st : Nat × FormatSpec) :
    (spec_sign s st).2.fill = st.2.fill ∧ (spec_sign s st).2.align = st.2.align ∧
    (spec_sign s st).2.type = st.2.type := by
  unfold spec_sign
  split <;> exact ⟨rfl, rfl, rfl⟩

theorem spec_align_frame (s : List Char) (st : Nat × FormatSpec) :
    (spec_align s st).2.fill = st.2.fill ∧ (spec_align s st).2.type = st.2.type := by
  unfold spec_align
  split <;> exact ⟨rfl, rfl⟩

theorem spec_fill_align_frame (s : List Char) (st : Nat × FormatSpec) :
    (spec_fill_align s st).2.type = st.2.type := by
  unfold spec_fill_align
  split <;> rfl

/-- The blocks behind the sign leave the fill, the alignment and the sign alone. -/
theorem spec_tail_frame (s : List Char) (st : Nat × FormatSpec) :
    (spec_type s (spec_precision s (spec_width s (spec_zero_pad s
      (spec_alt_form s st))))).2.fill = st.2.fill ∧
    (spec_type s (spec_precision s (spec_width s (spec_zero_pad s
      (spec_alt_form s st))))).2.align = st.2.align ∧
    (spec_type s (spec_precision s (spec_width s (spec_zero_pad s
      (spec_alt_form s st))))).2.sign = st.2.sign ∧
    st.1 ≤ (spec_type s (spec_precision s (spec_width s (spec_zero_pad s
      (spec_alt_form s st))))).1 := by
  obtain ⟨a1, a2, a3, _⟩ := spec_alt_form_frame s st
  obtain ⟨b1, b2, b3, _⟩ := spec_zero_pad_frame s (spec_alt_form s st)
  obtain ⟨c1, c2, c3, _⟩ := spec_width_frame s (spec_zero_pad s (spec_alt_form s st))
  obtain ⟨d1, d2, d3, _⟩ := spec_precision_frame s
    (spec_width s (spec_zero_pad s (spec_alt_form s st)))
  obtain ⟨e1, e2, e3⟩ := spec_type_frame s
    (spec_precision s (spec_width s (spec_zero_pad s (spec_alt_form s st))))
  refine ⟨?_, ?_, ?_, ?_⟩
  · rw [e1, d1, c1, b1, a1]
  · rw [e2, d2, c2, b2, a2]
  · rw [e3, d3, c3, b3, a3]
  · exact le_trans (spec_alt_form_mono s st) (le_trans (spec_zero_pad_mono s _)
      (le_trans (spec_width_mono s _) (le_trans (spec_precision_mono s _)
        (spec_type_mono s _))))

/-- The blocks before the type leave the type alone. -/
theorem spec_head_type (s : List Char) (st : Nat × FormatSpec) :
    (spec_precision s (spec_width s (spec_zero_pad s (spec_alt_form s (spec_sign s
      (spec_align s (spec_fill_align s st))))))).2.type = st.2.type := by
  rw [(spec_precision_frame s _).2.2.2, (spec_width_frame s _).2.2.2,
    (spec_zero_pad_frame s _).2.2.2, (spec_alt_form_frame s _).2.2.2,
    (spec_sign_frame s _).2.2, (spec_align_frame s _).2, spec_fill_align_frame]
/-! ## The loops that move a pointer only forward -/

theorem skip_while_ge (buf : List Char) (e : Nat) (cond : Char → Bool) :
    ∀ fuel p, p ≤ skip_while buf e cond fuel p := by
  intro fuel
  induction fuel with
  | zero => intro p; exact le_refl _
  | succ n ih =>
    intro p
    unfold skip_while
    split
    · exact le_trans (Nat.le_succ p) (ih (p + 1))
    · exact le_refl _

theorem digits_loop_ge (buf : List Char) (e : Nat) :
    ∀ fuel p w, p ≤ (digits_loop buf e fuel p w).1 := by
  intro fuel
  induction fuel with
  | zero => intro p w; exact le_refl _
  | succ n ih =>
    intro p w
    unfold digits_loop
    split
    · exact le_trans (Nat.le_succ p) (ih (p + 1) _)
    · exact le_refl _

/-- C8: for content shorter than the width, with `p = width - len` pad bytes,
`apply_format_spec` writes the content then `p` fill bytes when align is `<` or unset, `p`
fill bytes then the content when align is `>`, and `p / 2` fill bytes, the content and the
other `p - p / 2` fill bytes when align is `^`; the field `^5` applied to `AB` gives
` AB  ` with the odd pad byte to the right, and the field `10` applied to `hi` gives `hi`
and eight spaces. -/
theorem apply_format_spec_alignment (core : FloatCore) (no_exceptions : Bool)
    (out : FormatOutput) (content : List Char) (spec : FormatSpec)
    (hlen : (content.length : Int) < spec.width) :
    ((spec.align = '<' ∨ spec.align = NUL) →
      (apply_format_spec out content spec).bytes =
        out.bytes ++ content ++ List.replicate (spec.width.toNat - content.length) spec.fill) ∧
    (spec.align = '>' →
      (apply_format_spec out content spec).bytes =
        out.bytes ++ List.replicate (spec.width.toNat - content.length) spec.fill ++ content) ∧
    (spec.align = '^' →
      (apply_format_spec out content spec).bytes =
        out.bytes ++ List.replicate ((spec.width.toNat - content.length) / 2) spec.fill ++ content ++
          List.replicate ((spec.width.toNat - content.length) -
            (spec.width.toNat - content.length) / 2) spec.fill) ∧
    format core no_exceptions "\x7b:^5\x7d".toList [.CSTRING (some "AB".toList)] =
      .ok " AB  ".toList ∧
    format core no_exceptions "\x7b:10\x7d".toList [.CSTRING (some "hi".toList)] =
      .ok "hi        ".toList := by
  refine ⟨?_, ?_, ?_, ?_, ?_⟩
  · intro h
    have ha : (if spec.align ≠ NUL then spec.align else '<') = '<' := by
      rcases h with h | h <;> rw [h] <;> decide
    rw [apply_format_spec_padded out content spec hlen _ ha, if_pos rfl,
      FormatOutput.bytes_append_fill, FormatOutput.bytes_append]
  · intro h
    have ha : (if spec.align ≠ NUL then spec.align else '<') = '>' := by rw [h]; decide
    rw [apply_format_spec_padded out content spec hlen _ ha, if_neg (by decide), if_pos rfl,
      FormatOutput.bytes_append, FormatOutput.bytes_append_fill]
  · intro h
    have ha : (if spec.align ≠ NUL then spec.align else '<') = '^' := by rw [h]; decide
    rw [apply_format_spec_padded out content spec hlen _ ha, if_neg (by decide),
      if_neg (by decide), if_pos rfl, FormatOutput.bytes_append_fill,
      FormatOutput.bytes_append, FormatOutput.bytes_append_fill]
  · cases no_exceptions <;> rfl
  · cases no_exceptions <;> rfl

/-- Witness of C8 -/
theorem apply_format_spec_alignment_witness :
    (("AB".toList.length : Int) < ({ width := 5, align := '^' } : FormatSpec).width) ∧
    (apply_format_spec FormatOutput.init "AB".toList { width := 5, align := '^' }).bytes
      = " AB  ".toList :=
  ⟨by decide,
   ((apply_format_spec_alignment FloatCore.blank false
      FormatOutput.init "AB".toList { width := 5, align := '^' } (by decide)).2.2.1 rfl).trans
      (by decide)⟩

/-- The text `apply_format_spec` appends when no padding is due. -/
theorem spec_text_unpadded (content : List Char) (spec : FormatSpec)
    (hlen : spec.width ≤ 0 ∨ spec.width ≤ (content.length : Int)) :
    spec_text content spec = content := by
  unfold spec_text
  rw [apply_format_spec_unpadded _ _ _ hlen, FormatOutput.bytes_append, FormatOutput.bytes_init,
    List.nil_append]

/-- The length of the text `apply_format_spec` appends when padding is due. -/
theorem spec_text_padded_length (content : List Char) (spec : FormatSpec)
    (halign : spec.align = NUL ∨ spec.align = '<' ∨ spec.align = '>' ∨ spec.align = '^' ∨
      spec.align = '=')
    (hlen : (content.length : Int) < spec.width) :
    (spec_text content spec).length = spec.width.toNat := by
  unfold spec_text
  rcases halign with h | h | h | h | h
  · have ha : (if spec.align ≠ NUL then spec.align else '<') = '<' := by rw [h]; decide
    rw [apply_format_spec_padded _ content spec hlen _ ha, if_pos rfl,
      FormatOutput.bytes_append_fill, FormatOutput.bytes_append, FormatOutput.bytes_init]
    simp only [List.nil_append, List.length_append, List.length_replicate]
    omega
  · have ha : (if spec.align ≠ NUL then spec.align else '<') = '<' := by rw [h]; decide
    rw [apply_format_spec_padded _ content spec hlen _ ha, if_pos rfl,
      FormatOutput.bytes_append_fill, FormatOutput.bytes_append, FormatOutput.bytes_init]
    simp only [List.nil_append, List.length_append, List.length_replicate]
    omega
  · have ha : (if spec.align ≠ NUL then spec.align else '<') = '>' := by rw [h]; decide
    rw [apply_format_spec_padded _ content spec hlen _ ha, if_neg (by decide), if_pos rfl,
      FormatOutput.bytes_append, FormatOutput.bytes_append_fill, FormatOutput.bytes_init]
    simp only [List.nil_append, List.length_append, List.length_replicate]
    omega
  · have ha : (if spec.align ≠ NUL then spec.align else '<') = '^' := by rw [h]; decide
    rw [apply_format_spec_padded _ content spec hlen _ ha, if_neg (by decide),
      if_neg (by decide), if_pos rfl, FormatOutput.bytes_append_fill,
      FormatOutput.bytes_append, FormatOutput.bytes_append_fill, FormatOutput.bytes_init]
    simp only [List.nil_append, List.length_append, List.length_replicate]
    omega
  · have ha : (if spec.align ≠ NUL then spec.align else '<') = '=' := by rw [h]; decide
    rw [apply_format_spec_padded _ content spec hlen _ ha, if_neg (by decide),
      if_neg (by decide), if_neg (by decide), if_pos rfl]
    split
    · rename_i hs
      rw [FormatOutput.bytes_append, FormatOutput.bytes_append_fill,
        FormatOutput.bytes_append_char, FormatOutput.bytes_init]
      simp only [List.nil_append, List.length_append, List.length_replicate,
        List.length_singleton, List.length_drop]
      omega
    · rw [FormatOutput.bytes_append, FormatOutput.bytes_append_fill, FormatOutput.bytes_init]
      simp only [List.nil_append, List.length_append, List.length_replicate]
      omega

/-- C9: under an align that is unset or one of `<`, `>`, `^`, `=`, `apply_format_spec`
appends the content unchanged when the width is 0 or at most the content length, and exactly
`width` bytes otherwise, so the appended length is the larger of the two; the field of
width 100 applied to `x` has size 100. -/
theorem apply_format_spec_length (core : FloatCore) (no_exceptions : Bool)
    (out : FormatOutput) (content : List Char) (spec : FormatSpec)
    (halign : spec.align = NUL ∨ spec.align = '<' ∨ spec.align = '>' ∨ spec.align = '^' ∨
      spec.align = '=') :
    (∃ t, (apply_format_spec out content spec).bytes = out.bytes ++ t ∧
      ((spec.width = 0 ∨ spec.width ≤ (content.length : Int)) → t = content) ∧
      (¬ (spec.width = 0 ∨ spec.width ≤ (content.length : Int)) →
        (t.length : Int) = spec.width) ∧
      (t.length : Int) = max (content.length : Int) spec.width) ∧
    (∃ s, format core no_exceptions "\x7b:100\x7d".toList [.CSTRING (some "x".toList)] = .ok s ∧
      s.length = 100) := by
  refine ⟨⟨spec_text content spec, apply_format_spec_bytes out content spec, ?_, ?_, ?_⟩, ?_⟩
  · intro h
    exact spec_text_unpadded content spec (by omega)
  · intro h
    rw [spec_text_padded_length content spec halign (by omega)]
    omega
  · by_cases h : (content.length : Int) < spec.width
    · rw [spec_text_padded_length content spec halign h]
      omega
    · rw [spec_text_unpadded content spec (by omega)]
      omega
  · cases no_exceptions <;> exact ⟨_, rfl, rfl⟩

/-- Witness of C9 -/
theorem apply_format_spec_length_witness :
    ∃ t, (apply_format_spec FormatOutput.init "x".toList { width := 7, align := '>' }).bytes =
        FormatOutput.init.bytes ++ t ∧ (t.length : Int) = 7 :=
  (apply_format_spec_length FloatCore.blank false
    FormatOutput.init "x".toList { width := 7, align := '>' }
    (Or.inr (Or.inr (Or.inl rfl)))).1.imp fun _ h => ⟨h.1, h.2.2.1 (by decide)⟩

/-- C10: under align `=` with content shorter than the width and `p = width - len`, a
content that starts with `-`, `+` or a space is written as that byte, `p` fill bytes and
the rest of the content, and any other content as `p` fill bytes and the content; the
field `0=+8` gives `+0000042` for 42 and `-0000042` for -42, and `=8` gives `-     42`
for -42. -/
theorem apply_format_spec_sign_aware (core : FloatCore) (no_exceptions : Bool)
    (out : FormatOutput) (content : List Char) (spec : FormatSpec)
    (halign : spec.align = '=') (hlen : (content.length : Int) < spec.width) :
    (∀ c rest, content = c :: rest → (c = '-' ∨ c = '+' ∨ c = ' ') →
      (apply_format_spec out content spec).bytes =
        out.bytes ++ [c] ++ List.replicate (spec.width.toNat - content.length) spec.fill ++
          rest) ∧
    ((content = [] ∨ ∃ c rest, content = c :: rest ∧ ¬ (c = '-' ∨ c = '+' ∨ c = ' ')) →
      (apply_format_spec out content spec).bytes =
        out.bytes ++ List.replicate (spec.width.toNat - content.length) spec.fill ++ content) ∧
    format core no_exceptions "\x7b:0=+8\x7d".toList [.INT 42] = .ok "+0000042".toList ∧
    format core no_exceptions "\x7b:0=+8\x7d".toList [.INT (-42)] = .ok "-0000042".toList ∧
    format core no_exceptions "\x7b:=8\x7d".toList [.INT (-42)] = .ok "-     42".toList := by
  have ha : (if spec.align ≠ NUL then spec.align else '<') = '=' := by rw [halign]; decide
  have hp := apply_format_spec_padded out content spec hlen _ ha
  rw [if_neg (by decide), if_neg (by decide), if_neg (by decide), if_pos rfl] at hp
  refine ⟨?_, ?_, ?_, ?_, ?_⟩
  · intro c rest hc hsign
    subst hc
    rw [hp, if_pos ⟨by simp, by simpa using hsign⟩, FormatOutput.bytes_append,
      FormatOutput.bytes_append_fill, FormatOutput.bytes_append_char]
    simp
  · intro h
    have hn : ¬ (content.length > 0 ∧ (content.getD 0 NUL = '-' ∨ content.getD 0 NUL = '+' ∨
        content.getD 0 NUL = ' ')) := by
      rcases h with h | ⟨c, rest, h, hs⟩
      · subst h; simp
      · subst h; simpa using hs
    rw [hp, if_neg hn, FormatOutput.bytes_append, FormatOutput.bytes_append_fill]
  · cases no_exceptions <;> rfl
  · cases no_exceptions <;> rfl
  · cases no_exceptions <;> rfl

/-- Witness of C10 -/
theorem apply_format_spec_sign_aware_witness :
    (apply_format_spec FormatOutput.init "-42".toList { width := 8, align := '=' }).bytes =
      "-     42".toList :=
  ((apply_format_spec_sign_aware FloatCore.blank false
    FormatOutput.init "-42".toList { width := 8, align := '=' } rfl (by decide)).1
      '-' "42".toList rfl (Or.inl rfl)).trans (by decide)

/-! ## C11: zero padding of integers -/

/-- C11: for an integer argument under a spec with the zero-pad flag, no alignment and a
width above the length of the integer's text, `format_arg` does what it does under the same
spec with fill `0` and align `=`: a text that starts with `-`, `+` or a space keeps that
byte first, followed by `width - length` zeros and the rest, any other text follows the
zeros, and `width` bytes are written; `:05` gives `00042` for 42 and `-0042` for -42, and
`:08x` gives `000000ff` for 255. -/
theorem format_arg_zero_pad (core : FloatCore) (no_exceptions : Bool) (out : FormatOutput)
    (arg : FormatArg) (spec : FormatSpec) (hint : arg.is_integer = true)
    (hz : spec.zero_pad = true) (ha : spec.align = NUL)
    (hw : ((switch_buffer core arg spec).length : Int) < spec.width) :
    format_arg core out arg spec =
      format_arg core out arg { spec with fill := '0', align := '=' } ∧
    (∀ c rest, switch_buffer core arg spec = c :: rest → is_sign_byte c = true →
      (format_arg core out arg spec).bytes =
        out.bytes ++ [c] ++ List.replicate (spec.width.toNat - (c :: rest).length) '0' ++
          rest) ∧
    (∀ c rest, switch_buffer core arg spec = c :: rest → is_sign_byte c = false →
      (format_arg core out arg spec).bytes =
        out.bytes ++ List.replicate (spec.width.toNat - (c :: rest).length) '0' ++
          c :: rest) ∧
    switch_buffer core arg spec ≠ [] ∧
    ((rendered core arg spec).length : Int) = spec.width ∧
    format core no_exceptions "\x7b:05\x7d".toList [.INT 42] = .ok "00042".toList ∧
    format core no_exceptions "\x7b:05\x7d".toList [.INT (-42)] = .ok "-0042".toList ∧
    format core no_exceptions "\x7b:08x\x7d".toList [.INT 255] = .ok "000000ff".toList := by
  have hpos : spec.width > 0 := by
    have := Int.natCast_nonneg (switch_buffer core arg spec).length
    omega
  have hadj : adjusted_spec spec = { spec with fill := '0', align := '=' } := by
    unfold adjusted_spec
    rw [if_pos ⟨hz, hpos, ha⟩]
  have hfirst : ∀ (o : FormatOutput) c rest, switch_buffer core arg spec = c :: rest →
      is_sign_byte c = true →
      (format_arg core o arg spec).bytes =
        o.bytes ++ [c] ++ List.replicate (spec.width.toNat - (c :: rest).length) '0' ++
          rest := by
    intro o c rest hc hsign
    rw [format_arg_integer core o arg spec hint, hadj, hc]
    rw [hc] at hw
    exact apply_format_spec_sign_first o c rest { spec with fill := '0', align := '=' } rfl hw
      hsign
  have hnone : ∀ (o : FormatOutput) c rest, switch_buffer core arg spec = c :: rest →
      is_sign_byte c = false →
      (format_arg core o arg spec).bytes =
        o.bytes ++ List.replicate (spec.width.toNat - (c :: rest).length) '0' ++
          c :: rest := by
    intro o c rest hc hsign
    rw [format_arg_integer core o arg spec hint, hadj, hc]
    rw [hc] at hw
    exact apply_format_spec_sign_none o c rest { spec with fill := '0', align := '=' } rfl hw
      hsign
  have hne := switch_buffer_integer_ne_nil core arg spec hint
  refine ⟨?_, hfirst out, hnone out, hne, ?_, ?_, ?_, ?_⟩
  · rw [format_arg_integer core out arg spec hint,
      format_arg_integer core out arg { spec with fill := '0', align := '=' } hint, hadj,
      switch_buffer_integer_congr core arg { spec with fill := '0', align := '=' } spec hint
        rfl rfl]
    have h2 : adjusted_spec { spec with fill := '0', align := '=' } =
        { spec with fill := '0', align := '=' } := by
      unfold adjusted_spec
      rw [if_neg (fun h => absurd h.2.2 (show ¬ ('=' : Char) = NUL by decide))]
    rw [h2]
  · unfold rendered
    rcases hb : switch_buffer core arg spec with _ | ⟨c, rest⟩
    · exact absurd hb hne
    · rw [hb] at hw
      simp only [List.length_cons] at hw
      cases hs : is_sign_byte c
      · rw [hnone FormatOutput.init c rest hb hs, FormatOutput.bytes_init]
        simp only [List.nil_append, List.length_append, List.length_replicate,
          List.length_cons]
        omega
      · rw [hfirst FormatOutput.init c rest hb hs, FormatOutput.bytes_init]
        simp only [List.nil_append, List.length_append, List.length_replicate,
          List.length_cons, List.length_nil]
        omega
  · cases no_exceptions <;> rfl
  · cases no_exceptions <;> rfl
  · cases no_exceptions <;> rfl

/-- Witness of C11: -42 under width 5 with the zero-pad flag. -/
theorem format_arg_zero_pad_witness :
    (format_arg FloatCore.blank FormatOutput.init (.INT (-42))
      { zero_pad := true, width := 5 }).bytes = "-0042".toList :=
  ((format_arg_zero_pad FloatCore.blank false FormatOutput.init (.INT (-42))
    { zero_pad := true, width := 5 } rfl rfl rfl (by decide)).2.1
      '-' "42".toList (by decide) rfl).trans (by decide)

/-! ## C12: an explicit alignment and the zero-pad flag -/

/-- C12: under a spec whose align is `<`, `>`, `^` or `=`, `format_arg` does the same with
the zero-pad flag set as with the flag clear, for every argument; the field `:<05` gives
`42` and three spaces for 42. -/
theorem format_arg_explicit_align (core : FloatCore) (no_exceptions : Bool)
    (out : FormatOutput) (arg : FormatArg) (spec : FormatSpec)
    (ha : spec.align = '<' ∨ spec.align = '>' ∨ spec.align = '^' ∨ spec.align = '=') :
    format_arg core out arg { spec with zero_pad := true } =
      format_arg core out arg { spec with zero_pad := false } ∧
    rendered core arg { spec with zero_pad := true } =
      rendered core arg { spec with zero_pad := false } ∧
    format core no_exceptions "\x7b:<05\x7d".toList [.INT 42] = .ok "42   ".toList := by
  have hne : spec.align ≠ NUL := by
    rcases ha with h | h | h | h <;> rw [h] <;> decide
  have key : ∀ o : FormatOutput, format_arg core o arg { spec with zero_pad := true } =
      format_arg core o arg { spec with zero_pad := false } := by
    intro o
    unfold format_arg
    rw [format_arg_switch_zero_pad core o arg spec true,
      format_arg_switch_zero_pad core o arg spec false]
    cases format_arg_switch core o arg spec with
    | inl o2 => rfl
    | inr b =>
      dsimp only
      rw [if_neg (fun h => hne h.2.2), if_neg (fun h => hne h.2.2)]
      rfl
  refine ⟨key out, ?_, ?_⟩
  · unfold rendered
    rw [key]
  · cases no_exceptions <;> rfl

/-- Witness of C12: 42 under `<`, width 5 and the zero-pad flag. -/
theorem format_arg_explicit_align_witness :
    rendered FloatCore.blank (.INT 42) { align := '<', width := 5, zero_pad := true } =
      "42   ".toList :=
  ((format_arg_explicit_align FloatCore.blank false FormatOutput.init (.INT 42)
    { align := '<', width := 5 } (Or.inl rfl)).2.1).trans (by decide)

/-! ## C13: decimal conversion -/

/-- C13: `uint_to_str` gives the decimal numeral of the value, `0` for 0 and otherwise digits
that do not start with `0`, the numeral read back is the value, and it is the only such
text; for a signed value of 32
or 64 bits `int_to_str` gives that numeral of the magnitude, after a `-` exactly for a
negative value, and the text read back is the value, also for -2147483648 and
-9223372036854775808. -/
theorem int_to_str_numeral (v : Nat) (bits : Nat) (w : Int) (hb : bits = 32 ∨ bits = 64)
    (hlo : -(2 : Int) ^ (bits - 1) ≤ w) (hhi : w < (2 : Int) ^ (bits - 1)) :
    uint_to_str v = numeral 10 dec_digit v ∧
    (∀ t, is_numeral_of 10 "0123456789".toList v t ↔ t = uint_to_str v) ∧
    uint_to_str 0 = ['0'] ∧
    (∀ c ∈ uint_to_str v, is_digit_char c = true) ∧
    (v ≠ 0 → (uint_to_str v).head? ≠ some '0') ∧
    decimal_value (uint_to_str v) = (v : Int) ∧
    int_to_str bits w =
      (if w < 0 then '-' :: uint_to_str w.natAbs else uint_to_str w.natAbs) ∧
    signed_decimal_value (int_to_str bits w) = w ∧
    uint_to_str 4294967295 = "4294967295".toList ∧
    uint_to_str 18446744073709551615 = "18446744073709551615".toList ∧
    int_to_str 32 (-2147483648) = "-2147483648".toList ∧
    int_to_str 64 (-9223372036854775808) = "-9223372036854775808".toList := by
  have habs : w.natAbs < 2 ^ bits := by
    rcases hb with rfl | rfl <;> norm_num at hlo hhi ⊢ <;> omega
  have hint := int_to_str_eq bits w habs
  refine ⟨uint_to_str_eq v, ?_, rfl, ?_, ?_, ?_, ?_, ?_, by decide, by decide, by decide,
    by decide⟩
  · intro t
    rw [uint_to_str_eq]
    exact is_numeral_of_dec v t
  · intro c hc
    rw [uint_to_str_eq] at hc
    obtain ⟨d, hlt, rfl⟩ := mem_numeral 10 dec_digit (by decide) v c hc
    exact dec_digit_is_digit d hlt
  · intro hv
    rw [uint_to_str_eq]
    exact numeral_head_ne_zero 10 dec_digit (by decide) dec_digit_ne_zero v hv
  · rw [uint_to_str_eq, decimal_value_numeral]
  · rw [hint, uint_to_str_eq]
  · rw [hint]
    by_cases hneg : w < 0
    · rw [if_pos hneg]
      show -decimal_value (numeral 10 dec_digit w.natAbs) = w
      rw [decimal_value_numeral]
      omega
    · rw [if_neg hneg, signed_decimal_value_numeral]
      omega

/-- Witness of C13: the most negative value of 32 bits. -/
theorem int_to_str_numeral_witness :
    signed_decimal_value (int_to_str 32 (-2147483648)) = -2147483648 :=
  (int_to_str_numeral 4294967295 32 (-2147483648) (Or.inl rfl) (by decide)
    (by decide)).2.2.2.2.2.2.2.1

/-! ## C14: the sign policy -/

/-- C14: for an integer argument of its C++ type under a type other than `x`, `X`, `o` and
`b`, the text that `format_arg` pads is, for a non-negative value, the decimal numeral after
`+` when the sign of the spec is `+`, after a space when it is a space and alone otherwise,
and for a negative value `-` and the numeral of the magnitude whatever the sign of the spec;
under `x`, `X`, `o` and `b` the sign of the spec changes neither the text nor what
`format_arg` does. -/
theorem integer_sign_policy (core : FloatCore) (no_exceptions : Bool) (out : FormatOutput)
    (arg : FormatArg) (spec : FormatSpec) (hint : arg.is_integer = true)
    (hr : arg.in_range = true) :
    format_arg core out arg spec =
      apply_format_spec out (switch_buffer core arg spec) (adjusted_spec spec) ∧
    (is_radix_type spec.type = false → 0 ≤ arg.int_value →
      switch_buffer core arg spec =
        sign_bytes spec.sign ++ numeral 10 dec_digit arg.int_value.natAbs) ∧
    (is_radix_type spec.type = false → arg.int_value < 0 →
      switch_buffer core arg spec = '-' :: numeral 10 dec_digit arg.int_value.natAbs) ∧
    (is_radix_type spec.type = true → ∀ s : Char,
      switch_buffer core arg { spec with sign := s } = switch_buffer core arg spec ∧
      format_arg core out arg { spec with sign := s } = format_arg core out arg spec) ∧
    (sign_bytes '+' = ['+'] ∧ sign_bytes ' ' = [' '] ∧ sign_bytes '-' = []) ∧
    format core no_exceptions "\x7b:+\x7d".toList [.INT 42] = .ok "+42".toList ∧
    format core no_exceptions "\x7b:+\x7d".toList [.INT (-42)] = .ok "-42".toList ∧
    format core no_exceptions "\x7b: \x7d".toList [.INT 42] = .ok " 42".toList ∧
    format core no_exceptions "\x7b: \x7d".toList [.INT (-42)] = .ok "-42".toList ∧
    format core no_exceptions "\x7b:-\x7d".toList [.INT 42] = .ok "42".toList ∧
    format core no_exceptions "\x7b:+x\x7d".toList [.INT 255] = .ok "ff".toList ∧
    format core no_exceptions "\x7b:+\x7d".toList [.UINT 42] = .ok "+42".toList := by
  refine ⟨format_arg_integer core out arg spec hint, ?_, ?_, ?_, ⟨rfl, rfl, rfl⟩,
    ?_, ?_, ?_, ?_, ?_, ?_, ?_⟩
  · intro ht hv
    rw [switch_buffer_decimal core arg spec hint hr ht, if_neg (by omega)]
  · intro ht hv
    rw [switch_buffer_decimal core arg spec hint hr ht, if_pos hv]
  · intro ht s
    exact ⟨switch_buffer_radix_sign core arg spec s hint ht,
      format_arg_radix_sign core out arg spec s hint ht⟩
  all_goals cases no_exceptions <;> rfl

/-- Witness of C14: -42 under the sign `+`. -/
theorem integer_sign_policy_witness :
    switch_buffer FloatCore.blank (.INT (-42)) { sign := '+' } =
      '-' :: numeral 10 dec_digit 42 :=
  (integer_sign_policy FloatCore.blank false FormatOutput.init (.INT (-42)) { sign := '+' }
    rfl (by decide)).2.2.1 rfl (by decide)

/-! ## C15: negative values in octal and binary -/

/-- C15: a negative `int` or `long long` under `o` or `b` is written as the numeral of its
magnitude with no `-` in front, while under `x` and `X` the `-` is written: `:o` gives `10`
for -8 and `:b` gives `10` for -2, where `:x` gives `-ff` for -255 and `:X` gives `-10` for
-16. -/
theorem format_negative_octal_binary :
    format FloatCore.blank false "\x7b:o\x7d".toList [.INT (-8)] = .ok "10".toList ∧
    format FloatCore.blank false "\x7b:b\x7d".toList [.INT (-2)] = .ok "10".toList ∧
    format FloatCore.blank false "\x7b:o\x7d".toList [.LLONG (-8)] = .ok "10".toList ∧
    format FloatCore.blank false "\x7b:b\x7d".toList [.LLONG (-2)] = .ok "10".toList ∧
    format FloatCore.blank false "\x7b:x\x7d".toList [.INT (-255)] = .ok "-ff".toList ∧
    format FloatCore.blank false "\x7b:X\x7d".toList [.INT (-16)] = .ok "-10".toList ∧
    format FloatCore.blank false "\x7b:x\x7d".toList [.LLONG (-255)] = .ok "-ff".toList ∧
    (∀ (core : FloatCore) (bits : Nat) (v : Int) (spec : FormatSpec), v < 0 →
      v.natAbs < 2 ^ bits →
      (spec.type = 'o' → signed_buffer bits v spec = numeral 8 dec_digit v.natAbs) ∧
      (spec.type = 'b' → signed_buffer bits v spec = numeral 2 dec_digit v.natAbs) ∧
      (spec.type = 'x' →
        signed_buffer bits v spec = '-' :: numeral 16 (hex_digit false) v.natAbs) ∧
      (spec.type = 'X' →
        signed_buffer bits v spec = '-' :: numeral 16 (hex_digit true) v.natAbs) ∧
      switch_buffer core (.INT v) spec = signed_buffer 32 v spec ∧
      switch_buffer core (.LLONG v) spec = signed_buffer 64 v spec) := by
  refine ⟨by decide, by decide, by decide, by decide, by decide, by decide, by decide, ?_⟩
  intro core bits v spec hneg habs
  have hw := wrap_abs bits v habs
  rw [if_pos hneg] at hw
  refine ⟨?_, ?_, ?_, ?_, rfl, rfl⟩
  · intro h
    unfold signed_buffer
    rw [h, if_neg (by decide), if_neg (by decide), if_pos rfl, if_pos hneg, hw, uint_to_oct_eq]
  · intro h
    unfold signed_buffer
    rw [h, if_neg (by decide), if_neg (by decide), if_neg (by decide), if_pos rfl,
      if_pos hneg, hw, uint_to_bin_eq]
  · intro h
    unfold signed_buffer
    rw [h, if_pos rfl, if_pos hneg, hw, uint_to_hex_eq]
  · intro h
    unfold signed_buffer
    rw [h, if_neg (by decide), if_pos rfl, if_pos hneg, hw, uint_to_hex_eq]

/-! ## C16: hexadecimal, octal and binary conversion -/

/-- C16: `uint_to_hex`, `uint_to_oct` and `uint_to_bin` give the numeral of the value in base
16, 8 and 2: `0` for 0, otherwise digits of that base that do not start with `0`, so no
prefix, the text read back in the base is the value, and it is the only such text; the
hexadecimal digits are `0`-`9` and `a`-`f`, and with `uppercase` the text is the same with
`a`-`f` replaced by `A`-`F`. -/
theorem uint_to_radix_numeral (v : Nat) :
    uint_to_hex v false = numeral 16 (hex_digit false) v ∧
    uint_to_hex v true = numeral 16 (hex_digit true) v ∧
    uint_to_oct v = numeral 8 dec_digit v ∧
    uint_to_bin v = numeral 2 dec_digit v ∧
    (∀ t, is_numeral_of 16 "0123456789abcdef".toList v t ↔ t = uint_to_hex v false) ∧
    (∀ t, is_numeral_of 16 "0123456789ABCDEF".toList v t ↔ t = uint_to_hex v true) ∧
    (∀ t, is_numeral_of 8 "01234567".toList v t ↔ t = uint_to_oct v) ∧
    (∀ t, is_numeral_of 2 "01".toList v t ↔ t = uint_to_bin v) ∧
    (uint_to_hex 0 false = ['0'] ∧ uint_to_hex 0 true = ['0'] ∧ uint_to_oct 0 = ['0'] ∧
      uint_to_bin 0 = ['0']) ∧
    (v ≠ 0 → (uint_to_hex v false).head? ≠ some '0' ∧ (uint_to_hex v true).head? ≠ some '0' ∧
      (uint_to_oct v).head? ≠ some '0' ∧ (uint_to_bin v).head? ≠ some '0') ∧
    (∀ c ∈ uint_to_hex v false, c ∈ "0123456789abcdef".toList) ∧
    (∀ c ∈ uint_to_hex v true, c ∈ "0123456789ABCDEF".toList) ∧
    (∀ c ∈ uint_to_oct v, c ∈ "01234567".toList) ∧
    (∀ c ∈ uint_to_bin v, c ∈ "01".toList) ∧
    uint_to_hex v true = (uint_to_hex v false).map upper_hex ∧
    numeral_value 16 (uint_to_hex v false) = v ∧
    numeral_value 16 (uint_to_hex v true) = v ∧
    numeral_value 8 (uint_to_oct v) = v ∧
    numeral_value 2 (uint_to_bin v) = v ∧
    uint_to_hex 18446744073709551615 false = "ffffffffffffffff".toList ∧
    uint_to_hex 255 true = "FF".toList ∧
    uint_to_oct 8 = "10".toList ∧
    uint_to_bin 255 = "11111111".toList := by
  refine ⟨uint_to_hex_eq v false, uint_to_hex_eq v true, uint_to_oct_eq v, uint_to_bin_eq v,
    ?_, ?_, ?_, ?_, ⟨rfl, rfl, rfl, rfl⟩, ?_, ?_, ?_, ?_, ?_, uint_to_hex_upper v, ?_, ?_,
    ?_, ?_, by decide, by decide, by decide, by decide⟩
  · intro t
    rw [uint_to_hex_eq]
    exact is_numeral_of_hex false v t
  · intro t
    rw [uint_to_hex_eq]
    exact is_numeral_of_hex true v t
  · intro t
    rw [uint_to_oct_eq]
    exact is_numeral_of_oct v t
  · intro t
    rw [uint_to_bin_eq]
    exact is_numeral_of_bin v t
  · intro hv
    rw [uint_to_hex_eq, uint_to_hex_eq, uint_to_oct_eq, uint_to_bin_eq]
    exact ⟨numeral_head_ne_zero 16 _ (by decide) (hex_digit_ne_zero false) v hv,
      numeral_head_ne_zero 16 _ (by decide) (hex_digit_ne_zero true) v hv,
      numeral_head_ne_zero 8 _ (by decide)
        (fun d hd => dec_digit_ne_zero d (by omega)) v hv,
      numeral_head_ne_zero 2 _ (by decide)
        (fun d hd => dec_digit_ne_zero d (by omega)) v hv⟩
  · rw [uint_to_hex_eq]
    exact numeral_subset 16 _ (by decide) _ hex_digit_lower_mem v
  · rw [uint_to_hex_eq]
    exact numeral_subset 16 _ (by decide) _ hex_digit_upper_mem v
  · rw [uint_to_oct_eq]
    exact numeral_subset 8 _ (by decide) _ oct_digit_mem v
  · rw [uint_to_bin_eq]
    exact numeral_subset 2 _ (by decide) _ bin_digit_mem v
  · rw [uint_to_hex_eq]
    exact numeral_value_numeral 16 _ (by decide) (digit_value_hex false) v
  · rw [uint_to_hex_eq]
    exact numeral_value_numeral 16 _ (by decide) (digit_value_hex true) v
  · rw [uint_to_oct_eq]
    exact numeral_value_numeral 8 _ (by decide)
      (fun d hd => digit_value_dec d (by omega)) v
  · rw [uint_to_bin_eq]
    exact numeral_value_numeral 2 _ (by decide)
      (fun d hd => digit_value_dec d (by omega)) v

/-! ## C17: the alternate-form flag -/

/-- C17: `format_arg` does the same with the alternate-form flag set as with the flag clear,
for every argument and spec, so no `0x`, `0o` or `0b` is written (`:#x` gives `ff` for 255);
`parse_format_spec` sets the flag on a spec text that starts with `#`, as on `#x`, `#o` and
`#b`. -/
theorem format_arg_alt_form (core : FloatCore) (no_exceptions : Bool) (out : FormatOutput)
    (arg : FormatArg) (spec : FormatSpec) :
    format_arg core out arg { spec with alt_form := true } =
      format_arg core out arg { spec with alt_form := false } ∧
    rendered core arg { spec with alt_form := true } =
      rendered core arg { spec with alt_form := false } ∧
    format core no_exceptions "\x7b:#x\x7d".toList [.INT 255] = .ok "ff".toList ∧
    format core no_exceptions "\x7b:#o\x7d".toList [.INT 8] = .ok "10".toList ∧
    format core no_exceptions "\x7b:#b\x7d".toList [.INT 5] = .ok "101".toList ∧
    (∀ rest spec0, (∀ c, rest.head? = some c → is_align_char c = false) →
      (parse_format_spec ('#' :: rest) spec0).2.alt_form = true) ∧
    (parse_format_spec "#x".toList {}).2 = { alt_form := true, type := 'x' } ∧
    (parse_format_spec "#o".toList {}).2 = { alt_form := true, type := 'o' } ∧
    (parse_format_spec "#b".toList {}).2 = { alt_form := true, type := 'b' } := by
  refine ⟨?_, ?_, ?_, ?_, ?_, parse_format_spec_alt_form, by decide, by decide, by decide⟩
  · rw [format_arg_alt_form_eq core out arg spec true,
      format_arg_alt_form_eq core out arg spec false]
  · unfold rendered
    rw [format_arg_alt_form_eq core _ arg spec true,
      format_arg_alt_form_eq core _ arg spec false]
  · cases no_exceptions <;> rfl
  · cases no_exceptions <;> rfl
  · cases no_exceptions <;> rfl

/-! ## C18: pointers -/

/-- C18: `ptr_to_str` gives the five bytes `(nil)` for the null address and, for any other
address, `0x` and the lowercase hexadecimal numeral of the address, which does not start
with `0` and reads back as the address; `format_arg` passes that text to `apply_format_spec`
as it does for the other kinds that fill the buffer, so width and alignment apply. -/
theorem ptr_to_str_text (core : FloatCore) (no_exceptions : Bool) (out : FormatOutput)
    (a : Nat) (spec : FormatSpec) :
    ptr_to_str 0 = "(nil)".toList ∧
    (a ≠ 0 → ptr_to_str a = '0' :: 'x' :: numeral 16 (hex_digit false) a ∧
      (numeral 16 (hex_digit false) a).head? ≠ some '0' ∧
      (∀ c ∈ numeral 16 (hex_digit false) a, c ∈ "0123456789abcdef".toList) ∧
      numeral_value 16 ((ptr_to_str a).drop 2) = a ∧
      ∀ t, is_numeral_of 16 "0123456789abcdef".toList a t ↔ ptr_to_str a = '0' :: 'x' :: t) ∧
    format_arg core out (.POINTER a) spec =
      apply_format_spec out (ptr_to_str a) (adjusted_spec spec) ∧
    (spec.zero_pad = false →
      format_arg core out (.POINTER a) spec = apply_format_spec out (ptr_to_str a) spec) ∧
    format core no_exceptions "\x7b\x7d".toList [.POINTER 0] = .ok "(nil)".toList ∧
    format core no_exceptions "\x7b:>8\x7d".toList [.POINTER 0] = .ok "   (nil)".toList ∧
    format core no_exceptions "\x7b\x7d".toList [.POINTER 48879] = .ok "0xbeef".toList ∧
    format core no_exceptions "\x7b:<8\x7d|".toList [.POINTER 255] = .ok "0xff    |".toList := by
  have hfa : format_arg core out (.POINTER a) spec =
      apply_format_spec out (ptr_to_str a) (adjusted_spec spec) :=
    format_arg_of_buffer core out (.POINTER a) spec (ptr_to_str a) rfl
  refine ⟨rfl, ?_, hfa, ?_, ?_, ?_, ?_, ?_⟩
  · intro ha
    have hp : ptr_to_str a = '0' :: 'x' :: numeral 16 (hex_digit false) a := by
      unfold ptr_to_str
      rw [if_neg ha, uint_to_hex_eq]
    refine ⟨hp, numeral_head_ne_zero 16 _ (by decide) (hex_digit_ne_zero false) a ha,
      numeral_subset 16 _ (by decide) _ hex_digit_lower_mem a, ?_, ?_⟩
    · rw [hp]
      exact numeral_value_numeral 16 _ (by decide) (digit_value_hex false) a
    · intro t
      rw [hp]
      refine (is_numeral_of_hex false a t).trans ?_
      constructor
      · intro h
        rw [h]
      · intro h
        exact ((List.cons.inj (List.cons.inj h).2).2).symm
  · intro hz
    rw [hfa]
    unfold adjusted_spec
    rw [if_neg (fun h => absurd (hz ▸ h.1) Bool.false_ne_true)]
  all_goals cases no_exceptions <;> rfl

/-! ## C19: precision of strings -/

/-- C19: for a C string or a `std::string` with the bytes `s`, `format_arg` passes to
`apply_format_spec`, under the spec as it is, `s` when the precision is unset and the first
`min p (length s)` bytes of `s` when the precision is `p` and not negative; `:.5` gives
`hello` for `hello world`, `:.0` gives the empty text, and `:10.3` gives `hel` and seven
spaces for `hello`. -/
theorem format_arg_string_precision (core : FloatCore) (no_exceptions : Bool)
    (out : FormatOutput) (s : List Char) (spec : FormatSpec) :
    format_arg core out (.STRING s) spec =
      apply_format_spec out (truncated s spec.precision) spec ∧
    format_arg core out (.CSTRING (some s)) spec =
      apply_format_spec out (truncated s spec.precision) spec ∧
    (spec.precision = -1 → truncated s spec.precision = s) ∧
    (spec.precision ≥ 0 →
      truncated s spec.precision = s.take (min spec.precision.toNat s.length) ∧
      (truncated s spec.precision).length = min spec.precision.toNat s.length) ∧
    format core no_exceptions "\x7b:.5\x7d".toList [.STRING "hello world".toList] =
      .ok "hello".toList ∧
    format core no_exceptions "\x7b:.5\x7d".toList [.CSTRING (some "hello world".toList)] =
      .ok "hello".toList ∧
    format core no_exceptions "\x7b:.0\x7d".toList [.STRING "test".toList] = .ok [] ∧
    format core no_exceptions "\x7b:10.3\x7d".toList [.STRING "hello".toList] =
      .ok "hel       ".toList ∧
    format core no_exceptions "\x7b:>10.3\x7d".toList [.CSTRING (some "hello".toList)] =
      .ok "       hel".toList ∧
    format core no_exceptions "\x7b:010.3\x7d".toList [.STRING "hello".toList] =
      .ok "hel       ".toList := by
  refine ⟨?_, ?_, ?_, ?_, ?_, ?_, ?_, ?_, ?_, ?_⟩
  · rw [← take_str_len]
    rfl
  · rw [← take_str_len]
    rfl
  · intro hp
    unfold truncated
    rw [hp, if_neg (by decide)]
  · intro hp
    have ht : truncated s spec.precision = s.take (min spec.precision.toNat s.length) := by
      unfold truncated
      rw [if_pos hp]
      by_cases hl : spec.precision.toNat ≤ s.length
      · rw [Nat.min_eq_left hl]
      · rw [Nat.min_eq_right (by omega), List.take_of_length_le (le_refl _),
          List.take_of_length_le (by omega)]
    refine ⟨ht, ?_⟩
    rw [ht, List.length_take]
    omega
  all_goals cases no_exceptions <;> rfl

/-! ## C20: the null C string -/

/-- C20: for a null C string `format_arg` passes the six bytes `(null)` to `apply_format_spec`
under the spec as it is, and `format` on a field whose spec text is `s` returns, without an
error, that text padded under the parsed spec; the empty field gives `(null)` and `:>8` gives
two spaces and `(null)`. -/
theorem format_arg_null_cstring (core : FloatCore) (no_exceptions : Bool) (out : FormatOutput)
    (spec : FormatSpec) (s : List Char) (hs : '}' ∉ s) :
    format_arg core out (.CSTRING none) spec =
      apply_format_spec out "(null)".toList spec ∧
    (format_arg core out (.CSTRING none) spec).bytes =
      out.bytes ++ spec_text "(null)".toList spec ∧
    format core no_exceptions ('{' :: ':' :: (s ++ ['}'])) [.CSTRING none] =
      .ok (spec_text "(null)".toList (parse_format_spec s {}).2) ∧
    format core no_exceptions "\x7b\x7d".toList [.CSTRING none] = .ok "(null)".toList ∧
    format core no_exceptions "\x7b:>8\x7d".toList [.CSTRING none] = .ok "  (null)".toList ∧
    format core no_exceptions "\x7b:*^10.2\x7d".toList [.CSTRING none] =
      .ok "**(null)**".toList := by
  refine ⟨rfl, ?_, ?_, ?_, ?_, ?_⟩
  · exact apply_format_spec_bytes out "(null)".toList spec
  · rw [format_single_field core no_exceptions s (.CSTRING none) hs]
    rfl
  all_goals cases no_exceptions <;> rfl

/-- Witness of C20: the field `:8` pads `(null)` to eight bytes. -/
theorem format_arg_null_cstring_witness :
    format FloatCore.blank false "\x7b:8\x7d".toList [.CSTRING none] =
      .ok "(null)  ".toList :=
  ((format_arg_null_cstring FloatCore.blank false FormatOutput.init {} "8".toList
    (by decide)).2.2.1).trans (by decide)

/-! ## C21: booleans -/

/-- C21: for a boolean under the type `d`, `format_arg` pads the digit `1` or `0` like the
other buffer kinds, and under every other type it pads `true` or `false` under the spec as
it is; the empty field gives `true` and `false`, `:d` gives `1` and `0`, `:>8` gives four
spaces and `true`, and `:<8` gives `false` and three spaces. -/
theorem format_arg_bool (core : FloatCore) (no_exceptions : Bool) (out : FormatOutput)
    (v : Bool) (spec : FormatSpec) :
    (spec.type = 'd' →
      format_arg core out (.BOOL v) spec =
        apply_format_spec out [if v then '1' else '0'] (adjusted_spec spec)) ∧
    (spec.type ≠ 'd' →
      format_arg core out (.BOOL v) spec =
        apply_format_spec out (if v then "true" else "false").toList spec) ∧
    (spec.zero_pad = false → adjusted_spec spec = spec) ∧
    format core no_exceptions "\x7b\x7d".toList [.BOOL true] = .ok "true".toList ∧
    format core no_exceptions "\x7b\x7d".toList [.BOOL false] = .ok "false".toList ∧
    format core no_exceptions "\x7b:d\x7d".toList [.BOOL true] = .ok "1".toList ∧
    format core no_exceptions "\x7b:d\x7d".toList [.BOOL false] = .ok "0".toList ∧
    format core no_exceptions "\x7b:>8\x7d".toList [.BOOL true] = .ok "    true".toList ∧
    format core no_exceptions "\x7b:<8\x7d".toList [.BOOL false] = .ok "false   ".toList ∧
    format core no_exceptions "\x7b:>3d\x7d".toList [.BOOL true] = .ok "  1".toList ∧
    format core no_exceptions "\x7b:x\x7d".toList [.BOOL true] = .ok "true".toList := by
  refine ⟨?_, ?_, ?_, ?_, ?_, ?_, ?_, ?_, ?_, ?_, ?_⟩
  · intro ht
    apply format_arg_of_buffer
    simp only [format_arg_switch]
    rw [if_pos ht]
  · intro ht
    apply format_arg_of_return
    simp only [format_arg_switch]
    rw [if_neg ht]
  · intro hz
    unfold adjusted_spec
    rw [if_neg (fun h => absurd (hz ▸ h.1) Bool.false_ne_true)]
  all_goals cases no_exceptions <;> rfl

/-! ## C22: characters -/

/-- C22: for a character `c`, `format_arg` pads, like the other buffer kinds, the numeral
of `c` as an unsigned byte in base 10, 16 (lower case), 16 (upper case), 8 or 2 under the
type `d`, `x`, `X`, `o` or `b`, and the single byte `c` under every other type; `A` gives
`65`, `41`, `101` and `1000001`, and the byte 255 gives `255` and `ff`. -/
theorem format_arg_char (core : FloatCore) (no_exceptions : Bool) (out : FormatOutput)
    (c : Char) (spec : FormatSpec) :
    format_arg core out (.CHAR c) spec =
      apply_format_spec out (switch_buffer core (.CHAR c) spec) (adjusted_spec spec) ∧
    byte_value c < 256 ∧
    (spec.type = 'd' → switch_buffer core (.CHAR c) spec = numeral 10 dec_digit (byte_value c)) ∧
    (spec.type = 'x' →
      switch_buffer core (.CHAR c) spec = numeral 16 (hex_digit false) (byte_value c)) ∧
    (spec.type = 'X' →
      switch_buffer core (.CHAR c) spec = numeral 16 (hex_digit true) (byte_value c)) ∧
    (spec.type = 'o' → switch_buffer core (.CHAR c) spec = numeral 8 dec_digit (byte_value c)) ∧
    (spec.type = 'b' → switch_buffer core (.CHAR c) spec = numeral 2 dec_digit (byte_value c)) ∧
    (spec.type ≠ 'd' → is_radix_type spec.type = false →
      switch_buffer core (.CHAR c) spec = [c]) ∧
    format core no_exceptions "\x7b\x7d".toList [.CHAR 'A'] = .ok "A".toList ∧
    format core no_exceptions "\x7b:d\x7d".toList [.CHAR 'A'] = .ok "65".toList ∧
    format core no_exceptions "\x7b:x\x7d".toList [.CHAR 'A'] = .ok "41".toList ∧
    format core no_exceptions "\x7b:o\x7d".toList [.CHAR 'A'] = .ok "101".toList ∧
    format core no_exceptions "\x7b:b\x7d".toList [.CHAR 'A'] = .ok "1000001".toList ∧
    format core no_exceptions "\x7b:d\x7d".toList [.CHAR (Char.ofNat 255)] = .ok "255".toList ∧
    format core no_exceptions "\x7b:x\x7d".toList [.CHAR (Char.ofNat 255)] = .ok "ff".toList ∧
    format core no_exceptions "\x7b:X\x7d".toList [.CHAR (Char.ofNat 255)] = .ok "FF".toList ∧
    format core no_exceptions "\x7b:5\x7d".toList [.CHAR 'X'] = .ok "X    ".toList := by
  have hlt : byte_value c < 256 := Nat.mod_lt _ (by decide)
  have hsw : ∀ b, format_arg_switch core FormatOutput.init (.CHAR c) spec = .inr b →
      switch_buffer core (.CHAR c) spec = b := by
    intro b hb
    unfold switch_buffer
    rw [hb]
  refine ⟨?_, hlt, ?_, ?_, ?_, ?_, ?_, ?_, ?_, ?_, ?_, ?_, ?_, ?_, ?_, ?_, ?_⟩
  · rcases format_arg_switch_cases core (.CHAR c) spec with ⟨b, hb⟩ | ⟨t, ht⟩
    · rw [format_arg_of_buffer core out _ spec b (hb out), hsw b (hb _)]
    · obtain ⟨o, ho, _⟩ := ht FormatOutput.init
      exfalso
      revert ho
      simp only [format_arg_switch]
      split_ifs <;> intro h <;> cases h
  · intro ht
    apply hsw
    simp only [format_arg_switch]
    rw [ht, if_pos (Or.inl rfl), if_neg (by decide), if_neg (by decide), if_neg (by decide),
      if_neg (by decide)]
    have h := int_to_str_eq 32 ((c.toNat % 256 : Nat) : Int) (by
      rw [Int.natAbs_ofNat]
      exact lt_trans hlt (by decide))
    rw [h, if_neg (by omega), Int.natAbs_ofNat]
    rfl
  · intro ht
    apply hsw
    simp only [format_arg_switch]
    rw [ht, if_pos (Or.inr (Or.inl rfl)), if_pos rfl, uint_to_hex_eq]
    rfl
  · intro ht
    apply hsw
    simp only [format_arg_switch]
    rw [ht, if_pos (Or.inr (Or.inr (Or.inl rfl))), if_neg (by decide), if_pos rfl,
      uint_to_hex_eq]
    rfl
  · intro ht
    apply hsw
    simp only [format_arg_switch]
    rw [ht, if_pos (Or.inr (Or.inr (Or.inr (Or.inl rfl)))), if_neg (by decide),
      if_neg (by decide), if_pos rfl, uint_to_oct_eq]
    rfl
  · intro ht
    apply hsw
    simp only [format_arg_switch]
    rw [ht, if_pos (Or.inr (Or.inr (Or.inr (Or.inr rfl)))), if_neg (by decide),
      if_neg (by decide), if_neg (by decide), if_pos rfl, uint_to_bin_eq]
    rfl
  · intro hd hr
    obtain ⟨h1, h2, h3, h4⟩ := not_radix_type _ hr
    apply hsw
    simp only [format_arg_switch]
    rw [if_neg (fun h => by
      rcases h with h | h | h | h | h
      · exact hd h
      · exact h1 h
      · exact h2 h
      · exact h3 h
      · exact h4 h)]
  all_goals cases no_exceptions <;> rfl

/-! ## C23: special floating-point values -/

/-- C23: the special values are rendered from the bit pattern, whatever the finite
conversions do: every NaN pattern gives `nan` (`NAN` from the scientific conversion with
`upper`), the infinities give `inf` and `-inf` (`INF` and `-INF`), the zeros give `0` and
`-0` from the shortest conversion and, from the scientific one under a precision `p` that is
not negative, `0`, a `.` with `p` zeros when `p > 0`, and `e+00` (`E+00`), after a `-` for
the negative zero. -/
theorem float_special_values (core : FloatCore) (no_exceptions : Bool) (bits : Nat)
    (p : Int) (upper : Bool) :
    (is_nan_bits bits = true →
      double_to_str_shortest core bits p = "nan".toList ∧
      double_to_str_scientific core bits p upper =
        (if upper then "NAN" else "nan").toList) ∧
    double_to_str_shortest core pos_inf_bits p = "inf".toList ∧
    double_to_str_shortest core neg_inf_bits p = "-inf".toList ∧
    double_to_str_shortest core pos_zero_bits p = "0".toList ∧
    double_to_str_shortest core neg_zero_bits p = "-0".toList ∧
    double_to_str_scientific core pos_inf_bits p upper =
      (if upper then "INF" else "inf").toList ∧
    double_to_str_scientific core neg_inf_bits p upper =
      (if upper then "-INF" else "-inf").toList ∧
    (0 ≤ p → double_to_str_scientific core pos_zero_bits p upper =
      ['0'] ++ (if p > 0 then '.' :: List.replicate p.toNat '0' else []) ++
        (if upper then "E+00" else "e+00").toList) ∧
    (0 ≤ p → double_to_str_scientific core neg_zero_bits p upper =
      ['-', '0'] ++ (if p > 0 then '.' :: List.replicate p.toNat '0' else []) ++
        (if upper then "E+00" else "e+00").toList) ∧
    (is_nan_bits 0x7FF8000000000000 = true ∧ is_nan_bits 0xFFF8000000000000 = true ∧
      is_nan_bits 0x7FF0000000000001 = true ∧ is_nan_bits pos_inf_bits = false) ∧
    format core no_exceptions "\x7b\x7d".toList [.DOUBLE pos_inf_bits] = .ok "inf".toList ∧
    format core no_exceptions "\x7b\x7d".toList [.DOUBLE neg_inf_bits] = .ok "-inf".toList ∧
    format core no_exceptions "\x7b\x7d".toList [.DOUBLE 0x7FF8000000000000] =
      .ok "nan".toList ∧
    format core no_exceptions "\x7b\x7d".toList [.DOUBLE 0xFFF8000000000000] =
      .ok "nan".toList ∧
    format core no_exceptions "\x7b\x7d".toList [.DOUBLE neg_zero_bits] = .ok "-0".toList ∧
    format core no_exceptions "\x7b:.2e\x7d".toList [.DOUBLE pos_zero_bits] =
      .ok "0.00e+00".toList ∧
    format core no_exceptions "\x7b:.0E\x7d".toList [.DOUBLE neg_zero_bits] =
      .ok "-0E+00".toList := by
  refine ⟨?_, rfl, rfl, rfl, rfl, ?_, ?_, ?_, ?_, ⟨by decide, by decide, by decide, by decide⟩,
    ?_, ?_, ?_, ?_, ?_, ?_, ?_⟩
  · intro hnan
    have h := decompose_double_nan bits hnan
    constructor
    · unfold double_to_str_shortest
      dsimp only
      rw [if_pos h]
    · unfold double_to_str_scientific
      dsimp only
      rw [if_pos h]
  · cases upper <;> rfl
  · cases upper <;> rfl
  · intro _
    cases upper <;> rfl
  · intro _
    cases upper <;> rfl
  all_goals cases no_exceptions <;> rfl

/-! ## C25: the grammar of the validator and of the runtime parser -/

/-- Counterexample to C25: the spec `00` has no `}`, the validator accepts the template of
the field `:00`, and the runtime `parse_format_spec` stops after the first of its two
bytes. -/
theorem validate_leading_zero_counterexample :
    '}' ∉ "00".toList ∧
    field_template "00".toList = "\x7b:00\x7d".toList ∧
    strsyn.validate (field_template "00".toList) = some 0 ∧
    (parse_format_spec "00".toList {}).1 = 1 ∧ "00".toList.length = 2 ∧
    ¬ (strsyn.validate (field_template "00".toList) = some 0 ↔
      (parse_format_spec "00".toList {}).1 = "00".toList.length) := by
  decide

/-- C25, as the code has it: for a spec `s` without `}`, the validator accepts the template
of the field with the spec `s` whenever the runtime `parse_format_spec` consumes all of
`s`; when the validator accepts, the runtime parser consumes all of `s` or stops, with the
zero-pad flag set, at a further `0`, the leading zero of a width; so the two agree on every
spec on which the runtime parser does not stop at a `0`.  The validator returns 0 or 3 on
such a template. -/
theorem validate_iff_runtime_spec (s : List Char) (hs : '}' ∉ s) :
    ((parse_format_spec s {}).1 = s.length → strsyn.validate (field_template s) = some 0) ∧
    (strsyn.validate (field_template s) = some 0 →
      (parse_format_spec s {}).1 = s.length ∨
        ((parse_format_spec s {}).1 < s.length ∧
          s.getD (parse_format_spec s {}).1 NUL = '0' ∧
          (parse_format_spec s {}).2.zero_pad = true)) ∧
    (s.getD (parse_format_spec s {}).1 NUL ≠ '0' →
      (strsyn.validate (field_template s) = some 0 ↔
        (parse_format_spec s {}).1 = s.length)) ∧
    (strsyn.validate (field_template s) = some 0 ∨
      strsyn.validate (field_template s) = some 3) ∧
    strsyn.validate (field_template "0>+#012.6f".toList) = some 0 ∧
    (parse_format_spec "0>+#012.6f".toList {}).1 = 10 ∧
    strsyn.validate (field_template "d5".toList) = some 3 ∧
    (parse_format_spec "d5".toList {}).1 = 1 ∧
    strsyn.validate (field_template "007".toList) = some 0 ∧
    (parse_format_spec "007".toList {}).1 = 1 := by
  have hR := runtime_vs_validator s hs
  have hV := validate_field_template s hs
  have h1 : (parse_format_spec s {}).1 = s.length →
      strsyn.validate (field_template s) = some 0 := by
    intro hr
    rcases hR with h | h
    · rw [hV, if_pos (by rw [← h]; exact hr)]
    · omega
  have h2 : strsyn.validate (field_template s) = some 0 →
      (parse_format_spec s {}).1 = s.length ∨
        ((parse_format_spec s {}).1 < s.length ∧
          s.getD (parse_format_spec s {}).1 NUL = '0' ∧
          (parse_format_spec s {}).2.zero_pad = true) := by
    intro hv
    rcases hR with h | h
    · left
      by_cases hc : (strsyn.parse_format_spec s s.length 0).2 = s.length
      · rw [h]; exact hc
      · rw [hV, if_neg hc] at hv
        cases hv
    · exact Or.inr h
  refine ⟨h1, h2, ?_, ?_, by decide, by decide, by decide, by decide, by decide, by decide⟩
  · intro hz
    constructor
    · intro hv
      rcases h2 hv with h | h
      · exact h
      · exact absurd h.2.1 hz
    · exact h1
  · rw [hV]
    split
    · exact Or.inl rfl
    · exact Or.inr rfl

/-- Witness of C25: the spec `>10.3f`. -/
theorem validate_iff_runtime_spec_witness :
    strsyn.validate (field_template ">10.3f".toList) = some 0 :=
  (validate_iff_runtime_spec ">10.3f".toList (by decide)).1 (by decide)

/-! ## C27: the validator rejects leftover spec bytes -/

/-- C27: when a field `{`, digits, `:`, spec bytes `sp` without `}`, `}` stands at a segment
boundary of a template and `strsyn::parse_format_spec`, which consumes the fill and
alignment, the sign, `#`, `0`, the width digits, `.` with the precision digits and one type
letter in this order, stops before the end of `sp`, then `validate` returns a code other
than 0 on the template; on the template of that one field the code is 3, as on `:!`, `:h`,
`:df`, `:d5`, `:10>`, `:++` and `:.5.5`. -/
theorem validate_rejects_leftover (t : List Char) (k : Nat) (digits sp tail : List Char)
    (hd : ∀ c ∈ digits, is_digit_char c = true) (hs : '}' ∉ sp)
    (h : t.drop (parser_after t k).ptr_ = '{' :: (digits ++ ':' :: (sp ++ '}' :: tail)))
    (hleft : (strsyn.parse_format_spec sp sp.length 0).2 < sp.length) :
    (∃ c, strsyn.validate t = some c ∧ c ≠ 0) ∧
    strsyn.validate (field_template sp) = some 3 ∧
    (["!", "h", "df", "d5", "10>", "++", ".5.5"].map
        (fun x => strsyn.validate (field_template x.toList)) =
      [some 3, some 3, some 3, some 3, some 3, some 3, some 3]) ∧
    strsyn.validate "\x7b\x7d and \x7b1:d5\x7d".toList = some 3 := by
  refine ⟨?_, ?_, by decide, by decide⟩
  · obtain ⟨c, hc⟩ := validate_total t
    refine ⟨c, hc, ?_⟩
    intro h0
    rw [h0] at hc
    have hq := (validate_boundaries t hc k).1
    have hlt : (parser_after t k).ptr_ < t.length := (getD_of_drop_eq_cons h).1
    have hne : (digits ++ ':' :: (sp ++ '}' :: tail)).head? ≠ some '{' := by
      cases digits with
      | nil => exact fun hx => absurd (Option.some.inj hx) (by decide)
      | cons d r =>
        intro hx
        have hd1 := hd d (List.mem_cons_self _ _)
        rw [show d = '{' from Option.some.inj hx] at hd1
        exact absurd hd1 (by decide)
    have hr : (digits ++ ':' :: (sp ++ '}' :: tail)).dropWhile is_digit_char =
        ':' :: (sp ++ '}' :: tail) := by
      rw [List.dropWhile_append_of_pos hd, List.dropWhile_cons_of_neg (by decide)]
    rw [validate_from_eq, if_pos hlt,
      validate_step_spec_field t _ sp tail _ h hne hr hs, if_neg (by omega)] at hq
    cases hq
  · rw [validate_field_template sp hs, if_neg (by omega)]

/-- Witness of C27: the field `:d5` behind another field. -/
theorem validate_rejects_leftover_witness :
    ∃ c, strsyn.validate "\x7b\x7d and \x7b1:d5\x7d".toList = some c ∧ c ≠ 0 :=
  (validate_rejects_leftover "\x7b\x7d and \x7b1:d5\x7d".toList 2 "1".toList "d5".toList []
    (by decide) (by decide) (by decide) (by decide)).1

/-! ## C29: the segments partition the template -/

/-- C29: the segments that successive calls of `next()` return are contiguous ranges of
the template: the first begins at offset 0, each begins where the one before ended, a
segment is `END` exactly when it begins at the end of the template, every other segment
is not empty, an escape segment is two bytes long, and the ranges of the segments before
the first `END` make up the template. -/
theorem segments_partition (fmt : List Char) :
    (segment_at fmt 0).begin_ = 0 ∧
    (∀ k, (segment_at fmt (k + 1)).begin_ = (segment_at fmt k).end_) ∧
    (∀ k, (segment_at fmt k).begin_ ≤ (segment_at fmt k).end_ ∧
      (segment_at fmt k).end_ ≤ fmt.length) ∧
    (∀ k, (segment_at fmt k).type = .END ↔ (segment_at fmt k).begin_ = fmt.length) ∧
    (∀ k, (segment_at fmt k).type = .END → (segment_at fmt k).end_ = fmt.length) ∧
    (∀ k, (segment_at fmt k).type ≠ .END →
      (segment_at fmt k).begin_ < (segment_at fmt k).end_) ∧
    (∀ k, (segment_at fmt k).type = .ESCAPE_OPEN ∨ (segment_at fmt k).type = .ESCAPE_CLOSE →
      (segment_at fmt k).end_ = (segment_at fmt k).begin_ + 2) ∧
    (∃ n, n ≤ fmt.length ∧ (segment_at fmt n).type = .END ∧
      (∀ k, k < n → (segment_at fmt k).type ≠ .END) ∧
      (List.range n).flatMap (fun k => segment_bytes fmt (segment_at fmt k)) = fmt) ∧
    (List.range 5).map (fun k => ((segment_at "a\x7b\x7b\x7b0\x7d\x7d\x7d!".toList k).type,
        (segment_at "a\x7b\x7b\x7b0\x7d\x7d\x7d!".toList k).begin_,
        (segment_at "a\x7b\x7b\x7b0\x7d\x7d\x7d!".toList k).end_)) =
      [(.LITERAL, 0, 1), (.ESCAPE_OPEN, 1, 3), (.PLACEHOLDER, 3, 6), (.ESCAPE_CLOSE, 6, 8),
        (.LITERAL, 8, 9)] ∧
    (segment_at "a\x7b\x7b\x7b0\x7d\x7d\x7d!".toList 5).type = .END := by
  refine ⟨?_, ?_, ?_, ?_, ?_, ?_, ?_, exists_first_end fmt, by decide, by decide⟩
  · exact (segment_at_bounds fmt 0).1
  · intro k
    rw [(segment_at_bounds fmt (k + 1)).1, (segment_at_bounds fmt k).2.1]
  · intro k
    obtain ⟨h1, h2, h3, h4, _⟩ := segment_at_bounds fmt k
    rw [h1, h2]
    exact ⟨h3, h4⟩
  · intro k
    rw [(segment_at_bounds fmt k).1]
    exact (segment_at_bounds fmt k).2.2.2.2.1
  · intro k he
    obtain ⟨_, h2, h3, h4, h5, _⟩ := segment_at_bounds fmt k
    have := h5.mp he
    rw [h2]
    omega
  · intro k he
    obtain ⟨h1, h2, _, _, _, h6⟩ := segment_at_bounds fmt k
    rw [h1, h2]
    exact h6 he
  · intro k he
    exact next_escape_length (parser_after fmt k) (parser_after_inv fmt k) he

/-! ## C30: printing and parsing a spec -/

/-- C30: for a well-formed spec, `parse_format_spec` on the text of the spec in the order
of the grammar, from a default spec, gives back the spec and consumes the whole text,
whether the default sign `-` is written or left out; `0>+#012.6f` is the text of fill `0`,
align `>`, sign `+`, alternate form, zero padding, width 12, precision 6 and type `f`, and
parses to these values. -/
theorem parse_print_spec (explicit : Bool) (spec : FormatSpec) (hwf : spec.well_formed) :
    parse_format_spec (print_spec explicit spec) {} =
      ((print_spec explicit spec).length, spec) ∧
    print_spec true
        { fill := '0', align := '>', sign := '+', alt_form := true, zero_pad := true,
          width := 12, precision := 6, type := 'f' } =
      "0>+#012.6f".toList ∧
    parse_format_spec "0>+#012.6f".toList {} =
      (10, { fill := '0', align := '>', sign := '+', alt_form := true, zero_pad := true,
             width := 12, precision := 6, type := 'f' }) ∧
    print_spec false {} = [] ∧ print_spec true {} = ['-'] := by
  refine ⟨?_, by decide, by decide, by decide, by decide⟩
  obtain ⟨hal, hsg, hw, hp, hty⟩ := hwf
  have hmem5 := mem_width_tail spec hty
  have hmem4 : ∀ c ∈ print_zero_pad spec ++ (print_width spec ++
      (print_precision spec ++ print_type spec)), c ∈ spec_tail_chars := by
    intro c hc
    rw [List.mem_append] at hc
    rcases hc with hc | hc
    · unfold print_zero_pad at hc
      split at hc
      · rw [List.mem_singleton.mp hc]; decide
      · cases hc
    · exact hmem5 c hc
  have hmem3 : ∀ c ∈ print_alt_form spec ++ (print_zero_pad spec ++ (print_width spec ++
      (print_precision spec ++ print_type spec))), c ∈ '#' :: spec_tail_chars := by
    intro c hc
    rw [List.mem_append] at hc
    rcases hc with hc | hc
    · unfold print_alt_form at hc
      split at hc
      · rw [List.mem_singleton.mp hc]; decide
      · cases hc
    · exact List.mem_cons_of_mem _ (hmem4 c hc)
  have hmem2 : ∀ c ∈ print_sign explicit spec ++ (print_alt_form spec ++
      (print_zero_pad spec ++ (print_width spec ++
        (print_precision spec ++ print_type spec)))),
      c ∈ '+' :: '-' :: ' ' :: '#' :: spec_tail_chars := by
    intro c hc
    rw [List.mem_append] at hc
    rcases hc with hc | hc
    · unfold print_sign at hc
      split at hc
      · cases hc
      · rw [List.mem_singleton.mp hc]
        rcases hsg with h | h | h <;> rw [h] <;> decide
    · exact List.mem_cons_of_mem _ (List.mem_cons_of_mem _ (List.mem_cons_of_mem _
        (hmem3 c hc)))
  have hno_align : ∀ c ∈ '+' :: '-' :: ' ' :: '#' :: spec_tail_chars,
      is_align_char c = false := by decide
  have hno_sign : ∀ c ∈ '#' :: spec_tail_chars, ¬ (c = '+' ∨ c = '-' ∨ c = ' ') := by decide
  have hno_alt : ∀ c ∈ spec_tail_chars, c ≠ '#' := by decide
  have hno_digit : ∀ c ∈ '.' :: type_chars, is_digit_char c = false := by decide
  have hno_dot : ∀ c ∈ type_chars, is_digit_char c = false ∧ c ≠ '.' := by decide
  have h1 := stage_align _ spec hal (fun c hc => hno_align c (hmem2 c hc))
  have h2 := stage_sign (print_fill_align spec) _ { fill := spec.fill, align := spec.align }
    explicit spec hsg rfl (fun c hc => hno_sign c (hmem3 c (head_mem _ c hc)))
  have h3 := stage_alt_form (print_fill_align spec ++ print_sign explicit spec) _
    { fill := spec.fill, align := spec.align, sign := spec.sign } spec rfl
    (fun hc => hno_alt _ (hmem4 _ (head_mem _ _ hc)) rfl)
  have h4 := stage_zero_pad
    (print_fill_align spec ++ print_sign explicit spec ++ print_alt_form spec) _
    { fill := spec.fill, align := spec.align, sign := spec.sign, alt_form := spec.alt_form }
    spec rfl (head_width_tail spec hw hty)
  have h5 := stage_width
    (print_fill_align spec ++ print_sign explicit spec ++ print_alt_form spec ++
      print_zero_pad spec) (print_precision spec ++ print_type spec)
    { fill := spec.fill, align := spec.align, sign := spec.sign, alt_form := spec.alt_form,
      zero_pad := spec.zero_pad }
    spec hw rfl (fun c hc => hno_digit c (head_precision_type spec hty c hc))
  have h6 := stage_precision
    (print_fill_align spec ++ print_sign explicit spec ++ print_alt_form spec ++
      print_zero_pad spec ++ print_width spec) (print_type spec)
    { fill := spec.fill, align := spec.align, sign := spec.sign, alt_form := spec.alt_form,
      zero_pad := spec.zero_pad, width := spec.width }
    spec hp rfl (fun c hc => hno_dot c (mem_print_type spec hty c (head_mem _ c hc)))
  have h7 := stage_type
    (print_fill_align spec ++ print_sign explicit spec ++ print_alt_form spec ++
      print_zero_pad spec ++ print_width spec ++ print_precision spec)
    { fill := spec.fill, align := spec.align, sign := spec.sign, alt_form := spec.alt_form,
      zero_pad := spec.zero_pad, width := spec.width, precision := spec.precision }
    spec hty rfl
  simp only [List.append_assoc] at h1 h2 h3 h4 h5 h6 h7
  rw [parse_format_spec_chain]
  unfold print_spec
  rw [h1, h2, h3, h4, h5, h6, h7]

/-- Witness of C30: the spec with align `<`, width 8 and type `x`, the default sign left
out. -/
theorem parse_print_spec_witness :
    FormatSpec.well_formed { align := '<', width := 8, type := 'x' } ∧
    parse_format_spec (print_spec false { align := '<', width := 8, type := 'x' }) {} =
      ((print_spec false { align := '<', width := 8, type := 'x' }).length,
        { align := '<', width := 8, type := 'x' }) :=
  ⟨by decide,
    (parse_print_spec false { align := '<', width := 8, type := 'x' } (by decide)).1⟩

/-! ## C31: fill and alignment come first -/

/-- C31: when the second byte of a spec is one of `<`, `>`, `^`, `=`, `parse_format_spec`
takes the first byte as the fill, whatever it is, and the second as the alignment, and the
sign stays `-` unless the third byte is a sign; otherwise a first byte that is an alignment
byte becomes the alignment with the fill left at the space, and without one the alignment
stays unset.  So `+=8` is fill `+`, align `=` and width 8, and `{:+=8}` pads 42 with `+`. -/
theorem fill_align_first (core : FloatCore) (no_exceptions : Bool) (s : List Char) :
    (1 < s.length → is_align_char (s.getD 1 NUL) = true →
      (parse_format_spec s {}).2.fill = s.getD 0 NUL ∧
      (parse_format_spec s {}).2.align = s.getD 1 NUL ∧
      2 ≤ (parse_format_spec s {}).1 ∧
      (parse_format_spec s {}).2.sign =
        if 2 < s.length ∧ (s.getD 2 NUL = '+' ∨ s.getD 2 NUL = '-' ∨ s.getD 2 NUL = ' ')
        then s.getD 2 NUL else '-') ∧
    (¬ (1 < s.length ∧ is_align_char (s.getD 1 NUL) = true) → 0 < s.length →
      is_align_char (s.getD 0 NUL) = true →
      (parse_format_spec s {}).2.fill = ' ' ∧
      (parse_format_spec s {}).2.align = s.getD 0 NUL ∧
      1 ≤ (parse_format_spec s {}).1) ∧
    (¬ (1 < s.length ∧ is_align_char (s.getD 1 NUL) = true) →
      is_align_char (s.getD 0 NUL) = false →
      (parse_format_spec s {}).2.fill = ' ' ∧ (parse_format_spec s {}).2.align = NUL) ∧
    parse_format_spec "+=8".toList {} = (3, { fill := '+', align := '=', width := 8 }) ∧
    parse_format_spec "0>4".toList {} = (3, { fill := '0', align := '>', width := 4 }) ∧
    parse_format_spec "#^6".toList {} = (3, { fill := '#', align := '^', width := 6 }) ∧
    parse_format_spec ".<5".toList {} = (3, { fill := '.', align := '<', width := 5 }) ∧
    parse_format_spec "<>7".toList {} = (3, { fill := '<', align := '>', width := 7 }) ∧
    parse_format_spec "-=+8".toList {} =
      (4, { fill := '-', align := '=', sign := '+', width := 8 }) ∧
    parse_format_spec "<8".toList {} = (2, { align := '<', width := 8 }) ∧
    parse_format_spec "=".toList {} = (1, { align := '=' }) ∧
    format core no_exceptions "\x7b:+=8\x7d".toList [.INT 42] = .ok "++++++42".toList ∧
    format core no_exceptions "\x7b:=8\x7d".toList [.INT (-42)] = .ok "-     42".toList ∧
    format core no_exceptions "\x7b:0=8\x7d".toList [.INT (-42)] = .ok "-0000042".toList ∧
    format core no_exceptions "\x7b:0=+8\x7d".toList [.INT 42] = .ok "+0000042".toList := by
  have hnul : ∀ c, is_align_char c = true → c ≠ NUL := by
    intro c hc hx
    rw [hx] at hc
    exact absurd hc (by decide)
  refine ⟨?_, ?_, ?_, by decide, by decide, by decide, by decide, by decide, by decide,
    by decide, by decide, ?_, ?_, ?_, ?_⟩
  · intro h1 h2
    have hfa : spec_fill_align s (0, {}) =
        (2, { ({} : FormatSpec) with fill := s.getD 0 NUL, align := s.getD 1 NUL }) := by
      unfold spec_fill_align
      rw [if_pos ⟨h1, h2⟩]
    have hal : spec_align s (spec_fill_align s (0, {})) =
        (2, { ({} : FormatSpec) with fill := s.getD 0 NUL, align := s.getD 1 NUL }) := by
      rw [hfa]
      exact spec_align_skip s 2 _ (hnul _ h2)
    obtain ⟨t1, t2, t3, t4⟩ := spec_tail_frame s (spec_sign s (spec_align s
      (spec_fill_align s (0, {}))))
    obtain ⟨g1, g2, _⟩ := spec_sign_frame s (spec_align s (spec_fill_align s (0, {})))
    rw [parse_format_spec_chain]
    refine ⟨by rw [t1, g1, hal], by rw [t2, g2, hal], ?_, ?_⟩
    · refine le_trans ?_ t4
      have := spec_sign_mono s (spec_align s (spec_fill_align s (0, {})))
      rw [hal] at this
      rw [hal]
      exact this
    · rw [t3, hal]
      unfold spec_sign
      dsimp only
      split <;> rfl
  · intro h1 h2 h3
    have hfa : spec_fill_align s (0, {}) = (0, {}) := by
      unfold spec_fill_align
      rw [if_neg h1]
    have hal : spec_align s (spec_fill_align s (0, {})) =
        (1, { ({} : FormatSpec) with align := s.getD 0 NUL }) := by
      rw [hfa]
      unfold spec_align
      rw [if_pos ⟨rfl, h2, h3⟩]
    obtain ⟨t1, t2, t3, t4⟩ := spec_tail_frame s (spec_sign s (spec_align s
      (spec_fill_align s (0, {}))))
    obtain ⟨g1, g2, _⟩ := spec_sign_frame s (spec_align s (spec_fill_align s (0, {})))
    rw [parse_format_spec_chain]
    refine ⟨by rw [t1, g1, hal], by rw [t2, g2, hal], ?_⟩
    refine le_trans ?_ t4
    have := spec_sign_mono s (spec_align s (spec_fill_align s (0, {})))
    rw [hal] at this
    rw [hal]
    exact this
  · intro h1 h3
    have hfa : spec_fill_align s (0, {}) = (0, {}) := by
      unfold spec_fill_align
      rw [if_neg h1]
    have hal : spec_align s (spec_fill_align s (0, {})) = (0, {}) := by
      rw [hfa]
      unfold spec_align
      rw [if_neg]
      rintro ⟨_, _, hx⟩
      rw [h3] at hx
      cases hx
    obtain ⟨t1, t2, _, _⟩ := spec_tail_frame s (spec_sign s (spec_align s
      (spec_fill_align s (0, {}))))
    obtain ⟨g1, g2, _⟩ := spec_sign_frame s (spec_align s (spec_fill_align s (0, {})))
    rw [parse_format_spec_chain]
    exact ⟨by rw [t1, g1, hal], by rw [t2, g2, hal]⟩
  all_goals cases no_exceptions <;> rfl
/-! ## The flags of the parser -/

theorem same_scan_flags (p q : FormatParser) (h : p.same_scan q) :
    q = { p with has_explicit_ := q.has_explicit_, has_auto_ := q.has_auto_ } := by
  obtain ⟨h1, h2, h3, h4⟩ := h
  cases p
  cases q
  simp only at h1 h2 h3 h4
  subst h1 h2 h3 h4
  rfl

theorem parse_arg_index_same (p : FormatParser) (a b : Bool) :
    (FormatParser.parse_arg_index { p with has_explicit_ := a, has_auto_ := b }).1 =
      p.parse_arg_index.1 ∧
    p.parse_arg_index.2.same_scan
      (FormatParser.parse_arg_index { p with has_explicit_ := a, has_auto_ := b }).2 := by
  unfold FormatParser.parse_arg_index FormatParser.peek
  dsimp only
  split <;> exact ⟨rfl, rfl, rfl, rfl, rfl⟩

theorem parse_spec_field_same (p : FormatParser) (a b : Bool) :
    (FormatParser.parse_spec_field { p with has_explicit_ := a, has_auto_ := b }).1 =
      p.parse_spec_field.1 ∧
    p.parse_spec_field.2.same_scan
      (FormatParser.parse_spec_field { p with has_explicit_ := a, has_auto_ := b }).2 := by
  unfold FormatParser.parse_spec_field FormatParser.peek
  dsimp only
  split <;> exact ⟨rfl, rfl, rfl, rfl, rfl⟩

theorem parse_placeholder_same (p : FormatParser) (a b : Bool) :
    (FormatParser.parse_placeholder { p with has_explicit_ := a, has_auto_ := b }).1 =
      p.parse_placeholder.1 ∧
    p.parse_placeholder.2.same_scan
      (FormatParser.parse_placeholder { p with has_explicit_ := a, has_auto_ := b }).2 := by
  obtain ⟨i1, i2⟩ := parse_arg_index_same { p with ptr_ := p.ptr_ + 1 } a b
  have i3 := same_scan_flags _ _ i2
  unfold FormatParser.parse_placeholder
  dsimp only at i1 i3 ⊢
  rw [i1, i3]
  generalize (FormatParser.parse_arg_index _).2.has_explicit_ = x
  generalize (FormatParser.parse_arg_index _).2.has_auto_ = y
  obtain ⟨f1, g1, g2, g3, g4⟩ := parse_spec_field_same
    (FormatParser.parse_arg_index { p with ptr_ := p.ptr_ + 1 }).2 x y
  unfold FormatParser.peek
  rw [f1, g1, g2, g3]
  by_cases hc : (FormatParser.parse_spec_field (FormatParser.parse_arg_index
      { p with ptr_ := p.ptr_ + 1 }).2).2.ptr_ <
      (FormatParser.parse_spec_field (FormatParser.parse_arg_index
        { p with ptr_ := p.ptr_ + 1 }).2).2.end_ ∧
      (FormatParser.parse_spec_field (FormatParser.parse_arg_index
        { p with ptr_ := p.ptr_ + 1 }).2).2.fmt.getD
        (FormatParser.parse_spec_field (FormatParser.parse_arg_index
          { p with ptr_ := p.ptr_ + 1 }).2).2.ptr_ NUL = '}'
  · rw [if_pos hc, if_pos hc]
    refine ⟨rfl, ?_, ?_, ?_, ?_⟩ <;> first | rfl | exact g1 | exact g2 | exact g3 | exact g4
  · rw [if_neg hc, if_neg hc]
    refine ⟨rfl, ?_, ?_, ?_, ?_⟩ <;> first | rfl | exact g1 | exact g2 | exact g3 | exact g4

theorem next_same (p : FormatParser) (a b : Bool) :
    (FormatParser.next { p with has_explicit_ := a, has_auto_ := b }).1 = p.next.1 ∧
    p.next.2.same_scan (FormatParser.next { p with has_explicit_ := a, has_auto_ := b }).2 := by
  unfold FormatParser.next FormatParser.literal_end FormatParser.peek
  dsimp only
  split
  · exact ⟨rfl, rfl, rfl, rfl, rfl⟩
  · split
    · exact ⟨rfl, rfl, rfl, rfl, rfl⟩
    · split
      · exact ⟨rfl, rfl, rfl, rfl, rfl⟩
      · split
        · exact parse_placeholder_same p a b
        · exact ⟨rfl, rfl, rfl, rfl, rfl⟩

/-- Parsers that differ in the flags only return the same segments. -/
theorem advance_same (p q : FormatParser) (h : p.same_scan q) :
    ∀ k, (p.advance k).same_scan (q.advance k) ∧ (q.advance k).next.1 = (p.advance k).next.1 := by
  intro k
  induction k generalizing p q with
  | zero =>
    refine ⟨h, ?_⟩
    rw [same_scan_flags p q h]
    exact (next_same p _ _).1
  | succ k ih =>
    have hn : p.next.2.same_scan q.next.2 := by
      rw [same_scan_flags p q h]
      exact (next_same p _ _).2
    exact ih p.next.2 q.next.2 hn

theorem parse_placeholder_flags (p : FormatParser) :
    p.parse_placeholder.2.has_explicit_ =
      (p.has_explicit_ || (decide (p.ptr_ + 1 < p.end_) &&
        is_digit_char (p.fmt.getD (p.ptr_ + 1) NUL))) ∧
    p.parse_placeholder.2.has_auto_ =
      (p.has_auto_ || !(decide (p.ptr_ + 1 < p.end_) &&
        is_digit_char (p.fmt.getD (p.ptr_ + 1) NUL))) := by
  unfold FormatParser.parse_placeholder FormatParser.parse_spec_field
    FormatParser.parse_arg_index FormatParser.peek
  dsimp only
  by_cases hc : p.ptr_ + 1 < p.end_ ∧ is_digit_char (p.fmt.getD (p.ptr_ + 1) NUL) = true
  · rw [if_pos hc]
    have e : (decide (p.ptr_ + 1 < p.end_) &&
        is_digit_char (p.fmt.getD (p.ptr_ + 1) NUL)) = true := by
      rw [Bool.and_eq_true, decide_eq_true_eq]
      exact hc
    rw [e]
    split <;> split <;> simp
  · rw [if_neg hc]
    have e : (decide (p.ptr_ + 1 < p.end_) &&
        is_digit_char (p.fmt.getD (p.ptr_ + 1) NUL)) = false := by
      rw [Bool.and_eq_false_iff, decide_eq_false_iff_not]
      by_cases h1 : p.ptr_ + 1 < p.end_
      · right
        cases hd : is_digit_char (p.fmt.getD (p.ptr_ + 1) NUL)
        · rfl
        · exact absurd ⟨h1, hd⟩ hc
      · exact Or.inl h1
    rw [e]
    split <;> split <;> simp

/-- One call of `next()` sets the flag of the kind of field it returns, and no other. -/
theorem next_flags (p : FormatParser) (hinv : p.Inv) :
    p.next.2.has_explicit_ = (p.has_explicit_ || explicit_field p.fmt p.next.1) ∧
    p.next.2.has_auto_ = (p.has_auto_ || auto_field p.fmt p.next.1) := by
  unfold explicit_field auto_field ParseSegment.is_field
  have hb := next_bounds p hinv
  rw [hb.2.2.1, ← hinv.1]
  unfold FormatParser.next
  split
  · simp
  · split
    · simp
    · split
      · simp
      · split
        · rename_i hlt _ _ _
          obtain ⟨f1, f2⟩ := parse_placeholder_flags p
          have hty := (parse_placeholder_bounds p hinv.1 (by omega)).2.2.2.2.2.2
          rw [f1, f2]
          rcases hty with hty | hty <;> rw [hty] <;> simp
        · simp

/-- The flags after `k` calls of `next()`. -/
theorem parser_after_flags (t : List Char) (k : Nat) :
    ((parser_after t k).has_explicit_ = true ↔
      ∃ i, i < k ∧ explicit_field t (segment_at t i) = true) ∧
    ((parser_after t k).has_auto_ = true ↔
      ∃ i, i < k ∧ auto_field t (segment_at t i) = true) := by
  induction k with
  | zero =>
    constructor
    · constructor
      · intro h; cases h
      · rintro ⟨i, hi, _⟩; omega
    · constructor
      · intro h; cases h
      · rintro ⟨i, hi, _⟩; omega
  | succ k ih =>
    obtain ⟨f1, f2⟩ := next_flags (parser_after t k) (parser_after_inv t k)
    rw [parser_after_fmt] at f1 f2
    rw [parser_after_succ, f1, f2, Bool.or_eq_true, Bool.or_eq_true, ih.1, ih.2]
    constructor
    · constructor
      · rintro (⟨i, hi, h⟩ | h)
        · exact ⟨i, by omega, h⟩
        · exact ⟨k, by omega, h⟩
      · rintro ⟨i, hi, h⟩
        by_cases hk : i = k
        · subst hk; exact Or.inr h
        · exact Or.inl ⟨i, by omega, h⟩
    · constructor
      · rintro (⟨i, hi, h⟩ | h)
        · exact ⟨i, by omega, h⟩
        · exact ⟨k, by omega, h⟩
      · rintro ⟨i, hi, h⟩
        by_cases hk : i = k
        · subst hk; exact Or.inr h
        · exact Or.inl ⟨i, by omega, h⟩

/-! ## C33: the mixing flag -/

/-- C33: after `k` calls of `next()`, `has_mixing_error()` is true exactly when the segments
returned so far include a field with an explicit index and a field without one; it stays
false while all fields are of one kind; and the flags do not influence the scan: parsers
that differ in them only return the same segments.  `{} {0}` scans as field 0, literal,
field 0 and sets the flag with the third call. -/
theorem mixing_error_tracks_fields (t : List Char) (k : Nat) :
    ((parser_after t k).has_mixing_error = true ↔
      (∃ i, i < k ∧ explicit_field t (segment_at t i) = true) ∧
      (∃ j, j < k ∧ auto_field t (segment_at t j) = true)) ∧
    ((∀ i, i < k → explicit_field t (segment_at t i) = false) →
      (parser_after t k).has_mixing_error = false) ∧
    ((∀ i, i < k → auto_field t (segment_at t i) = false) →
      (parser_after t k).has_mixing_error = false) ∧
    (∀ (p q : FormatParser), p.same_scan q →
      ∀ n, (q.advance n).next.1 = (p.advance n).next.1) ∧
    (List.range 4).map (fun n =>
      ((segment_at "\x7b\x7d \x7b0\x7d".toList n).type,
        (segment_at "\x7b\x7d \x7b0\x7d".toList n).placeholder.arg_index,
        (parser_after "\x7b\x7d \x7b0\x7d".toList n).has_mixing_error)) =
      [(.PLACEHOLDER, 0, false), (.LITERAL, 0, false), (.PLACEHOLDER, 0, false),
        (.END, 0, true)] ∧
    (List.range 7).map (fun n =>
      (parser_after "\x7b\x7d \x7b\x7d \x7b\x7d".toList n).has_mixing_error) =
      [false, false, false, false, false, false, false] ∧
    (List.range 7).map (fun n =>
      (parser_after "\x7b0\x7d \x7b1\x7d \x7b2\x7d".toList n).has_mixing_error) =
      [false, false, false, false, false, false, false] ∧
    (parser_after "\x7b0 \x7b".toList 3).has_mixing_error = true := by
  obtain ⟨f1, f2⟩ := parser_after_flags t k
  have hiff : (parser_after t k).has_mixing_error = true ↔
      (∃ i, i < k ∧ explicit_field t (segment_at t i) = true) ∧
      (∃ j, j < k ∧ auto_field t (segment_at t j) = true) := by
    unfold FormatParser.has_mixing_error
    rw [Bool.and_eq_true, f1, f2]
  refine ⟨hiff, ?_, ?_, fun p q h n => (advance_same p q h n).2, by decide, by decide,
    by decide, by decide⟩
  · intro h
    cases hm : (parser_after t k).has_mixing_error
    · rfl
    · obtain ⟨⟨i, hi, he⟩, _⟩ := hiff.mp hm
      rw [h i hi] at he
      cases he
  · intro h
    cases hm : (parser_after t k).has_mixing_error
    · rfl
    · obtain ⟨_, ⟨j, hj, ha⟩⟩ := hiff.mp hm
      rw [h j hj] at ha
      cases ha
/-! ## The buffer after an operation -/

theorem FormatOutput.ensure_fields (o : FormatOutput) (n : Nat) :
    (o.size_ ≤ o.capacity_ → o.size_ + n ≤ (o.ensure n).capacity_) ∧
    (o.size_ + n ≤ o.capacity_ → o.ensure n = o) ∧
    (o.capacity_ < o.size_ + n → (o.ensure n).heap_ = true) ∧
    (o.heap_ = true → (o.ensure n).heap_ = true) := by
  unfold FormatOutput.ensure
  dsimp only
  by_cases h : o.size_ + n ≤ o.capacity_
  · rw [if_pos h]
    exact ⟨fun _ => h, fun _ => rfl, fun hx => absurd h (by omega), fun hx => hx⟩
  · rw [if_neg h]
    refine ⟨fun _ => ?_, fun hx => absurd hx h, fun _ => rfl, fun _ => rfl⟩
    dsimp only
    split <;> omega

theorem FormatOutput.took_zero (o : FormatOutput) : o.took o 0 :=
  ⟨rfl, fun h => h, fun _ => ⟨rfl, rfl⟩, fun h1 h2 => absurd h2 (by omega), fun h => h⟩

theorem FormatOutput.took_ensure (o : FormatOutput) (n : Nat) (d : List Char) :
    o.took { o.ensure n with data_ := d, size_ := (o.ensure n).size_ + n } n := by
  obtain ⟨e1, e2, e3, e4⟩ := FormatOutput.ensure_fields o n
  refine ⟨?_, ?_, ?_, fun _ => e3, e4⟩
  · show (o.ensure n).size_ + n = _
    rw [FormatOutput.size_ensure]
  · intro h
    show (o.ensure n).size_ + n ≤ (o.ensure n).capacity_
    rw [FormatOutput.size_ensure]
    exact e1 h
  · intro h
    show (o.ensure n).capacity_ = _ ∧ (o.ensure n).heap_ = _
    rw [e2 h]
    exact ⟨rfl, rfl⟩

/-- What an appending operation does to the size, the capacity and the heap flag. -/
theorem OutputOp.apply_took (o : FormatOutput) (op : OutputOp) :
    o.took (op.apply o) op.bytes.length := by
  cases op with
  | append_char c => exact FormatOutput.took_ensure o 1 _
  | append s =>
    show o.took (o.append s) s.length
    unfold FormatOutput.append
    by_cases hs : s.length = 0
    · rw [if_pos hs, hs]
      exact FormatOutput.took_zero o
    · rw [if_neg hs]
      exact FormatOutput.took_ensure o s.length _
  | append_fill c n =>
    show o.took (o.append_fill c n) (List.replicate n c).length
    rw [List.length_replicate]
    unfold FormatOutput.append_fill
    by_cases hn : n = 0
    · rw [if_pos hn, hn]
      exact FormatOutput.took_zero o
    · rw [if_neg hn]
      exact FormatOutput.took_ensure o n _

theorem OutputOp.apply_bytes (o : FormatOutput) (op : OutputOp) :
    (op.apply o).bytes = o.bytes ++ op.bytes := by
  cases op with
  | append_char c => exact FormatOutput.bytes_append_char o c
  | append s => exact FormatOutput.bytes_append o s
  | append_fill c n => exact FormatOutput.bytes_append_fill o c n

theorem output_after_snoc (ops : List OutputOp) (op : OutputOp) :
    output_after (ops ++ [op]) = op.apply (output_after ops) := by
  unfold output_after
  rw [List.foldl_append]
  rfl

/-- The buffer after a sequence of appending operations on a fresh one. -/
theorem output_after_fields (ops : List OutputOp) :
    (output_after ops).bytes = ops.flatMap OutputOp.bytes ∧
    (output_after ops).size_ = (ops.flatMap OutputOp.bytes).length ∧
    (output_after ops).size_ ≤ (output_after ops).capacity_ ∧
    ((ops.flatMap OutputOp.bytes).length ≤ VITA_FORMAT_SBO_SIZE →
      (output_after ops).capacity_ = VITA_FORMAT_SBO_SIZE ∧ (output_after ops).heap_ = false) ∧
    (VITA_FORMAT_SBO_SIZE < (ops.flatMap OutputOp.bytes).length →
      (output_after ops).heap_ = true) := by
  induction ops using List.reverseRecOn with
  | nil => exact ⟨rfl, rfl, by decide, fun _ => ⟨rfl, rfl⟩, fun h => absurd h (by decide)⟩
  | append_singleton l op ih =>
    obtain ⟨i1, i2, i3, i4, i5⟩ := ih
    obtain ⟨t1, t2, t3, t4, t5⟩ := OutputOp.apply_took (output_after l) op
    have hlen : ((l ++ [op]).flatMap OutputOp.bytes).length =
        (l.flatMap OutputOp.bytes).length + op.bytes.length := by
      rw [List.flatMap_append, List.flatMap_singleton, List.length_append]
    rw [output_after_snoc, hlen]
    refine ⟨?_, ?_, t2 i3, ?_, ?_⟩
    · rw [OutputOp.apply_bytes, i1, List.flatMap_append, List.flatMap_singleton]
    · rw [t1, i2]
    · intro h
      obtain ⟨c1, c2⟩ := i4 (by omega)
      obtain ⟨d1, d2⟩ := t3 (by rw [i2, c1]; exact h)
      exact ⟨by rw [d1, c1], by rw [d2, c2]⟩
    · intro h
      by_cases hl : VITA_FORMAT_SBO_SIZE < (l.flatMap OutputOp.bytes).length
      · exact t5 (i5 hl)
      · obtain ⟨c1, _⟩ := i4 (by omega)
        exact t4 i3 (by rw [i2, c1]; exact h)

/-! ## C34: the buffer returns what was appended -/

/-- C34: after any sequence of `append(char)`, `append(bytes, len)` and `append_fill(c, n)`
on a fresh `FormatOutput`, `finish()` returns the appended bytes in order, whether they fit
the 256 bytes of the inline storage (then the capacity and the storage stay as they were)
or not (then the buffer is on the heap); `size()` before is their number and after
`finish()` it is 0. -/
theorem finish_returns_appended (ops : List OutputOp) :
    (output_after ops).finish.1 = ops.flatMap OutputOp.bytes ∧
    (output_after ops).size_ = (ops.flatMap OutputOp.bytes).length ∧
    (output_after ops).finish.2.size_ = 0 ∧
    (output_after ops).finish.2.finish.1 = [] ∧
    (output_after ops).size_ ≤ (output_after ops).capacity_ ∧
    ((ops.flatMap OutputOp.bytes).length ≤ 256 →
      (output_after ops).capacity_ = 256 ∧ (output_after ops).heap_ = false) ∧
    (256 < (ops.flatMap OutputOp.bytes).length → (output_after ops).heap_ = true) ∧
    (output_after [.append_char 'a', .append_char 'b', .append_char 'c']).finish.1 =
      "abc".toList ∧
    (output_after [.append "hello".toList, .append " ".toList,
      .append "world".toList]).finish.1 = "hello world".toList ∧
    (output_after [.append_fill '*' 5]).finish.1 = "*****".toList ∧
    (output_after [.append (List.replicate 500 'x')]).finish.1 = List.replicate 500 'x' ∧
    (output_after [.append_fill 'x' 300]).finish.1 = List.replicate 300 'x' ∧
    (output_after [.append_fill 'x' 300]).capacity_ = 384 ∧
    (output_after [.append_fill 'x' 500]).capacity_ = 500 ∧
    (output_after [.append_fill 'x' 200, .append_fill 'y' 100, .append_char 'z']).finish.1 =
      List.replicate 200 'x' ++ (List.replicate 100 'y' ++ ['z']) ∧
    (output_after [.append_fill 'x' 200, .append_fill 'y' 100, .append_char 'z']).capacity_ =
      384 := by
  obtain ⟨h1, h2, h3, h4, h5⟩ := output_after_fields ops
  have e1 : (output_after [.append_fill 'x' 300]).finish.1 = List.replicate 300 'x' := by
    have e := (output_after_fields [.append_fill 'x' 300]).1
    rw [List.flatMap_singleton] at e
    exact e
  have e0 : (output_after [.append (List.replicate 500 'x')]).finish.1 =
      List.replicate 500 'x' := by
    have e := (output_after_fields [.append (List.replicate 500 'x')]).1
    rw [List.flatMap_singleton] at e
    exact e
  have e2 : (output_after [.append_fill 'x' 200, .append_fill 'y' 100,
      .append_char 'z']).finish.1 =
      List.replicate 200 'x' ++ (List.replicate 100 'y' ++ ['z']) := by
    have e := (output_after_fields [.append_fill 'x' 200, .append_fill 'y' 100,
      .append_char 'z']).1
    rw [List.flatMap_cons, List.flatMap_cons, List.flatMap_singleton] at e
    exact e
  refine ⟨h1, h2, rfl, ?_, h3, h4, h5, by decide, by decide, by decide,
    e0, e1, by decide, by decide, e2, by decide⟩
  show ((output_after ops).data_.take 0) = []
  exact List.take_zero _
/-! ## The sizes of the byte model -/

/-- Without overflow the sizes of the byte model are the sizes the machine computes. -/
theorem FormatOutput.sizes_ensure (o : FormatOutput) (n : Nat)
    (h1 : o.size_ + n < SIZE_RANGE) (h2 : o.capacity_ + o.capacity_ / 2 < SIZE_RANGE) :
    (o.ensure n).sizes = o.sizes.ensure n := by
  unfold FormatOutput.ensure OutputSizes.ensure FormatOutput.sizes
  dsimp only
  rw [Nat.mod_eq_of_lt h1, Nat.mod_eq_of_lt h2]
  split <;> rfl

theorem FormatOutput.sizes_append (o : FormatOutput) (s : List Char)
    (h1 : o.size_ + s.length < SIZE_RANGE) (h2 : o.capacity_ + o.capacity_ / 2 < SIZE_RANGE) :
    (o.append s).sizes = o.sizes.append s.length := by
  unfold FormatOutput.append OutputSizes.append
  split
  · rfl
  · have he := FormatOutput.sizes_ensure o s.length h1 h2
    have hs := FormatOutput.size_ensure o s.length
    unfold FormatOutput.sizes at he ⊢
    dsimp only
    rw [← he]
    dsimp only
    rw [hs, Nat.mod_eq_of_lt h1]

theorem FormatOutput.sizes_append_char (o : FormatOutput) (c : Char)
    (h1 : o.size_ + 1 < SIZE_RANGE) (h2 : o.capacity_ + o.capacity_ / 2 < SIZE_RANGE) :
    (o.append_char c).sizes = o.sizes.append_char := by
  unfold FormatOutput.append_char OutputSizes.append_char
  have he := FormatOutput.sizes_ensure o 1 h1 h2
  have hs := FormatOutput.size_ensure o 1
  unfold FormatOutput.sizes at he ⊢
  dsimp only
  rw [← he]
  dsimp only
  rw [hs, Nat.mod_eq_of_lt h1]

theorem FormatOutput.sizes_append_fill (o : FormatOutput) (c : Char) (n : Nat)
    (h1 : o.size_ + n < SIZE_RANGE) (h2 : o.capacity_ + o.capacity_ / 2 < SIZE_RANGE) :
    (o.append_fill c n).sizes = o.sizes.append_fill n := by
  unfold FormatOutput.append_fill OutputSizes.append_fill
  split
  · rfl
  · have he := FormatOutput.sizes_ensure o n h1 h2
    have hs := FormatOutput.size_ensure o n
    unfold FormatOutput.sizes at he ⊢
    dsimp only
    rw [← he]
    dsimp only
    rw [hs, Nat.mod_eq_of_lt h1]

/-- The private member `ensure` keeps the size and leaves room for the bytes asked for, as
far as `std::size_t` can count them. -/
theorem OutputSizes.ensure_sizes (o : OutputSizes) (n : Nat)
    (hinv : o.size_ ≤ o.capacity_) (hcap : o.capacity_ < SIZE_RANGE) :
    (o.ensure n).size_ = o.size_ ∧
    (o.size_ + n) % SIZE_RANGE ≤ (o.ensure n).capacity_ ∧
    o.size_ ≤ (o.ensure n).capacity_ ∧
    (o.ensure n).capacity_ < SIZE_RANGE := by
  unfold OutputSizes.ensure SIZE_RANGE at *
  dsimp only
  split
  · rename_i h
    exact ⟨rfl, h, hinv, hcap⟩
  · rename_i h
    dsimp only
    split <;> refine ⟨rfl, ?_, ?_, ?_⟩ <;> omega

/-! ## C35: the size stays within the capacity -/

/-- Counterexample to C35: on a fresh buffer, whose size 0 is within the capacity 256,
`shrink(1)` leaves the size 2^64 - 1 and the capacity 256. -/
theorem shrink_wraps_counterexample :
    OutputSizes.init.size_ ≤ OutputSizes.init.capacity_ ∧
    (OutputSizes.init.shrink 1).size_ = 18446744073709551615 ∧
    (OutputSizes.init.shrink 1).capacity_ = 256 ∧
    ¬ (OutputSizes.init.shrink 1).size_ ≤ (OutputSizes.init.shrink 1).capacity_ := by
  decide

/-- C35, as the code has it: the size of a fresh buffer is within its capacity, and from a
buffer whose size is within its capacity every public operation but `shrink` leads to one,
for every argument, the object a move constructs and the object moved from included;
`shrink(n)` does so when `n` is at most the size, then the size goes down by `n`, and for a
larger `n` below 2^64 the size becomes the size plus 2^64 minus `n`, which is within the
capacity only when `n` exceeds the size by 2^64 minus the capacity or more. -/
theorem size_within_capacity (o : OutputSizes) (op : SizeOp)
    (hinv : o.size_ ≤ o.capacity_) (hcap : o.capacity_ < SIZE_RANGE)
    (hop : op.within o.size_ = true) :
    (op.apply o).size_ ≤ (op.apply o).capacity_ ∧
    (op.apply o).capacity_ < SIZE_RANGE ∧
    OutputSizes.init.size_ ≤ OutputSizes.init.capacity_ ∧
    OutputSizes.init.capacity_ < SIZE_RANGE ∧
    (∀ n, n ≤ o.size_ → (o.shrink n).size_ = o.size_ - n) ∧
    (∀ n, o.size_ < n → n < SIZE_RANGE →
      (o.shrink n).size_ = o.size_ + SIZE_RANGE - n ∧
      ((o.shrink n).size_ ≤ (o.shrink n).capacity_ ↔ SIZE_RANGE - o.capacity_ ≤ n - o.size_)) ∧
    (((OutputSizes.init.grow 5).shrink 2).size_ = 3 ∧
      ((OutputSizes.init.grow 5).shrink 2).capacity_ = 256) ∧
    ((OutputSizes.init.grow 300).size_ = 300 ∧ (OutputSizes.init.grow 300).capacity_ = 384 ∧
      (OutputSizes.init.grow 300).heap_ = true) ∧
    ((OutputSizes.init.append 10).reserve 18446744073709551615 =
      { size_ := 10, capacity_ := 256, heap_ := false }) := by
  have hsh1 : ∀ n, n ≤ o.size_ → (o.shrink n).size_ = o.size_ - n := by
    intro n hn
    unfold OutputSizes.shrink SIZE_RANGE
    dsimp only
    unfold SIZE_RANGE at hcap
    omega
  refine ⟨?_, ?_, by decide, by decide, hsh1, ?_, by decide, by decide, by decide⟩
  · cases op with
    | append_char =>
      obtain ⟨e1, e2, _, _⟩ := OutputSizes.ensure_sizes o 1 hinv hcap
      show ((o.ensure 1).size_ + 1) % SIZE_RANGE ≤ (o.ensure 1).capacity_
      rw [e1]; exact e2
    | append len =>
      show (o.append len).size_ ≤ (o.append len).capacity_
      unfold OutputSizes.append
      split
      · exact hinv
      · obtain ⟨e1, e2, _, _⟩ := OutputSizes.ensure_sizes o len hinv hcap
        show ((o.ensure len).size_ + len) % SIZE_RANGE ≤ (o.ensure len).capacity_
        rw [e1]; exact e2
    | append_fill n =>
      show (o.append_fill n).size_ ≤ (o.append_fill n).capacity_
      unfold OutputSizes.append_fill
      split
      · exact hinv
      · obtain ⟨e1, e2, _, _⟩ := OutputSizes.ensure_sizes o n hinv hcap
        show ((o.ensure n).size_ + n) % SIZE_RANGE ≤ (o.ensure n).capacity_
        rw [e1]; exact e2
    | reserve n =>
      obtain ⟨e1, _, e3, _⟩ := OutputSizes.ensure_sizes o n hinv hcap
      show (o.ensure n).size_ ≤ (o.ensure n).capacity_
      rw [e1]; exact e3
    | grow n =>
      obtain ⟨e1, e2, _, _⟩ := OutputSizes.ensure_sizes o n hinv hcap
      show ((o.ensure n).size_ + n) % SIZE_RANGE ≤ (o.ensure n).capacity_
      rw [e1]; exact e2
    | finish => exact Nat.zero_le _
    | move_to => exact hinv
    | move_from => exact Nat.zero_le _
    | shrink n =>
      have hn : n ≤ o.size_ := by simpa [SizeOp.within] using hop
      show (o.shrink n).size_ ≤ o.capacity_
      rw [hsh1 n hn]
      omega
  · cases op with
    | append_char => exact (OutputSizes.ensure_sizes o 1 hinv hcap).2.2.2
    | append len =>
      show (o.append len).capacity_ < SIZE_RANGE
      unfold OutputSizes.append
      split
      · exact hcap
      · exact (OutputSizes.ensure_sizes o len hinv hcap).2.2.2
    | append_fill n =>
      show (o.append_fill n).capacity_ < SIZE_RANGE
      unfold OutputSizes.append_fill
      split
      · exact hcap
      · exact (OutputSizes.ensure_sizes o n hinv hcap).2.2.2
    | reserve n => exact (OutputSizes.ensure_sizes o n hinv hcap).2.2.2
    | grow n => exact (OutputSizes.ensure_sizes o n hinv hcap).2.2.2
    | finish => exact hcap
    | move_to => exact hcap
    | move_from =>
      show VITA_FORMAT_SBO_SIZE < SIZE_RANGE
      decide
    | shrink n => exact hcap
  · intro n h1 h2
    have hs : (o.shrink n).size_ = o.size_ + SIZE_RANGE - n := by
      unfold OutputSizes.shrink SIZE_RANGE
      dsimp only
      unfold SIZE_RANGE at hcap h2
      omega
    refine ⟨hs, ?_⟩
    show (o.shrink n).size_ ≤ o.capacity_ ↔ _
    rw [hs]
    unfold SIZE_RANGE at *
    omega

/-- Witness of C35: `grow(300)` on a fresh buffer. -/
theorem size_within_capacity_witness :
    (OutputSizes.init.grow 300).size_ ≤ (OutputSizes.init.grow 300).capacity_ :=
  (size_within_capacity OutputSizes.init (.grow 300) (by decide) (by decide) (by decide)).1
/-! ## One pass of the loop of `count_placeholders_rt`, by the bytes ahead -/

theorem count_step_escape_open (s r : List Char) (i : Nat) (c : Int)
    (h : s.drop i = '{' :: '{' :: r) : ct.count_step s s.length i c = (i + 2, c) := by
  obtain ⟨h1, h2, h3⟩ := getD_of_drop_eq_cons h
  obtain ⟨h4, h5, _⟩ := getD_of_drop_eq_cons h3
  unfold ct.count_step
  rw [if_pos h2, if_pos ⟨h4, h5⟩]

theorem count_step_escape_close (s r : List Char) (i : Nat) (c : Int)
    (h : s.drop i = '}' :: '}' :: r) : ct.count_step s s.length i c = (i + 2, c) := by
  obtain ⟨h1, h2, h3⟩ := getD_of_drop_eq_cons h
  obtain ⟨h4, h5, _⟩ := getD_of_drop_eq_cons h3
  unfold ct.count_step
  rw [h2, if_neg (by decide), if_pos ⟨rfl, h4, h5⟩]

theorem count_step_lone_close (s rest : List Char) (i : Nat) (c : Int)
    (h : s.drop i = '}' :: rest) (hr : rest.head? ≠ some '}') :
    ct.count_step s s.length i c = (i + 1, c) := by
  obtain ⟨h1, h2, h3⟩ := getD_of_drop_eq_cons h
  unfold ct.count_step
  rw [h2, if_neg (by decide), if_neg]
  rintro ⟨_, hx⟩
  exact not_next_of_head s rest i '}' h3 hr hx

theorem count_step_plain (s rest : List Char) (i : Nat) (c : Int) (x : Char)
    (h : s.drop i = x :: rest) (hx : no_brace x = true) :
    ct.count_step s s.length i c = (i + 1, c) := by
  obtain ⟨h1, h2, h3⟩ := getD_of_drop_eq_cons h
  have hb : x ≠ '{' ∧ x ≠ '}' := by
    simpa [no_brace] using hx
  unfold ct.count_step
  rw [h2, if_neg hb.1, if_neg (fun hc => hb.2 hc.1)]

/-- At a `{` that opens a field the counter goes up and the index moves behind the next
`}`, or to the end when there is none. -/
theorem count_step_field (s rest : List Char) (i : Nat) (c : Int)
    (h : s.drop i = '{' :: rest) (hne : rest.head? ≠ some '{') :
    ct.count_step s s.length i c =
      (if i + 1 + (rest.takeWhile no_close).length < s.length then
          i + 1 + (rest.takeWhile no_close).length + 1
        else i + 1 + (rest.takeWhile no_close).length, c + 1) := by
  obtain ⟨h1, h2, h3⟩ := getD_of_drop_eq_cons h
  have hsk : skip_while s s.length (fun c => c != '}') (s.length - i) i =
      i + 1 + (rest.takeWhile no_close).length := by
    have e := skip_while_eq s no_close (s.length - i) i (le_refl _)
    rw [h, List.takeWhile_cons_of_pos (by decide), List.length_cons] at e
    rw [show (fun c : Char => c != '}') = no_close from rfl, e]
    omega
  unfold ct.count_step
  rw [if_pos h2, if_neg (not_next_of_head s rest i '{' h3 hne)]
  dsimp only
  rw [hsk]

/-! ## The counter along the segments of the runtime scanner -/

theorem count_step_progress (s : List Char) (i : Nat) (c : Int) (h : i < s.length) :
    i < (ct.count_step s s.length i c).1 := by
  unfold ct.count_step
  split
  · split
    · exact Nat.lt_add_of_pos_right (by decide)
    · dsimp only
      have := skip_while_ge s s.length (fun c => c != '}') (s.length - i) i
      split <;> omega
  · split
    · exact Nat.lt_add_of_pos_right (by decide)
    · exact Nat.lt_succ_self _

theorem count_loop_fuel (s : List Char) :
    ∀ n m i c, s.length - i < n → s.length - i < m →
      ct.count_loop s s.length n i c = ct.count_loop s s.length m i c := by
  intro n
  induction n with
  | zero => intro m i c h; omega
  | succ n ih =>
    intro m i c hn hm
    obtain ⟨m, rfl⟩ : ∃ k, m = k + 1 := ⟨m - 1, by omega⟩
    unfold ct.count_loop
    by_cases hi : i < s.length
    · rw [if_pos hi, if_pos hi]
      have hp := count_step_progress s i c hi
      exact ih m _ _ (by omega) (by omega)
    · rw [if_neg hi, if_neg hi]

theorem count_from_eq (s : List Char) (i : Nat) (c : Int) :
    count_from s i c =
      if i < s.length then
        count_from s (ct.count_step s s.length i c).1 (ct.count_step s s.length i c).2
      else some c := by
  unfold count_from
  by_cases hi : i < s.length
  · rw [if_pos hi]
    have hp := count_step_progress s i c hi
    show ct.count_loop s s.length (s.length - i + 1) i c = _
    unfold ct.count_loop
    rw [if_pos hi]
    exact count_loop_fuel s (s.length - i)
      (s.length - (ct.count_step s s.length i c).1 + 1) _ _ (by omega) (by omega)
  · rw [if_neg hi]
    show ct.count_loop s s.length (s.length - i + 1) i c = _
    unfold ct.count_loop
    rw [if_neg hi]

/-- The function returns a count for every template. -/
theorem count_from_total (s : List Char) :
    ∀ n i c, s.length - i < n → ∃ r, ct.count_loop s s.length n i c = some r := by
  intro n
  induction n with
  | zero => intro i c h; omega
  | succ n ih =>
    intro i c hn
    unfold ct.count_loop
    by_cases hi : i < s.length
    · rw [if_pos hi]
      have hp := count_step_progress s i c hi
      exact ih _ _ (by omega)
    · rw [if_neg hi]
      exact ⟨c, rfl⟩

/-- Over a run of plain bytes the counter moves byte by byte. -/
theorem count_from_plain_run (s : List Char) (c : Int) :
    ∀ (l rest : List Char) (i : Nat), (∀ x ∈ l, no_brace x = true) → s.drop i = l ++ rest →
      count_from s i c = count_from s (i + l.length) c := by
  intro l
  induction l with
  | nil => intro rest i _ _; rfl
  | cons x l ih =>
    intro rest i hl h
    obtain ⟨h1, _, h3⟩ := getD_of_drop_eq_cons h
    rw [count_from_eq, if_pos h1,
      count_step_plain s (l ++ rest) i c x h (hl x (List.mem_cons_self _ _))]
    dsimp only
    rw [ih rest (i + 1) (fun y hy => hl y (List.mem_cons_of_mem _ hy)) h3, List.length_cons]
    congr 1
    omega

/-- The counter from the start of a literal is the counter from its end. -/
theorem count_from_literal_end (p : FormatParser) (hinv : p.Inv) (c : Int) :
    count_from p.fmt p.ptr_ c = count_from p.fmt p.literal_end c := by
  have hrun := count_from_plain_run p.fmt c ((p.fmt.drop p.ptr_).takeWhile no_brace)
    ((p.fmt.drop p.ptr_).dropWhile no_brace) p.ptr_
    (fun c hc => (List.mem_takeWhile_imp hc))
    (List.takeWhile_append_dropWhile _ _).symm
  rw [hrun, literal_end_eq p hinv.1]
  split
  · rename_i hc
    obtain ⟨hc1, hc2, hc3⟩ := hc
    have hd := drop_eq_getD_cons hc1
    unfold FormatParser.peek at hc2 hc3
    rw [hc2] at hd
    have hne : (p.fmt.drop (p.ptr_ + ((p.fmt.drop p.ptr_).takeWhile no_brace).length +
        1)).head? ≠ some '}' := by
      intro hx
      rcases hc3 with hc3 | hc3
      · rw [List.drop_eq_nil_of_le hc3] at hx
        cases hx
      · by_cases hlt : p.ptr_ + ((p.fmt.drop p.ptr_).takeWhile no_brace).length + 1 <
            p.fmt.length
        · rw [drop_eq_getD_cons hlt, List.head?_cons] at hx
          exact hc3 (Option.some.inj hx)
        · rw [List.drop_eq_nil_of_le (by omega)] at hx
          cases hx
    rw [count_from_eq p.fmt (p.ptr_ + _), if_pos hc1,
      count_step_lone_close p.fmt _ _ c hd hne]
  · rfl

/-- A call of `next()` that returns no `ERROR` segment leaves the pointer where the counter
goes on, one higher behind a field. -/
theorem count_next (p : FormatParser) (hinv : p.Inv) (hne : p.next.1.type ≠ .ERROR) (c : Int) :
    count_from p.fmt p.ptr_ c =
      count_from p.fmt p.next.2.ptr_ (c + if p.next.1.type = .PLACEHOLDER then 1 else 0) := by
  cases hd : p.fmt.drop p.ptr_ with
  | nil =>
    rw [next_of_nil p hinv hd]
    simp
  | cons x rest =>
    obtain ⟨h1, h2, h3⟩ := getD_of_drop_eq_cons hd
    rw [count_from_eq, if_pos h1]
    by_cases hx : x = '{'
    · subst hx
      by_cases hr : rest.head? = some '{'
      · obtain ⟨r, rfl⟩ : ∃ r, rest = '{' :: r := by
          cases rest with
          | nil => cases hr
          | cons d r => exact ⟨r, by rw [List.head?_cons] at hr; rw [Option.some.inj hr]⟩
        rw [count_step_escape_open p.fmt r p.ptr_ c hd, next_of_escape_open p hinv r hd]
        simp
      · rw [next_of_field p hinv rest hd hr] at hne ⊢
        rw [count_step_field p.fmt rest p.ptr_ c hd hr]
        have hsplit := List.takeWhile_append_dropWhile is_digit_char rest
        have hdig : ∀ c ∈ rest.takeWhile is_digit_char, is_digit_char c = true :=
          fun c hc => List.mem_takeWhile_imp hc
        have hdigc : ∀ c ∈ rest.takeWhile is_digit_char, no_close c = true := by
          intro c hc
          have := hdig c hc
          unfold no_close
          rw [bne_iff_ne]
          intro hx
          rw [hx] at this
          exact absurd this (by decide)
        have hlen : p.fmt.length = p.ptr_ + 1 + rest.length := by
          have := congrArg List.length hd
          rw [List.length_drop, List.length_cons] at this
          omega
        cases hr1 : rest.dropWhile is_digit_char with
        | nil =>
          exfalso
          apply hne
          rw [parse_placeholder_type p hinv rest hd]
          have : field_closed rest = false := by
            unfold field_closed
            rw [hr1]
            rfl
          rw [this]
          rfl
        | cons y t =>
          rw [hr1] at hsplit
          by_cases hy1 : y = '}'
          · subst hy1
            rw [parse_placeholder_of_plain_field p hinv rest t hd hr1]
            have htw : rest.takeWhile no_close = rest.takeWhile is_digit_char := by
              conv_lhs => rw [← hsplit]
              rw [List.takeWhile_append_of_pos hdigc, List.takeWhile_cons_of_neg (by decide),
                List.append_nil]
            have hl : rest.length = (rest.takeWhile is_digit_char).length + 1 + t.length := by
              conv_lhs => rw [← hsplit]
              rw [List.length_append, List.length_cons]
              omega
            rw [htw, if_pos (by omega)]
            simp
          · by_cases hy2 : y = ':'
            · subst hy2
              by_cases hcl : '}' ∈ t
              · obtain ⟨sp, tail, rfl, hs⟩ := split_at_close t hcl
                have hall := no_close_of_not_mem sp hs
                have hdw : (sp ++ '}' :: tail).dropWhile no_close = '}' :: tail := by
                  rw [List.dropWhile_append_of_pos hall,
                    List.dropWhile_cons_of_neg (by decide)]
                have htw2 : (sp ++ '}' :: tail).takeWhile no_close = sp := by
                  rw [List.takeWhile_append_of_pos hall,
                    List.takeWhile_cons_of_neg (by decide), List.append_nil]
                obtain ⟨hty, _, _, hnext⟩ :=
                  parse_placeholder_of_spec_field p hinv rest _ tail hd hr1 hdw
                rw [htw2] at hnext
                have htw : rest.takeWhile no_close =
                    rest.takeWhile is_digit_char ++ ':' :: sp := by
                  conv_lhs => rw [← hsplit]
                  rw [List.takeWhile_append_of_pos hdigc,
                    List.takeWhile_cons_of_pos (by decide), htw2]
                have hl : rest.length =
                    (rest.takeWhile is_digit_char).length + 1 + sp.length + 1 + tail.length := by
                  conv_lhs => rw [← hsplit]
                  simp only [List.length_append, List.length_cons]
                  omega
                rw [hnext, hty, htw, if_pos (by
                  rw [List.length_append, List.length_cons]; omega)]
                simp only [List.length_append, List.length_cons, if_true]
                congr 1
                omega
              · exfalso
                apply hne
                rw [parse_placeholder_type p hinv rest hd]
                have : field_closed rest = false := by
                  unfold field_closed
                  rw [hr1]
                  simp [hcl]
                rw [this]
                rfl
            · exfalso
              apply hne
              rw [parse_placeholder_type p hinv rest hd]
              have : field_closed rest = false := by
                unfold field_closed
                rw [hr1]
                simp [hy1, hy2]
              rw [this]
              rfl
    · by_cases hx2 : x = '}'
      · subst hx2
        by_cases hr : rest.head? = some '}'
        · obtain ⟨r, rfl⟩ : ∃ r, rest = '}' :: r := by
            cases rest with
            | nil => cases hr
            | cons d r => exact ⟨r, by rw [List.head?_cons] at hr; rw [Option.some.inj hr]⟩
          rw [count_step_escape_close p.fmt r p.ptr_ c hd, next_of_escape_close p hinv r hd]
          simp
        · rw [count_step_lone_close p.fmt rest p.ptr_ c hd hr,
            next_of_literal p hinv '}' rest hd (by decide) (fun _ => hr),
            literal_end_of_lone_close p hinv rest hd hr]
          simp
      · have hle := count_from_literal_end p hinv c
        rw [count_from_eq, if_pos h1] at hle
        rw [next_of_literal p hinv x rest hd hx (fun h => absurd h hx2)]
        dsimp only
        rw [if_neg (by decide), add_zero]
        exact hle

/-- On a template without an `ERROR` segment the counter at segment boundary `k` has
counted the fields among the first `k` segments. -/
theorem count_boundaries (t : List Char) (h : ∀ k, (segment_at t k).type ≠ .ERROR) :
    ∀ k, count_from t 0 0 = count_from t (parser_after t k).ptr_
      (((List.range k).filter
        (fun j => decide ((segment_at t j).type = .PLACEHOLDER))).length : Int) := by
  intro k
  induction k with
  | zero => rfl
  | succ k ih =>
    have hn := count_next (parser_after t k) (parser_after_inv t k) (h k)
      (((List.range k).filter
        (fun j => decide ((segment_at t j).type = .PLACEHOLDER))).length : Int)
    rw [parser_after_fmt] at hn
    rw [ih, hn, parser_after_succ, List.range_succ, List.filter_append]
    congr 1
    rw [List.length_append]
    by_cases hp : (segment_at t k).type = .PLACEHOLDER
    · have hp2 : (parser_after t k).next.1.type = .PLACEHOLDER := hp
      rw [if_pos hp2, List.filter_cons_of_pos (by rw [decide_eq_true_eq]; exact hp)]
      simp
    · have hp2 : ¬ (parser_after t k).next.1.type = .PLACEHOLDER := hp
      rw [if_neg hp2, List.filter_cons_of_neg (by rw [decide_eq_true_eq]; exact hp)]
      simp

/-! ## C36: the placeholder count -/

/-- C36: `count_placeholders_rt` returns a count for every template, and for a template
that `FormatParser` scans without an `ERROR` segment the count is the number of
`PLACEHOLDER` segments that `next()` returns; escapes and lone `}` are not counted.  On
`{abc}`, which the scanner rejects, the counter still counts one field. -/
theorem count_placeholders_agrees (t : List Char) :
    (∃ n, ct.count_placeholders_rt t t.length = some n) ∧
    ((∀ k, (segment_at t k).type ≠ .ERROR) →
      ct.count_placeholders_rt t t.length = some (placeholder_count t : Int)) ∧
    ["hello", "\x7b\x7d", "\x7b\x7d \x7b\x7d", "\x7b\x7b\x7d\x7d",
        "\x7b\x7d \x7b\x7b\x7d\x7d \x7b\x7d", "a\x7d b \x7b0:>5\x7d \x7d\x7d\x7d"].map
        (fun x => (ct.count_placeholders_rt x.toList x.toList.length,
          placeholder_count x.toList)) =
      [(some 0, 0), (some 1, 1), (some 2, 2), (some 0, 0), (some 2, 2), (some 1, 1)] ∧
    (ct.count_placeholders_rt "\x7babc\x7d".toList 5 = some 1 ∧
      placeholder_count "\x7babc\x7d".toList = 0 ∧
      (segment_at "\x7babc\x7d".toList 0).type = .ERROR) := by
  refine ⟨count_from_total t _ 0 0 (by omega), ?_, by decide, by decide⟩
  intro h
  have hb := count_boundaries t h (t.length + 1)
  have hend : (parser_after t (t.length + 1)).ptr_ = t.length := by
    rcases parser_after_progress t (t.length + 1) with hp | hp
    · exact hp
    · have := (segment_at_bounds t t.length).2.2.2.1
      omega
  rw [hend, count_from_eq t t.length, if_neg (Nat.lt_irrefl _)] at hb
  exact hb

/-- Witness of C36: the template `{} {{}} {}` has two fields. -/
theorem count_placeholders_agrees_witness :
    ct.count_placeholders_rt "\x7b\x7d \x7b\x7b\x7d\x7d \x7b\x7d".toList 10 =
      some (placeholder_count "\x7b\x7d \x7b\x7b\x7d\x7d \x7b\x7d".toList : Int) :=
  (count_placeholders_agrees "\x7b\x7d \x7b\x7b\x7d\x7d \x7b\x7d".toList).2.1 (by
    intro k
    have hall : ∀ j, j < 7 →
        (segment_at "\x7b\x7d \x7b\x7b\x7d\x7d \x7b\x7d".toList j).type ≠ .ERROR := by decide
    by_cases hk : k < 7
    · exact hall k hk
    · have he : (parser_after "\x7b\x7d \x7b\x7b\x7d\x7d \x7b\x7d".toList 6).end_ ≤
          (parser_after "\x7b\x7d \x7b\x7b\x7d\x7d \x7b\x7d".toList 6).ptr_ := by decide
      have hk2 : k = 6 + (k - 6) := by omega
      unfold segment_at parser_after
      rw [hk2, advance_add]
      have := advance_of_end _ he (k - 6)
      unfold parser_after at this
      rw [this]
      decide)
/-! ## The loop of `format_impl` ends -/

/-- With more fuel than bytes ahead the loop does not run out of fuel. -/
theorem format_loop_result (core : FloatCore) (no_exceptions : Bool) (args : List FormatArg) :
    ∀ n p out, FormatParser.Inv p → p.end_ - p.ptr_ < n →
      format_loop core no_exceptions args n p out ≠ .error .fuel_exhausted := by
  intro n
  induction n with
  | zero => intro p out _ h; omega
  | succ n ih =>
    intro p out hinv hn
    rw [format_loop_succ]
    have hb := next_bounds p hinv
    rcases format_step_cases core no_exceptions args p.fmt p.next.1 with
      ⟨_, h⟩ | ⟨_, _, h⟩ | ⟨hne, _, h⟩
    · rw [h out]
      exact fun hx => (by cases hx)
    · rw [h out]
      exact fun hx => (by cases hx)
    · obtain ⟨o, ho, _⟩ := h out
      rw [ho]
      have hlt := hb.2.2.2.2.2.2 hne
      exact ih p.next.2 o (next_inv p hinv) (by rw [hb.2.1]; omega)

/-! ## C37: scanning makes progress -/

/-- C37: a call of `next()` that returns a segment other than `END` moves the pointer
forward by at least one byte and not past the end; on a template of `n` bytes `END` comes
after at most `n` other segments; and for arguments that are no floating-point values the
loop of `format_impl` ends within `n + 1` passes: it returns a string or throws, and more
fuel does not change the result. -/
theorem scanning_makes_progress (core : FloatCore) (no_exceptions : Bool) (t : List Char)
    (args : List FormatArg) :
    (∀ p : FormatParser, p.Inv → p.next.1.type ≠ .END →
      p.ptr_ < p.next.2.ptr_ ∧ p.next.2.ptr_ ≤ p.end_ ∧ p.next.2.Inv) ∧
    (∀ k, (segment_at t k).type ≠ .END →
      (parser_after t k).ptr_ < (parser_after t (k + 1)).ptr_ ∧
      (parser_after t (k + 1)).ptr_ ≤ t.length) ∧
    (∃ n, n ≤ t.length ∧ (segment_at t n).type = .END ∧
      ∀ k, k < n → (segment_at t k).type ≠ .END) ∧
    ((∀ a ∈ args, a.is_float = false) →
      format_impl core no_exceptions t args ≠ .error .fuel_exhausted ∧
      ((∃ text, format_impl core no_exceptions t args = .ok text) ∨
        format_impl core no_exceptions t args = .error .invalid_format_string) ∧
      ∀ fuel, t.length + 1 ≤ fuel →
        format_loop core no_exceptions args fuel (FormatParser.init t)
          (FormatOutput.init.reserve (t.length + args.length * 16)) =
        format_impl core no_exceptions t args) ∧
    (List.range 6).map (fun k => (parser_after "a\x7b\x7b\x7b0\x7d\x7d\x7d!".toList k).ptr_) =
      [0, 1, 3, 6, 8, 9] ∧
    (List.range 4).map (fun k => ((segment_at "\x7b0:\x7b\x7b".toList k).type,
      (parser_after "\x7b0:\x7b\x7b".toList k).ptr_)) =
      [(.ERROR, 0), (.END, 5), (.END, 5), (.END, 5)] ∧
    format core false "\x7b0:\x7b\x7b".toList [.INT 1] = .error .invalid_format_string ∧
    format core true "\x7b0:\x7b\x7b".toList [.INT 1] = .ok "\x7berror\x7d".toList := by
  have hinit : (FormatParser.init t).Inv := FormatParser.inv_init t
  have hfuel : (FormatParser.init t).end_ - (FormatParser.init t).ptr_ < t.length + 1 := by
    show t.length - 0 < t.length + 1
    omega
  have hres : format_impl core no_exceptions t args ≠ .error .fuel_exhausted :=
    format_loop_result core no_exceptions args _ _ _ hinit hfuel
  refine ⟨?_, ?_, ?_, fun _ => ⟨hres, ?_, ?_⟩, by decide, by decide, rfl, rfl⟩
  · intro p hinv hne
    have hb := next_bounds p hinv
    exact ⟨hb.2.2.2.2.2.2 hne, hb.2.2.2.2.1, next_inv p hinv⟩
  · intro k hne
    obtain ⟨h1, h2, _, h4, _, h6⟩ := segment_at_bounds t k
    exact ⟨by have := h6 hne; omega, h4⟩
  · obtain ⟨n, h1, h2, h3, _⟩ := exists_first_end t
    exact ⟨n, h1, h2, h3⟩
  · cases hr : format_impl core no_exceptions t args with
    | ok text => exact Or.inl ⟨text, rfl⟩
    | error e =>
      cases e with
      | invalid_format_string => exact Or.inr rfl
      | fuel_exhausted => exact absurd hr hres
  · intro fuel hf
    exact format_loop_fuel core no_exceptions args fuel (t.length + 1) _ _ hinit
      (by show t.length - 0 < fuel; omega) hfuel
/-! ## C38: zero padding and the text kinds -/

/-- C38: for a C string, the null C string, a `std::string` and a boolean rendered as
`true` or `false`, `format_arg` appends the same bytes whether the zero-pad flag of the spec
is set or not; `{:05}` pads `x` with four spaces, `{:0}` leaves `test` as it is, and only
the boolean under the type `d` is padded with zeros. -/
theorem zero_pad_text_kinds (core : FloatCore) (no_exceptions : Bool) (out : FormatOutput)
    (arg : FormatArg) (spec : FormatSpec) :
    (zero_pad_free arg spec = true →
      format_arg core out arg { spec with zero_pad := true } =
        format_arg core out arg { spec with zero_pad := false }) ∧
    (zero_pad_free arg spec = true →
      rendered core arg { spec with zero_pad := true } =
        rendered core arg { spec with zero_pad := false }) ∧
    format core no_exceptions "\x7b:05\x7d".toList [.STRING "x".toList] = .ok "x    ".toList ∧
    format core no_exceptions "\x7b:5\x7d".toList [.STRING "x".toList] = .ok "x    ".toList ∧
    format core no_exceptions "\x7b:05\x7d".toList [.CSTRING (some "x".toList)] =
      .ok "x    ".toList ∧
    format core no_exceptions "\x7b:0\x7d".toList [.CSTRING (some "test".toList)] =
      .ok "test".toList ∧
    format core no_exceptions "\x7b:08\x7d".toList [.CSTRING none] = .ok "(null)  ".toList ∧
    format core no_exceptions "\x7b:06\x7d".toList [.BOOL true] = .ok "true  ".toList ∧
    format core no_exceptions "\x7b:>06\x7d".toList [.BOOL false] = .ok " false".toList ∧
    format core no_exceptions "\x7b:03d\x7d".toList [.BOOL true] = .ok "001".toList := by
  have key : ∀ o, zero_pad_free arg spec = true →
      format_arg core o arg { spec with zero_pad := true } =
        format_arg core o arg { spec with zero_pad := false } := by
    intro o h
    cases arg with
    | BOOL v =>
      have ht : spec.type ≠ 'd' := by simpa [zero_pad_free] using h
      unfold format_arg
      simp only [format_arg_switch]
      rw [if_neg ht, if_neg ht]
      rfl
    | CSTRING v => cases v <;> rfl
    | STRING v => rfl
    | _ => cases h
  refine ⟨key out, ?_, ?_, ?_, ?_, ?_, ?_, ?_, ?_, ?_⟩
  · intro h
    unfold rendered
    rw [key _ h]
  all_goals cases no_exceptions <;> rfl
/-! ## The loop of `parse_format_string` -/

namespace ct

theorem flush_literal_fields (st : ParseState) :
    (flush_literal st).num_segments ≤ st.out.num_segments + 1 ∧
    (st.out.segments.length = st.out.num_segments →
      (flush_literal st).segments.length = (flush_literal st).num_segments) := by
  unfold flush_literal push_segment
  split
  · refine ⟨le_refl _, fun h => ?_⟩
    simp only [List.length_append, List.length_singleton, h]
  · exact ⟨Nat.le_succ _, fun h => h⟩

/-- One pass of the loop moves `i` forward and records at most two segments. -/
theorem parse_step_fields (fmt : List Char) (len : Nat) (st : ParseState) :
    st.i < (parse_step fmt len st).i ∧
    (parse_step fmt len st).out.num_segments ≤ st.out.num_segments + 2 ∧
    (st.out.segments.length = st.out.num_segments →
      (parse_step fmt len st).out.segments.length =
        (parse_step fmt len st).out.num_segments) := by
  obtain ⟨f1, f2⟩ := flush_literal_fields st
  have hesc : ∀ kind, st.i < (escape_step kind st).i ∧
      (escape_step kind st).out.num_segments ≤ st.out.num_segments + 2 ∧
      (st.out.segments.length = st.out.num_segments →
        (escape_step kind st).out.segments.length =
          (escape_step kind st).out.num_segments) := by
    intro kind
    unfold escape_step push_segment
    refine ⟨by dsimp only; omega, by dsimp only; omega, fun h => ?_⟩
    dsimp only
    rw [List.length_append, List.length_singleton, f2 h]
  unfold parse_step
  split
  · split
    · exact hesc _
    · unfold field_step push_segment
      dsimp only
      refine ⟨?_, by omega, fun h => ?_⟩
      · have h1 : st.i + 1 ≤ (field_index fmt len (st.i + 1) st.auto_idx).2.1 := by
          unfold field_index
          split
          · exact digits_loop_ge fmt len _ _ _
          · exact le_refl _
        have h2 := skip_while_ge fmt len (fun c => c != '}')
          (len - (field_index fmt len (st.i + 1) st.auto_idx).2.1)
          (field_index fmt len (st.i + 1) st.auto_idx).2.1
        split <;> omega
      · rw [List.length_append, List.length_singleton, f2 h]
  · split
    · exact hesc _
    · exact ⟨Nat.lt_succ_self _, Nat.le_add_right _ _, fun h => h⟩

/-- With more fuel than bytes ahead the loop returns, with at most one segment more than
`MaxSeg`. -/
theorem parse_loop_fields (MaxSeg : Nat) (fmt : List Char) (len : Nat) :
    ∀ fuel st, len - st.i < fuel → st.out.num_segments ≤ MaxSeg + 1 →
      st.out.segments.length = st.out.num_segments →
      ∃ r, parse_loop MaxSeg fmt len fuel st = some r ∧
        r.out.num_segments ≤ MaxSeg + 1 ∧ r.out.segments.length = r.out.num_segments ∧
        (r.out.num_segments < MaxSeg → len ≤ r.i) := by
  intro fuel
  induction fuel with
  | zero => intro st h; omega
  | succ n ih =>
    intro st hf hn hl
    unfold parse_loop
    by_cases hc : st.i < len ∧ st.out.num_segments < MaxSeg
    · rw [if_pos hc]
      obtain ⟨p1, p2, p3⟩ := parse_step_fields fmt len st
      exact ih _ (by omega) (by omega) (p3 hl)
    · rw [if_neg hc]
      exact ⟨st, rfl, hn, hl, fun h => by omega⟩

end ct

/-! ## C39: the segment array of `parse_format_string` -/

/-- C39 fails: with `MaxSeg = 1` the template `a{}` makes `parse_format_string` record two
segments, the literal in `segments[0]` and the field in `segments[1]`, behind the array of
one element, and return `num_segments = 2`; the loop tests `num_segments < MaxSeg` once
a pass and a pass that meets a brace behind a literal records two segments.  The same
happens with `MaxSeg = 2` on `{}a{}` and with `MaxSeg = 16` on fifteen fields, a byte and one
more field.  For every `MaxSeg` and every template the function returns with at most
`MaxSeg + 1` segments recorded, one behind the other from index 0. -/
theorem parse_format_string_overflow :
    (ct.parse_format_string 1 "a\x7b\x7d".toList 3).map
        (fun o => (o.num_segments, o.segments.map (fun d => (d.type, d.start, d.length)))) =
      some (2, [(.LITERAL, 0, 1), (.PLACEHOLDER, 1, 2)]) ∧
    (ct.parse_format_string 2 "\x7b\x7da\x7b\x7d".toList 5).map
        (fun o => (o.num_segments, o.segments.map (fun d => d.type))) =
      some (3, [.PLACEHOLDER, .LITERAL, .PLACEHOLDER]) ∧
    (ct.parse_format_string 1 "a\x7b\x7b".toList 3).map
        (fun o => (o.num_segments, o.segments.map (fun d => d.type))) =
      some (2, [.LITERAL, .ESCAPE_OPEN]) ∧
    (ct.parse_format_string 16
        ("\x7b\x7d\x7b\x7d\x7b\x7d\x7b\x7d\x7b\x7d\x7b\x7d\x7b\x7d\x7b\x7d\x7b\x7d\x7b\x7d" ++
          "\x7b\x7d\x7b\x7d\x7b\x7d\x7b\x7d\x7b\x7da\x7b\x7d").toList 33).map
        (fun o => (o.num_segments, o.segments.length)) =
      some (17, 17) ∧
    (ct.parse_format_string 16 "Hello, \x7b\x7d!".toList 10).map
        (fun o => (o.num_segments, o.num_placeholders,
          o.segments.map (fun d => (d.type, d.start, d.length)))) =
      some (3, 1, [(.LITERAL, 0, 7), (.PLACEHOLDER, 7, 2), (.LITERAL, 9, 1)]) ∧
    (∀ (MaxSeg : Nat) (fmt : List Char),
      ∃ out, ct.parse_format_string MaxSeg fmt fmt.length = some out ∧
        out.num_segments ≤ MaxSeg + 1 ∧ out.segments.length = out.num_segments) := by
  refine ⟨by decide, by decide, by decide, by decide, by decide, ?_⟩
  intro MaxSeg fmt
  obtain ⟨r, h1, h2, h3, _⟩ := ct.parse_loop_fields MaxSeg fmt fmt.length (fmt.length + 1)
    { i := 0, auto_idx := 0, lit_start := 0, in_lit := false,
      out := { fmt := fmt, fmt_len := fmt.length } }
    (by show fmt.length - 0 < fmt.length + 1; omega) (Nat.zero_le _) rfl
  unfold ct.parse_format_string
  rw [h1]
  refine ⟨ct.final_literal MaxSeg r, rfl, ?_, ?_⟩
  · unfold ct.final_literal ct.push_segment
    split
    · dsimp only; omega
    · exact h2
  · unfold ct.final_literal ct.push_segment
    split
    · simp only [List.length_append, List.length_singleton, h3]
    · exact h3
/-! ## The length of the numerals -/

theorem numeral_length_le (b : Nat) (digit : Nat → Char) (v k : Nat) (hb : 1 < b) (hk : 0 < k)
    (h : v < b ^ k) : (numeral b digit v).length ≤ k := by
  unfold numeral
  by_cases hv : v = 0
  · rw [if_pos hv]
    exact hk
  · rw [if_neg hv]
    unfold digit_run
    rw [List.length_map, List.length_reverse, Nat.digits_len b v hb hv]
    exact Nat.log_lt_of_lt_pow hv h

theorem radix_lengths (v : Nat) (hv : v < 18446744073709551616) (upper : Bool) :
    (uint_to_str v).length ≤ 20 ∧ (uint_to_hex v upper).length ≤ 16 ∧
    (uint_to_oct v).length ≤ 22 ∧ (uint_to_bin v).length ≤ 64 := by
  rw [uint_to_str_eq, uint_to_hex_eq, uint_to_oct_eq, uint_to_bin_eq]
  refine ⟨numeral_length_le 10 _ v 20 (by decide) (by decide) (lt_trans hv (by norm_num)),
    numeral_length_le 16 _ v 16 (by decide) (by decide) (lt_of_lt_of_le hv (by norm_num)),
    numeral_length_le 8 _ v 22 (by decide) (by decide) (lt_trans hv (by norm_num)),
    numeral_length_le 2 _ v 64 (by decide) (by decide) (lt_of_lt_of_le hv (by norm_num))⟩

theorem wrapped_lt (bits : Nat) (x : Int) (hb : bits ≤ 64) :
    (x % (2 : Int) ^ bits).toNat < 18446744073709551616 := by
  have hpos : (0 : Int) < (2 : Int) ^ bits := by positivity
  have h1 := Int.emod_lt_of_pos x hpos
  have h0 := Int.emod_nonneg x (ne_of_gt hpos)
  have h2 : (2 : Int) ^ bits ≤ (2 : Int) ^ 64 := pow_le_pow_right₀ (by norm_num) hb
  have h3 : ((2 : Int) ^ 64) = 18446744073709551616 := by norm_num
  omega

theorem signed_buffer_length (bits : Nat) (val : Int) (spec : FormatSpec) (hb : bits ≤ 64) :
    (signed_buffer bits val spec).length ≤ 64 := by
  have hw := fun x => radix_lengths _ (wrapped_lt bits x hb)
  unfold signed_buffer int_to_str
  split_ifs <;> (try simp only [List.length_cons]) <;>
    first
    | exact (hw _ false).2.2.2
    | exact le_trans (hw _ false).2.2.1 (by decide)
    | exact le_trans (Nat.succ_le_succ (hw _ false).2.1) (by decide)
    | exact le_trans (Nat.succ_le_succ (hw _ true).2.1) (by decide)
    | exact le_trans (hw _ false).2.1 (by decide)
    | exact le_trans (hw _ true).2.1 (by decide)
    | exact le_trans (Nat.succ_le_succ (Nat.succ_le_succ (hw _ false).1)) (by decide)
    | exact le_trans (Nat.succ_le_succ (hw _ false).1) (by decide)
    | exact le_trans (hw _ false).1 (by decide)

theorem unsigned_buffer_length (val : Nat) (spec : FormatSpec)
    (hv : val < 18446744073709551616) : (unsigned_buffer val spec).length ≤ 64 := by
  have hw := fun u => radix_lengths val hv u
  unfold unsigned_buffer
  split_ifs <;> (try simp only [List.length_cons]) <;>
    first
    | exact (hw false).2.2.2
    | exact le_trans (hw false).2.2.1 (by decide)
    | exact le_trans (hw false).2.1 (by decide)
    | exact le_trans (hw true).2.1 (by decide)
    | exact le_trans (Nat.succ_le_succ (hw false).1) (by decide)
    | exact le_trans (hw false).1 (by decide)

/-! ## C40: the scratch buffers -/

/-- C40: for every value below 2^64 `uint_to_str` writes at most 20 bytes, `uint_to_hex` at
most 16, `uint_to_oct` at most 22 and `uint_to_bin` at most 64, which fit the temporaries of
24, 20, 24 and 68 bytes, and the largest value reaches each bound; for a bool, a char, an
integer of one of the four kinds or a pointer, with a value of its type, the text that the
switch of `format_arg` leaves in `buffer` has at most 64 bytes under every spec, half of
the 128 bytes of the buffer, and the binary text of the largest 64-bit value has 64. -/
theorem scratch_buffers_suffice (core : FloatCore) (arg : FormatArg) (spec : FormatSpec) :
    (∀ (v : Nat) (upper : Bool), v < 18446744073709551616 →
      (uint_to_str v).length ≤ 20 ∧ (uint_to_hex v upper).length ≤ 16 ∧
      (uint_to_oct v).length ≤ 22 ∧ (uint_to_bin v).length ≤ 64) ∧
    (arg.is_integer_like = true → arg.is_machine_value = true →
      (switch_buffer core arg spec).length ≤ 64) ∧
    (uint_to_str 18446744073709551615).length = 20 ∧
    (uint_to_hex 18446744073709551615 false).length = 16 ∧
    (uint_to_oct 18446744073709551615).length = 22 ∧
    (uint_to_bin 18446744073709551615).length = 64 ∧
    (switch_buffer core (.ULLONG 18446744073709551615) { type := 'b' }).length = 64 ∧
    (switch_buffer core (.LLONG (-9223372036854775808)) { type := 'b' }).length = 64 ∧
    (switch_buffer core (.LLONG (-9223372036854775808)) {}).length = 20 ∧
    (switch_buffer core (.ULLONG 18446744073709551615) { sign := '+' }).length = 21 ∧
    (switch_buffer core (.POINTER 18446744073709551615) {}).length = 18 := by
  refine ⟨fun v upper hv => radix_lengths v hv upper, ?_, by decide, by decide, by decide,
    by decide, ?_, ?_, ?_, ?_, ?_⟩
  rotate_left
  · show (unsigned_buffer 18446744073709551615 { type := 'b' }).length = 64
    decide
  · show (signed_buffer 64 (-9223372036854775808) { type := 'b' }).length = 64
    decide
  · show (signed_buffer 64 (-9223372036854775808) {}).length = 20
    decide
  · show (unsigned_buffer 18446744073709551615 { sign := '+' }).length = 21
    decide
  · show (ptr_to_str 18446744073709551615).length = 18
    decide
  intro hk hm
  cases arg with
  | BOOL v =>
    unfold switch_buffer
    simp only [format_arg_switch]
    split_ifs <;> simp
  | CHAR c =>
    have hw := fun u => radix_lengths (c.toNat % 256) (by omega) u
    have hi := signed_buffer_length 32 ((c.toNat % 256 : Nat) : Int) {} (by decide)
    unfold switch_buffer
    simp only [format_arg_switch]
    split_ifs <;> simp only [List.length_cons, List.length_nil] <;>
      first
      | exact le_trans (hw false).2.1 (by decide)
      | exact le_trans (hw true).2.1 (by decide)
      | exact le_trans (hw false).2.2.1 (by decide)
      | exact (hw false).2.2.2
      | exact hi
      | decide
  | INT v => exact signed_buffer_length 32 v spec (by decide)
  | LLONG v => exact signed_buffer_length 64 v spec (by decide)
  | UINT v =>
    have hv : v ≤ 4294967295 := by simpa [FormatArg.is_machine_value, FormatArg.in_range] using hm
    exact unsigned_buffer_length v spec (by omega)
  | ULLONG v =>
    have hv : v ≤ 18446744073709551615 := by
      simpa [FormatArg.is_machine_value, FormatArg.in_range] using hm
    exact unsigned_buffer_length v spec (by omega)
  | POINTER v =>
    have hv : v < 18446744073709551616 := by simpa [FormatArg.is_machine_value] using hm
    have hw := radix_lengths v hv false
    show (ptr_to_str v).length ≤ 64
    unfold ptr_to_str
    split
    · decide
    · simp only [List.length_cons]
      omega
  | _ => cases hk
/-! ## The texts that fit the array `buffer` -/

/-- Without a floating-point argument the text of the switch has at most 64 bytes. -/
theorem switch_buffer_fits (core : FloatCore) (arg : FormatArg) (spec : FormatSpec)
    (hf : arg.is_float = false) (hm : arg.is_machine_value = true) :
    (switch_buffer core arg spec).length ≤ 64 := by
  cases arg with
  | NONE => exact Nat.zero_le _
  | CUSTOM => exact Nat.zero_le _
  | STRING v => exact Nat.zero_le _
  | CSTRING v => cases v <;> exact Nat.zero_le _
  | DOUBLE v => cases hf
  | LDOUBLE v => cases hf
  | BOOL v =>
    unfold switch_buffer
    simp only [format_arg_switch]
    split_ifs <;> simp
  | CHAR c =>
    have hw := fun u => radix_lengths (c.toNat % 256) (by omega) u
    have hi := signed_buffer_length 32 ((c.toNat % 256 : Nat) : Int) {} (by decide)
    unfold switch_buffer
    simp only [format_arg_switch]
    split_ifs <;> simp only [List.length_cons, List.length_nil] <;>
      first
      | exact le_trans (hw false).2.1 (by decide)
      | exact le_trans (hw true).2.1 (by decide)
      | exact le_trans (hw false).2.2.1 (by decide)
      | exact (hw false).2.2.2
      | exact hi
      | decide
  | INT v => exact signed_buffer_length 32 v spec (by decide)
  | LLONG v => exact signed_buffer_length 64 v spec (by decide)
  | UINT v =>
    have hv : v ≤ 4294967295 := by simpa [FormatArg.is_machine_value, FormatArg.in_range] using hm
    exact unsigned_buffer_length v spec (by omega)
  | ULLONG v =>
    have hv : v ≤ 18446744073709551615 := by
      simpa [FormatArg.is_machine_value, FormatArg.in_range] using hm
    exact unsigned_buffer_length v spec (by omega)
  | POINTER v =>
    have hv : v < 18446744073709551616 := by simpa [FormatArg.is_machine_value] using hm
    have hw := radix_lengths v hv false
    show (ptr_to_str v).length ≤ 64
    unfold ptr_to_str
    split
    · decide
    · simp only [List.length_cons]
      omega

/-- A call without floating-point arguments overruns `buffer` in no field. -/
theorem format_overruns_of_plain (core : FloatCore) (fmt : List Char) (args : List FormatArg)
    (h : ∀ a ∈ args, a.is_float = false ∧ a.is_machine_value = true) :
    format_overruns core fmt args = false := by
  unfold format_overruns
  rw [List.any_eq_false]
  intro k _
  rw [Bool.and_eq_true, decide_eq_true_eq]
  rintro ⟨⟨_, _, hlt⟩, hover⟩
  have hmem : args.getD (segment_at fmt k).placeholder.arg_index.toNat .NONE ∈ args := by
    rw [List.getD_eq_getElem _ _ hlt]
    exact List.getElem_mem _
  have hfit := switch_buffer_fits core _ (segment_at fmt k).placeholder.spec
    (h _ hmem).1 (h _ hmem).2
  unfold buffer_overrun format_arg_buffer_size at hover
  rw [decide_eq_true_eq] at hover
  omega

/-- The text of the zero double under the type `e` with the precision 200 has 206 bytes:
the digit, the point, 200 zeros and the four bytes of the exponent. -/
theorem scientific_zero_length (core : FloatCore) :
    (switch_buffer core (.DOUBLE 0) { precision := 200, type := 'e' }).length = 206 := by
  rfl

/-- The field `.200e` with the zero double overruns `buffer`. -/
theorem scientific_zero_overrun (core : FloatCore) :
    buffer_overrun core (.DOUBLE 0) { precision := 200, type := 'e' } = true := by
  unfold buffer_overrun
  rw [scientific_zero_length]
  decide

/-- A field with an argument whose text does not fit makes the call overrun `buffer`. -/
theorem format_overruns_of_field (core : FloatCore) (fmt : List Char) (args : List FormatArg)
    (k : Nat) (hk : k ≤ fmt.length) (hty : (segment_at fmt k).type = .PLACEHOLDER)
    (h0 : (segment_at fmt k).placeholder.arg_index ≥ 0)
    (hlt : (segment_at fmt k).placeholder.arg_index.toNat < args.length)
    (hover : buffer_overrun core
      (args.getD (segment_at fmt k).placeholder.arg_index.toNat .NONE)
      (segment_at fmt k).placeholder.spec = true) :
    format_overruns core fmt args = true := by
  unfold format_overruns
  rw [List.any_eq_true]
  refine ⟨k, List.mem_range.mpr (by omega), ?_⟩
  rw [Bool.and_eq_true, decide_eq_true_eq]
  exact ⟨⟨hty, h0, hlt⟩, hover⟩
/-! ## The rounding of double arithmetic -/

namespace ieee

end ieee
namespace ieee

end ieee
namespace ieee

end ieee

/-! ## The scaled fraction of the fixed notation -/

namespace ieee

end ieee
namespace ieee

end ieee
namespace ieee

end ieee
namespace ieee

end ieee

/-! ## The parts of the fixed notation -/

namespace ieee

end ieee
namespace ieee

end ieee
namespace ieee

end ieee

/-! ## The `FloatCore` of the double arithmetic -/

namespace ieee

end ieee

/-! ## The double arithmetic on the tests of the repository -/

/-- The tests of `test_format.cpp` on doubles, computed in double arithmetic. -/
theorem ieee_float_tests :
    format (FloatCore.ieee ieee.no_pow id) false "\x7b\x7d".toList [.DOUBLE 0] = .ok "0".toList ∧
    format (FloatCore.ieee ieee.no_pow id) false "\x7b\x7d".toList
      [.DOUBLE 4607182418800017408] = .ok "1".toList ∧
    format (FloatCore.ieee ieee.no_pow id) false "\x7b\x7d".toList
      [.DOUBLE 13830554455654793216] = .ok "-1".toList ∧
    format (FloatCore.ieee ieee.no_pow id) false "\x7b\x7d".toList
      [.DOUBLE 4614256650576692846] = .ok "3.14159".toList ∧
    format (FloatCore.ieee ieee.no_pow id) false "\x7b\x7d".toList
      [.DOUBLE 9223372036854775808] = .ok "-0".toList ∧
    format (FloatCore.ieee ieee.no_pow id) false "\x7b:.2f\x7d".toList
      [.DOUBLE 4614256650576692846] = .ok "3.14".toList ∧
    format (FloatCore.ieee ieee.no_pow id) false "\x7b:.0f\x7d".toList
      [.DOUBLE 4615514078110652826] = .ok "4".toList ∧
    format (FloatCore.ieee ieee.no_pow id) false "\x7b:.4f\x7d".toList
      [.DOUBLE 4607182418800017408] = .ok "1.0000".toList ∧
    format (FloatCore.ieee ieee.no_pow id) false "\x7b:.6f\x7d".toList
      [.DOUBLE 0] = .ok "0.000000".toList ∧
    format (FloatCore.ieee ieee.no_pow id) false "\x7b:.2f\x7d".toList
      [.DOUBLE 4562254508917369340] = .ok "0.00".toList ∧
    format (FloatCore.ieee ieee.no_pow id) false "\x7b:.4f\x7d".toList
      [.DOUBLE 4547007122018943789] = .ok "0.0001".toList ∧
    format (FloatCore.ieee ieee.no_pow id) false "\x7b:.2f\x7d".toList
      [.DOUBLE 4696837146684686336] = .ok "1000000.00".toList ∧
    format (FloatCore.ieee ieee.no_pow id) false "$\x7b:.2f\x7d".toList
      [.DOUBLE 4653144498533426004] = .ok "$1234.57".toList ∧
    format (FloatCore.ieee ieee.no_pow id) false
      "(\x7b:.2f\x7d, \x7b:.2f\x7d, \x7b:.2f\x7d)".toList
      [.DOUBLE 4609434218613702656, .DOUBLE 4612811918334230528,
        .DOUBLE 4615063718147915776] = .ok "(1.50, 2.50, 3.50)".toList ∧
    format (FloatCore.ieee ieee.no_pow id) false "\x7b:.0f\x7d".toList
      [.DOUBLE 4603579539098121011] = .ok "1".toList ∧
    format (FloatCore.ieee ieee.no_pow id) false "\x7b:.0f\x7d".toList
      [.DOUBLE 4611235658464650854] = .ok "2".toList ∧
    format (FloatCore.ieee ieee.no_pow id) false "\x7b:.10f\x7d".toList
      [.DOUBLE 4457293557087583675] = .ok "0.0000000001".toList ∧
    format (FloatCore.ieee ieee.no_pow id) false "\x7b:.2e\x7d".toList
      [.DOUBLE 4668012349850910720] = .ok "1.23e+04".toList ∧
    format (FloatCore.ieee ieee.no_pow id) false "\x7b:.2E\x7d".toList
      [.DOUBLE 4668012349850910720] = .ok "1.23E+04".toList ∧
    format (FloatCore.ieee ieee.no_pow id) false "\x7b:.2e\x7d".toList
      [.DOUBLE 4548686525128629352] = .ok "1.23e-04".toList := by
  decide!


/-! ## C4: the templates on which `format` fails -/

/-- C5: for a template that scans without an `ERROR` segment and arguments that are no
floating-point values, `format` succeeds, no field overruns the 128 bytes of `buffer`, and
the result is the texts of the segments in order; a field whose index is not smaller than
the number of arguments gives the three bytes `{?}` there, a field with an argument gives
its rendering, a literal its bytes and an escape its brace.  So `{5}` with three arguments
gives `{?}` and `{} {} {}` with the arguments 1 and 2 gives `1 2 {?}`.  With a
floating-point argument the call need not succeed: `{:.200e} {}` scans without an `ERROR`,
and with the zero double its first field writes 206 bytes to `buffer`. -/
theorem format_missing_argument (core : FloatCore) (no_exceptions : Bool) (fmt : List Char)
    (args : List FormatArg) (hok : ∀ k, (segment_at fmt k).type ≠ .ERROR) :
    ((∀ a ∈ args, a.is_float = false ∧ a.is_machine_value = true) →
      format core no_exceptions fmt args =
        .ok ((List.range (fmt.length + 1)).flatMap
          (fun k => segment_text core no_exceptions args fmt (segment_at fmt k))) ∧
      format_overruns core fmt args = false) ∧
    (∀ seg : ParseSegment, seg.type = .PLACEHOLDER →
      (args.length : Int) ≤ seg.placeholder.arg_index →
      segment_text core no_exceptions args fmt seg = ['{', '?', '}']) ∧
    (∀ seg : ParseSegment, seg.type = .PLACEHOLDER →
      0 ≤ seg.placeholder.arg_index → seg.placeholder.arg_index < (args.length : Int) →
      segment_text core no_exceptions args fmt seg =
        rendered core (args.getD seg.placeholder.arg_index.toNat .NONE) seg.placeholder.spec) ∧
    (∀ seg : ParseSegment, seg.type = .LITERAL →
      segment_text core no_exceptions args fmt seg =
        (fmt.drop seg.begin_).take (seg.end_ - seg.begin_)) ∧
    (∀ seg : ParseSegment, seg.type = .ESCAPE_OPEN →
      segment_text core no_exceptions args fmt seg = ['{']) ∧
    (∀ seg : ParseSegment, seg.type = .ESCAPE_CLOSE →
      segment_text core no_exceptions args fmt seg = ['}']) ∧
    (∀ seg : ParseSegment, seg.type = .END →
      segment_text core no_exceptions args fmt seg = []) ∧
    format core no_exceptions "\x7b5\x7d".toList [.INT 1, .INT 2, .INT 3] =
      .ok "\x7b?\x7d".toList ∧
    format core no_exceptions "\x7b\x7d \x7b\x7d \x7b\x7d".toList [.INT 1, .INT 2] =
      .ok "1 2 \x7b?\x7d".toList ∧
    (∀ k, (segment_at "\x7b:.200e\x7d \x7b\x7d".toList k).type ≠ .ERROR) ∧
    (segment_at "\x7b:.200e\x7d \x7b\x7d".toList 0).placeholder.spec =
      { precision := 200, type := 'e' } ∧
    (switch_buffer core (.DOUBLE 0) { precision := 200, type := 'e' }).length = 206 ∧
    format_overruns core "\x7b:.200e\x7d \x7b\x7d".toList [.DOUBLE 0] = true := by
  have hspec : (segment_at "\x7b:.200e\x7d \x7b\x7d".toList 0).placeholder.spec =
      { precision := 200, type := 'e' } := by decide
  refine ⟨fun hargs => ⟨format_ok core no_exceptions fmt args (fun k hk => absurd hk (hok k)),
      format_overruns_of_plain core fmt args hargs⟩,
    ?_, ?_, ?_, ?_, ?_, ?_, ?_, ?_,
    forall_boundary "\x7b:.200e\x7d \x7b\x7d".toList 3
      (fun p => p.next.1.type ≠ .ERROR) (by decide) (by decide),
    hspec, scientific_zero_length core,
    format_overruns_of_field _ _ _ 0 (by decide) (by decide) (by decide) (by decide)
      (by rw [hspec]; exact scientific_zero_overrun core)⟩
  · intro seg hty hidx
    unfold segment_text format_step
    rw [hty]
    dsimp only
    rw [if_neg (by omega)]
    rfl
  · intro seg hty h0 hidx
    unfold segment_text format_step
    rw [hty]
    dsimp only
    rw [if_pos ⟨h0, by omega⟩]
    rfl
  · intro seg hty
    unfold segment_text format_step
    rw [hty]
    show (FormatOutput.init.append ((fmt.drop seg.begin_).take (seg.end_ - seg.begin_))).bytes = _
    rw [FormatOutput.bytes_append, FormatOutput.bytes_init, List.nil_append]
  · intro seg hty
    unfold segment_text format_step
    rw [hty]
    rfl
  · intro seg hty
    unfold segment_text format_step
    rw [hty]
    rfl
  · intro seg hty
    exact segment_text_of_end core no_exceptions args fmt seg hty
  · cases no_exceptions <;> rfl
  · cases no_exceptions <;> rfl

/-- Witness of C5 -/
theorem format_missing_argument_witness :
    (format FloatCore.blank false "a\x7b1\x7d\x7b\x7b\x7b7\x7d".toList [.INT 1, .INT 2] =
      .ok ((List.range ("a\x7b1\x7d\x7b\x7b\x7b7\x7d".toList.length + 1)).flatMap
        (fun k => segment_text FloatCore.blank false [.INT 1, .INT 2]
          "a\x7b1\x7d\x7b\x7b\x7b7\x7d".toList
          (segment_at "a\x7b1\x7d\x7b\x7b\x7b7\x7d".toList k))) ∧
      format_overruns FloatCore.blank "a\x7b1\x7d\x7b\x7b\x7b7\x7d".toList
        [.INT 1, .INT 2] = false) ∧
    format FloatCore.blank false "a\x7b1\x7d\x7b\x7b\x7b7\x7d".toList [.INT 1, .INT 2] =
      .ok "a2\x7b\x7b?\x7d".toList :=
  ⟨(format_missing_argument FloatCore.blank false "a\x7b1\x7d\x7b\x7b\x7b7\x7d".toList
      [.INT 1, .INT 2]
      (forall_boundary "a\x7b1\x7d\x7b\x7b\x7b7\x7d".toList 4
        (fun p => p.next.1.type ≠ .ERROR) (by decide) (by decide))).1 (by decide),
    by decide⟩

/-! ## C26: the validator is sound for the runtime -/

/-- C26: for a template on which `validate` returns 0, no call of `next()` returns an
`ERROR` segment, and for arguments that are no floating-point values `format` returns a
string and no field overruns the 128 bytes of `buffer`; so a template on which some
segment is an `ERROR`, or on which `format` fails, gets a code other than 0, as `{`, `{0`,
`{:d` and `{abc}` do.  With a floating-point argument a validated template need not
format: `validate` returns 0 on `{:.200e}`, and with the zero double the field writes 206
bytes to `buffer`. -/
theorem validate_sound (core : FloatCore) (no_exceptions : Bool) (t : List Char)
    (args : List FormatArg) :
    (strsyn.validate t = some 0 →
      (∀ k, (segment_at t k).type ≠ .ERROR) ∧
      ((∀ a ∈ args, a.is_float = false ∧ a.is_machine_value = true) →
        format core no_exceptions t args =
          .ok ((List.range (t.length + 1)).flatMap
            (fun k => segment_text core no_exceptions args t (segment_at t k))) ∧
        format_overruns core t args = false)) ∧
    ((∃ k, (segment_at t k).type = .ERROR) →
      ∃ c, strsyn.validate t = some c ∧ c ≠ 0) ∧
    (∀ e, format core no_exceptions t args = .error e →
      ∃ c, strsyn.validate t = some c ∧ c ≠ 0) ∧
    (∃ c, strsyn.validate t = some c) ∧
    strsyn.validate "\x7b".toList = some 1 ∧
    strsyn.validate "\x7b0".toList = some 1 ∧
    strsyn.validate "\x7b:d".toList = some 3 ∧
    strsyn.validate "\x7babc\x7d".toList = some 2 ∧
    strsyn.validate "a \x7b\x7b \x7b\x7d b \x7b0:>5\x7d \x7d\x7d \x7d".toList = some 0 ∧
    strsyn.validate "\x7b:.200e\x7d".toList = some 0 ∧
    (segment_at "\x7b:.200e\x7d".toList 0).placeholder.spec =
      { precision := 200, type := 'e' } ∧
    (switch_buffer core (.DOUBLE 0) { precision := 200, type := 'e' }).length = 206 ∧
    format_overruns core "\x7b:.200e\x7d".toList [.DOUBLE 0] = true := by
  have hfmt := fun (herr : ∀ k, (segment_at t k).type ≠ .ERROR) =>
    format_ok core no_exceptions t args (fun k hk => absurd hk (herr k))
  have hok : strsyn.validate t = some 0 → ∀ k, (segment_at t k).type ≠ .ERROR :=
    fun h k => (validate_boundaries t h k).2
  have hspec : (segment_at "\x7b:.200e\x7d".toList 0).placeholder.spec =
      { precision := 200, type := 'e' } := by decide
  obtain ⟨c, hc⟩ := validate_total t
  refine ⟨fun h => ⟨hok h, fun hargs => ⟨hfmt (hok h), format_overruns_of_plain core t args hargs⟩⟩,
    ?_, ?_, ⟨c, hc⟩, by decide, by decide, by decide, by decide, by decide, by decide,
    hspec, scientific_zero_length core,
    format_overruns_of_field _ _ _ 0 (by decide) (by decide) (by decide) (by decide)
      (by rw [hspec]; exact scientific_zero_overrun core)⟩
  · rintro ⟨k, hk⟩
    refine ⟨c, hc, ?_⟩
    intro h0
    rw [h0] at hc
    exact hok hc k hk
  · intro e he
    refine ⟨c, hc, ?_⟩
    intro h0
    rw [h0] at hc
    rw [hfmt (hok hc)] at he
    cases he

/-! ## C28: leftover spec bytes at runtime -/

/-- Counterexample to C28: in the field `:d5` the spec bytes `d5` are not consumed by
`parse_format_spec`, which stops after `d`, and `next()` returns the field as a
`PLACEHOLDER` of 5 bytes with the type `d`; `format` renders 42 under it as `42`. -/
theorem leftover_spec_counterexample :
    (parse_format_spec "d5".toList {}).1 = 1 ∧ "d5".toList.length = 2 ∧
    segment_at "\x7b:d5\x7d".toList 0 =
      { type := .PLACEHOLDER, begin_ := 0, end_ := 5,
        placeholder := { arg_index := 0, spec := { type := 'd' }, spec_begin := some 2,
                         spec_end := some 4 } } ∧
    format FloatCore.blank false "\x7b:d5\x7d".toList [.INT 42] = .ok "42".toList := by
  decide

/-- C28, as the code has it: a leftover spec byte does not invalidate a field at
runtime.  For a field `{`, digits, `:`, spec bytes `s` without `}`, `}` at a segment
boundary, `next()` returns a `PLACEHOLDER` segment over the whole field whose spec is what
`parse_format_spec` read from `s`, whether or not it consumed all of `s`; the text of the
field is the rendering of its argument under that spec, and with arguments that are no
floating-point values `format` returns the texts of the segments, in any template without
an `ERROR` segment and in the template of the one field `{:s}`, inside the 128 bytes of
`buffer`. -/
theorem next_ignores_leftover_spec (core : FloatCore) (no_exceptions : Bool) (fmt : List Char)
    (k : Nat) (digits s tail : List Char) (args : List FormatArg)
    (hd : ∀ c ∈ digits, is_digit_char c = true) (hs : '}' ∉ s)
    (h : fmt.drop (parser_after fmt k).ptr_ = '{' :: (digits ++ ':' :: (s ++ '}' :: tail))) :
    (segment_at fmt k).type = .PLACEHOLDER ∧
    (segment_at fmt k).placeholder.spec = (parse_format_spec s {}).2 ∧
    (segment_at fmt k).end_ = (segment_at fmt k).begin_ + (digits.length + s.length + 3) ∧
    (0 ≤ (segment_at fmt k).placeholder.arg_index →
      (segment_at fmt k).placeholder.arg_index < (args.length : Int) →
      segment_text core no_exceptions args fmt (segment_at fmt k) =
        rendered core (args.getD (segment_at fmt k).placeholder.arg_index.toNat .NONE)
          (parse_format_spec s {}).2) ∧
    ((∀ j, (segment_at fmt j).type ≠ .ERROR) →
      (∀ a ∈ args, a.is_float = false ∧ a.is_machine_value = true) →
      format core no_exceptions fmt args =
        .ok ((List.range (fmt.length + 1)).flatMap
          (fun j => segment_text core no_exceptions args fmt (segment_at fmt j))) ∧
      format_overruns core fmt args = false) ∧
    (∀ arg : FormatArg, arg.is_float = false → arg.is_machine_value = true →
      format core no_exceptions ('{' :: ':' :: (s ++ ['}'])) [arg] =
        .ok (rendered core arg (parse_format_spec s {}).2) ∧
      format_overruns core ('{' :: ':' :: (s ++ ['}'])) [arg] = false) := by
  have hinv := parser_after_inv fmt k
  have h2 : (parser_after fmt k).fmt.drop (parser_after fmt k).ptr_ =
      '{' :: (digits ++ ':' :: (s ++ '}' :: tail)) := by
    rw [parser_after_fmt]; exact h
  obtain ⟨h1, h3, h4, h5, _⟩ := next_of_spec_field (parser_after fmt k) hinv digits s tail hd hs h2
  refine ⟨h1, h3, ?_, ?_, ?_, ?_⟩
  · unfold segment_at
    rw [h5, h4]
    omega
  · intro h0 hlt
    have h1k : (segment_at fmt k).type = .PLACEHOLDER := h1
    have h3k : (segment_at fmt k).placeholder.spec = (parse_format_spec s {}).2 := h3
    unfold segment_text format_step
    rw [h1k]
    dsimp only
    rw [if_pos ⟨h0, by omega⟩, h3k]
    rfl
  · intro herr hargs
    exact ⟨format_ok core no_exceptions fmt args (fun j hj => absurd hj (herr j)),
      format_overruns_of_plain core fmt args hargs⟩
  · intro arg hf hm
    refine ⟨format_single_field core no_exceptions s arg hs,
      format_overruns_of_plain core _ _ (fun a ha => ?_)⟩
    rw [List.mem_singleton] at ha
    rw [ha]
    exact ⟨hf, hm⟩

/-- Witness of C28: the field `:d5`. -/
theorem next_ignores_leftover_spec_witness :
    (segment_at "\x7b:d5\x7d".toList 0).type = .PLACEHOLDER ∧
    (segment_at "\x7b:d5\x7d".toList 0).placeholder.spec =
      (parse_format_spec "d5".toList {}).2 ∧
    segment_text FloatCore.blank false [.INT 42] "\x7b:d5\x7d".toList
        (segment_at "\x7b:d5\x7d".toList 0) = "42".toList :=
  have h := next_ignores_leftover_spec FloatCore.blank false "\x7b:d5\x7d".toList 0 []
    "d5".toList [] [.INT 42] (fun _ hc => nomatch hc) (by decide) rfl
  ⟨h.1, h.2.1, (h.2.2.2.1 (by decide) (by decide)).trans (by decide)⟩

/-! ## C32: the runtime spec parser is lenient -/

/-- C32: `parse_format_spec` stops inside the spec at the first byte it cannot consume.
The bytes before the stop are a spec of their own that the parser consumes whole, with the
same values; when the parser cannot go on behind `pre` with the byte `c` (and `c` is not a
first byte that an alignment byte behind it would turn into a fill), it stops at `c` in
every spec that starts with `pre` and `c`.  The type stays unset when no consumed byte is a
type letter.  The field is a `PLACEHOLDER` all the same, and `format` renders an argument
that is no floating-point value under the values read, inside the 128 bytes of `buffer`:
`{:5!}` with 7 gives `7` and four spaces.  With a floating-point argument the call need
not succeed: in `.200e!` the parser stops at `!` with the precision 200 and the type `e`,
and with the zero double the field writes 206 bytes to `buffer`. -/
theorem parse_format_spec_lenient (core : FloatCore) (no_exceptions : Bool) (s : List Char)
    (arg : FormatArg) :
    (parse_format_spec s {}).1 ≤ s.length ∧
    parse_format_spec (s.take (parse_format_spec s {}).1) {} = parse_format_spec s {} ∧
    (∀ pre c rest, s = pre ++ c :: rest →
      (parse_format_spec (pre ++ [c]) {}).1 = pre.length →
      (pre = [] → ∀ d, rest.head? = some d → is_align_char d = false) →
      parse_format_spec pre {} = (pre.length, (parse_format_spec s {}).2) ∧
      (parse_format_spec s {}).1 = pre.length ∧
      s.getD (parse_format_spec s {}).1 NUL = c) ∧
    ((∀ c ∈ s.take (parse_format_spec s {}).1, is_type_char c = false) →
      (parse_format_spec s {}).2.type = NUL) ∧
    ('}' ∉ s →
      (segment_at (field_template s) 0).type = .PLACEHOLDER ∧
      (segment_at (field_template s) 0).placeholder.spec = (parse_format_spec s {}).2 ∧
      (segment_at (field_template s) 0).end_ = (field_template s).length ∧
      (arg.is_float = false → arg.is_machine_value = true →
        format core no_exceptions (field_template s) [arg] =
          .ok (rendered core arg (parse_format_spec s {}).2) ∧
        format_overruns core (field_template s) [arg] = false)) ∧
    parse_format_spec "5!".toList {} = (1, { width := 5 }) ∧
    parse_format_spec "+08.3?f".toList {} =
      (5, { sign := '+', zero_pad := true, width := 8, precision := 3 }) ∧
    parse_format_spec "*<4d9".toList {} =
      (4, { fill := '*', align := '<', width := 4, type := 'd' }) ∧
    parse_format_spec "!5".toList {} = (0, {}) ∧
    (segment_at "\x7b:5!\x7d".toList 0).type = .PLACEHOLDER ∧
    format core no_exceptions "\x7b:5!\x7d".toList [.INT 7] = .ok "7    ".toList ∧
    format core no_exceptions "\x7b:>6.2?f\x7d".toList [.STRING "abcd".toList] =
      .ok "    ab".toList ∧
    parse_format_spec ".200e!".toList {} = (5, { precision := 200, type := 'e' }) ∧
    (segment_at (field_template ".200e!".toList) 0).type = .PLACEHOLDER ∧
    (switch_buffer core (.DOUBLE 0) { precision := 200, type := 'e' }).length = 206 ∧
    format_overruns core (field_template ".200e!".toList) [.DOUBLE 0] = true := by
  have hspec : (segment_at (field_template ".200e!".toList) 0).placeholder.spec =
      { precision := 200, type := 'e' } := by decide
  refine ⟨parse_format_spec_le s {}, parse_format_spec_take s {} _ (le_refl _), ?_, ?_, ?_,
    by decide, by decide, by decide, by decide, by decide, ?_, ?_, by decide, by decide,
    scientific_zero_length core,
    format_overruns_of_field _ _ _ 0 (by decide) (by decide) (by decide) (by decide)
      (by rw [hspec]; exact scientific_zero_overrun core)⟩
  · intro pre c rest hs hstop hfill
    have hlen : (pre ++ [c]).length = pre.length + 1 := by simp
    have hext : parse_format_spec ((pre ++ [c]) ++ rest) {} =
        parse_format_spec (pre ++ [c]) {} := by
      apply parse_format_spec_append
      · rw [hstop, hlen]; exact Nat.lt_succ_self _
      · cases pre with
        | nil => exact Or.inr (hfill rfl)
        | cons a l => left; simp
    have hs2 : s = (pre ++ [c]) ++ rest := by rw [hs]; simp
    have htk := parse_format_spec_take (pre ++ [c]) {} pre.length (le_of_eq hstop)
    rw [List.take_left] at htk
    rw [hs2, hext]
    refine ⟨?_, hstop, ?_⟩
    · rw [htk, ← hstop]
    · rw [hstop, List.append_assoc]
      exact getD_append_cons pre rest c
  · intro hty
    rw [parse_format_spec_chain] at hty ⊢
    have hhead := spec_head_type s (0, {})
    generalize spec_precision s (spec_width s (spec_zero_pad s (spec_alt_form s
      (spec_sign s (spec_align s (spec_fill_align s (0, {}))))))) = st at hty hhead ⊢
    unfold spec_type at hty ⊢
    by_cases hc : st.1 < s.length ∧ is_type_char (s.getD st.1 NUL) = true
    · rw [if_pos hc] at hty
      dsimp only at hty
      exfalso
      have hm : s.getD st.1 NUL ∈ s.take (st.1 + 1) := by
        rw [← getD_take_lt s _ _ (Nat.lt_succ_self _)]
        apply getD_mem_of_lt
        rw [List.length_take]
        omega
      rw [hty _ hm] at hc
      exact absurd hc.2 (by decide)
    · rw [if_neg hc]
      exact hhead
  · intro hs
    have h0 : (parser_after (field_template s) 0).fmt.drop
        (parser_after (field_template s) 0).ptr_ = '{' :: ([] ++ ':' :: (s ++ '}' :: [])) := rfl
    obtain ⟨h1, h2, _, h4, _⟩ := next_of_spec_field (parser_after (field_template s) 0)
      (parser_after_inv _ 0) [] s [] (fun _ hc => nomatch hc) hs h0
    refine ⟨h1, h2, ?_, fun hf hm => ⟨format_single_field core no_exceptions s arg hs,
      format_overruns_of_plain core _ _ (fun a ha => by
        rw [List.mem_singleton] at ha
        rw [ha]
        exact ⟨hf, hm⟩)⟩⟩
    unfold segment_at
    rw [h4]
    show 0 + 1 + 0 + 1 + s.length + 1 = (field_template s).length
    unfold field_template
    simp
    omega
  all_goals cases no_exceptions <;> rfl

/-! ## C24: the fixed notation -/

end detail
end Vita
